import Mathlib

/-!
Red-black tree (`rbtree.c`, `rbtree.h`): a shallow embedding

Nodes live in a heap indexed by addresses (`Nat`); a pointer is an `Option Nat`
(`none` is `NULL`).  The packed word `rb_parent_color` is kept as its two
components, the parent pointer and the colour bit.  Loops take a fuel argument;
dereferencing `NULL` is a fault.
-/

namespace Rbtree

/-! ## Data model (rbtree.h) -/

/-- Colour bit of a node: `RB_RED` is 0 and `RB_BLACK` is 1 in the header. -/
inductive Color
  | RB_RED
  | RB_BLACK
deriving DecidableEq, Repr

open Color

/-- The record `struct rb_node`; `rb_parent_color` is split in parent and colour. -/
structure rb_node where
  rb_parent : Option Nat
  rb_color : Color
  rb_right : Option Nat
  rb_left : Option Nat
deriving DecidableEq, Repr

/-- Memory: the node records by address, and the field `root->rb_node`. -/
structure Mem where
  heap : Nat → rb_node
  root : Option Nat

/-- Ways in which a run of the embedded code can fail to produce a result. -/
inductive Fault
  | null_deref
  | out_of_fuel
  | out_of_bounds
deriving DecidableEq, Repr

/-- Dereference of a pointer: `NULL` faults. -/
def deref : Option Nat → Except Fault Nat
  | some a => .ok a
  | none => .error .null_deref

/-- The macro `rb_parent(r)`. -/
def rb_parent (m : Mem) (r : Nat) : Option Nat := (m.heap r).rb_parent

/-- The macro `rb_color(r)`. -/
def rb_color (m : Mem) (r : Nat) : Color := (m.heap r).rb_color

/-- The macro `rb_is_red(r)`. -/
def rb_is_red (m : Mem) (r : Nat) : Bool := decide (rb_color m r = RB_RED)

/-- The macro `rb_is_black(r)`. -/
def rb_is_black (m : Mem) (r : Nat) : Bool := decide (rb_color m r = RB_BLACK)

/-- Store a record at an address. -/
def Mem.write (m : Mem) (a : Nat) (n : rb_node) : Mem :=
  { m with heap := Function.update m.heap a n }

/-- The inline function `rb_set_parent(rb, p)`. -/
def rb_set_parent (rb : Nat) (p : Option Nat) (m : Mem) : Mem :=
  m.write rb { m.heap rb with rb_parent := p }

/-- The inline function `rb_set_color(rb, color)`. -/
def rb_set_color (rb : Nat) (c : Color) (m : Mem) : Mem :=
  m.write rb { m.heap rb with rb_color := c }

/-- The macro `rb_set_red(r)`. -/
def rb_set_red (r : Nat) (m : Mem) : Mem := rb_set_color r RB_RED m

/-- The macro `rb_set_black(r)`. -/
def rb_set_black (r : Nat) (m : Mem) : Mem := rb_set_color r RB_BLACK m

/-- The assignment `a->rb_left = v`. -/
def set_left (a : Nat) (v : Option Nat) (m : Mem) : Mem :=
  m.write a { m.heap a with rb_left := v }

/-- The assignment `a->rb_right = v`. -/
def set_right (a : Nat) (v : Option Nat) (m : Mem) : Mem :=
  m.write a { m.heap a with rb_right := v }

/-- The assignment `root->rb_node = v`. -/
def set_root (v : Option Nat) (m : Mem) : Mem := { m with root := v }

/-- The inline function `rb_init_node`: clears the node and points its parent at itself. -/
def rb_init_node (rb : Nat) (m : Mem) : Mem :=
  rb_set_parent rb (some rb) (m.write rb ⟨none, RB_RED, none, none⟩)

/-- The inline function `rb_link_node(node, parent, rb_link)`; the slot `rb_link`
is given as the parent and the side (`true` for `rb_left`), or the root slot. -/
def rb_link_node (node : Nat) (parent : Option Nat) (left : Bool) (m : Mem) : Mem :=
  let m := m.write node ⟨parent, RB_RED, none, none⟩
  match parent with
  | none => set_root (some node) m
  | some p => if left then set_left p (some node) m else set_right p (some node) m

/-- The test `p && rb_is_red(p)`. -/
def ptr_red (m : Mem) (p : Option Nat) : Bool :=
  match p with
  | none => false
  | some a => rb_is_red m a

/-- The test `!p || rb_is_black(p)`. -/
def null_or_black (m : Mem) (p : Option Nat) : Bool :=
  match p with
  | none => true
  | some a => rb_is_black m a

/-! ## Rotations (rbtree.c 14-58) -/

/-- The function `__rb_rotate_left`. -/
def __rb_rotate_left (node : Nat) (m : Mem) : Except Fault Mem := do
  let right ← deref (m.heap node).rb_right
  let parent := rb_parent m node
  let m := set_right node (m.heap right).rb_left m
  let m := match (m.heap node).rb_right with
    | some _ => (match (m.heap right).rb_left with
        | some rl => rb_set_parent rl (some node) m
        | none => m)
    | none => m
  let m := set_left right (some node) m
  let m := rb_set_parent right parent m
  let m := match parent with
    | some p =>
      if some node = (m.heap p).rb_left then set_left p (some right) m
      else set_right p (some right) m
    | none => set_root (some right) m
  pure (rb_set_parent node (some right) m)

/-- The function `__rb_rotate_right`. -/
def __rb_rotate_right (node : Nat) (m : Mem) : Except Fault Mem := do
  let left ← deref (m.heap node).rb_left
  let parent := rb_parent m node
  let m := set_left node (m.heap left).rb_right m
  let m := match (m.heap node).rb_left with
    | some _ => (match (m.heap left).rb_right with
        | some lr => rb_set_parent lr (some node) m
        | none => m)
    | none => m
  let m := set_right left (some node) m
  let m := rb_set_parent left parent m
  let m := match parent with
    | some p =>
      if some node = (m.heap p).rb_right then set_right p (some left) m
      else set_left p (some left) m
    | none => set_root (some left) m
  pure (rb_set_parent node (some left) m)

/-! ## Insertion fix-up (rbtree.c 60-123) -/

/-- The function `rb_insert_color`; one unit of fuel per evaluation of the loop test. -/
def rb_insert_color : Nat → Nat → Mem → Except Fault Mem
  | 0, _, _ => .error .out_of_fuel
  | fuel + 1, node, m =>
    match (rb_parent m node).filter (fun p => rb_is_red m p) with
    | none => do
      let r ← deref m.root
      pure (rb_set_black r m)
    | some parent => do
      let gparent ← deref (rb_parent m parent)
      if some parent = (m.heap gparent).rb_left then
        let uncle := (m.heap gparent).rb_right
        match uncle.filter (fun u => rb_is_red m u) with
        | some u =>
          let m := rb_set_black u m
          let m := rb_set_black parent m
          let m := rb_set_red gparent m
          rb_insert_color fuel gparent m
        | none => do
          let (parent, node, m) ←
            (if (m.heap parent).rb_right = some node then do
              let m ← __rb_rotate_left parent m
              pure (node, parent, m)
            else pure (parent, node, m))
          let m := rb_set_black parent m
          let m := rb_set_red gparent m
          let m ← __rb_rotate_right gparent m
          rb_insert_color fuel node m
      else
        let uncle := (m.heap gparent).rb_left
        match uncle.filter (fun u => rb_is_red m u) with
        | some u =>
          let m := rb_set_black u m
          let m := rb_set_black parent m
          let m := rb_set_red gparent m
          rb_insert_color fuel gparent m
        | none => do
          let (parent, node, m) ←
            (if (m.heap parent).rb_left = some node then do
              let m ← __rb_rotate_right parent m
              pure (node, parent, m)
            else pure (parent, node, m))
          let m := rb_set_black parent m
          let m := rb_set_red gparent m
          let m ← __rb_rotate_left gparent m
          rb_insert_color fuel node m

/-! ## Erase fix-up (rbtree.c 125-203) -/

/-- The closing statement of `__rb_erase_color`: `if (node) rb_set_black(node)`. -/
def erase_color_exit (node : Option Nat) (m : Mem) : Mem :=
  match node with
  | some n => rb_set_black n m
  | none => m

/-- The function `__rb_erase_color`; one unit of fuel per evaluation of the loop test. -/
def __rb_erase_color : Nat → Option Nat → Option Nat → Mem → Except Fault Mem
  | 0, _, _, _ => .error .out_of_fuel
  | fuel + 1, node, parent, m =>
    if null_or_black m node = true ∧ node ≠ m.root then do
      let p ← deref parent
      if (m.heap p).rb_left = node then do
        let other ← deref (m.heap p).rb_right
        let (other, m) ←
          (if rb_is_red m other then do
            let m := rb_set_black other m
            let m := rb_set_red p m
            let m ← __rb_rotate_left p m
            let other ← deref (m.heap p).rb_right
            pure (other, m)
          else pure (other, m))
        if null_or_black m (m.heap other).rb_left = true ∧
            null_or_black m (m.heap other).rb_right = true then
          let m := rb_set_red other m
          __rb_erase_color fuel (some p) (rb_parent m p) m
        else do
          let (other, m) ←
            (if null_or_black m (m.heap other).rb_right = true then do
              let ol ← deref (m.heap other).rb_left
              let m := rb_set_black ol m
              let m := rb_set_red other m
              let m ← __rb_rotate_right other m
              let other ← deref (m.heap p).rb_right
              pure (other, m)
            else pure (other, m))
          let m := rb_set_color other (rb_color m p) m
          let m := rb_set_black p m
          let far ← deref (m.heap other).rb_right
          let m := rb_set_black far m
          let m ← __rb_rotate_left p m
          pure (erase_color_exit m.root m)
      else do
        let other ← deref (m.heap p).rb_left
        let (other, m) ←
          (if rb_is_red m other then do
            let m := rb_set_black other m
            let m := rb_set_red p m
            let m ← __rb_rotate_right p m
            let other ← deref (m.heap p).rb_left
            pure (other, m)
          else pure (other, m))
        if null_or_black m (m.heap other).rb_left = true ∧
            null_or_black m (m.heap other).rb_right = true then
          let m := rb_set_red other m
          __rb_erase_color fuel (some p) (rb_parent m p) m
        else do
          let (other, m) ←
            (if null_or_black m (m.heap other).rb_left = true then do
              let orr ← deref (m.heap other).rb_right
              let m := rb_set_black orr m
              let m := rb_set_red other m
              let m ← __rb_rotate_left other m
              let other ← deref (m.heap p).rb_left
              pure (other, m)
            else pure (other, m))
          let m := rb_set_color other (rb_color m p) m
          let m := rb_set_black p m
          let far ← deref (m.heap other).rb_left
          let m := rb_set_black far m
          let m ← __rb_rotate_right p m
          pure (erase_color_exit m.root m)
    else pure (erase_color_exit node m)

/-! ## Erase (rbtree.c 205-270) -/

/-- The loop `while (n->rb_left) n = n->rb_left;` (rbtree.c 219-220, 282-283, 310-311). -/
def leftmost : Nat → Mem → Nat → Except Fault Nat
  | 0, _, _ => .error .out_of_fuel
  | fuel + 1, m, n =>
    match (m.heap n).rb_left with
    | some l => leftmost fuel m l
    | none => pure n

/-- The loop `while (n->rb_right) n = n->rb_right;` (rbtree.c 294-295, 338-339). -/
def rightmost : Nat → Mem → Nat → Except Fault Nat
  | 0, _, _ => .error .out_of_fuel
  | fuel + 1, m, n =>
    match (m.heap n).rb_right with
    | some r => rightmost fuel m r
    | none => pure n

/-- The label `color:` of `rb_erase` (rbtree.c 267-269). -/
def erase_tail (fuel : Nat) (color : Color) (child parent : Option Nat) (m : Mem) :
    Except Fault Mem :=
  if color = RB_BLACK then __rb_erase_color fuel child parent m else pure m

/-- The path of `rb_erase` for a node with at most one child (rbtree.c 252-269). -/
def erase_splice (fuel : Nat) (node : Nat) (child : Option Nat) (m : Mem) :
    Except Fault Mem :=
  let parent := rb_parent m node
  let color := rb_color m node
  let m := match child with
    | some c => rb_set_parent c parent m
    | none => m
  let m := match parent with
    | some p =>
      if (m.heap p).rb_left = some node then set_left p child m
      else set_right p child m
    | none => set_root child m
  erase_tail fuel color child parent m

/-- Lines 222-228 of `rb_erase`: the slot that held `old` is made to hold `node`. -/
def erase_relink (old node : Nat) (m : Mem) : Mem :=
  match rb_parent m old with
  | some op =>
    if (m.heap op).rb_left = some old then set_left op (some node) m
    else set_right op (some node) m
  | none => set_root (some node) m

/-- Lines 237-239 of `rb_erase`: the child of the successor takes the place of the
successor under `parent`. -/
def erase_unlink (child parent : Option Nat) (m : Mem) : Except Fault Mem := do
  let m := match child with
    | some c => rb_set_parent c parent m
    | none => m
  let p ← deref parent
  pure (set_left p child m)

/-- Lines 241-242 of `rb_erase`: `node` takes over the right subtree of `old`. -/
def erase_adopt_right (old node : Nat) (m : Mem) : Except Fault Mem := do
  let m := set_right node (m.heap old).rb_right m
  let oldr ← deref (m.heap old).rb_right
  pure (rb_set_parent oldr (some node) m)

/-- Lines 245-247 of `rb_erase`: `node` takes over the parent, the colour and the left
subtree of `old`. -/
def erase_adopt_left (old node : Nat) (m : Mem) : Except Fault Mem := do
  let m := m.write node
    { m.heap node with rb_parent := (m.heap old).rb_parent, rb_color := (m.heap old).rb_color }
  let m := set_left node (m.heap old).rb_left m
  let oldl ← deref (m.heap old).rb_left
  pure (rb_set_parent oldl (some node) m)

/-- The function `rb_erase`. -/
def rb_erase (fuel : Nat) (node : Nat) (m : Mem) : Except Fault Mem :=
  match (m.heap node).rb_left with
  | none => erase_splice fuel node (m.heap node).rb_right m
  | some _ =>
    match (m.heap node).rb_right with
    | none => erase_splice fuel node (m.heap node).rb_left m
    | some r => do
      let old := node
      let node ← leftmost fuel m r
      let m := erase_relink old node m
      let child := (m.heap node).rb_right
      let parent := rb_parent m node
      let color := rb_color m node
      let (parent, m) ←
        (if parent = some old then pure (some node, m)
        else do
          let m ← erase_unlink child parent m
          let m ← erase_adopt_right old node m
          pure (parent, m))
      let m ← erase_adopt_left old node m
      erase_tail fuel color child parent m

/-! ## Traversal (rbtree.c 272-349) -/

/-- The function `rb_first`. -/
def rb_first (fuel : Nat) (m : Mem) : Except Fault (Option Nat) :=
  match m.root with
  | none => pure none
  | some n => do
    let r ← leftmost fuel m n
    pure (some r)

/-- The function `rb_last`. -/
def rb_last (fuel : Nat) (m : Mem) : Except Fault (Option Nat) :=
  match m.root with
  | none => pure none
  | some n => do
    let r ← rightmost fuel m n
    pure (some r)

/-- The loop `while ((parent = rb_parent(node)) && node == parent->rb_right) node = parent;`
of `rb_next`; the result is the final `parent`. -/
def climb_right : Nat → Mem → Nat → Except Fault (Option Nat)
  | 0, _, _ => .error .out_of_fuel
  | fuel + 1, m, node =>
    match rb_parent m node with
    | none => pure none
    | some parent =>
      if some node = (m.heap parent).rb_right then climb_right fuel m parent
      else pure (some parent)

/-- The loop `while ((parent = rb_parent(node)) && node == parent->rb_left) node = parent;`
of `rb_prev`; the result is the final `parent`. -/
def climb_left : Nat → Mem → Nat → Except Fault (Option Nat)
  | 0, _, _ => .error .out_of_fuel
  | fuel + 1, m, node =>
    match rb_parent m node with
    | none => pure none
    | some parent =>
      if some node = (m.heap parent).rb_left then climb_left fuel m parent
      else pure (some parent)

/-- The function `rb_next`. -/
def rb_next (fuel : Nat) (m : Mem) (node : Nat) : Except Fault (Option Nat) :=
  if rb_parent m node = some node then pure none
  else
    match (m.heap node).rb_right with
    | some r => do
      let n ← leftmost fuel m r
      pure (some n)
    | none => climb_right fuel m node

/-- The function `rb_prev`. -/
def rb_prev (fuel : Nat) (m : Mem) (node : Nat) : Except Fault (Option Nat) :=
  if rb_parent m node = some node then pure none
  else
    match (m.heap node).rb_left with
    | some l => do
      let n ← rightmost fuel m l
      pure (some n)
    | none => climb_left fuel m node

/-! ## Keyed facade (rbtree.c 374-464) -/

/-- The descent loop of `rb_insert` (rbtree.c 386-400): the result is `none` on an
exact match, otherwise the slot found, as the parent and the side (`true` for
`rb_left`).  The arguments `parent` and `left` describe the slot `new` so far, whose
content is `cur`. -/
def insert_descend {K : Type} (compare : Nat → K → Int) (key : K) :
    Nat → Mem → Option Nat → Bool → Option Nat → Except Fault (Option (Option Nat × Bool))
  | 0, _, _, _, _ => .error .out_of_fuel
  | fuel + 1, m, parent, left, cur =>
    match cur with
    | none => pure (some (parent, left))
    | some c =>
      let delta := compare c key
      if delta < 0 then insert_descend compare key fuel m (some c) true (m.heap c).rb_left
      else if delta > 0 then insert_descend compare key fuel m (some c) false (m.heap c).rb_right
      else pure none

/-- The function `rb_insert`; `root` and `node` are pointers that may be `NULL`; the
memory is `none` when `root` is `NULL`. -/
def rb_insert {K : Type} (fuel : Nat) (m : Option Mem) (node : Option Nat) (key : K)
    (compare : Nat → K → Int) : Except Fault (Int × Option Mem) :=
  match m, node with
  | none, _ => pure (-1, m)
  | some _, none => pure (-1, m)
  | some m, some node => do
    match ← insert_descend compare key fuel m none true m.root with
    | none => pure (-1, some m)
    | some (parent, left) =>
      let m := rb_link_node node parent left m
      let m ← rb_insert_color fuel node m
      pure (0, some m)

/-- The descent loop shared by `rb_search` (rbtree.c 418-428) and `rb_delete`
(rbtree.c 443-456). -/
def search_descend {K : Type} (compare : Nat → K → Int) (key : K) :
    Nat → Mem → Option Nat → Except Fault (Option Nat)
  | 0, _, _ => .error .out_of_fuel
  | fuel + 1, m, node =>
    match node with
    | none => pure none
    | some n =>
      let delta := compare n key
      if delta < 0 then search_descend compare key fuel m (m.heap n).rb_left
      else if delta > 0 then search_descend compare key fuel m (m.heap n).rb_right
      else pure (some n)

/-- The function `rb_search`. -/
def rb_search {K : Type} (fuel : Nat) (m : Option Mem) (key : K) (compare : Nat → K → Int) :
    Except Fault (Option Nat) :=
  match m with
  | none => pure none
  | some m => search_descend compare key fuel m m.root

/-- The function `rb_delete`. -/
def rb_delete {K : Type} (fuel : Nat) (m : Option Mem) (key : K) (compare : Nat → K → Int) :
    Except Fault (Option Nat × Option Mem) :=
  match m with
  | none => pure (none, none)
  | some m => do
    match ← search_descend compare key fuel m m.root with
    | some node =>
      let m ← rb_erase fuel node m
      pure (some node, some m)
    | none => pure (none, some m)

/-- The comparator `rb_compare` of main.c, over the key stored with each node. -/
def rb_compare (keyOf : Nat → Int) (node : Nat) (key : Int) : Int :=
  let node_val := keyOf node
  if key < node_val then -1
  else if key > node_val then 1
  else 0

/-! ## Abstract trees and the heap they describe -/

/-- Binary trees of coloured node addresses: the shape the heap is meant to hold. -/
inductive Tree
  | nil
  | node (l : Tree) (a : Nat) (c : Color) (r : Tree)
deriving DecidableEq, Repr

/-- Pointer to the root of a tree (`NULL` for the empty tree). -/
def Tree.ptr : Tree → Option Nat
  | .nil => none
  | .node _ a _ _ => some a

/-- In-order sequence of the node addresses. -/
def Tree.inorder : Tree → List Nat
  | .nil => []
  | .node l a _ r => l.inorder ++ a :: r.inorder

/-- Colour of the root; a leaf position counts as black (invariant 2). -/
def Tree.color : Tree → Color
  | .nil => RB_BLACK
  | .node _ _ c _ => c

/-- Number of nodes on the longest path from the root to a leaf position. -/
def Tree.height : Tree → Nat
  | .nil => 0
  | .node l _ _ r => max l.height r.height + 1

/-- Number of black nodes along the leftmost path. -/
def Tree.bh : Tree → Nat
  | .nil => 0
  | .node l _ c _ => l.bh + (if c = RB_BLACK then 1 else 0)

/-- The heap holds tree `t` below the parent pointer `p`: every node record has the
parent, colour and children that the tree prescribes. -/
def Rep (h : Nat → rb_node) : Tree → Option Nat → Prop
  | .nil, _ => True
  | .node l a c r, p => h a = ⟨p, c, r.ptr, l.ptr⟩ ∧ Rep h l (some a) ∧ Rep h r (some a)

/-- The memory holds exactly the tree `t`: the root slot points to it, the records
match, and no address occurs twice. -/
def Shape (m : Mem) (t : Tree) : Prop :=
  m.root = t.ptr ∧ Rep m.heap t none ∧ t.inorder.Nodup

/-- Invariant (1): binary-search-tree order on the keys, without duplicates. -/
def BST {K : Type} [LinearOrder K] (keyOf : Nat → K) : Tree → Prop
  | .nil => True
  | .node l a _ r =>
    (∀ x ∈ l.inorder, keyOf x < keyOf a) ∧ (∀ x ∈ r.inorder, keyOf a < keyOf x) ∧
      BST keyOf l ∧ BST keyOf r

/-- Invariant (3): a red node has no red child (hence no red parent). -/
def NoRedRed : Tree → Prop
  | .nil => True
  | .node l _ c r =>
    (c = RB_RED → l.color = RB_BLACK ∧ r.color = RB_BLACK) ∧ NoRedRed l ∧ NoRedRed r

/-- Invariant (4): all paths from a node to its leaf positions hold the same number
of black nodes. -/
def BlackUniform : Tree → Prop
  | .nil => True
  | .node l _ _ r => l.bh = r.bh ∧ BlackUniform l ∧ BlackUniform r

/-- Invariants (1)-(5) of the specification for a tree (invariant (2) is built in
`Tree.color`). -/
def RBInv {K : Type} [LinearOrder K] (keyOf : Nat → K) (t : Tree) : Prop :=
  BST keyOf t ∧ NoRedRed t ∧ BlackUniform t ∧ t.color = RB_BLACK

/-- The memory holds a tree satisfying invariants (1)-(5). -/
def Valid {K : Type} [LinearOrder K] (keyOf : Nat → K) (m : Mem) : Prop :=
  ∃ t, Shape m t ∧ RBInv keyOf t

/-- A comparator consistent with the order of the keys: negative, zero or positive
as the search key is less than, equal to or greater than the key of the node. -/
def Consistent {K : Type} [LinearOrder K] (compare : Nat → K → Int) (keyOf : Nat → K) : Prop :=
  ∀ n k, (compare n k < 0 ↔ k < keyOf n) ∧ (compare n k > 0 ↔ keyOf n < k)

/-- One level of a path from a subtree up to the root. -/
inductive Frame
  | left (a : Nat) (c : Color) (r : Tree)
  | right (l : Tree) (a : Nat) (c : Color)
deriving DecidableEq, Repr

/-- Address of the node of a frame. -/
def Frame.addr : Frame → Nat
  | .left a _ _ => a
  | .right _ a _ => a

/-- Colour of the node of a frame. -/
def Frame.color : Frame → Color
  | .left _ c _ => c
  | .right _ _ c => c

/-- The tree obtained by putting `t` in the hole of a frame. -/
def Frame.fill : Frame → Tree → Tree
  | .left a c r, t => .node t a c r
  | .right l a c, t => .node l a c t

/-- The tree obtained by putting `t` in the hole of a path (innermost frame first). -/
def plug : List Frame → Tree → Tree
  | [], t => t
  | f :: fs, t => plug fs (f.fill t)

/-- Parent pointer of the hole of a path. -/
def ctxParent : List Frame → Option Nat
  | [] => none
  | f :: _ => some f.addr

/-- Addresses before the hole, in order. -/
def ctxBefore : List Frame → List Nat
  | [] => []
  | .left _ _ _ :: fs => ctxBefore fs
  | .right l a _ :: fs => ctxBefore fs ++ (l.inorder ++ [a])

/-- Addresses after the hole, in order. -/
def ctxAfter : List Frame → List Nat
  | [] => []
  | .left a _ r :: fs => (a :: r.inorder) ++ ctxAfter fs
  | .right _ _ _ :: fs => ctxAfter fs

/-- The heap holds the path `fs` around a hole whose content is the pointer `hole`. -/
def RepCtx (h : Nat → rb_node) (root : Option Nat) : List Frame → Option Nat → Prop
  | [], hole => root = hole
  | .left a c r :: fs, hole =>
    h a = ⟨ctxParent fs, c, r.ptr, hole⟩ ∧ Rep h r (some a) ∧ RepCtx h root fs (some a)
  | .right l a c :: fs, hole =>
    h a = ⟨ctxParent fs, c, hole, l.ptr⟩ ∧ Rep h l (some a) ∧ RepCtx h root fs (some a)

/-- Sibling subtree kept by a frame. -/
def Frame.sib : Frame → Tree
  | .left _ _ r => r
  | .right l _ _ => l

/-- The hole of a path must hold a black root: it is the root slot, or the child of a
red node. -/
def needsBlack : List Frame → Prop
  | [] => True
  | f :: _ => f.color = RB_RED

/-- Red-black conditions (3), (4), (5) on a path around a hole of black height `n`. -/
def CtxInv : List Frame → Nat → Prop
  | [], _ => True
  | f :: fs, n =>
    f.sib.bh = n ∧ NoRedRed f.sib ∧ BlackUniform f.sib ∧
      (f.color = RB_RED → f.sib.color = RB_BLACK ∧ ¬ needsBlack fs) ∧
      CtxInv fs (n + (if f.color = RB_BLACK then 1 else 0))

/-- The keys of a list of nodes are strictly increasing. -/
def KeySorted {K : Type} [LinearOrder K] (keyOf : Nat → K) (l : List Nat) : Prop :=
  l.Pairwise (fun a b => keyOf a < keyOf b)

/-- Side of the hole under its parent: `true` for `rb_left` (and for the root slot). -/
def ctxSide : List Frame → Bool
  | [] => true
  | .left _ _ _ :: _ => true
  | .right _ _ _ :: _ => false

/-- The tree with its root painted black. -/
def Tree.blacken : Tree → Tree
  | .nil => .nil
  | .node l a _ r => .node l a RB_BLACK r

/-- All frames of a path descend to the left. -/
def AllLeft : List Frame → Prop
  | [] => True
  | .left _ _ _ :: fs => AllLeft fs
  | .right _ _ _ :: _ => False

/-- All frames of a path descend to the right. -/
def AllRight : List Frame → Prop
  | [] => True
  | .right _ _ _ :: fs => AllRight fs
  | .left _ _ _ :: _ => False

/-- The loop `for (n = start; n; n = rb_next(n))`: the nodes visited, in order; `steps`
bounds the number of turns. -/
def walk_next (fuel : Nat) (m : Mem) : Nat → Option Nat → Except Fault (List Nat)
  | 0, _ => .error .out_of_fuel
  | _ + 1, none => pure []
  | steps + 1, some n => do
    let nx ← rb_next fuel m n
    let rest ← walk_next fuel m steps nx
    pure (n :: rest)

/-- The loop `for (n = start; n; n = rb_prev(n))`: the nodes visited, in order. -/
def walk_prev (fuel : Nat) (m : Mem) : Nat → Option Nat → Except Fault (List Nat)
  | 0, _ => .error .out_of_fuel
  | _ + 1, none => pure []
  | steps + 1, some n => do
    let pv ← rb_prev fuel m n
    let rest ← walk_prev fuel m steps pv
    pure (n :: rest)

/-- Forward traversal: from `rb_first(root)` by `rb_next` until `NULL`. -/
def traverse (fuel : Nat) (m : Mem) : Except Fault (List Nat) := do
  let f ← rb_first fuel m
  walk_next fuel m fuel f

/-- Backward traversal: from `rb_last(root)` by `rb_prev` until `NULL`. -/
def traverse_back (fuel : Nat) (m : Mem) : Except Fault (List Nat) := do
  let f ← rb_last fuel m
  walk_prev fuel m fuel f

/-! ## The demo of main.c -/

/-- The loop of `func_test` and `perf_test` calling `test_rb_insert` (main.c 80-86,
241-251): node `n` is inserted under its own key. -/
def insert_all {K : Type} (fuel : Nat) (compare : Nat → K → Int) (keyOf : Nat → K) :
    List Nat → Mem → Except Fault Mem
  | [], m => pure m
  | n :: ns, m => do
    let r ← rb_insert fuel (some m) (some n) (keyOf n) compare
    insert_all fuel compare keyOf ns (r.2.getD m)

/-- The loop of `func_test` and `perf_test` calling `test_rb_delete` (main.c 88-91,
254-262): the result lists the memory after each deletion. -/
def delete_all {K : Type} (fuel : Nat) (compare : Nat → K → Int) :
    List K → Mem → Except Fault (List Mem)
  | [], _ => pure []
  | k :: ks, m => do
    let r ← rb_delete fuel (some m) k compare
    let m2 := r.2.getD m
    let rest ← delete_all fuel compare ks m2
    pure (m2 :: rest)

/-- Memory before any insertion: the root is `RB_ROOT`, the node records are zeroed. -/
def demo_empty : Mem := ⟨fun _ => ⟨none, RB_RED, none, none⟩, none⟩

/-- Key of the demo node at address `n` (field `key` of `struct test_rb_node`). -/
def demo_key (n : Nat) : Int := n

/-- Memory of the demo after the insertion of the keys 5, 3, 8, 1, 4, 7, 9. -/
def demo_mem : Mem :=
  match insert_all 8 (rb_compare demo_key) demo_key [5, 3, 8, 1, 4, 7, 9] demo_empty with
  | .ok m => m
  | .error _ => demo_empty

/-- The tree that `demo_mem` holds. -/
def demo_tree : Tree :=
  .node (.node (.node .nil 1 RB_RED .nil) 3 RB_BLACK (.node .nil 4 RB_RED .nil)) 5 RB_BLACK
    (.node (.node .nil 7 RB_RED .nil) 8 RB_BLACK (.node .nil 9 RB_RED .nil))

/-- Decision procedure for `Rep`. -/
instance decRep (h : Nat → rb_node) : (t : Tree) → (p : Option Nat) → Decidable (Rep h t p)
  | .nil, _ => isTrue trivial
  | .node l a c r, p =>
    have : Decidable (Rep h l (some a)) := decRep h l (some a)
    have : Decidable (Rep h r (some a)) := decRep h r (some a)
    inferInstanceAs (Decidable (h a = ⟨p, c, r.ptr, l.ptr⟩ ∧ Rep h l (some a) ∧ Rep h r (some a)))

/-- Decision procedure for `Shape`. -/
instance decShape (m : Mem) (t : Tree) : Decidable (Shape m t) :=
  inferInstanceAs (Decidable (m.root = t.ptr ∧ Rep m.heap t none ∧ t.inorder.Nodup))

/-! ## Node replacement (rbtree.c 351-372) -/

/-- The function `rb_replace_node(victim, new, root)`. -/
def rb_replace_node (victim new : Nat) (m : Mem) : Mem :=
  let parent := rb_parent m victim
  let m := match parent with
    | some p =>
      if some victim = (m.heap p).rb_left then set_left p (some new) m
      else set_right p (some new) m
    | none => set_root (some new) m
  let m := match (m.heap victim).rb_left with
    | some l => rb_set_parent l (some new) m
    | none => m
  let m := match (m.heap victim).rb_right with
    | some r => rb_set_parent r (some new) m
    | none => m
  m.write new (m.heap victim)

/-! ## Sequences of calls -/

/-- Memories reached from an empty root by calls of `rb_insert` (of a node that is not
linked in the tree, under its own key) and of `rb_delete`, each run with fuel above the
height of the tree it meets. -/
inductive Reachable {K : Type} (compare : Nat → K → Int) (keyOf : Nat → K) : Mem → Prop
  | empty (m : Mem) (h0 : m.root = none) : Reachable compare keyOf m
  | insert (m m2 : Mem) (t : Tree) (fuel node : Nat) (r : Int)
      (h : Reachable compare keyOf m) (hs : Shape m t) (hf : t.height < fuel)
      (hn : node ∉ t.inorder)
      (e : rb_insert fuel (some m) (some node) (keyOf node) compare = .ok (r, some m2)) :
      Reachable compare keyOf m2
  | delete (m m2 : Mem) (t : Tree) (fuel : Nat) (key : K) (r : Option Nat)
      (h : Reachable compare keyOf m) (hs : Shape m t) (hf : t.height < fuel)
      (e : rb_delete fuel (some m) key compare = .ok (r, some m2)) :
      Reachable compare keyOf m2

/-- Memory of the demo after the insertion of the keys 1, 2, ..., 7 in ascending order. -/
def asc_mem : Mem :=
  match insert_all 8 (rb_compare demo_key) demo_key [1, 2, 3, 4, 5, 6, 7] demo_empty with
  | .ok m => m
  | .error _ => demo_empty

/-- Memory of the demo after node 6, whose key is 6, is offered to `rb_insert` under the
key 0 in the tree of the keys 5, 3, 8, 1, 4, 7, 9. -/
def demo_other_key : Mem :=
  match rb_insert 8 (some demo_mem) (some 6) (0 : Int) (rb_compare demo_key) with
  | .ok (_, some m) => m
  | _ => demo_mem

/-- The tree that `demo_other_key` holds. -/
def demo_other_tree : Tree :=
  .node (.node (.node (.node .nil 6 RB_RED .nil) 1 RB_BLACK .nil) 3 RB_RED
      (.node .nil 4 RB_BLACK .nil)) 5 RB_BLACK
    (.node (.node .nil 7 RB_RED .nil) 8 RB_BLACK (.node .nil 9 RB_RED .nil))

/-- Keys for a demo with records that share a key: record `n` carries `n % 10`. -/
def dup_key (n : Nat) : Int := (n % 10 : Nat)

/-! ## Managed records (rbtree.h 112-268) -/

/-- Memory of the managed-record layer: the node records and the root, the field `id` of
each `struct rule_tpl`, and the bytes of each record behind `struct rule_tpl`. -/
structure TplMem where
  mem : Mem
  id : Nat → Nat
  payload : Nat → List Nat

/-- The value of `sizeof(struct rule_tpl)` on a target with 8-byte words: the three words of
`struct rb_node` and the `unsigned int id`, padded to a word. -/
def rule_tpl_size : Nat := 32

/-- The comparison of `cur->id` with `id` made by the loops of `rule_tpl_create`,
`rule_tpl_delete` and `rule_tpl_search`, as a sign: negative where the loops go to
`rb_left` (`cur->id < id`), positive where they go to `rb_right` (`cur->id > id`). -/
def tpl_compare (idOf : Nat → Nat) (node : Nat) (id : Natᵒᵈ) : Int :=
  if idOf node < OrderDual.ofDual id then -1
  else if idOf node > OrderDual.ofDual id then 1
  else 0

/-- Sort key of a record: its id in the reversed order, as the loops put the larger ids
to the left. -/
def tpl_key (idOf : Nat → Nat) (node : Nat) : Natᵒᵈ := OrderDual.toDual (idOf node)

/-- The trees of the managed-record layer: the memory holds a tree that satisfies the
red-black invariants and is sorted by descending id. -/
def TplValid (s : TplMem) : Prop := Valid (tpl_key s.id) s.mem

/-- The descent loop of `rule_tpl_create` (rbtree.h 138-151): `none` on a record with the
same id, otherwise the slot found, as the parent and the side (`true` for `rb_left`). -/
def tpl_insert_descend (id : Nat) :
    Nat → TplMem → Option Nat → Bool → Option Nat → Except Fault (Option (Option Nat × Bool))
  | 0, _, _, _, _ => .error .out_of_fuel
  | fuel + 1, s, parent, left, cur =>
    match cur with
    | none => pure (some (parent, left))
    | some c =>
      if s.id c < id then tpl_insert_descend id fuel s (some c) true (s.mem.heap c).rb_left
      else if s.id c > id then
        tpl_insert_descend id fuel s (some c) false (s.mem.heap c).rb_right
      else pure none

/-- The function `rule_tpl_create`; the state is `none` when `root` is `NULL`, and `alloc`
is what `malloc(size)` returns. The header asks for a size of at least
`sizeof(struct rule_tpl)`: a smaller block cannot hold the `struct rule_tpl` that `tpl` is
used as after `memset`, when `tpl->id` and the node words are written (rbtree.h 158-161),
which is the fault `out_of_bounds`. -/
def rule_tpl_create (fuel : Nat) (s : Option TplMem) (id size : Nat) (alloc : Option Nat) :
    Except Fault (Option Nat × Option TplMem) :=
  match s with
  | none => pure (none, none)
  | some s => do
    match ← tpl_insert_descend id fuel s none true s.mem.root with
    | none => pure (none, some s)
    | some (parent, left) =>
      match alloc with
      | none => pure (none, some s)
      | some tpl =>
        if size < rule_tpl_size then .error .out_of_bounds
        else do
          let s : TplMem :=
            { mem := s.mem.write tpl ⟨none, RB_RED, none, none⟩
              id := Function.update s.id tpl 0
              payload :=
                Function.update s.payload tpl (List.replicate (size - rule_tpl_size) 0) }
          let s : TplMem := { s with id := Function.update s.id tpl id }
          let m := rb_link_node tpl parent left s.mem
          let m ← rb_insert_color fuel tpl m
          pure (some tpl, some { s with mem := m })

/-- The descent loop of `rule_tpl_search` (rbtree.h 255-266). -/
def tpl_search_descend (id : Nat) : Nat → TplMem → Option Nat → Except Fault (Option Nat)
  | 0, _, _ => .error .out_of_fuel
  | fuel + 1, s, node =>
    match node with
    | none => pure none
    | some n =>
      if s.id n < id then tpl_search_descend id fuel s (s.mem.heap n).rb_left
      else if s.id n > id then tpl_search_descend id fuel s (s.mem.heap n).rb_right
      else pure (some n)

/-- The function `rule_tpl_search`; the state is `none` when `root` is `NULL`. -/
def rule_tpl_search (fuel : Nat) (s : Option TplMem) (id : Nat) : Except Fault (Option Nat) :=
  match s with
  | none => pure none
  | some s => tpl_search_descend id fuel s s.mem.root

/-- State of the managed-record layer before any call: an empty root. -/
def tpl_empty : TplMem := ⟨demo_empty, fun _ => 0, fun _ => []⟩

/-- State after `rule_tpl_create(root, 5, 40)` on the empty root, with the block at
address 1. -/
def tpl_demo : TplMem :=
  match rule_tpl_create 8 (some tpl_empty) 5 40 (some 1) with
  | .ok (_, some s) => s
  | _ => tpl_empty

/-! ## Rotation counters -/

/-- The function `rb_insert_color` with a counter `cnt` of the calls of `__rb_rotate_left`
and `__rb_rotate_right`. -/
def rb_insert_color_rot : Nat → Nat → Mem → Nat → Except Fault (Mem × Nat)
  | 0, _, _, _ => .error .out_of_fuel
  | fuel + 1, node, m, cnt =>
    match (rb_parent m node).filter (fun p => rb_is_red m p) with
    | none => do
      let r ← deref m.root
      pure (rb_set_black r m, cnt)
    | some parent => do
      let gparent ← deref (rb_parent m parent)
      if some parent = (m.heap gparent).rb_left then
        let uncle := (m.heap gparent).rb_right
        match uncle.filter (fun u => rb_is_red m u) with
        | some u =>
          let m := rb_set_black u m
          let m := rb_set_black parent m
          let m := rb_set_red gparent m
          rb_insert_color_rot fuel gparent m cnt
        | none => do
          let (parent, node, m, cnt) ←
            (if (m.heap parent).rb_right = some node then do
              let m ← __rb_rotate_left parent m
              pure (node, parent, m, cnt + 1)
            else pure (parent, node, m, cnt))
          let m := rb_set_black parent m
          let m := rb_set_red gparent m
          let m ← __rb_rotate_right gparent m
          rb_insert_color_rot fuel node m (cnt + 1)
      else
        let uncle := (m.heap gparent).rb_left
        match uncle.filter (fun u => rb_is_red m u) with
        | some u =>
          let m := rb_set_black u m
          let m := rb_set_black parent m
          let m := rb_set_red gparent m
          rb_insert_color_rot fuel gparent m cnt
        | none => do
          let (parent, node, m, cnt) ←
            (if (m.heap parent).rb_left = some node then do
              let m ← __rb_rotate_right parent m
              pure (node, parent, m, cnt + 1)
            else pure (parent, node, m, cnt))
          let m := rb_set_black parent m
          let m := rb_set_red gparent m
          let m ← __rb_rotate_left gparent m
          rb_insert_color_rot fuel node m (cnt + 1)

/-- The function `rb_insert` with the number of rotations made as a third result. -/
def rb_insert_rot {K : Type} (fuel : Nat) (m : Option Mem) (node : Option Nat) (key : K)
    (compare : Nat → K → Int) : Except Fault (Int × Option Mem × Nat) :=
  match m, node with
  | none, _ => pure (-1, m, 0)
  | some _, none => pure (-1, m, 0)
  | some m, some node => do
    match ← insert_descend compare key fuel m none true m.root with
    | none => pure (-1, some m, 0)
    | some (parent, left) =>
      let m := rb_link_node node parent left m
      let (m, cnt) ← rb_insert_color_rot fuel node m 0
      pure (0, some m, cnt)

/-- The function `__rb_erase_color` with a counter `cnt` of the calls of `__rb_rotate_left`
and `__rb_rotate_right`. -/
def __rb_erase_color_rot : Nat → Option Nat → Option Nat → Mem → Nat → Except Fault (Mem × Nat)
  | 0, _, _, _, _ => .error .out_of_fuel
  | fuel + 1, node, parent, m, cnt =>
    if null_or_black m node = true ∧ node ≠ m.root then do
      let p ← deref parent
      if (m.heap p).rb_left = node then do
        let other ← deref (m.heap p).rb_right
        let (other, m, cnt) ←
          (if rb_is_red m other then do
            let m := rb_set_black other m
            let m := rb_set_red p m
            let m ← __rb_rotate_left p m
            let other ← deref (m.heap p).rb_right
            pure (other, m, cnt + 1)
          else pure (other, m, cnt))
        if null_or_black m (m.heap other).rb_left = true ∧
            null_or_black m (m.heap other).rb_right = true then
          let m := rb_set_red other m
          __rb_erase_color_rot fuel (some p) (rb_parent m p) m cnt
        else do
          let (other, m, cnt) ←
            (if null_or_black m (m.heap other).rb_right = true then do
              let ol ← deref (m.heap other).rb_left
              let m := rb_set_black ol m
              let m := rb_set_red other m
              let m ← __rb_rotate_right other m
              let other ← deref (m.heap p).rb_right
              pure (other, m, cnt + 1)
            else pure (other, m, cnt))
          let m := rb_set_color other (rb_color m p) m
          let m := rb_set_black p m
          let far ← deref (m.heap other).rb_right
          let m := rb_set_black far m
          let m ← __rb_rotate_left p m
          pure (erase_color_exit m.root m, cnt + 1)
      else do
        let other ← deref (m.heap p).rb_left
        let (other, m, cnt) ←
          (if rb_is_red m other then do
            let m := rb_set_black other m
            let m := rb_set_red p m
            let m ← __rb_rotate_right p m
            let other ← deref (m.heap p).rb_left
            pure (other, m, cnt + 1)
          else pure (other, m, cnt))
        if null_or_black m (m.heap other).rb_left = true ∧
            null_or_black m (m.heap other).rb_right = true then
          let m := rb_set_red other m
          __rb_erase_color_rot fuel (some p) (rb_parent m p) m cnt
        else do
          let (other, m, cnt) ←
            (if null_or_black m (m.heap other).rb_left = true then do
              let orr ← deref (m.heap other).rb_right
              let m := rb_set_black orr m
              let m := rb_set_red other m
              let m ← __rb_rotate_left other m
              let other ← deref (m.heap p).rb_left
              pure (other, m, cnt + 1)
            else pure (other, m, cnt))
          let m := rb_set_color other (rb_color m p) m
          let m := rb_set_black p m
          let far ← deref (m.heap other).rb_left
          let m := rb_set_black far m
          let m ← __rb_rotate_right p m
          pure (erase_color_exit m.root m, cnt + 1)
    else pure (erase_color_exit node m, cnt)

/-- The label `color:` of `rb_erase`, with the number of rotations made. -/
def erase_tail_rot (fuel : Nat) (color : Color) (child parent : Option Nat) (m : Mem) :
    Except Fault (Mem × Nat) :=
  if color = RB_BLACK then __rb_erase_color_rot fuel child parent m 0 else pure (m, 0)

/-- The path of `rb_erase` for a node with at most one child, with the number of rotations
made. -/
def erase_splice_rot (fuel : Nat) (node : Nat) (child : Option Nat) (m : Mem) :
    Except Fault (Mem × Nat) :=
  let parent := rb_parent m node
  let color := rb_color m node
  let m := match child with
    | some c => rb_set_parent c parent m
    | none => m
  let m := match parent with
    | some p =>
      if (m.heap p).rb_left = some node then set_left p child m
      else set_right p child m
    | none => set_root child m
  erase_tail_rot fuel color child parent m

/-- The function `rb_erase` with the number of rotations made as a second result. -/
def rb_erase_rot (fuel : Nat) (node : Nat) (m : Mem) : Except Fault (Mem × Nat) :=
  match (m.heap node).rb_left with
  | none => erase_splice_rot fuel node (m.heap node).rb_right m
  | some _ =>
    match (m.heap node).rb_right with
    | none => erase_splice_rot fuel node (m.heap node).rb_left m
    | some r => do
      let old := node
      let node ← leftmost fuel m r
      let m := erase_relink old node m
      let child := (m.heap node).rb_right
      let parent := rb_parent m node
      let color := rb_color m node
      let (parent, m) ←
        (if parent = some old then pure (some node, m)
        else do
          let m ← erase_unlink child parent m
          let m ← erase_adopt_right old node m
          pure (parent, m))
      let m ← erase_adopt_left old node m
      erase_tail_rot fuel color child parent m

/-! ## Parent links -/

/-- The colours and the child pointers of the heap spell the tree `t`; nothing is said
about the parent references. -/
def Down (h : Nat → rb_node) : Tree → Prop
  | .nil => True
  | .node l a c r =>
    (h a).rb_color = c ∧ (h a).rb_left = l.ptr ∧ (h a).rb_right = r.ptr ∧ Down h l ∧ Down h r

/-- Parent-link consistency over the nodes `ns`: the parent reference of the root is
`NULL`, and every left or right child of a node of `ns` has that node as its parent. -/
def ParentLinks (m : Mem) (ns : List Nat) : Prop :=
  (∀ r, m.root = some r → rb_parent m r = none) ∧
  ∀ a ∈ ns, ∀ c, (m.heap a).rb_left = some c ∨ (m.heap a).rb_right = some c →
    rb_parent m c = some a

/-! ## Managed records: deletion and clearing (rbtree.h 166-240) -/

/-- What the managed-record layer does to a record besides unlinking it: the call of the
destructor `tpl_free(node)` and the call of `free(node)`. -/
inductive TplEvent
  | destroy (node : Nat)
  | free (node : Nat)
deriving DecidableEq, Repr

/-- The function `rule_tpl_delete`; `tpl_free` tells whether a destructor is given. The
third result lists the destructor and `free` calls. -/
def rule_tpl_delete (fuel : Nat) (s : Option TplMem) (id : Nat) (tpl_free : Bool) :
    Except Fault (Int × Option TplMem × List TplEvent) :=
  match s with
  | none => pure (-1, none, [])
  | some s => do
    match ← tpl_search_descend id fuel s s.mem.root with
    | some node =>
      let m ← rb_erase fuel node s.mem
      pure (0, some { s with mem := m },
        (if tpl_free then [TplEvent.destroy node] else []) ++ [TplEvent.free node])
    | none => pure (-1, some s, [])

/-- The function `rule_tpl_node_clear`: the destructor and `free` calls it makes, in
order. -/
def rule_tpl_node_clear : Nat → Mem → Option Nat → Bool → Except Fault (List TplEvent)
  | 0, _, _, _ => .error .out_of_fuel
  | fuel + 1, m, node, tpl_free =>
    match node with
    | none => pure []
    | some n => do
      let a ← rule_tpl_node_clear fuel m (m.heap n).rb_left tpl_free
      let b ← rule_tpl_node_clear fuel m (m.heap n).rb_right tpl_free
      pure (a ++ b ++ ((if tpl_free then [TplEvent.destroy n] else []) ++ [TplEvent.free n]))

/-- The function `rule_tpl_tree_clear`; the state is `none` when `root` is `NULL`. -/
def rule_tpl_tree_clear (fuel : Nat) (s : Option TplMem) (tpl_free : Bool) :
    Except Fault (Int × Option TplMem × List TplEvent) :=
  match s with
  | none => pure (-1, none, [])
  | some s => do
    let ev ← rule_tpl_node_clear fuel s.mem s.mem.root tpl_free
    pure (0, some s, ev)

/-- Post-order sequence of the node addresses: left subtree, right subtree, node. -/
def Tree.postorder : Tree → List Nat
  | .nil => []
  | .node l a _ r => l.postorder ++ r.postorder ++ [a]

/-- The calls made for a list of nodes cleared one after the other. -/
def clear_events (tpl_free : Bool) : List Nat → List TplEvent
  | [] => []
  | n :: ns =>
    (if tpl_free then [TplEvent.destroy n] else []) ++ TplEvent.free n :: clear_events tpl_free ns

/-- The nodes on which the destructor is called, in order. -/
def destroyed : List TplEvent → List Nat
  | [] => []
  | .destroy n :: es => n :: destroyed es
  | .free _ :: es => destroyed es

/-- States of the managed-record layer built from an empty root by calls of
`rule_tpl_create`, each with an allocator result that is `NULL` or a block outside the
tree, and with fuel above the height of the tree it meets. -/
inductive TplBuilt : TplMem → Prop
  | empty (s : TplMem) (h0 : s.mem.root = none) : TplBuilt s
  | create (s s2 : TplMem) (t : Tree) (fuel id size : Nat) (alloc r : Option Nat)
      (h : TplBuilt s) (hs : Shape s.mem t) (hf : t.height < fuel)
      (ha : ∀ a, alloc = some a → a ∉ t.inorder)
      (e : rule_tpl_create fuel (some s) id size alloc = .ok (r, some s2)) : TplBuilt s2

/-- State after `rule_tpl_create` of the ids 5 and 3, with the blocks at 1 and 2. -/
def tpl_demo2 : TplMem :=
  match rule_tpl_create 8 (some tpl_demo) 3 40 (some 2) with
  | .ok (_, some s) => s
  | _ => tpl_demo

/-- State after `rule_tpl_create` of the ids 5, 3 and 8, with the blocks at 1, 2 and 3. -/
def tpl_demo3 : TplMem :=
  match rule_tpl_create 8 (some tpl_demo2) 8 40 (some 3) with
  | .ok (_, some s) => s
  | _ => tpl_demo2

/-! ## Lemmas -/

@[simp] theorem bind_ok {α β : Type} (a : α) (f : α → Except Fault β) :
    (Except.ok a >>= f) = f a := rfl

@[simp] theorem bind_error {α β : Type} (e : Fault) (f : α → Except Fault β) :
    (Except.error e >>= f) = Except.error e := rfl

@[simp] theorem pure_eq_ok {α : Type} (a : α) : (pure a : Except Fault α) = Except.ok a := rfl

@[simp] theorem deref_some (a : Nat) : deref (some a) = Except.ok a := rfl

@[simp] theorem ptr_nil : Tree.nil.ptr = none := rfl
@[simp] theorem ptr_node (l : Tree) (a : Nat) (c : Color) (r : Tree) :
    (Tree.node l a c r).ptr = some a := rfl
@[simp] theorem color_nil : Tree.nil.color = RB_BLACK := rfl
@[simp] theorem color_node (l : Tree) (a : Nat) (c : Color) (r : Tree) :
    (Tree.node l a c r).color = c := rfl
@[simp] theorem ctxParent_nil : ctxParent [] = none := rfl
@[simp] theorem ctxParent_cons (f : Frame) (fs : List Frame) :
    ctxParent (f :: fs) = some f.addr := rfl
@[simp] theorem addr_left (a : Nat) (c : Color) (r : Tree) : (Frame.left a c r).addr = a := rfl
@[simp] theorem addr_right (l : Tree) (a : Nat) (c : Color) : (Frame.right l a c).addr = a := rfl
@[simp] theorem fill_left (a : Nat) (c : Color) (r t : Tree) :
    (Frame.left a c r).fill t = Tree.node t a c r := rfl
@[simp] theorem fill_right (l : Tree) (a : Nat) (c : Color) (t : Tree) :
    (Frame.right l a c).fill t = Tree.node l a c t := rfl
@[simp] theorem plug_nil (t : Tree) : plug [] t = t := rfl
@[simp] theorem plug_cons (f : Frame) (fs : List Frame) (t : Tree) :
    plug (f :: fs) t = plug fs (f.fill t) := rfl

theorem inorder_plug (fs : List Frame) (t : Tree) :
    (plug fs t).inorder = ctxBefore fs ++ t.inorder ++ ctxAfter fs := by
  induction fs generalizing t with
  | nil => simp [ctxBefore, ctxAfter]
  | cons f fs ih =>
    cases f <;> simp [ih, Tree.inorder, ctxBefore, ctxAfter]

theorem rep_frame {h h2 : Nat → rb_node} {t : Tree} {p : Option Nat}
    (hf : ∀ x ∈ t.inorder, h2 x = h x) (hr : Rep h t p) : Rep h2 t p := by
  induction t generalizing p with
  | nil => trivial
  | node l a c r ihl ihr =>
    simp only [Tree.inorder, List.mem_append, List.mem_cons] at hf
    obtain ⟨h1, h2l, h2r⟩ := hr
    refine ⟨?_, ihl (fun x hx => hf x (Or.inl hx)) h2l, ihr (fun x hx => hf x (Or.inr (Or.inr hx))) h2r⟩
    rw [hf a (Or.inr (Or.inl rfl))]; exact h1

theorem rep_plug (h : Nat → rb_node) (root : Option Nat) (fs : List Frame) (t : Tree) :
    (root = (plug fs t).ptr ∧ Rep h (plug fs t) none) ↔
      (RepCtx h root fs t.ptr ∧ Rep h t (ctxParent fs)) := by
  induction fs generalizing t with
  | nil => simp [RepCtx]
  | cons f fs ih =>
    cases f <;> simp [ih, RepCtx, Rep] <;> tauto

theorem rep_update {h : Nat → rb_node} {t : Tree} {p : Option Nat} {x : Nat} {n : rb_node}
    (hx : x ∉ t.inorder) : Rep (Function.update h x n) t p ↔ Rep h t p := by
  constructor
  · intro hr
    refine rep_frame (fun z hz => ?_) hr
    have : z ≠ x := fun e => hx (e ▸ hz)
    simp [Function.update_noteq this]
  · intro hr
    refine rep_frame (fun z hz => ?_) hr
    have : z ≠ x := fun e => hx (e ▸ hz)
    simp [Function.update_noteq this]

theorem repctx_update {h : Nat → rb_node} {root : Option Nat} {fs : List Frame}
    {hole : Option Nat} {x : Nat} {n : rb_node}
    (hx1 : x ∉ ctxBefore fs) (hx2 : x ∉ ctxAfter fs) :
    RepCtx (Function.update h x n) root fs hole ↔ RepCtx h root fs hole := by
  induction fs generalizing hole with
  | nil => simp [RepCtx]
  | cons f fs ih =>
    cases f with
    | left a c r =>
      simp only [ctxBefore, ctxAfter, List.mem_append, List.mem_cons, not_or] at hx1 hx2
      have hne : a ≠ x := fun e => hx2.1.1 e.symm
      simp [RepCtx, Function.update_noteq hne, rep_update hx2.1.2, ih hx1 hx2.2]
    | right l a c =>
      simp only [ctxBefore, ctxAfter, List.mem_append, List.mem_cons, not_or, List.mem_singleton] at hx1 hx2
      have hne : a ≠ x := fun e => hx1.2.2.1 e.symm
      simp [RepCtx, Function.update_noteq hne, rep_update hx1.2.1, ih hx1.1 hx2]

@[simp] theorem heap_write_same (m : Mem) (a : Nat) (n : rb_node) : (m.write a n).heap a = n := by
  simp [Mem.write]

theorem heap_write_ne (m : Mem) {a b : Nat} (n : rb_node) (h : b ≠ a) :
    (m.write a n).heap b = m.heap b := by
  simp [Mem.write, Function.update_noteq h]

@[simp] theorem root_write (m : Mem) (a : Nat) (n : rb_node) : (m.write a n).root = m.root := rfl

@[simp] theorem heap_set_root (m : Mem) (v : Option Nat) : (set_root v m).heap = m.heap := rfl

@[simp] theorem root_set_root (m : Mem) (v : Option Nat) : (set_root v m).root = v := rfl

theorem rep_of_agree {h h2 : Nat → rb_node} {t : Tree} {p : Option Nat} (S : List Nat)
    (hag : ∀ z, z ∉ S → h2 z = h z) (hdis : ∀ z ∈ S, z ∉ t.inorder) (hr : Rep h t p) :
    Rep h2 t p :=
  rep_frame (fun z hz => hag z (fun hzS => hdis z hzS hz)) hr

theorem repctx_frame {h h2 : Nat → rb_node} {root : Option Nat} {fs : List Frame}
    {hole : Option Nat}
    (hf : ∀ x, x ∈ ctxBefore fs ∨ x ∈ ctxAfter fs → h2 x = h x) (hr : RepCtx h root fs hole) :
    RepCtx h2 root fs hole := by
  induction fs generalizing hole with
  | nil => simpa [RepCtx] using hr
  | cons f fs ih =>
    cases f with
    | left a c r =>
      simp only [ctxBefore, ctxAfter, List.mem_append, List.mem_cons] at hf
      obtain ⟨h1, h2l, h3⟩ := hr
      refine ⟨?_, rep_frame (fun z hz => hf z (Or.inr (Or.inl (Or.inr hz)))) h2l,
        ih (fun z hz => hf z (hz.elim Or.inl (fun q => Or.inr (Or.inr q)))) h3⟩
      rw [hf a (Or.inr (Or.inl (Or.inl rfl)))]; exact h1
    | right l a c =>
      simp only [ctxBefore, ctxAfter, List.mem_append, List.mem_cons, List.mem_singleton,
        List.not_mem_nil, or_false] at hf
      obtain ⟨h1, h2l, h3⟩ := hr
      refine ⟨?_, rep_frame (fun z hz => hf z (Or.inl (Or.inr (Or.inl hz)))) h2l,
        ih (fun z hz => hf z (hz.elim (fun q => Or.inl (Or.inl q)) Or.inr)) h3⟩
      rw [hf a (Or.inl (Or.inr (Or.inr rfl)))]; exact h1

theorem repctx_of_agree {h h2 : Nat → rb_node} {root : Option Nat} {fs : List Frame}
    {hole : Option Nat} (S : List Nat)
    (hag : ∀ z, z ∉ S → h2 z = h z) (hdis : ∀ z ∈ S, z ∉ ctxBefore fs ∧ z ∉ ctxAfter fs)
    (hr : RepCtx h root fs hole) : RepCtx h2 root fs hole :=
  repctx_frame (fun z hz => hag z (fun hzS => hz.elim (hdis z hzS).1 (hdis z hzS).2)) hr

theorem rep_write {m : Mem} {t : Tree} {p : Option Nat} {x : Nat} {n : rb_node}
    (hx : x ∉ t.inorder) : Rep (m.write x n).heap t p ↔ Rep m.heap t p :=
  rep_update hx

theorem repctx_write {m : Mem} {root : Option Nat} {fs : List Frame}
    {hole : Option Nat} {x : Nat} {n : rb_node}
    (hx1 : x ∉ ctxBefore fs) (hx2 : x ∉ ctxAfter fs) :
    RepCtx (m.write x n).heap root fs hole ↔ RepCtx m.heap root fs hole :=
  repctx_update hx1 hx2

theorem ptr_mem {t : Tree} {x : Nat} (h : t.ptr = some x) : x ∈ t.inorder := by
  cases t <;> simp_all [Tree.inorder]

theorem ptr_ne {t : Tree} {x : Nat} (h : x ∉ t.inorder) : ¬ t.ptr = some x :=
  fun e => h (ptr_mem e)

theorem ptr_ne2 {t : Tree} {x : Nat} (h : x ∉ t.inorder) : ¬ some x = t.ptr :=
  fun e => h (ptr_mem e.symm)

theorem rotate_left_shape {m : Mem} (fs : List Frame) {a b c : Tree} {x y : Nat} {cx cy : Color}
    (hs : Shape m (plug fs (.node a x cx (.node b y cy c)))) :
    ∃ m2, __rb_rotate_left x m = .ok m2 ∧
      Shape m2 (plug fs (.node (.node a x cx b) y cy c)) := by
  obtain ⟨hroot, hrep, hnd⟩ := hs
  obtain ⟨hctx, hx, ha, hy, hb, hc⟩ := (rep_plug _ _ _ _).1 ⟨hroot, hrep⟩
  have hnd2 : (plug fs (.node (.node a x cx b) y cy c)).inorder.Nodup := by
    simpa [inorder_plug, Tree.inorder] using hnd
  simp only [Shape, and_comm (b := List.Nodup _)]
  simp only [hnd2, true_and, rep_plug]
  clear hnd2 hroot hrep
  rcases b with _ | ⟨bl, bx, bc, br⟩ <;> rcases fs with _ | ⟨⟨p, pc, pr⟩ | ⟨pl, p, pc⟩, fs⟩
  all_goals
    simp [inorder_plug, Tree.inorder, ctxBefore, ctxAfter, List.nodup_append, List.nodup_cons] at hnd
    simp only [RepCtx, Rep, ptr_node, ptr_nil, ctxParent_nil, ctxParent_cons, addr_left, addr_right] at hctx hx hy hb ⊢
    simp (disch := omega) [__rb_rotate_left, hx, hy, hb, hctx, set_right, set_left, rb_set_parent, rb_parent, heap_write_ne]
    simp [hnd, hctx, ha, hb, hc, rep_write, repctx_write, ptr_ne, ptr_ne2]
    try simp (disch := omega) [hx, hy, hb, hctx, heap_write_ne]

theorem rotate_right_shape {m : Mem} (fs : List Frame) {a b c : Tree} {x y : Nat} {cx cy : Color}
    (hs : Shape m (plug fs (.node (.node a x cx b) y cy c))) :
    ∃ m2, __rb_rotate_right y m = .ok m2 ∧
      Shape m2 (plug fs (.node a x cx (.node b y cy c))) := by
  obtain ⟨hroot, hrep, hnd⟩ := hs
  obtain ⟨hctx, hy, ⟨hx, ha, hb⟩, hc⟩ := (rep_plug _ _ _ _).1 ⟨hroot, hrep⟩
  have hnd2 : (plug fs (.node a x cx (.node b y cy c))).inorder.Nodup := by
    simpa [inorder_plug, Tree.inorder] using hnd
  simp only [Shape, and_comm (b := List.Nodup _)]
  simp only [hnd2, true_and, rep_plug]
  clear hnd2 hroot hrep
  rcases b with _ | ⟨bl, bx, bc, br⟩ <;> rcases fs with _ | ⟨⟨p, pc, pr⟩ | ⟨pl, p, pc⟩, fs⟩
  all_goals
    simp [inorder_plug, Tree.inorder, ctxBefore, ctxAfter, List.nodup_append, List.nodup_cons] at hnd
    simp only [RepCtx, Rep, ptr_node, ptr_nil, ctxParent_nil, ctxParent_cons, addr_left, addr_right] at hctx hx hy hb ⊢
    simp (disch := omega) [__rb_rotate_right, hx, hy, hb, hctx, set_right, set_left, rb_set_parent, rb_parent, heap_write_ne]
    simp [hnd, hctx, ha, hb, hc, rep_write, repctx_write, ptr_ne, ptr_ne2]
    try simp (disch := omega) [hx, hy, hb, hctx, heap_write_ne]

theorem heap_focus {m : Mem} (fs : List Frame) {l r : Tree} {x : Nat} {c : Color}
    (hs : Shape m (plug fs (.node l x c r))) :
    m.heap x = ⟨ctxParent fs, c, r.ptr, l.ptr⟩ :=
  ((rep_plug _ _ _ _).1 ⟨hs.1, hs.2.1⟩).2.1

theorem set_color_shape {m : Mem} (fs : List Frame) {l r : Tree} {x : Nat} {c : Color} (c2 : Color)
    (hs : Shape m (plug fs (.node l x c r))) :
    Shape (rb_set_color x c2 m) (plug fs (.node l x c2 r)) := by
  obtain ⟨hroot, hrep, hnd⟩ := hs
  obtain ⟨hctx, hx, hl, hr⟩ := (rep_plug _ _ _ _).1 ⟨hroot, hrep⟩
  have hnd2 : (plug fs (.node l x c2 r)).inorder.Nodup := by
    simpa [inorder_plug, Tree.inorder] using hnd
  simp only [Shape, and_comm (b := List.Nodup _)]
  simp only [hnd2, true_and, rep_plug]
  simp [inorder_plug, Tree.inorder, List.nodup_append, List.nodup_cons] at hnd
  simp only [ptr_node] at hctx
  simp [Rep, rb_set_color, hx, hnd, hl, hr, hctx, rep_write, repctx_write]

theorem set_black_shape {m : Mem} (fs : List Frame) {l r : Tree} {x : Nat} {c : Color}
    (hs : Shape m (plug fs (.node l x c r))) :
    Shape (rb_set_black x m) (plug fs (.node l x RB_BLACK r)) :=
  set_color_shape fs RB_BLACK hs

theorem set_red_shape {m : Mem} (fs : List Frame) {l r : Tree} {x : Nat} {c : Color}
    (hs : Shape m (plug fs (.node l x c r))) :
    Shape (rb_set_red x m) (plug fs (.node l x RB_RED r)) :=
  set_color_shape fs RB_RED hs

@[simp] theorem sib_left (a : Nat) (c : Color) (r : Tree) : (Frame.left a c r).sib = r := rfl
@[simp] theorem sib_right (l : Tree) (a : Nat) (c : Color) : (Frame.right l a c).sib = l := rfl
@[simp] theorem fcolor_left (a : Nat) (c : Color) (r : Tree) : (Frame.left a c r).color = c := rfl
@[simp] theorem fcolor_right (l : Tree) (a : Nat) (c : Color) : (Frame.right l a c).color = c := rfl
@[simp] theorem needsBlack_nil : needsBlack [] = True := rfl
@[simp] theorem needsBlack_cons (f : Frame) (fs : List Frame) :
    needsBlack (f :: fs) = (f.color = RB_RED) := rfl

theorem color_cases (c : Color) : c = RB_RED ∨ c = RB_BLACK := by
  cases c <;> simp

@[simp] theorem not_red_iff (c : Color) : ¬ c = RB_RED ↔ c = RB_BLACK := by
  cases c <;> simp

@[simp] theorem not_black_iff (c : Color) : ¬ c = RB_BLACK ↔ c = RB_RED := by
  cases c <;> simp

/-- Filling the hole of a good path with a good subtree gives a red-black tree. -/
theorem ctx_fill {fs : List Frame} {t : Tree} {n : Nat} (hc : CtxInv fs n) (hbh : t.bh = n)
    (h3 : NoRedRed t) (h4 : BlackUniform t) (hcol : needsBlack fs → t.color = RB_BLACK) :
    NoRedRed (plug fs t) ∧ BlackUniform (plug fs t) ∧ (plug fs t).color = RB_BLACK := by
  induction fs generalizing t n with
  | nil => exact ⟨h3, h4, hcol trivial⟩
  | cons f fs ih =>
    obtain ⟨s1, s2, s3, s4, s5⟩ := hc
    rcases f with ⟨a, c, r⟩ | ⟨l, a, c⟩
    · simp only [sib_left, fcolor_left, needsBlack_cons] at *
      refine ih s5 ?_ ?_ ?_ ?_
      · simp [Tree.bh, hbh]
      · exact ⟨fun hc => ⟨hcol hc, (s4 hc).1⟩, h3, s2⟩
      · exact ⟨by rw [hbh, s1], h4, s3⟩
      · intro hnb
        rcases color_cases c with hc | hc
        · exact absurd hnb (s4 hc).2
        · simpa using hc
    · simp only [sib_right, fcolor_right, needsBlack_cons] at *
      refine ih s5 ?_ ?_ ?_ ?_
      · simp [Tree.bh, s1]
      · exact ⟨fun hc => ⟨(s4 hc).1, hcol hc⟩, s2, h3⟩
      · exact ⟨by rw [hbh, s1], s3, h4⟩
      · intro hnb
        rcases color_cases c with hc | hc
        · exact absurd hnb (s4 hc).2
        · simpa using hc

/-- A subtree of a red-black tree and the path around it satisfy the path conditions. -/
theorem ctx_split {fs : List Frame} {t : Tree}
    (h3 : NoRedRed (plug fs t)) (h4 : BlackUniform (plug fs t))
    (h5 : (plug fs t).color = RB_BLACK) :
    CtxInv fs t.bh ∧ NoRedRed t ∧ BlackUniform t ∧ (needsBlack fs → t.color = RB_BLACK) := by
  induction fs generalizing t with
  | nil => exact ⟨trivial, h3, h4, fun _ => h5⟩
  | cons f fs ih =>
    rcases f with ⟨a, c, r⟩ | ⟨l, a, c⟩
    · obtain ⟨i1, ⟨j1, j2, j3⟩, ⟨k1, k2, k3⟩, i4⟩ := ih h3 h4 h5
      simp only [fill_left, color_node, Tree.bh] at i1 i4
      refine ⟨⟨k1.symm, j3, k3, fun hc => ⟨(j1 hc).2, fun hnb => ?_⟩, i1⟩, j2, k2, fun hc => (j1 hc).1⟩
      have := i4 hnb
      simp only [fcolor_left] at hc
      rw [hc] at this; cases this
    · obtain ⟨i1, ⟨j1, j2, j3⟩, ⟨k1, k2, k3⟩, i4⟩ := ih h3 h4 h5
      simp only [fill_right, color_node, Tree.bh] at i1 i4
      refine ⟨⟨k1, j2, k2, fun hc => ⟨(j1 hc).1, fun hnb => ?_⟩, by rw [← k1]; exact i1⟩, j3, k3, fun hc => (j1 hc).2⟩
      have := i4 hnb
      simp only [fcolor_right] at hc
      rw [hc] at this; cases this

@[simp] theorem filter_some_eq {α : Type} (p : α → Bool) (a : α) :
    Option.filter p (some a) = if p a then some a else none := rfl

@[simp] theorem filter_none_eq {α : Type} (p : α → Bool) :
    Option.filter p (none : Option α) = none := rfl

theorem plug_cons_node (f : Frame) (fs : List Frame) (t : Tree) :
    ∃ L a c R, plug (f :: fs) t = .node L a c R := by
  induction fs generalizing f t with
  | nil => cases f <;> simp
  | cons g fs ih => exact ih g (f.fill t)

theorem set_black_root {m : Mem} {T : Tree} {a : Nat} (hs : Shape m T) (hc : T.color = RB_BLACK)
    (hp : T.ptr = some a) : Shape (rb_set_black a m) T := by
  cases T with
  | nil => simp at hp
  | node L b c R =>
    simp only [ptr_node, Option.some.injEq, color_node] at hp hc
    subst hp hc
    exact set_black_shape [] hs

theorem filter_red_focus {m : Mem} (fs : List Frame) {t : Tree} (hs : Shape m (plug fs t)) :
    Option.filter (fun u => rb_is_red m u) t.ptr = if t.color = RB_RED then t.ptr else none := by
  cases t with
  | nil => simp
  | node l a c r => simp [rb_is_red, rb_color, heap_focus fs hs]

theorem insert_color_ok (fuel : Nat) : ∀ (fs : List Frame) (l r : Tree) (x : Nat) (m : Mem) (n : Nat),
    Shape m (plug fs (.node l x RB_RED r)) → fs.length < fuel → CtxInv fs n →
    l.bh = n → r.bh = n → NoRedRed l → NoRedRed r → BlackUniform l → BlackUniform r →
    l.color = RB_BLACK → r.color = RB_BLACK →
    ∃ m2 t2, rb_insert_color fuel x m = .ok m2 ∧ Shape m2 t2 ∧
      t2.inorder = (plug fs (.node l x RB_RED r)).inorder ∧
      NoRedRed t2 ∧ BlackUniform t2 ∧ t2.color = RB_BLACK := by
  induction fuel with
  | zero => intro fs l r x m n _ hlen; simp at hlen
  | succ fuel ih =>
    intro fs l r x m n hs hlen hctx hbl hbr h3l h3r h4l h4r hcl hcr
    have hx := heap_focus fs hs
    rcases fs with _ | ⟨f, fs1⟩
    · -- the node is the root
      have hroot := hs.1
      simp only [plug_nil, ptr_node, ctxParent_nil] at hroot hx
      refine ⟨rb_set_black x m, .node l x RB_BLACK r, ?_, set_black_shape [] hs, ?_⟩
      · simp [rb_insert_color, rb_parent, hx, hroot]
      · simp [Tree.inorder, NoRedRed, BlackUniform, *]
    · rcases color_cases f.color with hfc | hfc
      · -- the parent is red, so it has a black parent
        obtain ⟨s1, s2, s3, s4, s5⟩ := hctx
        obtain ⟨hsc, hnb⟩ := s4 hfc
        rcases fs1 with _ | ⟨g, fs2⟩
        · exact absurd trivial hnb
        · have hgc : g.color = RB_BLACK := by simpa using hnb
          rw [hfc] at s5
          obtain ⟨u1, u2, u3, -, u5⟩ := s5
          rw [hgc] at u5
          have hnd := hs.2.2
          simp only [List.length_cons] at hlen
          rcases f with ⟨p, pc, s⟩ | ⟨s, p, pc⟩ <;> rcases g with ⟨g, gc, u⟩ | ⟨u, g, gc⟩
          · simp only [fcolor_left, sib_left, addr_left, if_true, if_false, reduceCtorEq, add_zero] at *
            subst hfc hgc
            have hp := heap_focus (.left g RB_BLACK u :: fs2) hs
            have hg := heap_focus fs2 hs
            have hf := filter_red_focus (.right (.node (.node l x RB_RED r) p RB_RED s) g RB_BLACK :: fs2) hs
            simp only [ctxParent_cons, addr_left, fill_left, ptr_node] at hp hg
            have hpr : rb_is_red m p = true := by simp [rb_is_red, rb_color, hp]
            simp [inorder_plug, Tree.inorder, ctxBefore, ctxAfter, List.nodup_append, List.nodup_cons] at hnd
            rcases color_cases u.color with huc | huc
            · -- red uncle: recolour and continue from the grandparent
              rcases u with _ | ⟨ul, ua, uc, ur⟩
              · simp at huc
              · simp only [color_node] at huc
                subst huc
                have t1 := set_black_shape
                  (.right (.node (.node l x RB_RED r) p RB_RED s) g RB_BLACK :: fs2) hs
                have t2 := set_black_shape (.left g RB_BLACK (.node ul ua RB_BLACK ur) :: fs2) t1
                have t3 := set_red_shape fs2 t2
                simp only [Tree.bh, NoRedRed, BlackUniform, reduceCtorEq, if_false, add_zero,
                  color_node] at u1 u2 u3
                have hur : rb_is_red m ua = true := by
                  simp [rb_is_red, rb_color, heap_focus
                    (.right (.node (.node l x RB_RED r) p RB_RED s) g RB_BLACK :: fs2) hs]
                obtain ⟨m2, t2, e, hs2, hin, r1, r2, r3⟩ := ih fs2
                  (.node (.node l x RB_RED r) p RB_BLACK s) (.node ul ua RB_BLACK ur) g _ (n + 1) t3
                  (by omega) u5
                  (by simp [Tree.bh, hbl]) (by simp [Tree.bh, u1])
                  (by simp [NoRedRed, *]) (by simp [NoRedRed, *])
                  (by simp [BlackUniform, Tree.bh, *]) (by simp [BlackUniform, Tree.bh, *]) rfl rfl
                refine ⟨m2, t2, ?_, hs2, ?_, r1, r2, r3⟩
                · simpa [rb_insert_color, rb_parent, hx, hp, hg, hur, hpr] using e
                · simp [hin, inorder_plug, Tree.inorder]
            · -- black uncle, outer grandchild: rotate at the grandparent
              have t1 := set_black_shape (.left g RB_BLACK u :: fs2) hs
              have t2 := set_red_shape fs2 t1
              obtain ⟨m3, e3, t3⟩ := rotate_right_shape fs2 t2
              obtain ⟨m2, t2, e, hs2, hin, r1, r2, r3⟩ := ih
                (.left p RB_BLACK (.node s g RB_RED u) :: fs2) l r x m3 n t3
                (by simp; omega)
                (by simp [CtxInv, Tree.bh, NoRedRed, BlackUniform, *])
                hbl hbr h3l h3r h4l h4r hcl hcr
              refine ⟨m2, t2, ?_, hs2, ?_, r1, r2, r3⟩
              · simp [rb_insert_color, rb_parent, hx, hp, hg, hf, hpr, huc, hnd, ptr_ne, e3, e]
              · simp [hin, inorder_plug, Tree.inorder, ctxBefore, ctxAfter]
          · simp only [fcolor_left, fcolor_right, sib_left, sib_right, addr_left, addr_right, if_true, if_false,
              reduceCtorEq, add_zero] at *
            subst hfc hgc
            have hp := heap_focus (.right u g RB_BLACK :: fs2) hs
            have hg := heap_focus fs2 hs
            have hf := filter_red_focus (.left g RB_BLACK (.node (.node l x RB_RED r) p RB_RED s) :: fs2) hs
            simp only [ctxParent_cons, addr_left, addr_right, fill_left, fill_right, ptr_node] at hp hg hx
            have hpr : rb_is_red m p = true := by simp [rb_is_red, rb_color, hp]
            simp [inorder_plug, Tree.inorder, ctxBefore, ctxAfter, List.nodup_append, List.nodup_cons] at hnd
            rcases color_cases u.color with huc | huc
            · rcases u with _ | ⟨ul, ua, uc, ur⟩
              · simp at huc
              · simp only [color_node] at huc
                subst huc
                have t1 := set_black_shape
                  (.left g RB_BLACK (.node (.node l x RB_RED r) p RB_RED s) :: fs2) hs
                have t2 := set_black_shape (.right (.node ul ua RB_BLACK ur) g RB_BLACK :: fs2) t1
                have t3 := set_red_shape fs2 t2
                simp only [Tree.bh, NoRedRed, BlackUniform, reduceCtorEq, if_false, add_zero,
                  color_node] at u1 u2 u3
                have hur : rb_is_red m ua = true := by
                  simp [rb_is_red, rb_color, heap_focus
                    (.left g RB_BLACK (.node (.node l x RB_RED r) p RB_RED s) :: fs2) hs]
                obtain ⟨m2, t2, e, hs2, hin, r1, r2, r3⟩ := ih fs2
                  (.node ul ua RB_BLACK ur) (.node (.node l x RB_RED r) p RB_BLACK s) g _ (n + 1) t3
                  (by omega) u5
                  (by simp [Tree.bh, u1]) (by simp [Tree.bh, hbl])
                  (by simp [NoRedRed, *]) (by simp [NoRedRed, *])
                  (by simp [BlackUniform, Tree.bh, *]) (by simp [BlackUniform, Tree.bh, *]) rfl rfl
                refine ⟨m2, t2, ?_, hs2, ?_, r1, r2, r3⟩
                · simp [Tree.inorder] at hnd
                  simpa [rb_insert_color, rb_parent, hx, hp, hg, hur, hpr, hnd] using e
                · simp [hin, inorder_plug, Tree.inorder]
            · obtain ⟨m1, e1, t1⟩ := rotate_right_shape (.right u g RB_BLACK :: fs2) hs
              have t2 := set_black_shape (.right u g RB_BLACK :: fs2) t1
              have t3 := set_red_shape fs2 t2
              obtain ⟨m4, e4, t4⟩ := rotate_left_shape fs2 t3
              obtain ⟨m2, t2, e, hs2, hin, r1, r2, r3⟩ := ih
                (.right (.node u g RB_RED l) x RB_BLACK :: fs2) r s p m4 n t4
                (by simp; omega)
                (by simp [CtxInv, Tree.bh, NoRedRed, BlackUniform, *])
                hbr s1 h3r s2 h4r s3 hcr hsc
              refine ⟨m2, t2, ?_, hs2, ?_, r1, r2, r3⟩
              · simp [rb_insert_color, rb_parent, hx, hp, hg, hf, hpr, huc, hnd, ptr_ne, ptr_ne2, e1, e4, e]
              · simp [hin, inorder_plug, Tree.inorder, ctxBefore, ctxAfter]
          · simp only [fcolor_left, fcolor_right, sib_left, sib_right, addr_left, addr_right, if_true, if_false,
              reduceCtorEq, add_zero] at *
            subst hfc hgc
            have hp := heap_focus (.left g RB_BLACK u :: fs2) hs
            have hg := heap_focus fs2 hs
            have hf := filter_red_focus (.right (.node s p RB_RED (.node l x RB_RED r)) g RB_BLACK :: fs2) hs
            simp only [ctxParent_cons, addr_left, addr_right, fill_left, fill_right, ptr_node] at hp hg hx
            have hpr : rb_is_red m p = true := by simp [rb_is_red, rb_color, hp]
            simp [inorder_plug, Tree.inorder, ctxBefore, ctxAfter, List.nodup_append, List.nodup_cons] at hnd
            rcases color_cases u.color with huc | huc
            · rcases u with _ | ⟨ul, ua, uc, ur⟩
              · simp at huc
              · simp only [color_node] at huc
                subst huc
                have t1 := set_black_shape
                  (.right (.node s p RB_RED (.node l x RB_RED r)) g RB_BLACK :: fs2) hs
                have t2 := set_black_shape (.left g RB_BLACK (.node ul ua RB_BLACK ur) :: fs2) t1
                have t3 := set_red_shape fs2 t2
                simp only [Tree.bh, NoRedRed, BlackUniform, reduceCtorEq, if_false, add_zero,
                  color_node] at u1 u2 u3
                have hur : rb_is_red m ua = true := by
                  simp [rb_is_red, rb_color, heap_focus
                    (.right (.node s p RB_RED (.node l x RB_RED r)) g RB_BLACK :: fs2) hs]
                obtain ⟨m2, t2, e, hs2, hin, r1, r2, r3⟩ := ih fs2
                  (.node s p RB_BLACK (.node l x RB_RED r)) (.node ul ua RB_BLACK ur) g _ (n + 1) t3
                  (by omega) u5
                  (by simp [Tree.bh, s1]) (by simp [Tree.bh, u1])
                  (by simp [NoRedRed, *]) (by simp [NoRedRed, *])
                  (by simp [BlackUniform, Tree.bh, *]) (by simp [BlackUniform, Tree.bh, *]) rfl rfl
                refine ⟨m2, t2, ?_, hs2, ?_, r1, r2, r3⟩
                · simpa [rb_insert_color, rb_parent, hx, hp, hg, hur, hpr] using e
                · simp [hin, inorder_plug, Tree.inorder]
            · obtain ⟨m1, e1, t1⟩ := rotate_left_shape (.left g RB_BLACK u :: fs2) hs
              have t2 := set_black_shape (.left g RB_BLACK u :: fs2) t1
              have t3 := set_red_shape fs2 t2
              obtain ⟨m4, e4, t4⟩ := rotate_right_shape fs2 t3
              obtain ⟨m2, t2, e, hs2, hin, r1, r2, r3⟩ := ih
                (.left x RB_BLACK (.node r g RB_RED u) :: fs2) s l p m4 n t4
                (by simp; omega)
                (by simp [CtxInv, Tree.bh, NoRedRed, BlackUniform, *])
                s1 hbl s2 h3l s3 h4l hsc hcl
              refine ⟨m2, t2, ?_, hs2, ?_, r1, r2, r3⟩
              · simp [rb_insert_color, rb_parent, hx, hp, hg, hf, hpr, huc, hnd, ptr_ne, e1, e4, e]
              · simp [hin, inorder_plug, Tree.inorder, ctxBefore, ctxAfter]
          · simp only [fcolor_left, fcolor_right, sib_left, sib_right, addr_left, addr_right, if_true, if_false,
              reduceCtorEq, add_zero] at *
            subst hfc hgc
            have hp := heap_focus (.right u g RB_BLACK :: fs2) hs
            have hg := heap_focus fs2 hs
            have hf := filter_red_focus (.left g RB_BLACK (.node s p RB_RED (.node l x RB_RED r)) :: fs2) hs
            simp only [ctxParent_cons, addr_left, addr_right, fill_left, fill_right, ptr_node] at hp hg hx
            have hpr : rb_is_red m p = true := by simp [rb_is_red, rb_color, hp]
            simp [inorder_plug, Tree.inorder, ctxBefore, ctxAfter, List.nodup_append, List.nodup_cons] at hnd
            rcases color_cases u.color with huc | huc
            · rcases u with _ | ⟨ul, ua, uc, ur⟩
              · simp at huc
              · simp only [color_node] at huc
                subst huc
                have t1 := set_black_shape
                  (.left g RB_BLACK (.node s p RB_RED (.node l x RB_RED r)) :: fs2) hs
                have t2 := set_black_shape (.right (.node ul ua RB_BLACK ur) g RB_BLACK :: fs2) t1
                have t3 := set_red_shape fs2 t2
                simp only [Tree.bh, NoRedRed, BlackUniform, reduceCtorEq, if_false, add_zero,
                  color_node] at u1 u2 u3
                have hur : rb_is_red m ua = true := by
                  simp [rb_is_red, rb_color, heap_focus
                    (.left g RB_BLACK (.node s p RB_RED (.node l x RB_RED r)) :: fs2) hs]
                obtain ⟨m2, t2, e, hs2, hin, r1, r2, r3⟩ := ih fs2
                  (.node ul ua RB_BLACK ur) (.node s p RB_BLACK (.node l x RB_RED r)) g _ (n + 1) t3
                  (by omega) u5
                  (by simp [Tree.bh, u1]) (by simp [Tree.bh, s1])
                  (by simp [NoRedRed, *]) (by simp [NoRedRed, *])
                  (by simp [BlackUniform, Tree.bh, *]) (by simp [BlackUniform, Tree.bh, *]) rfl rfl
                refine ⟨m2, t2, ?_, hs2, ?_, r1, r2, r3⟩
                · simp [Tree.inorder] at hnd
                  simpa [rb_insert_color, rb_parent, hx, hp, hg, hur, hpr, hnd] using e
                · simp [hin, inorder_plug, Tree.inorder]
            · have t1 := set_black_shape (.right u g RB_BLACK :: fs2) hs
              have t2 := set_red_shape fs2 t1
              obtain ⟨m3, e3, t3⟩ := rotate_left_shape fs2 t2
              obtain ⟨m2, t2, e, hs2, hin, r1, r2, r3⟩ := ih
                (.right (.node u g RB_RED s) p RB_BLACK :: fs2) l r x m3 n t3
                (by simp; omega)
                (by simp [CtxInv, Tree.bh, NoRedRed, BlackUniform, *])
                hbl hbr h3l h3r h4l h4r hcl hcr
              refine ⟨m2, t2, ?_, hs2, ?_, r1, r2, r3⟩
              · simp [rb_insert_color, rb_parent, hx, hp, hg, hf, hpr, huc, hnd, ptr_ne, ptr_ne2, e3, e]
              · simp [hin, inorder_plug, Tree.inorder, ctxBefore, ctxAfter]
      · -- the parent is black
        obtain ⟨L, a, c, R, hT⟩ := plug_cons_node f fs1 (.node l x RB_RED r)
        have hfill := ctx_fill (t := .node l x RB_RED r) hctx (by simp [Tree.bh, hbl])
          (by simp [NoRedRed, *]) (by simp [BlackUniform, *]) (by simp [hfc])
        have hroot := hs.1
        have hp : (m.heap f.addr).rb_color = RB_BLACK := by
          rcases f with ⟨p, pc, s⟩ | ⟨s, p, pc⟩
          · simp [heap_focus fs1 hs] at hfc ⊢; exact hfc
          · simp [heap_focus fs1 hs] at hfc ⊢; exact hfc
        rw [hT] at hroot hfill hs ⊢
        simp only [ptr_node, ctxParent_cons] at hroot hx
        refine ⟨rb_set_black a m, .node L a c R, ?_, set_black_root hs hfill.2.2 rfl, rfl, hfill⟩
        simp [rb_insert_color, rb_parent, rb_is_red, rb_color, hx, hp, hroot]

@[simp] theorem ctxSide_nil : ctxSide [] = true := rfl
@[simp] theorem ctxSide_left (a : Nat) (c : Color) (r : Tree) (fs : List Frame) :
    ctxSide (.left a c r :: fs) = true := rfl
@[simp] theorem ctxSide_right (l : Tree) (a : Nat) (c : Color) (fs : List Frame) :
    ctxSide (.right l a c :: fs) = false := rfl

theorem bst_iff_sorted {K : Type} [LinearOrder K] (keyOf : Nat → K) (t : Tree) :
    BST keyOf t ↔ KeySorted keyOf t.inorder := by
  induction t with
  | nil => simp [BST, KeySorted, Tree.inorder]
  | node l a c r ihl ihr =>
    simp only [BST, KeySorted, Tree.inorder, List.pairwise_append, List.pairwise_cons,
      List.mem_cons] at *
    rw [ihl, ihr]
    constructor
    · rintro ⟨h1, h2, h3, h4⟩
      refine ⟨h3, ⟨h2, h4⟩, ?_⟩
      rintro x hx y (rfl | hy)
      · exact h1 x hx
      · exact lt_trans (h1 x hx) (h2 y hy)
    · rintro ⟨h1, ⟨h2, h3⟩, h4⟩
      exact ⟨fun x hx => h4 x hx a (Or.inl rfl), h2, h1, h3⟩

theorem consistent_zero {K : Type} [LinearOrder K] {cmp : Nat → K → Int} {keyOf : Nat → K}
    (hc : Consistent cmp keyOf) (n : Nat) (k : K) :
    (¬ cmp n k < 0 ∧ ¬ cmp n k > 0) ↔ k = keyOf n := by
  rw [(hc n k).1, (hc n k).2]
  constructor
  · rintro ⟨h1, h2⟩
    exact le_antisymm (not_lt.1 h2) (not_lt.1 h1)
  · rintro rfl
    exact ⟨lt_irrefl _, lt_irrefl _⟩

theorem insert_descend_ok {K : Type} [LinearOrder K] {cmp : Nat → K → Int} {keyOf : Nat → K}
    (hc : Consistent cmp keyOf) (key : K) (fuel : Nat) :
    ∀ (fs : List Frame) (sub : Tree) (m : Mem), Shape m (plug fs sub) → sub.height < fuel →
      BST keyOf sub →
      (∀ x ∈ ctxBefore fs, keyOf x < key) → (∀ x ∈ ctxAfter fs, key < keyOf x) →
      ((∃ x ∈ sub.inorder, keyOf x = key) ∧
        insert_descend cmp key fuel m (ctxParent fs) (ctxSide fs) sub.ptr = .ok none) ∨
      (∃ fs2, insert_descend cmp key fuel m (ctxParent fs) (ctxSide fs) sub.ptr =
          .ok (some (ctxParent fs2, ctxSide fs2)) ∧
        plug fs2 .nil = plug fs sub ∧ (∀ x ∈ ctxBefore fs2, keyOf x < key) ∧
        (∀ x ∈ ctxAfter fs2, key < keyOf x) ∧ fs2.length ≤ fs.length + sub.height) := by
  induction fuel with
  | zero => intro fs sub m _ h; simp at h
  | succ fuel ih =>
    intro fs sub m hs hh hbst hb ha
    rcases sub with _ | ⟨l, a, c, r⟩
    · right
      exact ⟨fs, by simp [insert_descend], rfl, hb, ha, by simp⟩
    · have hx := heap_focus fs hs
      obtain ⟨b1, b2, b3, b4⟩ := hbst
      simp only [Tree.height] at hh
      by_cases h1 : cmp a key < 0
      · have hk := (hc a key).1.1 h1
        rcases ih (.left a c r :: fs) l m hs (by omega) b3 (by simpa [ctxBefore] using hb)
          (by
            intro x hx2
            simp only [ctxAfter, List.mem_append, List.mem_cons] at hx2
            rcases hx2 with (rfl | hx2) | hx2
            · exact hk
            · exact lt_trans hk (b2 x hx2)
            · exact ha x hx2) with ⟨⟨x, hx1, hx2⟩, e⟩ | ⟨fs2, e, e2, e3, e4, e5⟩
        · left
          exact ⟨⟨x, by simp [Tree.inorder, hx1], hx2⟩, by simpa [insert_descend, h1, hx] using e⟩
        · right
          exact ⟨fs2, by simpa [insert_descend, h1, hx] using e, e2, e3, e4,
            by simp only [List.length_cons, Tree.height] at e5 ⊢; omega⟩
      · by_cases h2 : cmp a key > 0
        · have hk := (hc a key).2.1 h2
          rcases ih (.right l a c :: fs) r m hs (by omega) b4
            (by
              intro x hx2
              simp only [ctxBefore, List.mem_append, List.mem_cons, List.not_mem_nil,
                or_false] at hx2
              rcases hx2 with hx2 | hx2 | rfl
              · exact hb x hx2
              · exact lt_trans (b1 x hx2) hk
              · exact hk)
            (by simpa [ctxAfter] using ha) with ⟨⟨x, hx1, hx2⟩, e⟩ | ⟨fs2, e, e2, e3, e4, e5⟩
          · left
            exact ⟨⟨x, by simp [Tree.inorder, hx1], hx2⟩,
              by simpa [insert_descend, h1, h2, hx] using e⟩
          · right
            exact ⟨fs2, by simpa [insert_descend, h1, h2, hx] using e, e2, e3, e4,
              by simp only [List.length_cons, Tree.height] at e5 ⊢; omega⟩
        · left
          have hk := (consistent_zero hc a key).1 ⟨h1, h2⟩
          exact ⟨⟨a, by simp [Tree.inorder], hk.symm⟩, by simp [insert_descend, h1, h2]⟩

theorem link_shape {m : Mem} (fs : List Frame) {x : Nat}
    (hs : Shape m (plug fs .nil)) (hx : x ∉ (plug fs .nil).inorder) :
    Shape (rb_link_node x (ctxParent fs) (ctxSide fs) m) (plug fs (.node .nil x RB_RED .nil)) := by
  obtain ⟨hroot, hrep, hnd⟩ := hs
  obtain ⟨hctx, -⟩ := (rep_plug _ _ _ _).1 ⟨hroot, hrep⟩
  simp only [inorder_plug, Tree.inorder, List.append_nil, List.mem_append, not_or] at hx hnd
  have hnd2 : (plug fs (.node .nil x RB_RED .nil)).inorder.Nodup := by
    simp only [inorder_plug, Tree.inorder, List.nil_append, List.append_assoc,
      List.singleton_append]
    rw [List.nodup_append] at hnd ⊢
    simp only [List.nodup_cons, List.disjoint_cons_right]
    tauto
  simp only [Shape, and_comm (b := List.Nodup _)]
  simp only [hnd2, true_and, rep_plug]
  rcases fs with _ | ⟨⟨p, pc, pr⟩ | ⟨pl, p, pc⟩, fs⟩
  all_goals
    simp only [RepCtx, Rep, ptr_node, ptr_nil, ctxParent_nil, ctxParent_cons, addr_left, addr_right,
      ctxBefore, ctxAfter, List.mem_append, List.mem_cons, not_or, List.not_mem_nil, or_false] at hctx hx ⊢
    simp (disch := omega) [rb_link_node, hctx, set_right, set_left, heap_write_ne]
    try simp [ctxBefore, ctxAfter, List.nodup_append, List.nodup_cons] at hnd
    try simp [hx, hnd, hctx, rep_write, repctx_write]

theorem plug_height (fs : List Frame) (t : Tree) : fs.length + t.height ≤ (plug fs t).height := by
  induction fs generalizing t with
  | nil => simp
  | cons f fs ih =>
    have := ih (f.fill t)
    rcases f with ⟨a, c, r⟩ | ⟨l, a, c⟩ <;>
      simp only [fill_left, fill_right, Tree.height, plug_cons, List.length_cons] at this ⊢ <;> omega

/-- Master lemma for `rb_insert` on a tree satisfying the red-black invariants. -/
theorem rb_insert_spec {K : Type} [LinearOrder K] {cmp : Nat → K → Int} {keyOf : Nat → K}
    (hc : Consistent cmp keyOf) {m : Mem} {t : Tree} (hs : Shape m t) (hbst : BST keyOf t)
    (h3 : NoRedRed t) (h4 : BlackUniform t) (h5 : t.color = RB_BLACK)
    {node : Nat} (hn : node ∉ t.inorder) (key : K) (fuel : Nat) (hf : t.height < fuel) :
    ((∃ x ∈ t.inorder, keyOf x = key) ∧
      rb_insert fuel (some m) (some node) key cmp = .ok (-1, some m)) ∨
    ((∀ x ∈ t.inorder, keyOf x ≠ key) ∧ ∃ m2 t2 l1 l2,
      rb_insert fuel (some m) (some node) key cmp = .ok (0, some m2) ∧ Shape m2 t2 ∧
      t.inorder = l1 ++ l2 ∧ t2.inorder = l1 ++ node :: l2 ∧
      (∀ x ∈ l1, keyOf x < key) ∧ (∀ x ∈ l2, key < keyOf x) ∧
      NoRedRed t2 ∧ BlackUniform t2 ∧ t2.color = RB_BLACK) := by
  rcases insert_descend_ok hc key fuel [] t m hs hf hbst (by simp [ctxBefore]) (by simp [ctxAfter])
    with ⟨hex, e⟩ | ⟨fs2, e, e2, e3, e4, e5⟩
  · left
    simp only [ctxParent_nil, ctxSide_nil] at e
    refine ⟨hex, ?_⟩
    simp [rb_insert, hs.1, e]
  · right
    simp only [ctxParent_nil, ctxSide_nil, plug_nil, List.length_nil, zero_add] at e e2 e5
    have hin : t.inorder = ctxBefore fs2 ++ ctxAfter fs2 := by
      rw [← e2, inorder_plug]; simp [Tree.inorder]
    have hs0 : Shape m (plug fs2 .nil) := by rw [e2]; exact hs
    have hsl := link_shape fs2 hs0 (by rw [e2]; exact hn)
    have hsplit := @ctx_split fs2 .nil (by rw [e2]; exact h3) (by rw [e2]; exact h4)
      (by rw [e2]; exact h5)
    have hlen : fs2.length < fuel := by
      have := plug_height fs2 .nil
      rw [e2] at this
      simp only [Tree.height] at this
      omega
    obtain ⟨m2, t2, ec, hs2, hin2, r1, r2, r3⟩ := insert_color_ok fuel fs2 .nil .nil node _ 0 hsl
      hlen hsplit.1 rfl rfl trivial trivial trivial trivial rfl rfl
    refine ⟨?_, m2, t2, ctxBefore fs2, ctxAfter fs2, ?_, hs2, hin, ?_, e3, e4, r1, r2, r3⟩
    · intro x hx heq
      rw [hin, List.mem_append] at hx
      rcases hx with hx | hx
      · exact absurd (e3 x hx) (by rw [heq]; exact lt_irrefl _)
      · exact absurd (e4 x hx) (by rw [heq]; exact lt_irrefl _)
    · simp [rb_insert, hs.1, e, ec]
    · rw [hin2, inorder_plug]; simp [Tree.inorder]

@[simp] theorem blacken_nil : Tree.nil.blacken = .nil := rfl
@[simp] theorem blacken_node (l : Tree) (a : Nat) (c : Color) (r : Tree) :
    (Tree.node l a c r).blacken = .node l a RB_BLACK r := rfl

theorem blacken_of_black {t : Tree} (h : t.color = RB_BLACK) : t.blacken = t := by
  cases t with
  | nil => rfl
  | node l a c r => simp only [color_node] at h; subst h; rfl

theorem nob_focus {m : Mem} (fs : List Frame) {t : Tree} (hs : Shape m (plug fs t)) :
    null_or_black m t.ptr = decide (t.color = RB_BLACK) := by
  cases t with
  | nil => simp [null_or_black]
  | node l a c r => simp [null_or_black, rb_is_black, rb_color, heap_focus fs hs]

theorem is_red_focus {m : Mem} (fs : List Frame) {l r : Tree} {a : Nat} {c : Color}
    (hs : Shape m (plug fs (.node l a c r))) : rb_is_red m a = decide (c = RB_RED) := by
  simp [rb_is_red, rb_color, heap_focus fs hs]

theorem color_focus {m : Mem} (fs : List Frame) {l r : Tree} {a : Nat} {c : Color}
    (hs : Shape m (plug fs (.node l a c r))) : rb_color m a = c := by
  simp [rb_color, heap_focus fs hs]

theorem parent_focus {m : Mem} (fs : List Frame) {l r : Tree} {a : Nat} {c : Color}
    (hs : Shape m (plug fs (.node l a c r))) : rb_parent m a = ctxParent fs := by
  simp [rb_parent, heap_focus fs hs]

theorem left_focus {m : Mem} (fs : List Frame) {l r : Tree} {a : Nat} {c : Color}
    (hs : Shape m (plug fs (.node l a c r))) : (m.heap a).rb_left = l.ptr := by
  simp [heap_focus fs hs]

theorem right_focus {m : Mem} (fs : List Frame) {l r : Tree} {a : Nat} {c : Color}
    (hs : Shape m (plug fs (.node l a c r))) : (m.heap a).rb_right = r.ptr := by
  simp [heap_focus fs hs]

theorem exit_shape {m : Mem} {T : Tree} (hs : Shape m T) (hc : T.color = RB_BLACK) :
    Shape (erase_color_exit m.root m) T := by
  cases T with
  | nil => simpa [erase_color_exit, hs.1] using hs
  | node L a c R =>
    have := set_black_root hs hc rfl
    simpa [erase_color_exit, hs.1] using this

/-- The root of a tree with a non-empty path is not the root of the subtree in the hole. -/
theorem root_ne_hole {m : Mem} (f : Frame) (fs : List Frame) {t : Tree}
    (hs : Shape m (plug (f :: fs) t)) : ¬ t.ptr = m.root := by
  obtain ⟨hroot, hrep, hnd⟩ := hs
  have hctx := ((rep_plug _ _ _ _).1 ⟨hroot, hrep⟩).1
  rw [inorder_plug] at hnd
  intro heq
  have key : ∀ (gs : List Frame) (hole : Option Nat), gs ≠ [] → RepCtx m.heap m.root gs hole →
      ∃ a, m.root = some a ∧ (a ∈ ctxBefore gs ∨ a ∈ ctxAfter gs) := by
    intro gs
    induction gs with
    | nil => intro _ h; exact absurd rfl h
    | cons g gs ih =>
      intro hole _ hr
      rcases gs with _ | ⟨g2, gs⟩
      · rcases g with ⟨a, c, r⟩ | ⟨l, a, c⟩
        · exact ⟨a, hr.2.2, Or.inr (by simp [ctxAfter])⟩
        · exact ⟨a, hr.2.2, Or.inl (by simp [ctxBefore])⟩
      · rcases g with ⟨a, c, r⟩ | ⟨l, a, c⟩
        · obtain ⟨b, hb1, hb2⟩ := ih (some a) (by simp) hr.2.2
          refine ⟨b, hb1, ?_⟩
          rcases hb2 with hb2 | hb2
          · exact Or.inl (by simpa [ctxBefore] using hb2)
          · exact Or.inr (by simp only [ctxAfter, List.mem_append]; exact Or.inr hb2)
        · obtain ⟨b, hb1, hb2⟩ := ih (some a) (by simp) hr.2.2
          refine ⟨b, hb1, ?_⟩
          rcases hb2 with hb2 | hb2
          · exact Or.inl (by simp only [ctxBefore, List.mem_append]; exact Or.inl hb2)
          · exact Or.inr (by simpa [ctxAfter] using hb2)
  obtain ⟨a, ha1, ha2⟩ := key (f :: fs) t.ptr (by simp) hctx
  rw [ha1] at heq
  have hmem := ptr_mem heq
  simp only [List.nodup_append, List.disjoint_left, List.mem_append] at hnd
  rcases ha2 with ha2 | ha2
  · exact hnd.1.2.2 ha2 hmem
  · exact hnd.2.2 (Or.inr hmem) ha2

/-- A red node at the deficient position is painted black and the loop ends. -/
theorem erase_color_red (fuel : Nat) (fs : List Frame) (l r : Tree) (a : Nat) (m : Mem) (n : Nat)
    (hs : Shape m (plug fs (.node l a RB_RED r))) (hpos : 0 < fuel) (hctx : CtxInv fs (n + 1))
    (hbh : l.bh = n) (h3 : NoRedRed (.node l a RB_BLACK r)) (h4 : BlackUniform (.node l a RB_RED r)) :
    ∃ m2 t2, __rb_erase_color fuel (some a) (ctxParent fs) m = .ok m2 ∧ Shape m2 t2 ∧
      t2.inorder = (plug fs (.node l a RB_RED r)).inorder ∧ NoRedRed t2 ∧ BlackUniform t2 ∧
      t2.color = RB_BLACK := by
  obtain ⟨k, rfl⟩ : ∃ k, fuel = k + 1 := ⟨fuel - 1, by omega⟩
  have hnob := nob_focus fs hs
  simp at hnob
  have hfill := ctx_fill (t := .node l a RB_BLACK r) hctx (by simp [Tree.bh, hbh]) h3 h4
    (fun _ => rfl)
  refine ⟨_, _, ?_, set_black_shape fs hs, ?_, hfill⟩
  · simp [__rb_erase_color, hnob, erase_color_exit]
  · simp [inorder_plug, Tree.inorder]

/-- One turn of the erase loop with the deficiency on the left and a black sibling. -/
theorem erase_black_left (fuel : Nat)
    (ih : ∀ (fs : List Frame) (t : Tree) (m : Mem) (n : Nat),
      Shape m (plug fs t) → fs.length < fuel → CtxInv fs (n + 1) → t.bh = n →
      NoRedRed t.blacken → BlackUniform t →
      ∃ m2 t2, __rb_erase_color fuel t.ptr (ctxParent fs) m = .ok m2 ∧ Shape m2 t2 ∧
        t2.inorder = (plug fs t).inorder ∧ NoRedRed t2 ∧ BlackUniform t2 ∧
        t2.color = RB_BLACK)
    (G : List Frame) (t sl sr : Tree) (p sa : Nat) (pc : Color) (m : Mem) (n : Nat)
    (hs : Shape m (plug (.left p pc (.node sl sa RB_BLACK sr) :: G) t))
    (hpos : 0 < fuel) (hfuel : pc = RB_BLACK → G.length < fuel)
    (hctx : CtxInv (.left p pc (.node sl sa RB_BLACK sr) :: G) (n + 1))
    (hbh : t.bh = n) (htc : t.color = RB_BLACK) (h3 : NoRedRed t) (h4 : BlackUniform t) :
    ∃ m2 t2, __rb_erase_color (fuel + 1) t.ptr (some p) m = .ok m2 ∧ Shape m2 t2 ∧
      t2.inorder = (plug (.left p pc (.node sl sa RB_BLACK sr) :: G) t).inorder ∧
      NoRedRed t2 ∧ BlackUniform t2 ∧ t2.color = RB_BLACK := by
  have hnob := nob_focus _ hs
  have hroot := root_ne_hole _ G hs
  obtain ⟨s1, ⟨-, c2, c3⟩, ⟨d1, d2, d3⟩, s4, s5⟩ := hctx
  simp only [fcolor_left, sib_left, Tree.bh, if_true, add_left_inj] at s1 s4 s5 d1
  have s1r : sr.bh = n := by omega
  have hnd := hs.2.2
  have hp := heap_focus G hs
  simp only [fill_left, ptr_node] at hp
  simp [inorder_plug, Tree.inorder, ctxBefore, ctxAfter, List.nodup_append, List.nodup_cons] at hnd
  have hsr := is_red_focus (.right t p pc :: G) hs
  have hsa := heap_focus (.right t p pc :: G) hs
  have hpc := color_focus G hs
  have hnbk : needsBlack G → pc = RB_BLACK := by
    intro hnb
    rcases color_cases pc with h | h
    · exact absurd hnb (s4 h).2
    · exact h
  rcases color_cases sr.color with hcr | hcr
  · -- far nephew red: one rotation at the parent
    rcases sr with _ | ⟨a, q, qc, b⟩
    · simp at hcr
    simp only [color_node] at hcr
    subst hcr
    have nl := nob_focus (.left sa RB_BLACK (.node a q RB_RED b) :: .right t p pc :: G) hs
    have nr := nob_focus (.right sl sa RB_BLACK :: .right t p pc :: G) hs
    simp at nr
    obtain ⟨e1, e2, e3⟩ := c3
    obtain ⟨f1, f2, f3⟩ := d3
    simp only [Tree.bh, reduceCtorEq, if_false, add_zero] at s1r
    have v1 := set_color_shape (.right t p pc :: G) pc hs
    have v2 := set_black_shape G v1
    have hfar := right_focus (.right t p RB_BLACK :: G) v2
    have v3 := set_black_shape (.right sl sa pc :: .right t p RB_BLACK :: G) v2
    obtain ⟨m3, e3, v4⟩ := rotate_left_shape G v3
    have hfill := @ctx_fill G
      (.node (.node t p RB_BLACK sl) sa pc (.node a q RB_BLACK b)) _ s5
      (by simp [Tree.bh, hbh]) (by simp [NoRedRed, *])
      (by simp [BlackUniform, Tree.bh, *]; omega) (by simpa using hnbk)
    refine ⟨_, _, ?_, exit_shape v4 hfill.2.2, ?_, hfill⟩
    · simp [__rb_erase_color, hnob, htc, hroot, hp, hsr, hsa, nl, nr, hpc, hfar, e3]
    · simp [inorder_plug, Tree.inorder, ctxBefore, ctxAfter]
  · have nr := nob_focus (.right sl sa RB_BLACK :: .right t p pc :: G) hs
    rcases color_cases sl.color with hcl | hcl
    · -- near nephew red, far nephew black: rotate at the sibling, then at the parent
      rcases sl with _ | ⟨a, q, qc, b⟩
      · simp at hcl
      simp only [color_node] at hcl
      subst hcl
      have nl := nob_focus (.left sa RB_BLACK sr :: .right t p pc :: G) hs
      simp at nl
      obtain ⟨e1, e2, e3⟩ := c2
      obtain ⟨f1, f2, f3⟩ := d2
      simp only [Tree.bh, reduceCtorEq, if_false, add_zero] at s1 d1
      have w1 := set_black_shape (.left sa RB_BLACK sr :: .right t p pc :: G) hs
      have w2 := set_red_shape (.right t p pc :: G) w1
      obtain ⟨m1, x1, w3⟩ := rotate_right_shape (.right t p pc :: G) w2
      have hoth := right_focus G w3
      have hpc1 := color_focus G w3
      simp only [fill_right, ptr_node] at hoth
      have v1 := set_color_shape (.right t p pc :: G) pc w3
      have v2 := set_black_shape G v1
      have hfar := right_focus (.right t p RB_BLACK :: G) v2
      have v3 := set_black_shape (.right a q pc :: .right t p RB_BLACK :: G) v2
      obtain ⟨m3, x3, v4⟩ := rotate_left_shape G v3
      have hfill := @ctx_fill G
        (.node (.node t p RB_BLACK a) q pc (.node b sa RB_BLACK sr)) _ s5
        (by simp [Tree.bh, hbh]) (by simp [NoRedRed, *])
        (by simp [BlackUniform, Tree.bh, *]; omega) (by simpa using hnbk)
      refine ⟨_, _, ?_, exit_shape v4 hfill.2.2, ?_, hfill⟩
      · simp [__rb_erase_color, hnob, htc, hroot, hp, hsr, hsa, nl, nr, hcr, hpc1, hoth, hfar, x1, x3]
      · simp [inorder_plug, Tree.inorder, ctxBefore, ctxAfter]
    · -- both nephews black: recolour the sibling and move up
      have nl := nob_focus (.left sa RB_BLACK sr :: .right t p pc :: G) hs
      have u1 := set_red_shape (.right t p pc :: G) hs
      have hpp := parent_focus G u1
      rcases color_cases pc with hpr | hpb
      · subst hpr
        obtain ⟨m2, t2, e, hs2, hin, r1, r2, r3⟩ := erase_color_red fuel G t
          (.node sl sa RB_RED sr) p _ n u1 hpos (by simpa using s5) hbh (by simp [NoRedRed, *])
          (by simp [BlackUniform, Tree.bh, *])
        refine ⟨m2, t2, ?_, hs2, ?_, r1, r2, r3⟩
        · simp [__rb_erase_color, hnob, htc, hroot, hp, hsr, hsa, nl, nr, hcl, hcr, hpp, e]
        · simp [hin, inorder_plug, Tree.inorder]
      · subst hpb
        obtain ⟨m2, t2, e, hs2, hin, r1, r2, r3⟩ := ih G
          (.node t p RB_BLACK (.node sl sa RB_RED sr)) _ (n + 1) u1 (hfuel rfl)
          (by simpa using s5) (by simp [Tree.bh, hbh])
          (by simp [NoRedRed, *]) (by simp [BlackUniform, Tree.bh, *])
        simp only [ptr_node] at e
        refine ⟨m2, t2, ?_, hs2, ?_, r1, r2, r3⟩
        · simp [__rb_erase_color, hnob, htc, hroot, hp, hsr, hsa, nl, nr, hcl, hcr, hpp, e]
        · simp [hin, inorder_plug, Tree.inorder]

/-- One turn of the erase loop with the deficiency on the right and a black sibling. -/
theorem erase_black_right (fuel : Nat)
    (ih : ∀ (fs : List Frame) (t : Tree) (m : Mem) (n : Nat),
      Shape m (plug fs t) → fs.length < fuel → CtxInv fs (n + 1) → t.bh = n →
      NoRedRed t.blacken → BlackUniform t →
      ∃ m2 t2, __rb_erase_color fuel t.ptr (ctxParent fs) m = .ok m2 ∧ Shape m2 t2 ∧
        t2.inorder = (plug fs t).inorder ∧ NoRedRed t2 ∧ BlackUniform t2 ∧
        t2.color = RB_BLACK)
    (G : List Frame) (t sl sr : Tree) (p sa : Nat) (pc : Color) (m : Mem) (n : Nat)
    (hs : Shape m (plug (.right (.node sl sa RB_BLACK sr) p pc :: G) t))
    (hpos : 0 < fuel) (hfuel : pc = RB_BLACK → G.length < fuel)
    (hctx : CtxInv (.right (.node sl sa RB_BLACK sr) p pc :: G) (n + 1))
    (hbh : t.bh = n) (htc : t.color = RB_BLACK) (h3 : NoRedRed t) (h4 : BlackUniform t) :
    ∃ m2 t2, __rb_erase_color (fuel + 1) t.ptr (some p) m = .ok m2 ∧ Shape m2 t2 ∧
      t2.inorder = (plug (.right (.node sl sa RB_BLACK sr) p pc :: G) t).inorder ∧
      NoRedRed t2 ∧ BlackUniform t2 ∧ t2.color = RB_BLACK := by
  have hnob := nob_focus _ hs
  have hroot := root_ne_hole _ G hs
  obtain ⟨s1, ⟨-, c2, c3⟩, ⟨d1, d2, d3⟩, s4, s5⟩ := hctx
  simp only [fcolor_right, sib_right, Tree.bh, if_true, add_left_inj] at s1 s4 s5 d1
  have s1r : sr.bh = n := by omega
  have hnd := hs.2.2
  have hp := heap_focus G hs
  simp only [fill_right, ptr_node] at hp
  simp [inorder_plug, Tree.inorder, ctxBefore, ctxAfter, List.nodup_append, List.nodup_cons] at hnd
  have hne : ¬ some sa = t.ptr := ptr_ne2 (by simp [hnd])
  have hsr := is_red_focus (.left p pc t :: G) hs
  have hsa := heap_focus (.left p pc t :: G) hs
  have hpc := color_focus G hs
  have hnbk : needsBlack G → pc = RB_BLACK := by
    intro hnb
    rcases color_cases pc with h | h
    · exact absurd hnb (s4 h).2
    · exact h
  rcases color_cases sl.color with hcl | hcl
  · -- far nephew red: one rotation at the parent
    rcases sl with _ | ⟨a, q, qc, b⟩
    · simp at hcl
    simp only [color_node] at hcl
    subst hcl
    have nl := nob_focus (.left sa RB_BLACK sr :: .left p pc t :: G) hs
    have nr := nob_focus (.right (.node a q RB_RED b) sa RB_BLACK :: .left p pc t :: G) hs
    simp at nl
    obtain ⟨e1, e2, e3⟩ := c2
    obtain ⟨f1, f2, f3⟩ := d2
    simp only [Tree.bh, reduceCtorEq, if_false, add_zero] at s1 d1
    have v1 := set_color_shape (.left p pc t :: G) pc hs
    have v2 := set_black_shape G v1
    have hfar := left_focus (.left p RB_BLACK t :: G) v2
    have v3 := set_black_shape (.left sa pc sr :: .left p RB_BLACK t :: G) v2
    obtain ⟨m3, x3, v4⟩ := rotate_right_shape G v3
    have hfill := @ctx_fill G
      (.node (.node a q RB_BLACK b) sa pc (.node sr p RB_BLACK t)) _ s5
      (by simp [Tree.bh, s1]) (by simp [NoRedRed, *])
      (by simp [BlackUniform, Tree.bh, *]; omega) (by simpa using hnbk)
    refine ⟨_, _, ?_, exit_shape v4 hfill.2.2, ?_, hfill⟩
    · simp [__rb_erase_color, hnob, htc, hroot, hp, hne, hsr, hsa, nl, nr, hpc, hfar, x3]
    · simp [inorder_plug, Tree.inorder, ctxBefore, ctxAfter]
  · have nl := nob_focus (.left sa RB_BLACK sr :: .left p pc t :: G) hs
    rcases color_cases sr.color with hcr | hcr
    · -- near nephew red, far nephew black: rotate at the sibling, then at the parent
      rcases sr with _ | ⟨a, q, qc, b⟩
      · simp at hcr
      simp only [color_node] at hcr
      subst hcr
      have nr := nob_focus (.right sl sa RB_BLACK :: .left p pc t :: G) hs
      simp at nr
      obtain ⟨e1, e2, e3⟩ := c3
      obtain ⟨f1, f2, f3⟩ := d3
      simp only [Tree.bh, reduceCtorEq, if_false, add_zero] at s1r d1
      have w1 := set_black_shape (.right sl sa RB_BLACK :: .left p pc t :: G) hs
      have w2 := set_red_shape (.left p pc t :: G) w1
      obtain ⟨m1, x1, w3⟩ := rotate_left_shape (.left p pc t :: G) w2
      have hoth := left_focus G w3
      have hpc1 := color_focus G w3
      simp only [fill_left, ptr_node] at hoth
      have v1 := set_color_shape (.left p pc t :: G) pc w3
      have v2 := set_black_shape G v1
      have hfar := left_focus (.left p RB_BLACK t :: G) v2
      have v3 := set_black_shape (.left q pc b :: .left p RB_BLACK t :: G) v2
      obtain ⟨m3, x3, v4⟩ := rotate_right_shape G v3
      have hfill := @ctx_fill G
        (.node (.node sl sa RB_BLACK a) q pc (.node b p RB_BLACK t)) _ s5
        (by simp [Tree.bh, s1]) (by simp [NoRedRed, *])
        (by simp [BlackUniform, Tree.bh, *]; omega) (by simpa using hnbk)
      refine ⟨_, _, ?_, exit_shape v4 hfill.2.2, ?_, hfill⟩
      · simp [__rb_erase_color, hnob, htc, hroot, hp, hne, hsr, hsa, nl, nr, hcl, hpc1, hoth, hfar,
          x1, x3]
      · simp [inorder_plug, Tree.inorder, ctxBefore, ctxAfter]
    · -- both nephews black: recolour the sibling and move up
      have nr := nob_focus (.right sl sa RB_BLACK :: .left p pc t :: G) hs
      have u1 := set_red_shape (.left p pc t :: G) hs
      have hpp := parent_focus G u1
      rcases color_cases pc with hpr | hpb
      · subst hpr
        obtain ⟨m2, t2, e, hs2, hin, r1, r2, r3⟩ := erase_color_red fuel G
          (.node sl sa RB_RED sr) t p _ n u1 hpos (by simpa using s5) (by simp [Tree.bh, s1])
          (by simp [NoRedRed, *]) (by simp [BlackUniform, Tree.bh, *])
        refine ⟨m2, t2, ?_, hs2, ?_, r1, r2, r3⟩
        · simp [__rb_erase_color, hnob, htc, hroot, hp, hne, hsr, hsa, nl, nr, hcl, hcr, hpp, e]
        · simp [hin, inorder_plug, Tree.inorder]
      · subst hpb
        obtain ⟨m2, t2, e, hs2, hin, r1, r2, r3⟩ := ih G
          (.node (.node sl sa RB_RED sr) p RB_BLACK t) _ (n + 1) u1 (hfuel rfl)
          (by simpa using s5) (by simp [Tree.bh, s1])
          (by simp [NoRedRed, *]) (by simp [BlackUniform, Tree.bh, *])
        simp only [ptr_node] at e
        refine ⟨m2, t2, ?_, hs2, ?_, r1, r2, r3⟩
        · simp [__rb_erase_color, hnob, htc, hroot, hp, hne, hsr, hsa, nl, nr, hcl, hcr, hpp, e]
        · simp [hin, inorder_plug, Tree.inorder]

/-- The loop of `__rb_erase_color` restores the red-black invariants when the subtree
in the hole is one black node short. -/
theorem erase_color_ok (fuel : Nat) : ∀ (fs : List Frame) (t : Tree) (m : Mem) (n : Nat),
    Shape m (plug fs t) → fs.length < fuel → CtxInv fs (n + 1) → t.bh = n →
    NoRedRed t.blacken → BlackUniform t →
    ∃ m2 t2, __rb_erase_color fuel t.ptr (ctxParent fs) m = .ok m2 ∧ Shape m2 t2 ∧
      t2.inorder = (plug fs t).inorder ∧ NoRedRed t2 ∧ BlackUniform t2 ∧
      t2.color = RB_BLACK := by
  induction fuel with
  | zero => intro fs t m n _ hlen; simp at hlen
  | succ fuel ih =>
    intro fs t m n hs hlen hctx hbh h3 h4
    rcases color_cases t.color with htc | htc
    · rcases t with _ | ⟨l, a, c, r⟩
      · simp at htc
      · simp only [color_node] at htc
        subst htc
        simp only [Tree.bh, reduceCtorEq, if_false, add_zero, blacken_node] at hbh h3
        exact erase_color_red (fuel + 1) fs l r a m n hs (by omega) hctx hbh h3 h4
    · rw [blacken_of_black htc] at h3
      rcases fs with _ | ⟨f, fs1⟩
      · -- the node is the root
        refine ⟨_, t, ?_, exit_shape hs htc, rfl, h3, h4, htc⟩
        have hroot := hs.1
        simp only [plug_nil] at hroot
        simp [__rb_erase_color, hroot]
      · simp only [List.length_cons] at hlen
        have hpos : 0 < fuel := by omega
        rcases f with ⟨p, pc, s⟩ | ⟨s, p, pc⟩
        · rcases s with _ | ⟨sl, sa, sc, sr⟩
          · simp [CtxInv, Tree.bh] at hctx
          rcases color_cases sc with hsc | hsc
          · -- red sibling: rotate at the parent, the new sibling is black
            subst hsc
            obtain ⟨s1, ⟨c1, c2, c3⟩, ⟨d1, d2, d3⟩, s4, s5⟩ := hctx
            simp only [fcolor_left, sib_left, Tree.bh, reduceCtorEq, if_false, add_zero,
              color_node] at s1 s4 s5 d1 c1
            have hpc : pc = RB_BLACK := by
              rcases color_cases pc with h | h
              · exact absurd (s4 h).1 (by simp)
              · exact h
            subst hpc
            obtain ⟨hcl, hcr⟩ := c1 trivial
            rcases sl with _ | ⟨sll, sla, slc, slr⟩
            · simp [Tree.bh] at s1
            simp only [color_node] at hcl
            subst hcl
            have hnob := nob_focus _ hs
            have hroot := root_ne_hole _ fs1 hs
            have hp := heap_focus fs1 hs
            have hsr := is_red_focus (.right t p RB_BLACK :: fs1) hs
            simp only [fill_left, ptr_node] at hp
            have u1 := set_black_shape (.right t p RB_BLACK :: fs1) hs
            have u2 := set_red_shape fs1 u1
            obtain ⟨m1, e1, u3⟩ := rotate_left_shape fs1 u2
            have hnob1 := nob_focus (.left p RB_RED (.node sll sla RB_BLACK slr) ::
              .left sa RB_BLACK sr :: fs1) u3
            have hroot1 := root_ne_hole (.left p RB_RED (.node sll sla RB_BLACK slr))
              (.left sa RB_BLACK sr :: fs1) u3
            have hp1 := heap_focus (.left sa RB_BLACK sr :: fs1) u3
            have hsr1 := is_red_focus (.right t p RB_RED :: .left sa RB_BLACK sr :: fs1) u3
            simp only [fill_left, ptr_node, ctxParent_cons, addr_left] at hp1
            have hci : CtxInv (.left p RB_RED (.node sll sla RB_BLACK slr) ::
                .left sa RB_BLACK sr :: fs1) (n + 1) := by
              simp only [Tree.bh, NoRedRed, BlackUniform, if_true, add_left_inj, reduceCtorEq,
                if_false, add_zero] at s1 d1 c2 d2
              have b3 : sr.bh = n + 1 := by omega
              have b2 : slr.bh = n := by omega
              simp at s5
              simp [CtxInv, Tree.bh, NoRedRed, BlackUniform, b2, b3, s1, c2, c3, d2, d3, s5]
            obtain ⟨m2, t2, e, hs2, hin, r1, r2, r3⟩ := erase_black_left fuel ih
              (.left sa RB_BLACK sr :: fs1) t sll slr p sla RB_RED m1 n u3 hpos
              (fun h => absurd h (by simp)) hci hbh htc h3 h4
            refine ⟨m2, t2, ?_, hs2, ?_, r1, r2, r3⟩
            · rw [← e]
              simp [__rb_erase_color, hnob, htc, hroot, hp, hsr, e1, hnob1, hroot1, hp1, hsr1]
            · simp [hin, inorder_plug, Tree.inorder, ctxBefore, ctxAfter]
          · subst hsc
            exact erase_black_left fuel ih fs1 t sl sr p sa pc m n hs hpos (fun _ => by omega)
              hctx hbh htc h3 h4
        · rcases s with _ | ⟨sl, sa, sc, sr⟩
          · simp [CtxInv, Tree.bh] at hctx
          rcases color_cases sc with hsc | hsc
          · -- red sibling: rotate at the parent, the new sibling is black
            subst hsc
            obtain ⟨s1, ⟨c1, c2, c3⟩, ⟨d1, d2, d3⟩, s4, s5⟩ := hctx
            simp only [fcolor_right, sib_right, Tree.bh, reduceCtorEq, if_false, add_zero,
              color_node] at s1 s4 s5 d1 c1
            have hpc : pc = RB_BLACK := by
              rcases color_cases pc with h | h
              · exact absurd (s4 h).1 (by simp)
              · exact h
            subst hpc
            obtain ⟨hcl, hcr⟩ := c1 trivial
            rcases sr with _ | ⟨srl, sra, src, srr⟩
            · simp [Tree.bh] at d1; omega
            simp only [color_node] at hcr
            subst hcr
            have hnd := hs.2.2
            simp [inorder_plug, Tree.inorder, ctxBefore, ctxAfter, List.nodup_append,
              List.nodup_cons] at hnd
            have hne : ¬ some sa = t.ptr := ptr_ne2 (by simp [hnd])
            have hne1 : ¬ some sra = t.ptr := ptr_ne2 (by simp [hnd])
            have hnob := nob_focus _ hs
            have hroot := root_ne_hole _ fs1 hs
            have hp := heap_focus fs1 hs
            have hsr := is_red_focus (.left p RB_BLACK t :: fs1) hs
            simp only [fill_right, ptr_node] at hp
            have u1 := set_black_shape (.left p RB_BLACK t :: fs1) hs
            have u2 := set_red_shape fs1 u1
            obtain ⟨m1, e1, u3⟩ := rotate_right_shape fs1 u2
            have hnob1 := nob_focus (.right (.node srl sra RB_BLACK srr) p RB_RED ::
              .right sl sa RB_BLACK :: fs1) u3
            have hroot1 := root_ne_hole (.right (.node srl sra RB_BLACK srr) p RB_RED)
              (.right sl sa RB_BLACK :: fs1) u3
            have hp1 := heap_focus (.right sl sa RB_BLACK :: fs1) u3
            have hsr1 := is_red_focus (.left p RB_RED t :: .right sl sa RB_BLACK :: fs1) u3
            simp only [fill_right, ptr_node, ctxParent_cons, addr_right] at hp1
            have hci : CtxInv (.right (.node srl sra RB_BLACK srr) p RB_RED ::
                .right sl sa RB_BLACK :: fs1) (n + 1) := by
              simp only [Tree.bh, NoRedRed, BlackUniform, if_true, add_left_inj, reduceCtorEq,
                if_false, add_zero] at s1 d1 c3 d3
              have b3 : srl.bh = n := by omega
              have b2 : srr.bh = n := by omega
              simp at s5
              simp [CtxInv, Tree.bh, NoRedRed, BlackUniform, b2, b3, s1, c2, c3, d2, d3, s5]
            obtain ⟨m2, t2, e, hs2, hin, r1, r2, r3⟩ := erase_black_right fuel ih
              (.right sl sa RB_BLACK :: fs1) t srl srr p sra RB_RED m1 n u3 hpos
              (fun h => absurd h (by simp)) hci hbh htc h3 h4
            refine ⟨m2, t2, ?_, hs2, ?_, r1, r2, r3⟩
            · rw [← e]
              simp [__rb_erase_color, hnob, htc, hroot, hp, hsr, e1, hnob1, hroot1, hp1, hsr1,
                hne, hne1]
            · simp [hin, inorder_plug, Tree.inorder, ctxBefore, ctxAfter]
          · subst hsc
            exact erase_black_right fuel ih fs1 t sl sr p sa pc m n hs hpos (fun _ => by omega)
              hctx hbh htc h3 h4

theorem mem_ext {m1 m2 : Mem} (hh : ∀ z, m1.heap z = m2.heap z) (hr : m1.root = m2.root) :
    m1 = m2 := by
  cases m1; cases m2
  simp only [Mem.mk.injEq] at *
  exact ⟨funext hh, hr⟩

/-- Splicing out a node without left child (rbtree.c 252-265). -/
theorem splice_right_shape {m : Mem} (fs : List Frame) {r : Tree} {x : Nat} {c : Color}
    (hs : Shape m (plug fs (.node .nil x c r))) :
    ∃ m2, (∀ fuel, erase_splice fuel x r.ptr m = erase_tail fuel c r.ptr (ctxParent fs) m2) ∧
      Shape m2 (plug fs r) := by
  obtain ⟨hroot, hrep, hnd⟩ := hs
  obtain ⟨hctx, hx, -, hr⟩ := (rep_plug _ _ _ _).1 ⟨hroot, hrep⟩
  have hnd2 : (plug fs r).inorder.Nodup := by
    simp only [inorder_plug, Tree.inorder, List.nil_append] at hnd ⊢
    rw [List.append_assoc] at hnd ⊢
    exact (List.nodup_append.1 hnd).1.append
      (List.nodup_append.1 (List.nodup_cons.1 (List.nodup_append.1 hnd).2.1).2 |>.1 |>.append
        (List.nodup_append.1 (List.nodup_cons.1 (List.nodup_append.1 hnd).2.1).2).2.1
        (List.nodup_append.1 (List.nodup_cons.1 (List.nodup_append.1 hnd).2.1).2).2.2)
      (fun z hz1 hz2 => (List.nodup_append.1 hnd).2.2 hz1 (List.mem_cons_of_mem _ hz2))
  simp only [Shape, and_comm (b := List.Nodup _)]
  simp only [hnd2, true_and, rep_plug]
  clear hnd2 hroot hrep
  rcases r with _ | ⟨rl, ra, rc, rr⟩ <;> rcases fs with _ | ⟨⟨p, pc, pr⟩ | ⟨pl, p, pc⟩, fs⟩
  all_goals
    simp [inorder_plug, Tree.inorder, ctxBefore, ctxAfter, List.nodup_append, List.nodup_cons] at hnd
    simp only [RepCtx, Rep, ptr_node, ptr_nil, ctxParent_nil, ctxParent_cons, addr_left, addr_right] at hctx hx hr ⊢
    refine ⟨_, fun fuel => by
      simp (disch := omega) only [erase_splice, rb_parent, rb_color, hx, rb_set_parent, set_left,
        set_right, heap_write_ne, hctx, if_true, if_false, hnd, ptr_ne, ptr_ne2, Option.some.injEq,
        reduceCtorEq, not_false_eq_true]
      rfl, ?_⟩
  all_goals
    simp (disch := omega) [hx, hr, hctx, set_right, set_left, rb_set_parent, rb_parent, heap_write_ne]
    try simp [hnd, hctx, hr, rep_write, repctx_write, ptr_ne, ptr_ne2]
    try simp (disch := omega) [hx, hr, hctx, heap_write_ne]

/-- Splicing out a node without right child (rbtree.c 252-265). -/
theorem splice_left_shape {m : Mem} (fs : List Frame) {l : Tree} {x : Nat} {c : Color}
    (hs : Shape m (plug fs (.node l x c .nil))) :
    ∃ m2, (∀ fuel, erase_splice fuel x l.ptr m = erase_tail fuel c l.ptr (ctxParent fs) m2) ∧
      Shape m2 (plug fs l) := by
  obtain ⟨hroot, hrep, hnd⟩ := hs
  obtain ⟨hctx, hx, hr, -⟩ := (rep_plug _ _ _ _).1 ⟨hroot, hrep⟩
  have hnd2 : (plug fs l).inorder.Nodup := by
    simp only [inorder_plug, Tree.inorder, List.append_nil] at hnd ⊢
    have h1 := List.nodup_append.1 hnd
    have h2 := List.nodup_append.1 h1.1
    have h3 := List.nodup_append.1 h2.2.1
    refine List.nodup_append.2 ⟨List.nodup_append.2 ⟨h2.1, h3.1, ?_⟩, h1.2.1, ?_⟩
    · exact fun z hz1 hz2 => h2.2.2 hz1 (List.mem_append_left _ hz2)
    · intro z hz1 hz2
      rcases List.mem_append.1 hz1 with hz | hz
      · exact h1.2.2 (List.mem_append_left _ hz) hz2
      · exact h1.2.2 (List.mem_append_right _ (List.mem_append_left _ hz)) hz2
  simp only [Shape, and_comm (b := List.Nodup _)]
  simp only [hnd2, true_and, rep_plug]
  clear hnd2 hroot hrep
  rcases l with _ | ⟨rl, ra, rc, rr⟩ <;> rcases fs with _ | ⟨⟨p, pc, pr⟩ | ⟨pl, p, pc⟩, fs⟩
  all_goals
    simp [inorder_plug, Tree.inorder, ctxBefore, ctxAfter, List.nodup_append, List.nodup_cons] at hnd
    simp only [RepCtx, Rep, ptr_node, ptr_nil, ctxParent_nil, ctxParent_cons, addr_left, addr_right] at hctx hx hr ⊢
    refine ⟨_, fun fuel => by
      simp (disch := omega) only [erase_splice, rb_parent, rb_color, hx, rb_set_parent, set_left,
        set_right, heap_write_ne, hctx, if_true, if_false, hnd, ptr_ne, ptr_ne2, Option.some.injEq,
        reduceCtorEq, not_false_eq_true]
      rfl, ?_⟩
  all_goals
    simp (disch := omega) [hx, hr, hctx, set_right, set_left, rb_set_parent, rb_parent, heap_write_ne]
    try simp [hnd, hctx, hr, rep_write, repctx_write, ptr_ne, ptr_ne2]
    try simp (disch := omega) [hx, hr, hctx, heap_write_ne]

theorem unlink_eq (child : Option Nat) (sp : Nat) (m : Mem) :
    erase_unlink child (some sp) m = .ok (set_left sp child
      (match child with
        | some c => rb_set_parent c (some sp) m
        | none => m)) := by
  cases child <;> rfl

/-- Lines 237-239 of `rb_erase`: the successor leaves its place under its parent. -/
theorem unlink_shape {m : Mem} (G : List Frame) {sp : Nat} {spc : Color} {spr sr : Tree}
    {s : Nat} {sc : Color}
    (hs : Shape m (plug (.left sp spc spr :: G) (.node .nil s sc sr))) :
    ∃ m2, erase_unlink sr.ptr (some sp) m = .ok m2 ∧
      Shape m2 (plug (.left sp spc spr :: G) sr) := by
  refine ⟨_, unlink_eq _ _ _, ?_⟩
  obtain ⟨m3, -, h2⟩ := splice_right_shape (.left sp spc spr :: G) hs
  have hnd2 := h2.2.2
  obtain ⟨hroot, hrep, hnd⟩ := hs
  obtain ⟨hctx, hx, -, hr⟩ := (rep_plug _ _ _ _).1 ⟨hroot, hrep⟩
  simp only [Shape, and_comm (b := List.Nodup _)]
  simp only [hnd2, true_and, rep_plug]
  clear hnd2 hroot hrep h2
  rcases sr with _ | ⟨rl, ra, rc, rr⟩
  all_goals
    simp [inorder_plug, Tree.inorder, ctxBefore, ctxAfter, List.nodup_append, List.nodup_cons] at hnd
    simp only [RepCtx, Rep, ptr_node, ptr_nil, ctxParent_nil, ctxParent_cons, addr_left, addr_right] at hctx hx hr ⊢
    simp (disch := omega) [hx, hr, hctx, set_right, set_left, rb_set_parent, rb_parent, heap_write_ne]
    try simp [hnd, hctx, hr, rep_write, repctx_write, ptr_ne, ptr_ne2]
    try simp (disch := omega) [hx, hr, hctx, heap_write_ne]

theorem nodup_remove_mid {A B : List Nat} {x : Nat} (h : (A ++ x :: B).Nodup) : (A ++ B).Nodup :=
  h.sublist (List.Sublist.append (List.Sublist.refl A) (List.sublist_cons_self x B))

theorem nodup_replace_mid {A B : List Nat} {x s : Nat} (h : (A ++ x :: B).Nodup)
    (hs : s ∉ A ++ x :: B) : (A ++ s :: B).Nodup := by
  simp only [List.nodup_append, List.nodup_cons, List.mem_append, List.mem_cons, not_or,
    List.disjoint_cons_right] at h hs ⊢
  tauto

theorem relink_heap {m : Mem} {x s z : Nat} (hz : ¬ rb_parent m x = some z) :
    (erase_relink x s m).heap z = m.heap z := by
  unfold erase_relink
  rcases hp : rb_parent m x with _ | op
  · rfl
  · have hne : z ≠ op := fun e => hz (by rw [hp, e])
    simp only
    split <;> simp [set_left, set_right, heap_write_ne _ _ hne]

/-- The successor is the right child of the erased node (rbtree.c 222-235, 245-247). -/
theorem adopt_near_shape {m : Mem} (fs : List Frame) {ll lr sr : Tree} {la x s : Nat}
    {lc c sc : Color}
    (hs : Shape m (plug fs (.node (.node ll la lc lr) x c (.node .nil s sc sr)))) :
    ∃ m2, erase_adopt_left x s (erase_relink x s m) = .ok m2 ∧
      Shape m2 (plug fs (.node (.node ll la lc lr) s c sr)) := by
  obtain ⟨hroot, hrep, hnd⟩ := hs
  obtain ⟨hctx, hx, ⟨hla, hll, hlr⟩, hss, -, hsr⟩ := (rep_plug _ _ _ _).1 ⟨hroot, hrep⟩
  have hnd2 : (plug fs (.node (.node ll la lc lr) s c sr)).inorder.Nodup := by
    have : (plug fs (.node (.node ll la lc lr) x c (.node .nil s sc sr))).inorder =
        (ctxBefore fs ++ (ll.inorder ++ la :: lr.inorder)) ++ x :: (s :: sr.inorder ++ ctxAfter fs) := by
      simp [inorder_plug, Tree.inorder]
    rw [this] at hnd
    have h2 := nodup_remove_mid hnd
    simpa [inorder_plug, Tree.inorder] using h2
  simp only [Shape, and_comm (b := List.Nodup _)]
  simp only [hnd2, true_and, rep_plug]
  clear hnd2 hroot hrep
  rcases fs with _ | ⟨⟨p, pc, pr⟩ | ⟨pl, p, pc⟩, fs⟩
  all_goals
    simp [inorder_plug, Tree.inorder, ctxBefore, ctxAfter, List.nodup_append, List.nodup_cons] at hnd
    simp only [RepCtx, Rep, ptr_node, ptr_nil, ctxParent_nil, ctxParent_cons, addr_left, addr_right] at hctx hx hla hss ⊢
    simp (disch := omega) [erase_adopt_left, erase_relink, hx, hla, hss, hctx, set_right, set_left,
      rb_set_parent, rb_parent, heap_write_ne]
    try simp [hnd, hctx, hll, hlr, hsr, rep_write, repctx_write, ptr_ne, ptr_ne2]
    try simp (disch := omega) [hx, hla, hss, hctx, heap_write_ne]
    try simp [hnd, hctx, hll, hlr, hsr, rep_write, repctx_write, ptr_ne, ptr_ne2]

/-- The successor lies deeper: it takes over both subtrees of the erased node
(rbtree.c 222-228, 241-247). -/
theorem adopt_far_shape {m : Mem} (fs : List Frame) {ll lr rl rr : Tree} {la ra x s : Nat}
    {lc rc c : Color}
    (hs : Shape m (plug fs (.node (.node ll la lc lr) x c (.node rl ra rc rr))))
    (hns : s ∉ (plug fs (.node (.node ll la lc lr) x c (.node rl ra rc rr))).inorder) :
    ∃ m2, (erase_adopt_right x s (erase_relink x s m) >>= erase_adopt_left x s) = .ok m2 ∧
      Shape m2 (plug fs (.node (.node ll la lc lr) s c (.node rl ra rc rr))) := by
  obtain ⟨hroot, hrep, hnd⟩ := hs
  obtain ⟨hctx, hx, ⟨hla, hll, hlr⟩, hra, hrl, hrr⟩ := (rep_plug _ _ _ _).1 ⟨hroot, hrep⟩
  have hnd2 : (plug fs (.node (.node ll la lc lr) s c (.node rl ra rc rr))).inorder.Nodup := by
    have : (plug fs (.node (.node ll la lc lr) x c (.node rl ra rc rr))).inorder =
        (ctxBefore fs ++ (ll.inorder ++ la :: lr.inorder)) ++
          x :: ((rl.inorder ++ ra :: rr.inorder) ++ ctxAfter fs) := by
      simp [inorder_plug, Tree.inorder]
    rw [this] at hnd hns
    have h2 := nodup_replace_mid hnd hns
    simpa [inorder_plug, Tree.inorder] using h2
  simp only [Shape, and_comm (b := List.Nodup _)]
  simp only [hnd2, true_and, rep_plug]
  clear hroot hrep
  rcases fs with _ | ⟨⟨p, pc, pr⟩ | ⟨pl, p, pc⟩, fs⟩
  all_goals
    simp [inorder_plug, Tree.inorder, ctxBefore, ctxAfter, List.nodup_append, List.nodup_cons] at hnd hnd2
    simp [inorder_plug, Tree.inorder, ctxBefore, ctxAfter] at hns
    simp only [RepCtx, Rep, ptr_node, ptr_nil, ctxParent_nil, ctxParent_cons, addr_left, addr_right] at hctx hx hla hra ⊢
    simp (disch := omega) [erase_adopt_left, erase_adopt_right, erase_relink, hx, hla, hra, hctx,
      set_right, set_left, rb_set_parent, rb_parent, heap_write_ne]
    try simp [hnd, hnd2, hctx, hll, hlr, hrl, hrr, rep_write, repctx_write, ptr_ne, ptr_ne2]
    try simp (disch := omega) [hx, hla, hra, hctx, heap_write_ne]
    try simp [hnd, hnd2, hctx, hll, hlr, hrl, hrr, rep_write, repctx_write, ptr_ne, ptr_ne2]

theorem unlink_relink_comm (m : Mem) (x s sp : Nat) (child : Option Nat)
    (h1 : sp ≠ x) (h2 : ∀ c0, child = some c0 → c0 ≠ x)
    (h3 : ∀ op, rb_parent m x = some op → op ≠ sp ∧ ∀ c0, child = some c0 → c0 ≠ op) :
    erase_unlink child (some sp) (erase_relink x s m) =
      (erase_unlink child (some sp) m >>= fun mA => pure (erase_relink x s mA)) := by
  rw [unlink_eq, unlink_eq]
  simp only [bind_ok, pure_eq_ok, Except.ok.injEq]
  rcases child with _ | c0 <;> rcases hp : rb_parent m x with _ | op
  all_goals
    have h2' := h2
    have h3' := h3
    simp only [hp, Option.some.injEq, forall_eq', reduceCtorEq, false_implies, implies_true, and_true] at h2' h3'
    simp only [rb_parent] at hp
    apply mem_ext
    · intro z
      simp only [erase_relink, hp, set_left, set_right, rb_parent, rb_set_parent]
      simp (disch := omega) only [heap_write_ne, hp]
      try split_ifs
      all_goals try simp only [Mem.write, Function.update_apply, heap_set_root]
      all_goals try (split_ifs <;> simp_all)
    · simp only [erase_relink, hp, set_left, set_right, rb_parent, rb_set_parent]
      simp (disch := omega) only [heap_write_ne, hp]
      try split_ifs
      all_goals simp

theorem plug_append (rs fs : List Frame) (t : Tree) : plug (rs ++ fs) t = plug fs (plug rs t) := by
  induction rs generalizing t with
  | nil => rfl
  | cons f rs ih => simp [ih]

theorem allLeft_before {rs : List Frame} (h : AllLeft rs) : ctxBefore rs = [] := by
  induction rs with
  | nil => rfl
  | cons f rs ih =>
    rcases f with ⟨a, c, r⟩ | ⟨l, a, c⟩
    · exact ih h
    · exact absurd h (by simp [AllLeft])

theorem allLeft_snoc {rs : List Frame} (h : AllLeft rs) (a : Nat) (c : Color) (r : Tree) :
    AllLeft (rs ++ [.left a c r]) := by
  induction rs with
  | nil => trivial
  | cons f rs ih =>
    rcases f with ⟨a2, c2, r2⟩ | ⟨l2, a2, c2⟩
    · exact ih h
    · exact absurd h (by simp [AllLeft])

theorem noRedRed_blacken {t : Tree} (h : NoRedRed t) : NoRedRed t.blacken := by
  cases t with
  | nil => trivial
  | node l a c r => exact ⟨fun hc => by simp at hc, h.2⟩

/-- The red-black conditions do not depend on the address of a node. -/
theorem valid_readdr (fs : List Frame) {l r : Tree} {x : Nat} (y : Nat) {c : Color}
    (h3 : NoRedRed (plug fs (.node l x c r))) (h4 : BlackUniform (plug fs (.node l x c r)))
    (h5 : (plug fs (.node l x c r)).color = RB_BLACK) :
    NoRedRed (plug fs (.node l y c r)) ∧ BlackUniform (plug fs (.node l y c r)) ∧
      (plug fs (.node l y c r)).color = RB_BLACK := by
  obtain ⟨i1, i2, i3, i4⟩ := ctx_split h3 h4 h5
  exact ctx_fill (t := .node l y c r) i1 rfl i2 i3 i4

/-- The loop that looks for the successor in `rb_erase` finds the leftmost node. -/
theorem leftmost_spine : ∀ (r : Tree) (fuel : Nat) (G : List Frame) (m : Mem) (a : Nat),
    r.ptr = some a → Shape m (plug G r) → r.height ≤ fuel →
    ∃ rs s sc sr, AllLeft rs ∧ r = plug rs (.node .nil s sc sr) ∧ leftmost fuel m a = .ok s ∧
      rs.length + 1 ≤ r.height := by
  intro r
  induction r with
  | nil => intro fuel G m a h; simp at h
  | node rl b c rr ihl _ =>
    intro fuel G m a ha hs hh
    simp only [ptr_node, Option.some.injEq] at ha
    subst ha
    simp only [Tree.height] at hh
    obtain ⟨k, rfl⟩ : ∃ k, fuel = k + 1 := ⟨fuel - 1, by omega⟩
    have hb := heap_focus G hs
    rcases rl with _ | ⟨rll, rla, rlc, rlr⟩
    · exact ⟨[], b, c, rr, trivial, rfl, by simp [leftmost, hb], by simp [Tree.height]⟩
    · obtain ⟨rs, s, sc, sr, h1, h2, h3, h4⟩ := ihl k (.left b c rr :: G) m rla rfl hs
        (by simp only [Tree.height] at hh ⊢; omega)
      refine ⟨rs ++ [.left b c rr], s, sc, sr, allLeft_snoc h1 _ _ _, ?_, ?_, ?_⟩
      · rw [plug_append, ← h2]; rfl
      · simpa [leftmost, hb] using h3
      · simp only [List.length_append, List.length_singleton, Tree.height] at h4 ⊢; omega

theorem erase_tail_right_ok (fuel : Nat) (R : List Frame) (a : Nat) (sc : Color) (child : Tree)
    (m : Mem) (hs : Shape m (plug R child)) (hlen : R.length < fuel)
    (h3 : NoRedRed (plug R (.node .nil a sc child)))
    (h4 : BlackUniform (plug R (.node .nil a sc child)))
    (h5 : (plug R (.node .nil a sc child)).color = RB_BLACK) :
    ∃ m2 t2, erase_tail fuel sc child.ptr (ctxParent R) m = .ok m2 ∧ Shape m2 t2 ∧
      t2.inorder = (plug R child).inorder ∧ NoRedRed t2 ∧ BlackUniform t2 ∧
      t2.color = RB_BLACK := by
  obtain ⟨i1, ⟨j1, -, j3⟩, ⟨k1, -, k3⟩, i4⟩ := ctx_split h3 h4 h5
  simp only [Tree.bh, zero_add, color_node] at i1 k1 i4 j1
  rcases color_cases sc with hc | hc
  · subst hc
    have hfill := ctx_fill (t := child) (by simpa using i1) k1.symm j3 k3 (fun _ => (j1 rfl).2)
    exact ⟨m, _, by simp [erase_tail], hs, rfl, hfill⟩
  · subst hc
    simpa [erase_tail] using erase_color_ok fuel R child m 0 hs hlen (by simpa using i1) k1.symm
      (noRedRed_blacken j3) k3

theorem erase_tail_left_ok (fuel : Nat) (R : List Frame) (a : Nat) (sc : Color) (child : Tree)
    (m : Mem) (hs : Shape m (plug R child)) (hlen : R.length < fuel)
    (h3 : NoRedRed (plug R (.node child a sc .nil)))
    (h4 : BlackUniform (plug R (.node child a sc .nil)))
    (h5 : (plug R (.node child a sc .nil)).color = RB_BLACK) :
    ∃ m2 t2, erase_tail fuel sc child.ptr (ctxParent R) m = .ok m2 ∧ Shape m2 t2 ∧
      t2.inorder = (plug R child).inorder ∧ NoRedRed t2 ∧ BlackUniform t2 ∧
      t2.color = RB_BLACK := by
  obtain ⟨i1, ⟨j1, j3, -⟩, ⟨k1, k3, -⟩, i4⟩ := ctx_split h3 h4 h5
  simp only [Tree.bh, color_node] at i1 k1 i4 j1
  rcases color_cases sc with hc | hc
  · subst hc
    have hfill := ctx_fill (t := child) (by simpa [k1] using i1) k1 j3 k3 (fun _ => (j1 rfl).1)
    exact ⟨m, _, by simp [erase_tail], hs, rfl, hfill⟩
  · subst hc
    simpa [erase_tail] using erase_color_ok fuel R child m 0 hs hlen (by simpa [k1] using i1) k1
      (noRedRed_blacken j3) k3

theorem ctxBefore_append (rs fs : List Frame) :
    ctxBefore (rs ++ fs) = ctxBefore fs ++ ctxBefore rs := by
  induction rs with
  | nil => simp [ctxBefore]
  | cons f rs ih => rcases f with ⟨a, c, r⟩ | ⟨l, a, c⟩ <;> simp [ctxBefore, ih]

theorem ctxAfter_append (rs fs : List Frame) :
    ctxAfter (rs ++ fs) = ctxAfter rs ++ ctxAfter fs := by
  induction rs with
  | nil => simp [ctxAfter]
  | cons f rs ih => rcases f with ⟨a, c, r⟩ | ⟨l, a, c⟩ <;> simp [ctxAfter, ih]

theorem bind_ok_split {α β : Type} {x : Except Fault α} {f : α → Except Fault β} {b : β}
    (h : (x >>= f) = .ok b) : ∃ a, x = .ok a ∧ f a = .ok b := by
  rcases x with e | a
  · simp at h
  · exact ⟨a, rfl, by simpa using h⟩

theorem plug_node_ex (fs : List Frame) (l : Tree) (a : Nat) (c : Color) (r : Tree) :
    ∃ L b d R, plug fs (.node l a c r) = .node L b d R := by
  rcases fs with _ | ⟨f, fs⟩
  · exact ⟨l, a, c, r, rfl⟩
  · exact plug_cons_node f fs _

/-- The two-children case of `rb_erase` up to the label `color:` (rbtree.c 214-250): the
in-order successor `s` is taken out of the right subtree and put at the place of the
erased node, with the parent, the left subtree and the colour of the erased node. -/
theorem erase_two_children {m : Mem} (fs : List Frame) {ll lr rl rr : Tree} {la ra x : Nat}
    {lc rc c : Color}
    (hs : Shape m (plug fs (.node (.node ll la lc lr) x c (.node rl ra rc rr))))
    (fuel : Nat) (hf : (plug fs (.node (.node ll la lc lr) x c (.node rl ra rc rr))).height < fuel) :
    ∃ rs s sc sr mB, AllLeft rs ∧ Tree.node rl ra rc rr = plug rs (.node .nil s sc sr) ∧
      Shape mB (plug fs (.node (.node ll la lc lr) s c (plug rs sr))) ∧
      rb_erase fuel x m = erase_tail fuel sc sr.ptr
        (ctxParent (rs ++ .right (.node ll la lc lr) s c :: fs)) mB ∧
      (rs ++ .right (.node ll la lc lr) s c :: fs).length < fuel := by
  have hx := heap_focus fs hs
  have hrh : (Tree.node rl ra rc rr).height ≤ fuel := by
    have := plug_height (.right (.node ll la lc lr) x c :: fs) (.node rl ra rc rr)
    simp only [plug_cons, fill_right] at this
    omega
  obtain ⟨rs, s, sc, sr, a1, a2, a3, a4⟩ := leftmost_spine (.node rl ra rc rr) fuel
    (.right (.node ll la lc lr) x c :: fs) m ra rfl hs hrh
  have hR : (rs ++ .right (.node ll la lc lr) s c :: fs).length < fuel := by
    have := plug_height (rs ++ .right (.node ll la lc lr) x c :: fs) (.node .nil s sc sr)
    simp only [plug_append, plug_cons, fill_right, ← a2, Tree.height] at this
    simp only [List.length_append, List.length_cons] at this ⊢
    omega
  suffices h : ∃ mB, Shape mB (plug fs (.node (.node ll la lc lr) s c (plug rs sr))) ∧
      rb_erase fuel x m = erase_tail fuel sc sr.ptr
        (ctxParent (rs ++ .right (.node ll la lc lr) s c :: fs)) mB by
    obtain ⟨mB, h1, h2⟩ := h
    exact ⟨rs, s, sc, sr, mB, a1, a2, h1, h2, hR⟩
  simp only [ptr_node] at hx
  rcases rs with _ | ⟨f1, rs1⟩
  · -- the successor is the right child
    simp only [plug_nil, Tree.node.injEq] at a2
    obtain ⟨rfl, rfl, rfl, rfl⟩ := a2
    have hnd := hs.2.2
    obtain ⟨m1, e1, s1⟩ := adopt_near_shape fs hs
    have hss := heap_focus (.right (.node ll la lc lr) x c :: fs) hs
    simp [inorder_plug, Tree.inorder, ctxBefore, ctxAfter, List.nodup_append,
      List.nodup_cons] at hnd
    have hne : ¬ rb_parent m x = some ra := by
      simp only [rb_parent, hx]
      rcases fs with _ | ⟨⟨p, pc, pr⟩ | ⟨pl, p, pc⟩, fs⟩ <;>
        simp [ctxBefore, ctxAfter] at hnd ⊢ <;> omega
    have hs1 := relink_heap (s := ra) hne
    refine ⟨m1, s1, ?_⟩
    simp only [ptr_node, ctxParent_cons, addr_right, ptr_nil] at hx hss
    simp [rb_erase, hx, a3, rb_parent, rb_color, hs1, hss, e1]
  · -- the successor lies deeper in the right subtree
    rcases f1 with ⟨sp, spc, spr⟩ | ⟨spl, sp, spc⟩
    swap
    · exact absurd a1 (by simp [AllLeft])
    have hT : plug (.left sp spc spr :: (rs1 ++ .right (.node ll la lc lr) x c :: fs))
        (.node .nil s sc sr) =
        plug fs (.node (.node ll la lc lr) x c (.node rl ra rc rr)) := by
      simp [plug_append, a2]
    have hs2 := hs
    rw [← hT] at hs2
    obtain ⟨mA, eA, sA⟩ := unlink_shape _ hs2
    obtain ⟨rl2, ra2, rc2, rr2, hr2⟩ := plug_node_ex rs1 sr sp spc spr
    have hT2 : plug (.left sp spc spr :: (rs1 ++ .right (.node ll la lc lr) x c :: fs)) sr =
        plug fs (.node (.node ll la lc lr) x c (.node rl2 ra2 rc2 rr2)) := by
      simp [plug_append, hr2]
    rw [hT2] at sA
    have hnd := hs2.2.2
    have hb := allLeft_before a1
    simp only [AllLeft] at hb
    simp [inorder_plug, Tree.inorder, ctxBefore, ctxAfter, ctxBefore_append, ctxAfter_append, hb,
      List.nodup_append, List.nodup_cons] at hnd
    have hns : s ∉ (plug fs (.node (.node ll la lc lr) x c (.node rl2 ra2 rc2 rr2))).inorder := by
      rw [← hT2]
      simp [inorder_plug, Tree.inorder, ctxBefore, ctxAfter, ctxBefore_append, ctxAfter_append,
        hb, hnd]
      omega
    obtain ⟨mB, eB, sB⟩ := adopt_far_shape fs sA hns
    obtain ⟨m3, eB1, eB2⟩ := bind_ok_split eB
    have hss := heap_focus _ hs2
    have hne : ¬ rb_parent m x = some s := by
      simp only [rb_parent, hx]
      rcases fs with _ | ⟨⟨p, pc, pr⟩ | ⟨pl, p, pc⟩, fs⟩ <;>
        simp [ctxBefore, ctxAfter] at hnd ⊢ <;> omega
    have hs1 := relink_heap (s := s) hne
    have hcomm := unlink_relink_comm m x s sp sr.ptr
      (by omega) (fun c0 hc0 => by
        have := ptr_mem hc0
        intro e; subst e
        simp [hnd] at this)
      (fun op hop => by
        simp only [rb_parent, hx] at hop
        rcases fs with _ | ⟨⟨p, pc, pr⟩ | ⟨pl, p, pc⟩, fs⟩
        · simp at hop
        · simp only [ctxParent_cons, addr_left, Option.some.injEq] at hop
          subst hop
          simp [ctxBefore, ctxAfter] at hnd
          refine ⟨by omega, fun c0 hc0 => ?_⟩
          have := ptr_mem hc0
          intro e; subst e
          simp [hnd] at this
        · simp only [ctxParent_cons, addr_right, Option.some.injEq] at hop
          subst hop
          simp [ctxBefore, ctxAfter] at hnd
          refine ⟨by omega, fun c0 hc0 => ?_⟩
          have := ptr_mem hc0
          intro e; subst e
          simp [hnd] at this)
    refine ⟨mB, by simpa [hr2] using sB, ?_⟩
    simp only [ptr_node, ctxParent_cons, addr_left, ptr_nil, List.cons_append] at hx hss ⊢
    have hspx : ¬ sp = x := by omega
    simp [rb_erase, hx, a3, rb_parent, rb_color, hs1, hss, hspx, hcomm, eA, eB1, eB2]

/-- Master lemma for `rb_erase` on a tree satisfying the red-black invariants. -/
theorem rb_erase_spec {m : Mem} (fs : List Frame) {l r : Tree} {x : Nat} {c : Color}
    (hs : Shape m (plug fs (.node l x c r)))
    (h3 : NoRedRed (plug fs (.node l x c r))) (h4 : BlackUniform (plug fs (.node l x c r)))
    (h5 : (plug fs (.node l x c r)).color = RB_BLACK)
    (fuel : Nat) (hf : (plug fs (.node l x c r)).height < fuel) :
    ∃ m2 t2, rb_erase fuel x m = .ok m2 ∧ Shape m2 t2 ∧
      t2.inorder = ctxBefore fs ++ (l.inorder ++ r.inorder) ++ ctxAfter fs ∧
      NoRedRed t2 ∧ BlackUniform t2 ∧ t2.color = RB_BLACK := by
  have hx := heap_focus fs hs
  have hlen : fs.length < fuel := by
    have := plug_height fs (.node l x c r)
    simp only [Tree.height] at this
    omega
  rcases l with _ | ⟨ll, la, lc, lr⟩
  · -- no left child
    obtain ⟨m1, e1, s1⟩ := splice_right_shape fs hs
    obtain ⟨m2, t2, e2, s2, hin, r1, r2, r3⟩ := erase_tail_right_ok fuel fs x c r m1 s1 hlen h3 h4 h5
    refine ⟨m2, t2, ?_, s2, ?_, r1, r2, r3⟩
    · simp [rb_erase, hx, e1, e2]
    · simp [hin, inorder_plug, Tree.inorder]
  · rcases r with _ | ⟨rl, ra, rc, rr⟩
    · -- no right child
      obtain ⟨m1, e1, s1⟩ := splice_left_shape fs hs
      obtain ⟨m2, t2, e2, s2, hin, r1, r2, r3⟩ := erase_tail_left_ok fuel fs x c _ m1 s1 hlen h3
        h4 h5
      refine ⟨m2, t2, ?_, s2, ?_, r1, r2, r3⟩
      · simp only [ptr_node] at e1 e2
        simp [rb_erase, hx, e1, e2]
      · simp [hin, inorder_plug, Tree.inorder]
    · -- two children: the successor takes the place of the node
      obtain ⟨rs, s, sc, sr, mB, a1, a2, sB, eB, hR⟩ := erase_two_children fs hs fuel hf
      obtain ⟨v3, v4, v5⟩ := valid_readdr fs s h3 h4 h5
      have hT : plug (rs ++ .right (.node ll la lc lr) s c :: fs) (.node .nil s sc sr) =
          plug fs (.node (.node ll la lc lr) s c (.node rl ra rc rr)) := by
        simp [plug_append, a2]
      have hT2 : plug (rs ++ .right (.node ll la lc lr) s c :: fs) sr =
          plug fs (.node (.node ll la lc lr) s c (plug rs sr)) := by
        simp [plug_append]
      rw [← hT] at v3 v4 v5
      rw [← hT2] at sB
      obtain ⟨m2, t2, e2, s2, hin, r1, r2, r3⟩ := erase_tail_right_ok fuel _ s sc sr mB sB hR
        v3 v4 v5
      refine ⟨m2, t2, by rw [eB, e2], s2, ?_, r1, r2, r3⟩
      rw [hin, a2]
      simp [inorder_plug, Tree.inorder, ctxBefore, ctxAfter, ctxBefore_append,
        ctxAfter_append, allLeft_before a1]

theorem search_descend_ok {K : Type} [LinearOrder K] {cmp : Nat → K → Int} {keyOf : Nat → K}
    (hc : Consistent cmp keyOf) (key : K) (fuel : Nat) :
    ∀ (fs : List Frame) (sub : Tree) (m : Mem), Shape m (plug fs sub) → sub.height < fuel →
      BST keyOf sub →
      (∃ x ∈ sub.inorder, keyOf x = key ∧ search_descend cmp key fuel m sub.ptr = .ok (some x)) ∨
      ((∀ x ∈ sub.inorder, keyOf x ≠ key) ∧ search_descend cmp key fuel m sub.ptr = .ok none) := by
  induction fuel with
  | zero => intro fs sub m _ h; simp at h
  | succ fuel ih =>
    intro fs sub m hs hh hbst
    rcases sub with _ | ⟨l, a, c, r⟩
    · right
      exact ⟨by simp [Tree.inorder], by simp [search_descend]⟩
    · have hx := heap_focus fs hs
      obtain ⟨b1, b2, b3, b4⟩ := hbst
      simp only [Tree.height] at hh
      by_cases h1 : cmp a key < 0
      · have hk := (hc a key).1.1 h1
        rcases ih (.left a c r :: fs) l m hs (by omega) b3 with ⟨x, hx1, hx2, e⟩ | ⟨hno, e⟩
        · left
          exact ⟨x, by simp [Tree.inorder, hx1], hx2, by simpa [search_descend, h1, hx] using e⟩
        · right
          refine ⟨?_, by simpa [search_descend, h1, hx] using e⟩
          intro x hx1
          simp only [Tree.inorder, List.mem_append, List.mem_cons] at hx1
          rcases hx1 with hx1 | rfl | hx1
          · exact hno x hx1
          · exact fun e => absurd hk (by rw [e]; exact lt_irrefl _)
          · exact fun e => absurd (lt_trans hk (b2 x hx1)) (by rw [e]; exact lt_irrefl _)
      · by_cases h2 : cmp a key > 0
        · have hk := (hc a key).2.1 h2
          rcases ih (.right l a c :: fs) r m hs (by omega) b4 with ⟨x, hx1, hx2, e⟩ | ⟨hno, e⟩
          · left
            exact ⟨x, by simp [Tree.inorder, hx1], hx2,
              by simpa [search_descend, h1, h2, hx] using e⟩
          · right
            refine ⟨?_, by simpa [search_descend, h1, h2, hx] using e⟩
            intro x hx1
            simp only [Tree.inorder, List.mem_append, List.mem_cons] at hx1
            rcases hx1 with hx1 | rfl | hx1
            · exact fun e => absurd (lt_trans (b1 x hx1) hk) (by rw [e]; exact lt_irrefl _)
            · exact fun e => absurd hk (by rw [e]; exact lt_irrefl _)
            · exact hno x hx1
        · left
          have hk := (consistent_zero hc a key).1 ⟨h1, h2⟩
          exact ⟨a, by simp [Tree.inorder], hk.symm, by simp [search_descend, h1, h2]⟩

/-- Two nodes of a search tree with the same key are the same node. -/
theorem key_unique {K : Type} [LinearOrder K] {keyOf : Nat → K} {l : List Nat}
    (hs : KeySorted keyOf l) {x y : Nat} (hx : x ∈ l) (hy : y ∈ l) (h : keyOf x = keyOf y) :
    x = y := by
  induction l with
  | nil => simp at hx
  | cons a l ih =>
    simp only [KeySorted, List.pairwise_cons, List.mem_cons] at hs hx hy
    rcases hx with rfl | hx <;> rcases hy with rfl | hy
    · rfl
    · exact absurd (hs.1 y hy) (by rw [h]; exact lt_irrefl _)
    · exact absurd (hs.1 x hx) (by rw [← h]; exact lt_irrefl _)
    · exact ih hs.2 hx hy

theorem exists_focus : ∀ (t : Tree) (x : Nat), x ∈ t.inorder →
    ∃ fs l c r, t = plug fs (.node l x c r) := by
  intro t
  induction t with
  | nil => intro x h; simp [Tree.inorder] at h
  | node l a c r ihl ihr =>
    intro x hx
    simp only [Tree.inorder, List.mem_append, List.mem_cons] at hx
    rcases hx with hx | rfl | hx
    · obtain ⟨fs, l2, c2, r2, e⟩ := ihl x hx
      exact ⟨fs ++ [.left a c r], l2, c2, r2, by rw [plug_append, ← e]; rfl⟩
    · exact ⟨[], l, c, r, rfl⟩
    · obtain ⟨fs, l2, c2, r2, e⟩ := ihr x hx
      exact ⟨fs ++ [.right l a c], l2, c2, r2, by rw [plug_append, ← e]; rfl⟩

/-- In a list without duplicates the place of an element is unique. -/
theorem nodup_mid_unique {A B C D : List Nat} {x : Nat} (h : (A ++ x :: B).Nodup)
    (e : A ++ x :: B = C ++ x :: D) : A = C ∧ B = D := by
  induction A generalizing C with
  | nil =>
    rcases C with _ | ⟨c, C⟩
    · simpa using e
    · simp only [List.nil_append, List.cons_append, List.cons.injEq] at e
      obtain ⟨rfl, e2⟩ := e
      simp only [List.nil_append, List.nodup_cons] at h
      exact absurd (by rw [e2]; simp) h.1
  | cons a A ih =>
    rcases C with _ | ⟨c, C⟩
    · simp only [List.nil_append, List.cons_append, List.cons.injEq] at e
      obtain ⟨rfl, e2⟩ := e
      simp only [List.cons_append, List.nodup_cons] at h
      exact absurd (by simp) h.1
    · simp only [List.cons_append, List.cons.injEq] at e
      obtain ⟨rfl, e2⟩ := e
      simp only [List.cons_append, List.nodup_cons] at h
      obtain ⟨h1, h2⟩ := ih h.2 e2
      exact ⟨by rw [h1], h2⟩

theorem allRight_after {rs : List Frame} (h : AllRight rs) : ctxAfter rs = [] := by
  induction rs with
  | nil => rfl
  | cons f rs ih =>
    rcases f with ⟨a, c, r⟩ | ⟨l, a, c⟩
    · exact absurd h (by simp [AllRight])
    · exact ih h

theorem allRight_snoc {rs : List Frame} (h : AllRight rs) (l : Tree) (a : Nat) (c : Color) :
    AllRight (rs ++ [.right l a c]) := by
  induction rs with
  | nil => trivial
  | cons f rs ih =>
    rcases f with ⟨a2, c2, r2⟩ | ⟨l2, a2, c2⟩
    · exact absurd h (by simp [AllRight])
    · exact ih h

theorem rightmost_spine : ∀ (r : Tree) (fuel : Nat) (G : List Frame) (m : Mem) (a : Nat),
    r.ptr = some a → Shape m (plug G r) → r.height ≤ fuel →
    ∃ rs s sc sl, AllRight rs ∧ r = plug rs (.node sl s sc .nil) ∧ rightmost fuel m a = .ok s ∧
      rs.length + 1 ≤ r.height := by
  intro r
  induction r with
  | nil => intro fuel G m a h; simp at h
  | node rl b c rr _ ihr =>
    intro fuel G m a ha hs hh
    simp only [ptr_node, Option.some.injEq] at ha
    subst ha
    simp only [Tree.height] at hh
    obtain ⟨k, rfl⟩ : ∃ k, fuel = k + 1 := ⟨fuel - 1, by omega⟩
    have hb := heap_focus G hs
    rcases rr with _ | ⟨rrl, rra, rrc, rrr⟩
    · exact ⟨[], b, c, rl, trivial, rfl, by simp [rightmost, hb], by simp [Tree.height]⟩
    · obtain ⟨rs, s, sc, sl, h1, h2, h3, h4⟩ := ihr k (.right rl b c :: G) m rra rfl hs
        (by simp only [Tree.height] at hh ⊢; omega)
      refine ⟨rs ++ [.right rl b c], s, sc, sl, allRight_snoc h1 _ _ _, ?_, ?_, ?_⟩
      · rw [plug_append, ← h2]; rfl
      · simpa [rightmost, hb] using h3
      · simp only [List.length_append, List.length_singleton, Tree.height] at h4 ⊢; omega

theorem first_spec {m : Mem} {t : Tree} (hs : Shape m t) (fuel : Nat) (hf : t.height < fuel) :
    rb_first fuel m = .ok t.inorder.head? := by
  rcases t with _ | ⟨l, a, c, r⟩
  · simp [rb_first, hs.1, Tree.inorder]
  · obtain ⟨rs, s, sc, sr, h1, h2, h3, -⟩ := leftmost_spine (.node l a c r) fuel [] m a rfl hs
      (by omega)
    have hin : (Tree.node l a c r).inorder.head? = some s := by
      rw [h2, inorder_plug, allLeft_before h1]; simp [Tree.inorder]
    rw [hin]
    simp [rb_first, hs.1, h3]

theorem last_spec {m : Mem} {t : Tree} (hs : Shape m t) (fuel : Nat) (hf : t.height < fuel) :
    rb_last fuel m = .ok t.inorder.getLast? := by
  rcases t with _ | ⟨l, a, c, r⟩
  · simp [rb_last, hs.1, Tree.inorder]
  · obtain ⟨rs, s, sc, sl, h1, h2, h3, -⟩ := rightmost_spine (.node l a c r) fuel [] m a rfl hs
      (by omega)
    have hin : (Tree.node l a c r).inorder.getLast? = some s := by
      rw [h2, inorder_plug, allRight_after h1]; simp [Tree.inorder]
    rw [hin]
    simp [rb_last, hs.1, h3]

theorem climb_right_ok (fuel : Nat) : ∀ (fs : List Frame) (t : Tree) (a : Nat) (m : Mem),
    t.ptr = some a → Shape m (plug fs t) → fs.length < fuel →
    climb_right fuel m a = .ok (ctxAfter fs).head? := by
  induction fuel with
  | zero => intro fs t a m _ _ h; simp at h
  | succ fuel ih =>
    intro fs t a m ha hs hlen
    rcases t with _ | ⟨l, b, c, r⟩
    · simp at ha
    simp only [ptr_node, Option.some.injEq] at ha
    subst ha
    have hx := parent_focus fs hs
    have hnd := hs.2.2
    rcases fs with _ | ⟨⟨p, pc, pr⟩ | ⟨pl, p, pc⟩, fs⟩
    · simp [climb_right, hx, ctxAfter]
    · have hp := heap_focus fs hs
      simp [inorder_plug, Tree.inorder, ctxBefore, ctxAfter, List.nodup_append,
        List.nodup_cons] at hnd
      simp [climb_right, hx, hp, ctxAfter, hnd, ptr_ne2]
    · have hp := heap_focus fs hs
      have := ih fs (.node pl p pc (.node l b c r)) p m rfl hs (by simp at hlen; omega)
      simpa [climb_right, hx, hp, ctxAfter] using this

theorem climb_left_ok (fuel : Nat) : ∀ (fs : List Frame) (t : Tree) (a : Nat) (m : Mem),
    t.ptr = some a → Shape m (plug fs t) → fs.length < fuel →
    climb_left fuel m a = .ok (ctxBefore fs).getLast? := by
  induction fuel with
  | zero => intro fs t a m _ _ h; simp at h
  | succ fuel ih =>
    intro fs t a m ha hs hlen
    rcases t with _ | ⟨l, b, c, r⟩
    · simp at ha
    simp only [ptr_node, Option.some.injEq] at ha
    subst ha
    have hx := parent_focus fs hs
    have hnd := hs.2.2
    rcases fs with _ | ⟨⟨p, pc, pr⟩ | ⟨pl, p, pc⟩, fs⟩
    · simp [climb_left, hx, ctxBefore]
    · have hp := heap_focus fs hs
      have := ih fs (.node (.node l b c r) p pc pr) p m rfl hs (by simp at hlen; omega)
      simpa [climb_left, hx, hp, ctxBefore] using this
    · have hp := heap_focus fs hs
      simp [inorder_plug, Tree.inorder, ctxBefore, ctxAfter, List.nodup_append,
        List.nodup_cons] at hnd
      simp [climb_left, hx, hp, ctxBefore, hnd, ptr_ne2]

theorem parent_ne_self {m : Mem} (fs : List Frame) {l r : Tree} {x : Nat} {c : Color}
    (hs : Shape m (plug fs (.node l x c r))) : ¬ rb_parent m x = some x := by
  have hx := parent_focus fs hs
  have hnd := hs.2.2
  rw [hx]
  rcases fs with _ | ⟨⟨p, pc, pr⟩ | ⟨pl, p, pc⟩, fs⟩ <;>
    simp [inorder_plug, Tree.inorder, ctxBefore, ctxAfter, List.nodup_append,
      List.nodup_cons] at hnd ⊢ <;> omega

theorem next_spec {m : Mem} (fs : List Frame) {l r : Tree} {x : Nat} {c : Color}
    (hs : Shape m (plug fs (.node l x c r))) (fuel : Nat)
    (hf : (plug fs (.node l x c r)).height < fuel) :
    rb_next fuel m x = .ok (r.inorder ++ ctxAfter fs).head? := by
  have hne := parent_ne_self fs hs
  have hx := heap_focus fs hs
  have hh := plug_height fs (.node l x c r)
  simp only [Tree.height] at hh
  rcases r with _ | ⟨rl, ra, rc, rr⟩
  · have := climb_right_ok fuel fs (.node l x c .nil) x m rfl hs (by omega)
    simp [rb_next, hne, hx, this, Tree.inorder]
  · obtain ⟨rs, s, sc, sr, h1, h2, h3, -⟩ := leftmost_spine (.node rl ra rc rr) fuel
      (.right l x c :: fs) m ra rfl hs (by omega)
    have hin : ((Tree.node rl ra rc rr).inorder ++ ctxAfter fs).head? = some s := by
      rw [h2, inorder_plug, allLeft_before h1]; simp [Tree.inorder]
    rw [hin]
    simp [rb_next, hne, hx, h3]

theorem prev_spec {m : Mem} (fs : List Frame) {l r : Tree} {x : Nat} {c : Color}
    (hs : Shape m (plug fs (.node l x c r))) (fuel : Nat)
    (hf : (plug fs (.node l x c r)).height < fuel) :
    rb_prev fuel m x = .ok (ctxBefore fs ++ l.inorder).getLast? := by
  have hne := parent_ne_self fs hs
  have hx := heap_focus fs hs
  have hh := plug_height fs (.node l x c r)
  simp only [Tree.height] at hh
  rcases l with _ | ⟨ll, la, lc, lr⟩
  · have := climb_left_ok fuel fs (.node .nil x c r) x m rfl hs (by omega)
    simp [rb_prev, hne, hx, this, Tree.inorder]
  · obtain ⟨rs, s, sc, sl, h1, h2, h3, -⟩ := rightmost_spine (.node ll la lc lr) fuel
      (.left x c r :: fs) m la rfl hs (by omega)
    have hin : (ctxBefore fs ++ (Tree.node ll la lc lr).inorder).getLast? = some s := by
      rw [h2, inorder_plug, allRight_after h1]; simp [Tree.inorder]
    rw [hin]
    simp [rb_prev, hne, hx, h3]

/-- The successor of a node is the next element of the in-order sequence. -/
theorem next_of_split {m : Mem} {t : Tree} (hs : Shape m t) (fuel : Nat) (hf : t.height < fuel)
    {pre suf : List Nat} {x : Nat} (hin : t.inorder = pre ++ x :: suf) :
    rb_next fuel m x = .ok suf.head? := by
  obtain ⟨fs, l, c, r, e⟩ := exists_focus t x (by rw [hin]; simp)
  subst e
  have hnd := hs.2.2
  have e2 : (plug fs (.node l x c r)).inorder =
      (ctxBefore fs ++ l.inorder) ++ x :: (r.inorder ++ ctxAfter fs) := by
    simp [inorder_plug, Tree.inorder]
  rw [hin] at hnd
  rw [hin] at e2
  obtain ⟨-, h2⟩ := nodup_mid_unique hnd e2
  rw [h2]
  exact next_spec fs hs fuel hf

/-- The predecessor of a node is the previous element of the in-order sequence. -/
theorem prev_of_split {m : Mem} {t : Tree} (hs : Shape m t) (fuel : Nat) (hf : t.height < fuel)
    {pre suf : List Nat} {x : Nat} (hin : t.inorder = pre ++ x :: suf) :
    rb_prev fuel m x = .ok pre.getLast? := by
  obtain ⟨fs, l, c, r, e⟩ := exists_focus t x (by rw [hin]; simp)
  subst e
  have hnd := hs.2.2
  have e2 : (plug fs (.node l x c r)).inorder =
      (ctxBefore fs ++ l.inorder) ++ x :: (r.inorder ++ ctxAfter fs) := by
    simp [inorder_plug, Tree.inorder]
  rw [hin] at hnd
  rw [hin] at e2
  obtain ⟨h1, -⟩ := nodup_mid_unique hnd e2
  rw [h1]
  exact prev_spec fs hs fuel hf

theorem walk_next_ok {m : Mem} {t : Tree} (hs : Shape m t) (fuel : Nat) (hf : t.height < fuel) :
    ∀ (suf pre : List Nat) (steps : Nat), t.inorder = pre ++ suf → suf.length < steps →
      walk_next fuel m steps suf.head? = .ok suf := by
  intro suf
  induction suf with
  | nil =>
    intro pre steps _ hst
    obtain ⟨k, rfl⟩ : ∃ k, steps = k + 1 := ⟨steps - 1, by omega⟩
    simp [walk_next]
  | cons x rest ih =>
    intro pre steps hin hst
    obtain ⟨k, rfl⟩ : ∃ k, steps = k + 1 := ⟨steps - 1, by omega⟩
    have h1 := next_of_split hs fuel hf hin
    have h2 := ih (pre ++ [x]) k (by simp [hin]) (by simp at hst; omega)
    simp [walk_next, h1, h2]

theorem walk_prev_ok {m : Mem} {t : Tree} (hs : Shape m t) (fuel : Nat) (hf : t.height < fuel) :
    ∀ (rpre suf : List Nat) (steps : Nat), t.inorder = rpre.reverse ++ suf → rpre.length < steps →
      walk_prev fuel m steps rpre.head? = .ok rpre := by
  intro rpre
  induction rpre with
  | nil =>
    intro suf steps _ hst
    obtain ⟨k, rfl⟩ : ∃ k, steps = k + 1 := ⟨steps - 1, by omega⟩
    simp [walk_prev]
  | cons x rest ih =>
    intro suf steps hin hst
    obtain ⟨k, rfl⟩ : ∃ k, steps = k + 1 := ⟨steps - 1, by omega⟩
    have hin2 : t.inorder = rest.reverse ++ x :: suf := by simp [hin]
    have h1 := prev_of_split hs fuel hf hin2
    have h2 := ih (x :: suf) k hin2 (by simp at hst; omega)
    have h3 : rest.reverse.getLast? = rest.head? := by simp
    rw [h3] at h1
    simp [walk_prev, h1, h2]

theorem height_le_size (t : Tree) : t.height ≤ t.inorder.length := by
  induction t with
  | nil => simp [Tree.height, Tree.inorder]
  | node l a c r ihl ihr =>
    simp only [Tree.height, Tree.inorder, List.length_append, List.length_cons]
    omega

theorem traverse_ok {m : Mem} {t : Tree} (hs : Shape m t) (fuel : Nat)
    (hf : t.inorder.length < fuel) : traverse fuel m = .ok t.inorder := by
  have hh : t.height < fuel := lt_of_le_of_lt (height_le_size t) hf
  simp [traverse, first_spec hs fuel hh, walk_next_ok hs fuel hh t.inorder [] fuel rfl hf]

theorem traverse_back_ok {m : Mem} {t : Tree} (hs : Shape m t) (fuel : Nat)
    (hf : t.inorder.length < fuel) : traverse_back fuel m = .ok t.inorder.reverse := by
  have hh : t.height < fuel := lt_of_le_of_lt (height_le_size t) hf
  have h1 := walk_prev_ok hs fuel hh t.inorder.reverse [] fuel (by simp) (by simpa using hf)
  have h2 : t.inorder.reverse.head? = t.inorder.getLast? := by simp
  rw [h2] at h1
  simp [traverse_back, last_spec hs fuel hh, h1]

theorem rb_compare_consistent (keyOf : Nat → Int) : Consistent (rb_compare keyOf) keyOf := by
  intro n k
  unfold rb_compare
  simp only
  constructor
  · constructor
    · intro h
      by_contra hlt
      simp only [hlt, if_false] at h
      split at h <;> omega
    · intro h
      simp [h]
  · constructor
    · intro h
      by_cases h1 : k < keyOf n
      · simp [h1] at h
      · by_cases h2 : k > keyOf n
        · exact h2
        · simp [h1, h2] at h
    · intro h
      have h1 : ¬ k < keyOf n := by omega
      have h2 : k > keyOf n := h
      simp [h1, h2]

theorem demo_shape : Shape demo_mem demo_tree := by decide

theorem demo_inv : RBInv demo_key demo_tree := by
  simp [RBInv, BST, NoRedRed, BlackUniform, demo_tree, Tree.inorder, Tree.bh, demo_key]

theorem sorted_remove_mid {K : Type} [LinearOrder K] {keyOf : Nat → K} {A B : List Nat} {x : Nat}
    (h : KeySorted keyOf (A ++ x :: B)) : KeySorted keyOf (A ++ B) :=
  List.Pairwise.sublist (List.Sublist.append (List.Sublist.refl A) (List.sublist_cons_self x B)) h

theorem sorted_insert_mid {K : Type} [LinearOrder K] {keyOf : Nat → K} {A B : List Nat} {x : Nat}
    (h : KeySorted keyOf (A ++ B)) (h1 : ∀ y ∈ A, keyOf y < keyOf x)
    (h2 : ∀ y ∈ B, keyOf x < keyOf y) : KeySorted keyOf (A ++ x :: B) := by
  simp only [KeySorted, List.pairwise_append, List.pairwise_cons, List.mem_cons] at h ⊢
  refine ⟨h.1, ⟨h2, h.2.1⟩, ?_⟩
  rintro a ha b (rfl | hb)
  · exact h1 a ha
  · exact h.2.2 a ha b hb

/-- Removing a linked node with `rb_erase` keeps invariants (1)-(5) and removes exactly
that node from the in-order sequence. -/
theorem rb_erase_full {K : Type} [LinearOrder K] (keyOf : Nat → K) {m : Mem} {t : Tree}
    (hs : Shape m t) (hinv : RBInv keyOf t) {node : Nat} (hn : node ∈ t.inorder) (fuel : Nat)
    (hf : t.height < fuel) :
    ∃ m2 t2 l1 l2, rb_erase fuel node m = .ok m2 ∧ Shape m2 t2 ∧ RBInv keyOf t2 ∧
      t.inorder = l1 ++ node :: l2 ∧ t2.inorder = l1 ++ l2 := by
  obtain ⟨fs, l, c, r, e⟩ := exists_focus t node hn
  subst e
  obtain ⟨hb, h3, h4, h5⟩ := hinv
  obtain ⟨m2, t2, e1, s2, hin, r1, r2, r3⟩ := rb_erase_spec fs hs h3 h4 h5 fuel hf
  have hin0 : (plug fs (.node l node c r)).inorder =
      (ctxBefore fs ++ l.inorder) ++ node :: (r.inorder ++ ctxAfter fs) := by
    simp [inorder_plug, Tree.inorder]
  have hin2 : t2.inorder = (ctxBefore fs ++ l.inorder) ++ (r.inorder ++ ctxAfter fs) := by
    simp [hin]
  refine ⟨m2, t2, _, _, e1, s2, ⟨?_, r1, r2, r3⟩, hin0, hin2⟩
  rw [bst_iff_sorted] at hb ⊢
  rw [hin2]
  rw [hin0] at hb
  exact sorted_remove_mid hb

/-- Inserting an unlinked node under its own key, absent from the tree, keeps the invariants
and adds the node at its sorted position. -/
theorem rb_insert_full {K : Type} [LinearOrder K] {compare : Nat → K → Int} {keyOf : Nat → K}
    (hc : Consistent compare keyOf) {m : Mem} {t : Tree} (hs : Shape m t)
    (hinv : RBInv keyOf t) {node : Nat} (hn : node ∉ t.inorder)
    (habs : ∀ x ∈ t.inorder, keyOf x ≠ keyOf node) (fuel : Nat) (hf : t.height < fuel) :
    ∃ m2 t2 l1 l2, rb_insert fuel (some m) (some node) (keyOf node) compare = .ok (0, some m2) ∧
      Shape m2 t2 ∧ RBInv keyOf t2 ∧ t.inorder = l1 ++ l2 ∧ t2.inorder = l1 ++ node :: l2 := by
  obtain ⟨hb, h3, h4, h5⟩ := hinv
  rcases rb_insert_spec hc hs hb h3 h4 h5 hn (keyOf node) fuel hf with
    ⟨⟨x, hx1, hx2⟩, -⟩ | ⟨-, m2, t2, l1, l2, e, s2, i1, i2, k1, k2, r1, r2, r3⟩
  · exact absurd hx2 (habs x hx1)
  · refine ⟨m2, t2, l1, l2, e, s2, ⟨?_, r1, r2, r3⟩, i1, i2⟩
    rw [bst_iff_sorted] at hb ⊢
    rw [i2]
    rw [i1] at hb
    exact sorted_insert_mid hb k1 k2

/-- C2: for every memory holding a tree that satisfies invariants (1)-(5) and every node
linked in it (with zero, one or two children, root or not), `rb_erase` returns once the fuel
exceeds the height of the tree, and the memory afterwards again holds a tree satisfying
invariants (1)-(5). -/
theorem rb_erase_keeps_invariants {K : Type} [LinearOrder K] (keyOf : Nat → K) (m : Mem)
    (t : Tree) (hs : Shape m t) (hinv : RBInv keyOf t) (node : Nat) (hn : node ∈ t.inorder)
    (fuel : Nat) (hf : t.height < fuel) :
    ∃ m2, rb_erase fuel node m = .ok m2 ∧ Valid keyOf m2 := by
  obtain ⟨m2, t2, l1, l2, e, s2, i2, -, -⟩ := rb_erase_full keyOf hs hinv hn fuel hf
  exact ⟨m2, e, t2, s2, i2⟩

/-- Witness of C2: the root of the demo tree, a node with two children, is erased. -/
theorem rb_erase_keeps_invariants_witness :
    Shape demo_mem demo_tree ∧ RBInv demo_key demo_tree ∧ 5 ∈ demo_tree.inorder ∧
      demo_tree.height < 8 ∧ ∃ m2, rb_erase 8 5 demo_mem = .ok m2 ∧ Valid demo_key m2 :=
  ⟨demo_shape, demo_inv, by decide, by decide,
    rb_erase_keeps_invariants demo_key demo_mem demo_tree demo_shape demo_inv 5 (by decide) 8
      (by decide)⟩

/-- C3: for every valid tree, every unlinked node and every key not present in the tree,
`rb_insert` returns 0 and the in-order sequence afterwards is the previous one with the new
node inserted at the sorted position of the key: the nodes before it have smaller keys, the
nodes after it greater keys, every previous node is still present and nothing else is
added. -/
theorem rb_insert_adds_at_sorted_position {K : Type} [LinearOrder K]
    (compare : Nat → K → Int) (keyOf : Nat → K) (hc : Consistent compare keyOf) (m : Mem)
    (t : Tree) (hs : Shape m t) (hinv : RBInv keyOf t) (node : Nat) (hn : node ∉ t.inorder)
    (key : K) (habs : ∀ x ∈ t.inorder, keyOf x ≠ key) (fuel : Nat) (hf : t.height < fuel) :
    ∃ m2 t2 l1 l2, rb_insert fuel (some m) (some node) key compare = .ok (0, some m2) ∧
      Shape m2 t2 ∧ t.inorder = l1 ++ l2 ∧ t2.inorder = l1 ++ node :: l2 ∧
      (∀ x ∈ l1, keyOf x < key) ∧ (∀ x ∈ l2, key < keyOf x) ∧
      (∀ y, y ∈ t2.inorder ↔ y = node ∨ y ∈ t.inorder) := by
  obtain ⟨hb, h3, h4, h5⟩ := hinv
  rcases rb_insert_spec hc hs hb h3 h4 h5 hn key fuel hf with
    ⟨⟨x, hx1, hx2⟩, -⟩ | ⟨-, m2, t2, l1, l2, e, s2, i1, i2, k1, k2, -, -, -⟩
  · exact absurd hx2 (habs x hx1)
  · refine ⟨m2, t2, l1, l2, e, s2, i1, i2, k1, k2, ?_⟩
    intro y
    rw [i1, i2]
    simp only [List.mem_append, List.mem_cons]
    tauto

/-- Witness of C3: key 6 is absent from the demo tree and node 6 is inserted. -/
theorem rb_insert_adds_at_sorted_position_witness :
    Consistent (rb_compare demo_key) demo_key ∧ Shape demo_mem demo_tree ∧
      RBInv demo_key demo_tree ∧ 6 ∉ demo_tree.inorder ∧
      (∀ x ∈ demo_tree.inorder, demo_key x ≠ 6) ∧ demo_tree.height < 8 ∧
      ∃ m2 t2 l1 l2, rb_insert 8 (some demo_mem) (some 6) (6 : Int) (rb_compare demo_key) =
          .ok (0, some m2) ∧
        Shape m2 t2 ∧ demo_tree.inorder = l1 ++ l2 ∧ t2.inorder = l1 ++ 6 :: l2 ∧
        (∀ x ∈ l1, demo_key x < 6) ∧ (∀ x ∈ l2, 6 < demo_key x) ∧
        (∀ y, y ∈ t2.inorder ↔ y = 6 ∨ y ∈ demo_tree.inorder) :=
  ⟨rb_compare_consistent demo_key, demo_shape, demo_inv, by decide, by decide, by decide,
    rb_insert_adds_at_sorted_position (rb_compare demo_key) demo_key
      (rb_compare_consistent demo_key) demo_mem demo_tree demo_shape demo_inv 6 (by decide) 6
      (by decide) 8 (by decide)⟩

/-- C4: for every valid tree and every node linked in it, the in-order sequence after
`rb_erase` is the previous one with that one node removed (nodes are addresses, each carrying
its own key, so every remaining node keeps its identity and key); and when the node has two
children, the memory handed to the colour fix-up holds the in-order successor at the place of
the erased node, with its parent, its left subtree, its colour, and its right subtree without
the successor. -/
theorem rb_erase_removes_node {K : Type} [LinearOrder K] (keyOf : Nat → K) (m : Mem)
    (t : Tree) (hs : Shape m t) (hinv : RBInv keyOf t) (node : Nat) (hn : node ∈ t.inorder)
    (fuel : Nat) (hf : t.height < fuel) :
    (∃ m2 t2 l1 l2, rb_erase fuel node m = .ok m2 ∧ Shape m2 t2 ∧
      t.inorder = l1 ++ node :: l2 ∧ t2.inorder = l1 ++ l2) ∧
    (∀ fs ll la lc lr c rl ra rc rr,
      t = plug fs (.node (.node ll la lc lr) node c (.node rl ra rc rr)) →
      ∃ rs s sc sr mB, AllLeft rs ∧ Tree.node rl ra rc rr = plug rs (.node .nil s sc sr) ∧
        Shape mB (plug fs (.node (.node ll la lc lr) s c (plug rs sr))) ∧
        rb_erase fuel node m = erase_tail fuel sc sr.ptr
          (ctxParent (rs ++ .right (.node ll la lc lr) s c :: fs)) mB) := by
  constructor
  · obtain ⟨m2, t2, l1, l2, e, s2, -, i1, i2⟩ := rb_erase_full keyOf hs hinv hn fuel hf
    exact ⟨m2, t2, l1, l2, e, s2, i1, i2⟩
  · intro fs ll la lc lr c rl ra rc rr e
    subst e
    obtain ⟨rs, s, sc, sr, mB, a1, a2, sB, eB, -⟩ := erase_two_children fs hs fuel hf
    exact ⟨rs, s, sc, sr, mB, a1, a2, sB, eB⟩

/-- Witness of C4: the root of the demo tree, which has two children, is erased. -/
theorem rb_erase_removes_node_witness :
    Shape demo_mem demo_tree ∧ RBInv demo_key demo_tree ∧ 5 ∈ demo_tree.inorder ∧
      demo_tree.height < 8 ∧
      ((∃ m2 t2 l1 l2, rb_erase 8 5 demo_mem = .ok m2 ∧ Shape m2 t2 ∧
        demo_tree.inorder = l1 ++ 5 :: l2 ∧ t2.inorder = l1 ++ l2) ∧
      (∀ fs ll la lc lr c rl ra rc rr,
        demo_tree = plug fs (.node (.node ll la lc lr) 5 c (.node rl ra rc rr)) →
        ∃ rs s sc sr mB, AllLeft rs ∧ Tree.node rl ra rc rr = plug rs (.node .nil s sc sr) ∧
          Shape mB (plug fs (.node (.node ll la lc lr) s c (plug rs sr))) ∧
          rb_erase 8 5 demo_mem = erase_tail 8 sc sr.ptr
            (ctxParent (rs ++ .right (.node ll la lc lr) s c :: fs)) mB)) :=
  ⟨demo_shape, demo_inv, by decide, by decide,
    rb_erase_removes_node demo_key demo_mem demo_tree demo_shape demo_inv 5 (by decide) 8
      (by decide)⟩

/-- C5: for every valid tree and every key already present in it, `rb_insert` returns the
failure value -1 (which differs from the success value 0) and the very same memory: the
offered node is not linked, root, shape and colours are unchanged, and the tree still holds
exactly one node with that key. -/
theorem rb_insert_rejects_duplicate {K : Type} [LinearOrder K] (compare : Nat → K → Int)
    (keyOf : Nat → K) (hc : Consistent compare keyOf) (m : Mem) (t : Tree) (hs : Shape m t)
    (hinv : RBInv keyOf t) (node : Nat) (key : K) (hdup : ∃ x ∈ t.inorder, keyOf x = key)
    (fuel : Nat) (hf : t.height < fuel) :
    rb_insert fuel (some m) (some node) key compare = .ok (-1, some m) ∧ (-1 : Int) ≠ 0 ∧
      ∃! x, x ∈ t.inorder ∧ keyOf x = key := by
  obtain ⟨hb, -, -, -⟩ := hinv
  refine ⟨?_, by decide, ?_⟩
  · rcases insert_descend_ok hc key fuel [] t m hs hf hb (by simp [ctxBefore])
      (by simp [ctxAfter]) with ⟨-, e⟩ | ⟨fs2, -, e2, e3, e4, -⟩
    · simp only [ctxParent_nil, ctxSide_nil] at e
      simp [rb_insert, hs.1, e]
    · exfalso
      obtain ⟨x, hx1, hx2⟩ := hdup
      have hin : t.inorder = ctxBefore fs2 ++ ctxAfter fs2 := by
        simp only [plug_nil] at e2
        rw [← e2, inorder_plug]; simp [Tree.inorder]
      rw [hin, List.mem_append] at hx1
      rcases hx1 with hx1 | hx1
      · exact absurd (e3 x hx1) (by rw [hx2]; exact lt_irrefl _)
      · exact absurd (e4 x hx1) (by rw [hx2]; exact lt_irrefl _)
  · obtain ⟨x, hx1, hx2⟩ := hdup
    refine ⟨x, ⟨hx1, hx2⟩, ?_⟩
    rintro y ⟨hy1, hy2⟩
    exact key_unique ((bst_iff_sorted keyOf t).1 hb) hy1 hx1 (by rw [hy2, hx2])

/-- Witness of C5: key 4 is present in the demo tree; a second node is offered for it. -/
theorem rb_insert_rejects_duplicate_witness :
    Consistent (rb_compare demo_key) demo_key ∧ Shape demo_mem demo_tree ∧
      RBInv demo_key demo_tree ∧ (∃ x ∈ demo_tree.inorder, demo_key x = 4) ∧
      demo_tree.height < 8 ∧
      (rb_insert 8 (some demo_mem) (some 10) (4 : Int) (rb_compare demo_key) =
          .ok (-1, some demo_mem) ∧ (-1 : Int) ≠ 0 ∧
        ∃! x, x ∈ demo_tree.inorder ∧ demo_key x = 4) :=
  ⟨rb_compare_consistent demo_key, demo_shape, demo_inv, ⟨4, by decide, by decide⟩, by decide,
    rb_insert_rejects_duplicate (rb_compare demo_key) demo_key (rb_compare_consistent demo_key)
      demo_mem demo_tree demo_shape demo_inv 10 4 ⟨4, by decide, by decide⟩ 8 (by decide)⟩

/-- Searching a memory that holds a search tree: the result is a node with the key, and
it is `NULL` exactly when no node has the key. -/
theorem rb_search_spec {K : Type} [LinearOrder K] {compare : Nat → K → Int} {keyOf : Nat → K}
    (hc : Consistent compare keyOf) {m : Mem} {t : Tree} (hs : Shape m t) (hb : BST keyOf t)
    (key : K) (fuel : Nat) (hf : t.height < fuel) :
    (∃ x ∈ t.inorder, keyOf x = key ∧ rb_search fuel (some m) key compare = .ok (some x)) ∨
    ((∀ x ∈ t.inorder, keyOf x ≠ key) ∧ rb_search fuel (some m) key compare = .ok none) := by
  rcases search_descend_ok hc key fuel [] t m hs hf hb with ⟨x, h1, h2, e⟩ | ⟨h1, e⟩
  · exact Or.inl ⟨x, h1, h2, by simpa [rb_search, hs.1] using e⟩
  · exact Or.inr ⟨h1, by simpa [rb_search, hs.1] using e⟩

/-- Deleting the key of a node of a valid tree returns that node and leaves a valid tree
over the remaining nodes. -/
theorem rb_delete_present {K : Type} [LinearOrder K] {compare : Nat → K → Int} {keyOf : Nat → K}
    (hc : Consistent compare keyOf) {m : Mem} {t : Tree} (hs : Shape m t)
    (hinv : RBInv keyOf t) {x : Nat} (hx : x ∈ t.inorder) (fuel : Nat) (hf : t.height < fuel) :
    ∃ m2 t2 l1 l2, rb_delete fuel (some m) (keyOf x) compare = .ok (some x, some m2) ∧
      Shape m2 t2 ∧ RBInv keyOf t2 ∧ t.inorder = l1 ++ x :: l2 ∧ t2.inorder = l1 ++ l2 := by
  have hsorted := (bst_iff_sorted keyOf t).1 hinv.1
  rcases search_descend_ok hc (keyOf x) fuel [] t m hs hf hinv.1 with ⟨x2, h1, h2, e⟩ | ⟨hno, -⟩
  swap
  · exact absurd rfl (hno x hx)
  have hxx : x2 = x := key_unique hsorted h1 hx h2
  subst hxx
  obtain ⟨m2, t2, l1, l2, e1, s2, i2, j1, j2⟩ := rb_erase_full keyOf hs hinv h1 fuel hf
  exact ⟨m2, t2, l1, l2, by simp [rb_delete, hs.1, e, e1], s2, i2, j1, j2⟩

theorem inorder_eq_nil {t : Tree} : t.inorder = [] ↔ t = .nil := by
  rcases t with _ | ⟨l, a, c, r⟩ <;> simp [Tree.inorder]

theorem ptr_eq_none {t : Tree} : t.ptr = none ↔ t = .nil := by
  rcases t with _ | ⟨l, a, c, r⟩ <;> simp

/-- The first node of a sorted list has the least key. -/
theorem sorted_head_le {K : Type} [LinearOrder K] {keyOf : Nat → K} {l : List Nat} {f : Nat}
    (hs : KeySorted keyOf l) (hh : l.head? = some f) : f ∈ l ∧ ∀ y ∈ l, keyOf f ≤ keyOf y := by
  rcases l with _ | ⟨a, l⟩
  · simp at hh
  · simp only [List.head?_cons, Option.some.injEq] at hh
    subst hh
    simp only [KeySorted, List.pairwise_cons] at hs
    refine ⟨by simp, ?_⟩
    intro y hy
    simp only [List.mem_cons] at hy
    rcases hy with rfl | hy
    · exact le_refl _
    · exact le_of_lt (hs.1 y hy)

/-- Nothing follows a node of greatest key in a sorted list. -/
theorem sorted_max_last {K : Type} [LinearOrder K] {keyOf : Nat → K} {pre suf : List Nat}
    {x : Nat} (hs : KeySorted keyOf (pre ++ x :: suf))
    (hmax : ∀ y ∈ pre ++ x :: suf, keyOf y ≤ keyOf x) : suf = [] := by
  rcases suf with _ | ⟨b, suf⟩
  · rfl
  · exfalso
    simp only [KeySorted, List.pairwise_append, List.pairwise_cons, List.mem_cons] at hs
    have h1 := hs.2.1.1 b (Or.inl rfl)
    have h2 := hmax b (by simp)
    exact absurd h1 (not_lt.2 h2)

/-- The insertion loop over nodes with fresh, pairwise distinct keys returns a valid tree
holding the old nodes and the new ones. -/
theorem insert_all_ok {K : Type} [LinearOrder K] {compare : Nat → K → Int} {keyOf : Nat → K}
    (hc : Consistent compare keyOf) (fuel : Nat) :
    ∀ (ns : List Nat) (m : Mem) (t : Tree), Shape m t → RBInv keyOf t →
      (∀ n ∈ ns, ∀ x ∈ t.inorder, keyOf x ≠ keyOf n) → (ns.map keyOf).Nodup →
      t.inorder.length + ns.length < fuel →
      ∃ m2 t2, insert_all fuel compare keyOf ns m = .ok m2 ∧ Shape m2 t2 ∧ RBInv keyOf t2 ∧
        t2.inorder.Perm (ns ++ t.inorder) := by
  intro ns
  induction ns with
  | nil =>
    intro m t hs hinv _ _ _
    exact ⟨m, t, by simp [insert_all], hs, hinv, by simp⟩
  | cons n ns ih =>
    intro m t hs hinv hfresh hnd hf
    simp only [List.length_cons] at hf
    simp only [List.map_cons, List.nodup_cons, List.mem_map, not_exists, not_and] at hnd
    have hh : t.height < fuel := lt_of_le_of_lt (height_le_size t) (by omega)
    have hn : n ∉ t.inorder := fun h => hfresh n (by simp) n h rfl
    obtain ⟨m2, t2, l1, l2, e, s2, i2, j1, j2⟩ :=
      rb_insert_full hc hs hinv hn (hfresh n (by simp)) fuel hh
    have hfresh2 : ∀ k ∈ ns, ∀ x ∈ t2.inorder, keyOf x ≠ keyOf k := by
      intro k hk x hx
      rw [j2] at hx
      simp only [List.mem_append, List.mem_cons] at hx
      have hx2 : x = n ∨ x ∈ t.inorder := by
        rw [j1]; simp only [List.mem_append]; tauto
      rcases hx2 with rfl | hx2
      · exact fun h => hnd.1 k hk h.symm
      · exact hfresh k (by simp [hk]) x hx2
    have hlen : t2.inorder.length + ns.length < fuel := by
      rw [j2]
      rw [j1] at hf
      simp only [List.length_append, List.length_cons] at hf ⊢
      omega
    obtain ⟨m3, t3, e3, s3, i3, p3⟩ := ih m2 t2 s2 i2 hfresh2 hnd.2 hlen
    refine ⟨m3, t3, by simp [insert_all, e, e3], s3, i3, ?_⟩
    refine p3.trans ?_
    rw [j2, j1]
    simp only [List.cons_append]
    refine (List.Perm.append_left ns List.perm_middle).trans ?_
    exact List.perm_middle

/-- The deletion loop over a permutation of the keys of a valid tree returns, every memory
it passes through is a valid tree, and the last one has a `NULL` root. -/
theorem delete_all_ok {K : Type} [LinearOrder K] {compare : Nat → K → Int} {keyOf : Nat → K}
    (hc : Consistent compare keyOf) (fuel : Nat) :
    ∀ (ks : List K) (m : Mem) (t : Tree), Shape m t → RBInv keyOf t →
      ks.Perm (t.inorder.map keyOf) → t.inorder.length < fuel →
      ∃ ms, delete_all fuel compare ks m = .ok ms ∧ ms.length = ks.length ∧
        (∀ m2 ∈ ms, Valid keyOf m2) ∧ (ms.getLast?.getD m).root = none := by
  intro ks
  induction ks with
  | nil =>
    intro m t hs hinv hp _
    have h1 : t.inorder = [] := by simpa using hp.symm.eq_nil
    rw [inorder_eq_nil] at h1
    subst h1
    exact ⟨[], by simp [delete_all], rfl, by simp, by simpa using hs.1⟩
  | cons k ks ih =>
    intro m t hs hinv hp hf
    have hh : t.height < fuel := lt_of_le_of_lt (height_le_size t) hf
    have hk : k ∈ t.inorder.map keyOf := hp.subset (by simp)
    obtain ⟨x, hx, rfl⟩ := List.mem_map.1 hk
    obtain ⟨m2, t2, l1, l2, e, s2, i2, j1, j2⟩ := rb_delete_present hc hs hinv hx fuel hh
    have hp2 : ks.Perm (t2.inorder.map keyOf) := by
      rw [j1] at hp
      rw [j2]
      simp only [List.map_append, List.map_cons] at hp ⊢
      exact (hp.trans List.perm_middle).cons_inv
    have hlen : t2.inorder.length < fuel := by
      rw [j2]
      rw [j1] at hf
      simp only [List.length_append, List.length_cons] at hf ⊢
      omega
    obtain ⟨ms, e3, hl, hv, hroot⟩ := ih m2 t2 s2 i2 hp2 hlen
    refine ⟨m2 :: ms, by simp [delete_all, e, e3], by simp [hl], ?_, ?_⟩
    · intro m3 h3
      simp only [List.mem_cons] at h3
      rcases h3 with rfl | h3
      · exact ⟨t2, s2, i2⟩
      · exact hv m3 h3
    · rcases ms with _ | ⟨a, ms⟩
      · simpa using hroot
      · simpa [List.getLast?_cons_cons] using hroot

theorem shape_nil {m : Mem} (h0 : m.root = none) : Shape m .nil :=
  ⟨by simpa using h0, by simp [Rep], by simp [Tree.inorder]⟩

theorem rbinv_nil {K : Type} [LinearOrder K] (keyOf : Nat → K) : RBInv keyOf .nil := by
  simp [RBInv, BST, NoRedRed, BlackUniform, Tree.color]

/-- After the insertion loop from a `NULL` root, every inserted key is found at its node and
every other key is reported absent. -/
theorem search_after_insert_all {K : Type} [LinearOrder K] {compare : Nat → K → Int}
    {keyOf : Nat → K} (hc : Consistent compare keyOf) (fuel : Nat) (ns : List Nat) (m0 : Mem)
    (h0 : m0.root = none) (hk : (ns.map keyOf).Nodup) (hf : ns.length < fuel) :
    ∃ m1, insert_all fuel compare keyOf ns m0 = .ok m1 ∧
      (∀ n ∈ ns, rb_search fuel (some m1) (keyOf n) compare = .ok (some n)) ∧
      (∀ key, key ∉ ns.map keyOf → rb_search fuel (some m1) key compare = .ok none) := by
  obtain ⟨m1, t1, e1, s1, i1, p1⟩ := insert_all_ok hc fuel ns m0 .nil (shape_nil h0)
    (rbinv_nil keyOf) (by simp [Tree.inorder]) hk (by simpa [Tree.inorder] using hf)
  simp only [Tree.inorder, List.append_nil] at p1
  have hh : t1.height < fuel :=
    lt_of_le_of_lt (height_le_size t1) (by rw [p1.length_eq]; exact hf)
  have hsorted := (bst_iff_sorted keyOf t1).1 i1.1
  refine ⟨m1, e1, ?_, ?_⟩
  · intro n hn
    have hn1 : n ∈ t1.inorder := p1.symm.subset hn
    rcases rb_search_spec hc s1 i1.1 (keyOf n) fuel hh with ⟨z, k1, k2, e3⟩ | ⟨hno, -⟩
    · rw [key_unique hsorted k1 hn1 k2] at e3
      exact e3
    · exact absurd rfl (hno n hn1)
  · intro key hkey
    rcases rb_search_spec hc s1 i1.1 key fuel hh with ⟨z, k1, k2, -⟩ | ⟨-, e3⟩
    · exact absurd (List.mem_map.2 ⟨z, p1.subset k1, k2⟩) hkey
    · exact e3

/-- C6: under a consistent comparator, (a) for every memory holding a tree in search order
and every key, `rb_search` returns once the fuel exceeds the height; what it returns is a
node of the tree whose key equals the search key (the comparator gives 0 there), and it
returns `NULL` exactly when no node of the tree has that key; (b) after the insertion loop
over nodes with pairwise distinct keys from a `NULL` root, the key of every inserted node is
found at that node and every key that was not inserted is reported absent. -/
theorem rb_search_finds_exactly {K : Type} [LinearOrder K] (compare : Nat → K → Int)
    (keyOf : Nat → K) (hc : Consistent compare keyOf) :
    (∀ (m : Mem) (t : Tree) (key : K) (fuel : Nat), Shape m t → BST keyOf t →
      t.height < fuel →
      ∃ res, rb_search fuel (some m) key compare = .ok res ∧
        (∀ n, res = some n → n ∈ t.inorder ∧ keyOf n = key ∧ compare n key = 0) ∧
        (res = none ↔ ∀ x ∈ t.inorder, keyOf x ≠ key)) ∧
    (∀ (ns : List Nat) (m0 : Mem) (fuel : Nat), m0.root = none → (ns.map keyOf).Nodup →
      ns.length < fuel →
      ∃ m1, insert_all fuel compare keyOf ns m0 = .ok m1 ∧
        (∀ n ∈ ns, rb_search fuel (some m1) (keyOf n) compare = .ok (some n)) ∧
        (∀ key, key ∉ ns.map keyOf → rb_search fuel (some m1) key compare = .ok none)) := by
  constructor
  · intro m t key fuel hs hb hf
    rcases rb_search_spec hc hs hb key fuel hf with ⟨x, h1, h2, e⟩ | ⟨h1, e⟩
    · refine ⟨some x, e, ?_, ?_⟩
      · intro n hn
        simp only [Option.some.injEq] at hn
        subst hn
        refine ⟨h1, h2, ?_⟩
        have hz := (consistent_zero hc x key).2 h2.symm
        omega
      · constructor
        · intro h; simp at h
        · intro h; exact absurd h2 (h x h1)
    · exact ⟨none, e, by simp, ⟨fun _ => h1, fun _ => rfl⟩⟩
  · intro ns m0 fuel h0 hk hf
    exact search_after_insert_all hc fuel ns m0 h0 hk hf

/-- Witness of C6: key 7 is looked up in the demo tree, and key 6 after the demo insertions. -/
theorem rb_search_finds_exactly_witness :
    Consistent (rb_compare demo_key) demo_key ∧
      (∃ res, rb_search 8 (some demo_mem) (7 : Int) (rb_compare demo_key) = .ok res ∧
        (∀ n, res = some n → n ∈ demo_tree.inorder ∧ demo_key n = 7 ∧
          rb_compare demo_key n 7 = 0) ∧
        (res = none ↔ ∀ x ∈ demo_tree.inorder, demo_key x ≠ 7)) ∧
      (∃ m1, insert_all 8 (rb_compare demo_key) demo_key [5, 3, 8, 1, 4, 7, 9] demo_empty =
          .ok m1 ∧
        (∀ n ∈ [5, 3, 8, 1, 4, 7, 9],
          rb_search 8 (some m1) (demo_key n) (rb_compare demo_key) = .ok (some n)) ∧
        (∀ key, key ∉ ([5, 3, 8, 1, 4, 7, 9] : List Nat).map demo_key →
          rb_search 8 (some m1) key (rb_compare demo_key) = .ok none)) :=
  ⟨rb_compare_consistent demo_key,
    (rb_search_finds_exactly (rb_compare demo_key) demo_key
      (rb_compare_consistent demo_key)).1 demo_mem demo_tree 7 8 demo_shape demo_inv.1
      (by decide),
    (rb_search_finds_exactly (rb_compare demo_key) demo_key
      (rb_compare_consistent demo_key)).2 [5, 3, 8, 1, 4, 7, 9] demo_empty 8 rfl (by decide)
      (by decide)⟩

/-- C7: for every valid tree and every key: if no node has the key, `rb_delete` returns
`NULL` and the same memory; if a node has the key, `rb_delete` returns that very node, the
memory afterwards holds a valid tree, `rb_search` for the key returns `NULL` there, and the
key of every other node is still found at its node. -/
theorem rb_delete_correct {K : Type} [LinearOrder K] (compare : Nat → K → Int)
    (keyOf : Nat → K) (hc : Consistent compare keyOf) (m : Mem) (t : Tree) (hs : Shape m t)
    (hinv : RBInv keyOf t) (key : K) (fuel : Nat) (hf : t.inorder.length < fuel) :
    ((∀ x ∈ t.inorder, keyOf x ≠ key) →
      rb_delete fuel (some m) key compare = .ok (none, some m)) ∧
    (∀ x ∈ t.inorder, keyOf x = key →
      ∃ m2, rb_delete fuel (some m) key compare = .ok (some x, some m2) ∧ Valid keyOf m2 ∧
        rb_search fuel (some m2) key compare = .ok none ∧
        ∀ y ∈ t.inorder, y ≠ x → rb_search fuel (some m2) (keyOf y) compare = .ok (some y)) := by
  have hh : t.height < fuel := lt_of_le_of_lt (height_le_size t) hf
  have hsorted := (bst_iff_sorted keyOf t).1 hinv.1
  constructor
  · intro hno
    rcases search_descend_ok hc key fuel [] t m hs hh hinv.1 with ⟨x, h1, h2, -⟩ | ⟨-, e⟩
    · exact absurd h2 (hno x h1)
    · simp [rb_delete, hs.1, e]
  · intro x hx hk
    rcases search_descend_ok hc key fuel [] t m hs hh hinv.1 with ⟨x2, h1, h2, e⟩ | ⟨hno, -⟩
    swap
    · exact absurd hk (hno x hx)
    have hxx : x2 = x := key_unique hsorted h1 hx (by rw [h2, hk])
    subst hxx
    obtain ⟨m2, t2, l1, l2, e1, s2, i2, j1, j2⟩ := rb_erase_full keyOf hs hinv h1 fuel hh
    have hh2 : t2.height < fuel := by
      refine lt_of_le_of_lt (height_le_size t2) ?_
      rw [j1] at hf
      rw [j2]
      simp only [List.length_append, List.length_cons] at hf ⊢
      omega
    have hsorted2 := (bst_iff_sorted keyOf t2).1 i2.1
    refine ⟨m2, ?_, ⟨t2, s2, i2⟩, ?_, ?_⟩
    · simp [rb_delete, hs.1, e, e1]
    · rcases rb_search_spec hc s2 i2.1 key fuel hh2 with ⟨y, k1, k2, -⟩ | ⟨-, e3⟩
      · exfalso
        have hy : y ∈ t.inorder := by
          rw [j1]; rw [j2] at k1
          simp only [List.mem_append, List.mem_cons] at k1 ⊢
          tauto
        have hyx : y = x2 := key_unique hsorted hy h1 (by rw [k2, hk])
        subst hyx
        have hnd := hs.2.2
        rw [j1] at hnd
        rw [j2] at k1
        simp only [List.nodup_append, List.nodup_cons, List.mem_append,
          List.disjoint_cons_right] at hnd k1
        tauto
      · exact e3
    · intro y hy hyx
      have hy2 : y ∈ t2.inorder := by
        rw [j2]; rw [j1] at hy
        simp only [List.mem_append, List.mem_cons] at hy ⊢
        tauto
      rcases rb_search_spec hc s2 i2.1 (keyOf y) fuel hh2 with ⟨z, k1, k2, e3⟩ | ⟨hno, -⟩
      · have hzy : z = y := key_unique hsorted2 k1 hy2 k2
        rw [hzy] at e3
        exact e3
      · exact absurd rfl (hno y hy2)

/-- Witness of C7: key 8 is deleted from the demo tree. -/
theorem rb_delete_correct_witness :
    Consistent (rb_compare demo_key) demo_key ∧ Shape demo_mem demo_tree ∧
      RBInv demo_key demo_tree ∧ demo_tree.inorder.length < 8 ∧
      (((∀ x ∈ demo_tree.inorder, demo_key x ≠ 8) →
        rb_delete 8 (some demo_mem) (8 : Int) (rb_compare demo_key) =
          .ok (none, some demo_mem)) ∧
      (∀ x ∈ demo_tree.inorder, demo_key x = 8 →
        ∃ m2, rb_delete 8 (some demo_mem) (8 : Int) (rb_compare demo_key) =
            .ok (some x, some m2) ∧ Valid demo_key m2 ∧
          rb_search 8 (some m2) (8 : Int) (rb_compare demo_key) = .ok none ∧
          ∀ y ∈ demo_tree.inorder, y ≠ x →
            rb_search 8 (some m2) (demo_key y) (rb_compare demo_key) = .ok (some y))) :=
  ⟨rb_compare_consistent demo_key, demo_shape, demo_inv, by decide,
    rb_delete_correct (rb_compare demo_key) demo_key (rb_compare_consistent demo_key)
      demo_mem demo_tree demo_shape demo_inv 8 8 (by decide)⟩

/-- C8: for every valid tree, the walk from `rb_first` by `rb_next` until `NULL` returns
exactly the in-order node list of the tree, which holds every node once and has strictly
ascending keys; `rb_first` is `NULL` exactly when the root is `NULL`, and otherwise a node
of least key; `rb_next` of a node of greatest key is `NULL`. For the demo: inserting the
keys 5, 3, 8, 1, 4, 7, 9 in that order succeeds and the walk then yields the keys
1, 3, 4, 5, 7, 8, 9. -/
theorem first_next_visits_ascending :
    (∀ (K : Type) [LinearOrder K] (keyOf : Nat → K) (m : Mem) (t : Tree) (fuel : Nat),
      Shape m t → RBInv keyOf t → t.inorder.length < fuel →
      traverse fuel m = .ok t.inorder ∧ t.inorder.Nodup ∧ KeySorted keyOf t.inorder ∧
      (rb_first fuel m = .ok none ↔ m.root = none) ∧
      (∀ f, rb_first fuel m = .ok (some f) → f ∈ t.inorder ∧
        ∀ y ∈ t.inorder, keyOf f ≤ keyOf y) ∧
      (∃ f, rb_first fuel m = .ok f) ∧
      (∀ x ∈ t.inorder, (∀ y ∈ t.inorder, keyOf y ≤ keyOf x) → rb_next fuel m x = .ok none)) ∧
    (∃ m, insert_all 8 (rb_compare demo_key) demo_key [5, 3, 8, 1, 4, 7, 9] demo_empty = .ok m ∧
      ∃ l, traverse 8 m = .ok l ∧ l.map demo_key = [1, 3, 4, 5, 7, 8, 9]) := by
  constructor
  · intro K _ keyOf m t fuel hs hinv hf
    have hh : t.height < fuel := lt_of_le_of_lt (height_le_size t) hf
    have hsorted := (bst_iff_sorted keyOf t).1 hinv.1
    have hfirst := first_spec hs fuel hh
    refine ⟨traverse_ok hs fuel hf, hs.2.2, hsorted, ?_, ?_, ⟨_, hfirst⟩, ?_⟩
    · rw [hfirst, hs.1, ptr_eq_none, ← inorder_eq_nil]
      simp [List.head?_eq_none_iff]
    · intro f hff
      rw [hfirst] at hff
      simp only [Except.ok.injEq] at hff
      exact sorted_head_le hsorted hff
    · intro x hx hmax
      obtain ⟨pre, suf, e⟩ := List.append_of_mem hx
      have h1 := next_of_split hs fuel hh e
      rw [e] at hsorted hmax
      rw [sorted_max_last hsorted hmax] at h1
      simpa using h1
  · exact ⟨demo_mem, rfl, [1, 3, 4, 5, 7, 8, 9], rfl, rfl⟩

/-- Witness of C8: the general part at the demo tree. -/
theorem first_next_visits_ascending_witness :
    Shape demo_mem demo_tree ∧ RBInv demo_key demo_tree ∧ demo_tree.inorder.length < 8 ∧
      traverse 8 demo_mem = .ok [1, 3, 4, 5, 7, 8, 9] ∧ rb_next 8 demo_mem 9 = .ok none :=
  ⟨demo_shape, demo_inv, by decide,
    (first_next_visits_ascending.1 Int demo_key demo_mem demo_tree 8 demo_shape demo_inv
      (by decide)).1,
    (first_next_visits_ascending.1 Int demo_key demo_mem demo_tree 8 demo_shape demo_inv
      (by decide)).2.2.2.2.2.2 9 (by decide) (by decide)⟩

/-- C9: for every memory holding a tree, the walk from `rb_last` by `rb_prev` until `NULL`
returns the reverse of the walk from `rb_first` by `rb_next`; for every node of the tree
`rb_next` returns, and `rb_prev` of a non-`NULL` result is the node again; likewise with
`rb_prev` and `rb_next` exchanged. -/
theorem prev_walk_is_reverse_of_next_walk (m : Mem) (t : Tree) (fuel : Nat) (hs : Shape m t)
    (hf : t.inorder.length < fuel) :
    (∃ l, traverse fuel m = .ok l ∧ traverse_back fuel m = .ok l.reverse) ∧
    (∀ n ∈ t.inorder, ∃ r, rb_next fuel m n = .ok r ∧
      ∀ n2, r = some n2 → rb_prev fuel m n2 = .ok (some n)) ∧
    (∀ n ∈ t.inorder, ∃ r, rb_prev fuel m n = .ok r ∧
      ∀ n2, r = some n2 → rb_next fuel m n2 = .ok (some n)) := by
  have hh : t.height < fuel := lt_of_le_of_lt (height_le_size t) hf
  refine ⟨⟨t.inorder, traverse_ok hs fuel hf, traverse_back_ok hs fuel hf⟩, ?_, ?_⟩
  · intro n hn
    obtain ⟨pre, suf, e⟩ := List.append_of_mem hn
    refine ⟨_, next_of_split hs fuel hh e, ?_⟩
    intro n2 h2
    rcases suf with _ | ⟨b, suf⟩
    · simp at h2
    · simp only [List.head?_cons, Option.some.injEq] at h2
      subst h2
      have e2 : t.inorder = (pre ++ [n]) ++ b :: suf := by simp [e]
      simpa using prev_of_split hs fuel hh e2
  · intro n hn
    obtain ⟨pre, suf, e⟩ := List.append_of_mem hn
    refine ⟨_, prev_of_split hs fuel hh e, ?_⟩
    intro n2 h2
    rcases List.eq_nil_or_concat pre with rfl | ⟨pre2, b, rfl⟩
    · simp at h2
    · simp only [List.concat_eq_append, List.getLast?_append, List.getLast?_singleton,
        Option.or, Option.some.injEq] at h2
      subst h2
      have e2 : t.inorder = pre2 ++ b :: (n :: suf) := by simp [e]
      simpa using next_of_split hs fuel hh e2

/-- Witness of C9: the demo tree. -/
theorem prev_walk_is_reverse_of_next_walk_witness :
    Shape demo_mem demo_tree ∧ demo_tree.inorder.length < 8 ∧
      ((∃ l, traverse 8 demo_mem = .ok l ∧ traverse_back 8 demo_mem = .ok l.reverse) ∧
      (∀ n ∈ demo_tree.inorder, ∃ r, rb_next 8 demo_mem n = .ok r ∧
        ∀ n2, r = some n2 → rb_prev 8 demo_mem n2 = .ok (some n)) ∧
      (∀ n ∈ demo_tree.inorder, ∃ r, rb_prev 8 demo_mem n = .ok r ∧
        ∀ n2, r = some n2 → rb_next 8 demo_mem n2 = .ok (some n))) :=
  ⟨demo_shape, by decide,
    prev_walk_is_reverse_of_next_walk demo_mem demo_tree 8 demo_shape (by decide)⟩

/-- C10: for every list of nodes with pairwise distinct keys and every permutation of these
keys: from a memory with a `NULL` root, the insertion loop returns, the deletion loop over
the permuted keys returns after as many deletions as there are keys, the memory after every
deletion holds a valid tree, and the root after the last deletion is `NULL`. -/
theorem insert_all_then_delete_all_leaves_empty {K : Type} [LinearOrder K]
    (compare : Nat → K → Int) (keyOf : Nat → K) (hc : Consistent compare keyOf)
    (ns : List Nat) (hk : (ns.map keyOf).Nodup) (ks : List K) (hp : ks.Perm (ns.map keyOf))
    (m0 : Mem) (h0 : m0.root = none) (fuel : Nat) (hf : ns.length < fuel) :
    ∃ m1 ms, insert_all fuel compare keyOf ns m0 = .ok m1 ∧
      delete_all fuel compare ks m1 = .ok ms ∧ ms.length = ks.length ∧
      (∀ m ∈ ms, Valid keyOf m) ∧ (ms.getLast?.getD m1).root = none := by
  obtain ⟨m1, t1, e1, s1, i1, p1⟩ := insert_all_ok hc fuel ns m0 .nil (shape_nil h0)
    (rbinv_nil keyOf)
    (by simp [Tree.inorder]) hk (by simpa [Tree.inorder] using hf)
  simp only [Tree.inorder, List.append_nil] at p1
  have hp1 : ks.Perm (t1.inorder.map keyOf) := hp.trans (p1.map keyOf).symm
  have hlen : t1.inorder.length < fuel := by rw [p1.length_eq]; exact hf
  obtain ⟨ms, e2, hl, hv, hroot⟩ := delete_all_ok hc fuel ks m1 t1 s1 i1 hp1 hlen
  exact ⟨m1, ms, e1, e2, hl, hv, hroot⟩

/-- Witness of C10: the seven demo keys, deleted in another order. -/
theorem insert_all_then_delete_all_leaves_empty_witness :
    Consistent (rb_compare demo_key) demo_key ∧
      (([5, 3, 8, 1, 4, 7, 9] : List Nat).map demo_key).Nodup ∧
      ([4, 9, 5, 1, 8, 3, 7] : List Int).Perm (([5, 3, 8, 1, 4, 7, 9] : List Nat).map demo_key) ∧
      demo_empty.root = none ∧ ([5, 3, 8, 1, 4, 7, 9] : List Nat).length < 8 ∧
      ∃ m1 ms, insert_all 8 (rb_compare demo_key) demo_key [5, 3, 8, 1, 4, 7, 9] demo_empty =
          .ok m1 ∧
        delete_all 8 (rb_compare demo_key) [4, 9, 5, 1, 8, 3, 7] m1 = .ok ms ∧
        ms.length = ([4, 9, 5, 1, 8, 3, 7] : List Int).length ∧
        (∀ m ∈ ms, Valid demo_key m) ∧ (ms.getLast?.getD m1).root = none :=
  ⟨rb_compare_consistent demo_key, by decide, by decide, rfl, by decide,
    insert_all_then_delete_all_leaves_empty (rb_compare demo_key) demo_key
      (rb_compare_consistent demo_key) [5, 3, 8, 1, 4, 7, 9] (by decide) [4, 9, 5, 1, 8, 3, 7]
      (by decide) demo_empty rfl 8 (by decide)⟩

/-! ## Height bound -/

theorem height_le_two_bh : ∀ t : Tree, NoRedRed t → BlackUniform t →
    t.height ≤ 2 * t.bh + (if t.color = RB_RED then 1 else 0)
  | .nil, _, _ => by simp [Tree.height]
  | .node l a c r, h3, h4 => by
    obtain ⟨hc, hl3, hr3⟩ := h3
    obtain ⟨hb, hl4, hr4⟩ := h4
    have il := height_le_two_bh l hl3 hl4
    have ir := height_le_two_bh r hr3 hr4
    rcases color_cases c with rfl | rfl
    · obtain ⟨c1, c2⟩ := hc rfl
      rw [c1] at il
      rw [c2] at ir
      simp only [Tree.height, Tree.bh, color_node] at il ir ⊢
      simp at il ir ⊢
      omega
    · simp only [Tree.height, Tree.bh, color_node] at il ir ⊢
      simp at il ir ⊢
      split_ifs at il ir <;> omega

theorem pow_bh_le_size : ∀ t : Tree, BlackUniform t → 2 ^ t.bh ≤ t.inorder.length + 1
  | .nil, _ => by simp [Tree.bh, Tree.inorder]
  | .node l a c r, h4 => by
    obtain ⟨hb, hl4, hr4⟩ := h4
    have il := pow_bh_le_size l hl4
    have ir := pow_bh_le_size r hr4
    rw [← hb] at ir
    have h1 : 2 ^ (l.bh + (if c = RB_BLACK then 1 else 0)) ≤ 2 ^ (l.bh + 1) :=
      Nat.pow_le_pow_right (by decide) (by split_ifs <;> omega)
    simp only [Tree.bh, Tree.inorder, List.length_append, List.length_cons]
    rw [pow_succ] at h1
    omega

/-- The height bound of red-black trees, in integer form. -/
theorem height_bound {t : Tree} (h3 : NoRedRed t) (h4 : BlackUniform t)
    (h5 : t.color = RB_BLACK) : 2 ^ t.height ≤ (t.inorder.length + 1) ^ 2 := by
  have h1 := height_le_two_bh t h3 h4
  simp only [h5] at h1
  simp at h1
  calc 2 ^ t.height ≤ 2 ^ (2 * t.bh) := Nat.pow_le_pow_right (by decide) h1
    _ = (2 ^ t.bh) ^ 2 := by rw [mul_comm, pow_mul]
    _ ≤ (t.inorder.length + 1) ^ 2 := Nat.pow_le_pow_left (pow_bh_le_size t h4) 2

/-- The height bound with the logarithm. -/
theorem height_bound_log {t : Tree} (h : 2 ^ t.height ≤ (t.inorder.length + 1) ^ 2) :
    (t.height : ℝ) ≤ 2 * Real.logb 2 ((t.inorder.length : ℝ) + 1) := by
  have h1 : ((2 : ℝ) ^ t.height) ≤ ((t.inorder.length : ℝ) + 1) ^ 2 := by exact_mod_cast h
  have h2 : Real.logb 2 ((2 : ℝ) ^ t.height) ≤ Real.logb 2 (((t.inorder.length : ℝ) + 1) ^ 2) :=
    Real.logb_le_logb_of_le (by norm_num) (by positivity) h1
  have h3 : Real.logb 2 ((2 : ℝ) ^ t.height) = t.height := by
    rw [Real.logb_pow]; simp
  have h4 : Real.logb 2 (((t.inorder.length : ℝ) + 1) ^ 2) =
      2 * Real.logb 2 ((t.inorder.length : ℝ) + 1) := by
    rw [Real.logb_pow]; norm_num
  linarith

/-- The heap determines the tree it holds. -/
theorem rep_unique {h : Nat → rb_node} : ∀ (t t2 : Tree) (p : Option Nat),
    Rep h t p → Rep h t2 p → t.ptr = t2.ptr → t = t2
  | .nil, .nil, _, _, _, _ => rfl
  | .nil, .node _ _ _ _, _, _, _, e => by simp at e
  | .node _ _ _ _, .nil, _, _, _, e => by simp at e
  | .node l a c r, .node l2 a2 c2 r2, p, h1, h2, e => by
    simp only [ptr_node, Option.some.injEq] at e
    subst e
    obtain ⟨e1, hl, hr⟩ := h1
    obtain ⟨e2, hl2, hr2⟩ := h2
    rw [e1] at e2
    simp only [rb_node.mk.injEq, true_and] at e2
    obtain ⟨ec, er, el⟩ := e2
    rw [rep_unique l l2 (some a) hl hl2 el, rep_unique r r2 (some a) hr hr2 er, ec]

theorem shape_unique {m : Mem} {t t2 : Tree} (h1 : Shape m t) (h2 : Shape m t2) : t = t2 :=
  rep_unique t t2 none h1.2.1 h2.2.1 (h1.1.symm.trans h2.1)

/-- Deleting a key that no node has returns `NULL` and the same memory. -/
theorem rb_delete_absent {K : Type} [LinearOrder K] {compare : Nat → K → Int} {keyOf : Nat → K}
    (hc : Consistent compare keyOf) {m : Mem} {t : Tree} (hs : Shape m t) (hb : BST keyOf t)
    {key : K} (hno : ∀ x ∈ t.inorder, keyOf x ≠ key) (fuel : Nat) (hf : t.height < fuel) :
    rb_delete fuel (some m) key compare = .ok (none, some m) := by
  rcases search_descend_ok hc key fuel [] t m hs hf hb with ⟨x, h1, h2, -⟩ | ⟨-, e⟩
  · exact absurd h2 (hno x h1)
  · simp [rb_delete, hs.1, e]

/-- Every reachable memory holds a tree satisfying invariants (1)-(5). -/
theorem reachable_valid {K : Type} [LinearOrder K] {compare : Nat → K → Int} {keyOf : Nat → K}
    (hc : Consistent compare keyOf) {m : Mem} (hr : Reachable compare keyOf m) :
    Valid keyOf m := by
  induction hr with
  | empty m h0 => exact ⟨.nil, shape_nil h0, rbinv_nil keyOf⟩
  | insert m m2 t fuel node r _ hs hf hn e ih =>
    obtain ⟨t0, s0, i0⟩ := ih
    have ht := shape_unique s0 hs
    subst ht
    rcases rb_insert_spec hc hs i0.1 i0.2.1 i0.2.2.1 i0.2.2.2 hn (keyOf node) fuel hf with
      ⟨-, e2⟩ | ⟨hab, -⟩
    · rw [e2] at e
      simp only [Except.ok.injEq, Prod.mk.injEq, Option.some.injEq] at e
      rw [← e.2]
      exact ⟨t0, hs, i0⟩
    · obtain ⟨m3, t3, l1, l2, e3, s3, i3, -, -⟩ := rb_insert_full hc hs i0 hn hab fuel hf
      rw [e3] at e
      simp only [Except.ok.injEq, Prod.mk.injEq, Option.some.injEq] at e
      rw [← e.2]
      exact ⟨t3, s3, i3⟩
  | delete m m2 t fuel key r _ hs hf e ih =>
    obtain ⟨t0, s0, i0⟩ := ih
    have ht := shape_unique s0 hs
    subst ht
    by_cases hk : ∃ x ∈ t0.inorder, keyOf x = key
    · obtain ⟨x, hx, rfl⟩ := hk
      obtain ⟨m3, t3, l1, l2, e3, s3, i3, -, -⟩ := rb_delete_present hc hs i0 hx fuel hf
      rw [e3] at e
      simp only [Except.ok.injEq, Prod.mk.injEq, Option.some.injEq] at e
      rw [← e.2]
      exact ⟨t3, s3, i3⟩
    · have hno : ∀ x ∈ t0.inorder, keyOf x ≠ key := fun x hx h => hk ⟨x, hx, h⟩
      rw [rb_delete_absent hc hs i0.1 hno fuel hf] at e
      simp only [Except.ok.injEq, Prod.mk.injEq, Option.some.injEq] at e
      rw [← e.2]
      exact ⟨t0, hs, i0⟩

/-- The insertion loop leads from a reachable memory to a reachable memory. -/
theorem reachable_insert_all {K : Type} [LinearOrder K] {compare : Nat → K → Int}
    {keyOf : Nat → K} (hc : Consistent compare keyOf) (fuel : Nat) :
    ∀ (ns : List Nat) (m : Mem) (t : Tree), Reachable compare keyOf m → Shape m t →
      RBInv keyOf t → (∀ n ∈ ns, ∀ x ∈ t.inorder, keyOf x ≠ keyOf n) → (ns.map keyOf).Nodup →
      t.inorder.length + ns.length < fuel →
      ∃ m2, insert_all fuel compare keyOf ns m = .ok m2 ∧ Reachable compare keyOf m2 := by
  intro ns
  induction ns with
  | nil =>
    intro m t hr _ _ _ _ _
    exact ⟨m, by simp [insert_all], hr⟩
  | cons n ns ih =>
    intro m t hr hs hinv hfresh hnd hf
    simp only [List.length_cons] at hf
    simp only [List.map_cons, List.nodup_cons, List.mem_map, not_exists, not_and] at hnd
    have hh : t.height < fuel := lt_of_le_of_lt (height_le_size t) (by omega)
    have hn : n ∉ t.inorder := fun h => hfresh n (by simp) n h rfl
    obtain ⟨m2, t2, l1, l2, e, s2, i2, j1, j2⟩ :=
      rb_insert_full hc hs hinv hn (hfresh n (by simp)) fuel hh
    have hfresh2 : ∀ k ∈ ns, ∀ x ∈ t2.inorder, keyOf x ≠ keyOf k := by
      intro k hk x hx
      rw [j2] at hx
      simp only [List.mem_append, List.mem_cons] at hx
      have hx2 : x = n ∨ x ∈ t.inorder := by
        rw [j1]; simp only [List.mem_append]; tauto
      rcases hx2 with rfl | hx2
      · exact fun h => hnd.1 k hk h.symm
      · exact hfresh k (by simp [hk]) x hx2
    have hlen : t2.inorder.length + ns.length < fuel := by
      rw [j2]
      rw [j1] at hf
      simp only [List.length_append, List.length_cons] at hf ⊢
      omega
    obtain ⟨m3, e3, r3⟩ :=
      ih m2 t2 (Reachable.insert m m2 t fuel n 0 hr hs hh hn e) s2 i2 hfresh2 hnd.2 hlen
    exact ⟨m3, by simp [insert_all, e, e3], r3⟩

/-! ## Node replacement -/

theorem replace_shape {m : Mem} (fs : List Frame) {l r : Tree} {v new : Nat} {c : Color}
    (hs : Shape m (plug fs (.node l v c r)))
    (hn : new ∉ (plug fs (.node l v c r)).inorder) :
    Shape (rb_replace_node v new m) (plug fs (.node l new c r)) := by
  obtain ⟨hroot, hrep, hnd⟩ := hs
  obtain ⟨hctx, hx, hl, hr⟩ := (rep_plug _ _ _ _).1 ⟨hroot, hrep⟩
  have hnd2 : (plug fs (.node l new c r)).inorder.Nodup := by
    simp [inorder_plug, Tree.inorder, List.nodup_append, List.nodup_cons] at hnd hn ⊢
    tauto
  simp only [Shape, and_comm (b := List.Nodup _)]
  simp only [hnd2, true_and, rep_plug]
  clear hnd2 hroot hrep
  rcases l with _ | ⟨la, lx, lc, lb⟩ <;> rcases r with _ | ⟨ra, rx, rc, rb⟩ <;>
    rcases fs with _ | ⟨⟨p, pc, pr⟩ | ⟨pl, p, pc⟩, fs⟩
  all_goals
    simp [inorder_plug, Tree.inorder, ctxBefore, ctxAfter, List.nodup_append, List.nodup_cons] at hnd hn
    simp only [RepCtx, Rep, ptr_node, ptr_nil, ctxParent_nil, ctxParent_cons, addr_left, addr_right] at hctx hx hl hr ⊢
    simp (disch := omega) [rb_replace_node, hx, hl, hr, hctx, set_right, set_left, rb_set_parent, rb_parent, heap_write_ne]
    try simp [hnd, hn, hctx, hl, hr, rep_write, repctx_write, ptr_ne, ptr_ne2]
    try simp (disch := omega) [hx, hl, hr, hctx, heap_write_ne]
    try simp [hnd, hn, hctx, hl, hr, rep_write, repctx_write, ptr_ne, ptr_ne2]
    try simp (disch := omega) [hx, hl, hr, hctx, heap_write_ne]

/-- The records that `rb_replace_node` does not write keep their content. -/
theorem replace_frame {m : Mem} (fs : List Frame) {l r : Tree} {v new : Nat} {c : Color}
    (hs : Shape m (plug fs (.node l v c r))) (z : Nat) (h1 : z ≠ new)
    (h2 : ctxParent fs ≠ some z) (h3 : l.ptr ≠ some z) (h4 : r.ptr ≠ some z) :
    (rb_replace_node v new m).heap z = m.heap z := by
  obtain ⟨hroot, hrep, hnd⟩ := hs
  obtain ⟨hctx, hx, hl, hr⟩ := (rep_plug _ _ _ _).1 ⟨hroot, hrep⟩
  clear hroot hrep
  rcases l with _ | ⟨la, lx, lc, lb⟩ <;> rcases r with _ | ⟨ra, rx, rc, rb⟩ <;>
    rcases fs with _ | ⟨⟨p, pc, pr⟩ | ⟨pl, p, pc⟩, fs⟩
  all_goals
    simp [inorder_plug, Tree.inorder, ctxBefore, ctxAfter, List.nodup_append, List.nodup_cons] at hnd
    simp only [RepCtx, Rep, ptr_node, ptr_nil, ctxParent_nil, ctxParent_cons, addr_left, addr_right,
      ne_eq, Option.some.injEq, not_false_eq_true] at hctx hx hl hr h2 h3 h4
    simp (disch := omega) [rb_replace_node, hx, hl, hr, hctx, set_right, set_left, rb_set_parent, rb_parent, heap_write_ne, set_root]
    try simp [hnd, ptr_ne, ptr_ne2]
    try simp (disch := omega) [hx, hl, hr, hctx, heap_write_ne]
    try simp [hnd, ptr_ne, ptr_ne2]
    try simp (disch := omega) [hx, hl, hr, hctx, heap_write_ne]

/-- Invariants (1)-(5) do not see the exchange of a node for one with the same key. -/
theorem replace_inv {K : Type} [LinearOrder K] {keyOf : Nat → K} (fs : List Frame) {l r : Tree}
    {v new : Nat} {c : Color} (hinv : RBInv keyOf (plug fs (.node l v c r)))
    (hk : keyOf new = keyOf v) : RBInv keyOf (plug fs (.node l new c r)) := by
  obtain ⟨hb, h3, h4, h5⟩ := hinv
  refine ⟨?_, valid_readdr fs new h3 h4 h5⟩
  rw [bst_iff_sorted] at hb ⊢
  simp only [KeySorted] at hb ⊢
  rw [← List.pairwise_map] at hb ⊢
  have e : List.map keyOf (plug fs (.node l new c r)).inorder =
      List.map keyOf (plug fs (.node l v c r)).inorder := by
    simp [inorder_plug, Tree.inorder, hk]
  rw [e]
  exact hb

/-- The children of the replaced node point at the replacement. -/
theorem child_parent {m : Mem} (fs : List Frame) {l r : Tree} {x : Nat} {c : Color}
    (hs : Shape m (plug fs (.node l x c r))) (ch : Nat)
    (h : l.ptr = some ch ∨ r.ptr = some ch) : rb_parent m ch = some x := by
  obtain ⟨-, -, hl, hr⟩ := (rep_plug _ _ _ _).1 ⟨hs.1, hs.2.1⟩
  rcases h with h | h
  · rcases l with _ | ⟨la, lx, lc, lb⟩
    · simp at h
    · simp only [ptr_node, Option.some.injEq] at h
      subst h
      simp [rb_parent, hl.1]
  · rcases r with _ | ⟨ra, rx, rc, rb⟩
    · simp at h
    · simp only [ptr_node, Option.some.injEq] at h
      subst h
      simp [rb_parent, hr.1]

/-! ## Rotations: frame, colours, inverse -/

theorem rep_heap_eq {h h2 : Nat → rb_node} : ∀ (t : Tree) (p : Option Nat),
    Rep h t p → Rep h2 t p → ∀ z ∈ t.inorder, h z = h2 z
  | .nil, _, _, _, z, hz => by simp [Tree.inorder] at hz
  | .node l a c r, p, h1, h3, z, hz => by
    simp only [Tree.inorder, List.mem_append, List.mem_cons] at hz
    rcases hz with hz | rfl | hz
    · exact rep_heap_eq l (some a) h1.2.1 h3.2.1 z hz
    · rw [h1.1, h3.1]
    · exact rep_heap_eq r (some a) h1.2.2 h3.2.2 z hz

/-- Two memories that hold the same tree and agree outside of it are equal. -/
theorem shape_mem_eq {m m2 : Mem} {t : Tree} (h1 : Shape m t) (h2 : Shape m2 t)
    (hf : ∀ z, z ∉ t.inorder → m2.heap z = m.heap z) : m2 = m := by
  apply mem_ext
  · intro z
    by_cases hz : z ∈ t.inorder
    · exact rep_heap_eq t none h2.2.1 h1.2.1 z hz
    · exact hf z hz
  · rw [h1.1, h2.1]

theorem rotate_left_frame {m : Mem} (fs : List Frame) {a b c : Tree} {x y : Nat} {cx cy : Color}
    (hs : Shape m (plug fs (.node a x cx (.node b y cy c)))) :
    ∃ m2, __rb_rotate_left x m = .ok m2 ∧
      ∀ z, z ∉ (plug fs (.node a x cx (.node b y cy c))).inorder → m2.heap z = m.heap z := by
  obtain ⟨hroot, hrep, hnd⟩ := hs
  obtain ⟨hctx, hx, ha, hy, hb, hc⟩ := (rep_plug _ _ _ _).1 ⟨hroot, hrep⟩
  clear hroot hrep
  rcases b with _ | ⟨bl, bx, bc, br⟩ <;> rcases fs with _ | ⟨⟨p, pc, pr⟩ | ⟨pl, p, pc⟩, fs⟩
  all_goals
    simp [inorder_plug, Tree.inorder, ctxBefore, ctxAfter, List.nodup_append, List.nodup_cons] at hnd
    simp only [RepCtx, Rep, ptr_node, ptr_nil, ctxParent_nil, ctxParent_cons, addr_left, addr_right] at hctx hx hy hb ⊢
    simp (disch := omega) [__rb_rotate_left, hx, hy, hb, hctx, set_right, set_left, rb_set_parent, rb_parent, heap_write_ne]
    intro z hz
    simp [inorder_plug, Tree.inorder, ctxBefore, ctxAfter] at hz
    try simp [hnd, ptr_ne, ptr_ne2]
    simp (disch := omega) [heap_write_ne]

theorem rotate_right_frame {m : Mem} (fs : List Frame) {a b c : Tree} {x y : Nat} {cx cy : Color}
    (hs : Shape m (plug fs (.node (.node a x cx b) y cy c))) :
    ∃ m2, __rb_rotate_right y m = .ok m2 ∧
      ∀ z, z ∉ (plug fs (.node (.node a x cx b) y cy c)).inorder → m2.heap z = m.heap z := by
  obtain ⟨hroot, hrep, hnd⟩ := hs
  obtain ⟨hctx, hy, ⟨hx, ha, hb⟩, hc⟩ := (rep_plug _ _ _ _).1 ⟨hroot, hrep⟩
  clear hroot hrep
  rcases b with _ | ⟨bl, bx, bc, br⟩ <;> rcases fs with _ | ⟨⟨p, pc, pr⟩ | ⟨pl, p, pc⟩, fs⟩
  all_goals
    simp [inorder_plug, Tree.inorder, ctxBefore, ctxAfter, List.nodup_append, List.nodup_cons] at hnd
    simp only [RepCtx, Rep, ptr_node, ptr_nil, ctxParent_nil, ctxParent_cons, addr_left, addr_right] at hctx hx hy hb ⊢
    simp (disch := omega) [__rb_rotate_right, hx, hy, hb, hctx, set_right, set_left, rb_set_parent, rb_parent, heap_write_ne]
    intro z hz
    simp [inorder_plug, Tree.inorder, ctxBefore, ctxAfter] at hz
    try simp [hnd, ptr_ne, ptr_ne2]
    simp (disch := omega) [heap_write_ne]

theorem color_write_keep (m : Mem) (a z : Nat) (n : rb_node) (h : n.rb_color = (m.heap a).rb_color) :
    ((m.write a n).heap z).rb_color = (m.heap z).rb_color := by
  by_cases e : z = a
  · subst e; simp [h]
  · rw [heap_write_ne m n e]

@[simp] theorem color_set_left (m : Mem) (a z : Nat) (v : Option Nat) :
    ((set_left a v m).heap z).rb_color = (m.heap z).rb_color :=
  color_write_keep m a z _ rfl

@[simp] theorem color_set_right (m : Mem) (a z : Nat) (v : Option Nat) :
    ((set_right a v m).heap z).rb_color = (m.heap z).rb_color :=
  color_write_keep m a z _ rfl

@[simp] theorem color_set_parent (m : Mem) (a z : Nat) (v : Option Nat) :
    ((rb_set_parent a v m).heap z).rb_color = (m.heap z).rb_color :=
  color_write_keep m a z _ rfl

/-- A left rotation changes the colour of no node. -/
theorem rotate_left_color {m m2 : Mem} {x : Nat} (e : __rb_rotate_left x m = .ok m2) (z : Nat) :
    (m2.heap z).rb_color = (m.heap z).rb_color := by
  unfold __rb_rotate_left at e
  cases hr : (m.heap x).rb_right with
  | none => simp [hr, deref] at e
  | some right =>
    simp only [hr, deref, bind_ok, pure_eq_ok, Except.ok.injEq] at e
    subst e
    simp only [color_set_parent]
    split
    · split <;> simp <;> split <;> (try split) <;> simp
    · simp; split <;> (try split) <;> simp

/-- A right rotation changes the colour of no node. -/
theorem rotate_right_color {m m2 : Mem} {x : Nat} (e : __rb_rotate_right x m = .ok m2) (z : Nat) :
    (m2.heap z).rb_color = (m.heap z).rb_color := by
  unfold __rb_rotate_right at e
  cases hr : (m.heap x).rb_left with
  | none => simp [hr, deref] at e
  | some left =>
    simp only [hr, deref, bind_ok, pure_eq_ok, Except.ok.injEq] at e
    subst e
    simp only [color_set_parent]
    split
    · split <;> simp <;> split <;> (try split) <;> simp
    · simp; split <;> (try split) <;> simp

/-- A right rotation at the promoted node undoes a left rotation. -/
theorem rotate_left_right {m : Mem} (fs : List Frame) {a b c : Tree} {x y : Nat} {cx cy : Color}
    (hs : Shape m (plug fs (.node a x cx (.node b y cy c)))) :
    ∃ m2, __rb_rotate_left x m = .ok m2 ∧ __rb_rotate_right y m2 = .ok m := by
  obtain ⟨m2, e2, s2⟩ := rotate_left_shape fs hs
  obtain ⟨m2b, e2b, f2⟩ := rotate_left_frame fs hs
  rw [e2] at e2b
  simp only [Except.ok.injEq] at e2b
  subst e2b
  obtain ⟨m3, e3, s3⟩ := rotate_right_shape fs s2
  obtain ⟨m3b, e3b, f3⟩ := rotate_right_frame fs s2
  rw [e3] at e3b
  simp only [Except.ok.injEq] at e3b
  subst e3b
  refine ⟨m2, e2, ?_⟩
  rw [e3, shape_mem_eq hs s3]
  intro z hz
  rw [f3 z (by simpa [inorder_plug, Tree.inorder] using hz), f2 z hz]

/-- A left rotation at the promoted node undoes a right rotation. -/
theorem rotate_right_left {m : Mem} (fs : List Frame) {a b c : Tree} {x y : Nat} {cx cy : Color}
    (hs : Shape m (plug fs (.node (.node a x cx b) y cy c))) :
    ∃ m2, __rb_rotate_right y m = .ok m2 ∧ __rb_rotate_left x m2 = .ok m := by
  obtain ⟨m2, e2, s2⟩ := rotate_right_shape fs hs
  obtain ⟨m2b, e2b, f2⟩ := rotate_right_frame fs hs
  rw [e2] at e2b
  simp only [Except.ok.injEq] at e2b
  subst e2b
  obtain ⟨m3, e3, s3⟩ := rotate_left_shape fs s2
  obtain ⟨m3b, e3b, f3⟩ := rotate_left_frame fs s2
  rw [e3] at e3b
  simp only [Except.ok.injEq] at e3b
  subst e3b
  refine ⟨m2, e2, ?_⟩
  rw [e3, shape_mem_eq hs s3]
  intro z hz
  rw [f3 z (by simpa [inorder_plug, Tree.inorder] using hz), f2 z hz]

/-! ## Managed records -/

theorem tpl_compare_consistent (idOf : Nat → Nat) :
    Consistent (tpl_compare idOf) (tpl_key idOf) := by
  intro n k
  have hk : ∀ a b : Natᵒᵈ, a < b ↔ OrderDual.ofDual b < OrderDual.ofDual a := fun _ _ => Iff.rfl
  simp only [tpl_compare, tpl_key, hk, OrderDual.ofDual_toDual]
  constructor
  · split_ifs <;> simp_all
  · split_ifs <;> simp_all
    omega

theorem tpl_insert_descend_eq (id : Nat) (s : TplMem) : ∀ (fuel : Nat) (parent : Option Nat)
    (left : Bool) (cur : Option Nat),
    tpl_insert_descend id fuel s parent left cur =
      insert_descend (tpl_compare s.id) (OrderDual.toDual id) fuel s.mem parent left cur := by
  intro fuel
  induction fuel with
  | zero => intro _ _ _; rfl
  | succ fuel ih =>
    intro parent left cur
    rcases cur with _ | c
    · rfl
    · simp only [tpl_insert_descend, insert_descend, tpl_compare, OrderDual.ofDual_toDual, ih]
      split_ifs <;> simp_all

theorem tpl_search_descend_eq (id : Nat) (s : TplMem) : ∀ (fuel : Nat) (cur : Option Nat),
    tpl_search_descend id fuel s cur =
      search_descend (tpl_compare s.id) (OrderDual.toDual id) fuel s.mem cur := by
  intro fuel
  induction fuel with
  | zero => intro _; rfl
  | succ fuel ih =>
    intro cur
    rcases cur with _ | c
    · rfl
    · simp only [tpl_search_descend, search_descend, tpl_compare, OrderDual.ofDual_toDual, ih]
      split_ifs <;> simp_all

theorem rule_tpl_search_eq (fuel : Nat) (s : TplMem) (id : Nat) :
    rule_tpl_search fuel (some s) id =
      rb_search fuel (some s.mem) (OrderDual.toDual id) (tpl_compare s.id) := by
  simp [rule_tpl_search, rb_search, tpl_search_descend_eq]

/-- The record that `rb_link_node` writes does not depend on what the node held. -/
theorem link_after_write (a : Nat) (parent : Option Nat) (left : Bool) (m : Mem) (n : rb_node) :
    rb_link_node a parent left (m.write a n) = rb_link_node a parent left m := by
  have e : (m.write a n).write a ⟨parent, RB_RED, none, none⟩ =
      m.write a ⟨parent, RB_RED, none, none⟩ := by
    simp [Mem.write]
  simp only [rb_link_node, e]

theorem insert_inv_dup {K : Type} {compare : Nat → K → Int} {key : K} {fuel node : Nat}
    {m : Mem} {m2 : Option Mem}
    (e : rb_insert fuel (some m) (some node) key compare = .ok (-1, m2)) :
    insert_descend compare key fuel m none true m.root = .ok none := by
  simp only [rb_insert] at e
  rcases hd : insert_descend compare key fuel m none true m.root with er | (_ | ⟨p, l⟩)
  · simp [hd] at e
  · rfl
  · simp only [hd, bind_ok] at e
    rcases hcol : rb_insert_color fuel node (rb_link_node node p l m) with er | m3
    · simp [hcol] at e
    · simp [hcol] at e

theorem insert_inv_ok {K : Type} {compare : Nat → K → Int} {key : K} {fuel node : Nat}
    {m : Mem} {m2 : Option Mem}
    (e : rb_insert fuel (some m) (some node) key compare = .ok (0, m2)) :
    ∃ p l m3, insert_descend compare key fuel m none true m.root = .ok (some (p, l)) ∧
      rb_insert_color fuel node (rb_link_node node p l m) = .ok m3 ∧ m2 = some m3 := by
  simp only [rb_insert] at e
  rcases hd : insert_descend compare key fuel m none true m.root with er | (_ | ⟨p, l⟩)
  · simp [hd] at e
  · simp [hd] at e
  · simp only [hd, bind_ok] at e
    rcases hcol : rb_insert_color fuel node (rb_link_node node p l m) with er | m3
    · simp [hcol] at e
    · simp [hcol] at e
      exact ⟨p, l, m3, rfl, hcol, e.symm⟩

theorem keySorted_congr {K : Type} [LinearOrder K] {k1 k2 : Nat → K} {l : List Nat}
    (h : ∀ x ∈ l, k2 x = k1 x) (hs : KeySorted k1 l) : KeySorted k2 l := by
  refine List.Pairwise.imp_of_mem ?_ hs
  intro a b ha hb hab
  rw [h a ha, h b hb]
  exact hab

/-- With an id that a record of the tree has, `rule_tpl_create` returns `NULL` and the same
state, whatever the allocator would return. -/
theorem tpl_create_dup {s : TplMem} {t : Tree} (hs : Shape s.mem t)
    (hinv : RBInv (tpl_key s.id) t) {id : Nat} (hdup : ∃ x ∈ t.inorder, s.id x = id)
    (size : Nat) (alloc : Option Nat) (fuel : Nat) (hf : t.height < fuel) :
    rule_tpl_create fuel (some s) id size alloc = .ok (none, some s) := by
  obtain ⟨x, hx, hxi⟩ := hdup
  rcases insert_descend_ok (tpl_compare_consistent s.id) (OrderDual.toDual id) fuel [] t s.mem hs
    hf hinv.1 (by simp [ctxBefore]) (by simp [ctxAfter]) with ⟨-, e⟩ | ⟨fs2, -, e2, e3, e4, -⟩
  · simp only [ctxParent_nil, ctxSide_nil] at e
    simp [rule_tpl_create, tpl_insert_descend_eq, hs.1, e]
  · exfalso
    simp only [plug_nil] at e2
    have hin : t.inorder = ctxBefore fs2 ++ ctxAfter fs2 := by
      rw [← e2, inorder_plug]; simp [Tree.inorder]
    rw [hin, List.mem_append] at hx
    have hk : tpl_key s.id x = OrderDual.toDual id := by simp [tpl_key, hxi]
    rcases hx with hx | hx
    · exact absurd (e3 x hx) (by rw [hk]; exact lt_irrefl _)
    · exact absurd (e4 x hx) (by rw [hk]; exact lt_irrefl _)

/-- When the allocator fails, `rule_tpl_create` returns `NULL` and the same state. -/
theorem tpl_create_nomem {s : TplMem} {t : Tree} (hs : Shape s.mem t)
    (hinv : RBInv (tpl_key s.id) t) (id size : Nat) (fuel : Nat) (hf : t.height < fuel) :
    rule_tpl_create fuel (some s) id size none = .ok (none, some s) := by
  rcases insert_descend_ok (tpl_compare_consistent s.id) (OrderDual.toDual id) fuel [] t s.mem hs
    hf hinv.1 (by simp [ctxBefore]) (by simp [ctxAfter]) with ⟨-, e⟩ | ⟨fs2, e, -⟩
  · simp only [ctxParent_nil, ctxSide_nil] at e
    simp [rule_tpl_create, tpl_insert_descend_eq, hs.1, e]
  · simp only [ctxParent_nil, ctxSide_nil] at e
    simp [rule_tpl_create, tpl_insert_descend_eq, hs.1, e]

/-- With a fresh id and a block of fewer than `sizeof(struct rule_tpl)` bytes, the writes of
`rule_tpl_create` leave the block. -/
theorem tpl_create_short {s : TplMem} {t : Tree} (hs : Shape s.mem t)
    (hinv : RBInv (tpl_key s.id) t) {id : Nat} (habs : ∀ x ∈ t.inorder, s.id x ≠ id)
    {size : Nat} (hsz : size < rule_tpl_size) (a : Nat) (fuel : Nat) (hf : t.height < fuel) :
    rule_tpl_create fuel (some s) id size (some a) = .error .out_of_bounds := by
  rcases insert_descend_ok (tpl_compare_consistent s.id) (OrderDual.toDual id) fuel [] t s.mem hs
    hf hinv.1 (by simp [ctxBefore]) (by simp [ctxAfter]) with ⟨⟨x, hx1, hx2⟩, -⟩ | ⟨fs2, e, -⟩
  · exact absurd (by simpa [tpl_key] using hx2) (habs x hx1)
  · simp only [ctxParent_nil, ctxSide_nil] at e
    simp [rule_tpl_create, tpl_insert_descend_eq, hs.1, e, hsz]

/-- With a fresh id and a fresh block, `rule_tpl_create` links the new record. -/
theorem tpl_create_ok {s : TplMem} {t : Tree} (hs : Shape s.mem t)
    (hinv : RBInv (tpl_key s.id) t) {id : Nat} (habs : ∀ x ∈ t.inorder, s.id x ≠ id)
    {size : Nat} (hsz : rule_tpl_size ≤ size) {a : Nat} (ha : a ∉ t.inorder) (fuel : Nat)
    (hf : t.height < fuel) :
    ∃ m2 t2 l1 l2, rule_tpl_create fuel (some s) id size (some a) =
        .ok (some a, some ⟨m2, Function.update s.id a id,
          Function.update s.payload a (List.replicate (size - rule_tpl_size) 0)⟩) ∧
      Shape m2 t2 ∧ RBInv (tpl_key (Function.update s.id a id)) t2 ∧
      t.inorder = l1 ++ l2 ∧ t2.inorder = l1 ++ a :: l2 := by
  obtain ⟨hb, h3, h4, h5⟩ := hinv
  rcases rb_insert_spec (tpl_compare_consistent s.id) hs hb h3 h4 h5 ha (OrderDual.toDual id)
    fuel hf with ⟨⟨x, hx1, hx2⟩, -⟩ | ⟨-, m2, t2, l1, l2, e, s2, i1, i2, k1, k2, r1, r2, r3⟩
  · exact absurd (by simpa [tpl_key] using hx2) (habs x hx1)
  · obtain ⟨p, l, m3, ed, ec, em⟩ := insert_inv_ok e
    simp only [Option.some.injEq] at em
    subst em
    refine ⟨m2, t2, l1, l2, ?_, s2, ⟨?_, r1, r2, r3⟩, i1, i2⟩
    · simp [rule_tpl_create, tpl_insert_descend_eq, ed, link_after_write, ec, not_lt.2 hsz]
    · rw [bst_iff_sorted] at hb ⊢
      rw [i2]
      rw [i1] at hb
      have hne : ∀ x ∈ l1 ++ l2, x ≠ a := by
        intro x hx hxa
        rw [← i1, hxa] at hx
        exact ha hx
      have hkey : ∀ x ∈ l1 ++ l2, tpl_key (Function.update s.id a id) x = tpl_key s.id x := by
        intro x hx
        simp [tpl_key, Function.update_noteq (hne x hx)]
      have hka : tpl_key (Function.update s.id a id) a = OrderDual.toDual id := by
        simp [tpl_key]
      refine sorted_insert_mid (keySorted_congr hkey hb) ?_ ?_
      · intro y hy
        rw [hka, hkey y (List.mem_append_left _ hy)]
        exact k1 y hy
      · intro y hy
        rw [hka, hkey y (List.mem_append_right _ hy)]
        exact k2 y hy

/-- In a state that holds a tree sorted by descending id, `rule_tpl_search` returns the
record with the id, or `NULL` when there is none. -/
theorem tpl_search_spec {s : TplMem} {t : Tree} (hs : Shape s.mem t)
    (hb : BST (tpl_key s.id) t) (id : Nat) (fuel : Nat) (hf : t.height < fuel) :
    (∃ x ∈ t.inorder, s.id x = id ∧ rule_tpl_search fuel (some s) id = .ok (some x)) ∨
    ((∀ x ∈ t.inorder, s.id x ≠ id) ∧ rule_tpl_search fuel (some s) id = .ok none) := by
  rw [rule_tpl_search_eq]
  rcases rb_search_spec (tpl_compare_consistent s.id) hs hb (OrderDual.toDual id) fuel hf with
    ⟨x, h1, h2, e⟩ | ⟨h1, e⟩
  · exact Or.inl ⟨x, h1, by simpa [tpl_key] using h2, e⟩
  · exact Or.inr ⟨fun x hx => by simpa [tpl_key] using h1 x hx, e⟩

/-- The record with a given id is found at its address. -/
theorem tpl_search_found {s : TplMem} {t : Tree} (hs : Shape s.mem t)
    (hb : BST (tpl_key s.id) t) {x : Nat} (hx : x ∈ t.inorder) (fuel : Nat)
    (hf : t.height < fuel) : rule_tpl_search fuel (some s) (s.id x) = .ok (some x) := by
  rcases tpl_search_spec hs hb (s.id x) fuel hf with ⟨z, k1, k2, e⟩ | ⟨hno, -⟩
  · have hzx : z = x :=
      key_unique ((bst_iff_sorted _ t).1 hb) k1 hx (by simp [tpl_key, k2])
    rw [hzx] at e
    exact e
  · exact absurd rfl (hno x hx)

/-! ## Erase without rotation -/

/-- On a red node the fix-up only paints the node black. -/
theorem erase_color_on_red {m : Mem} (fs : List Frame) {l r : Tree} {a : Nat}
    (hs : Shape m (plug fs (.node l a RB_RED r))) (fuel : Nat) (p : Option Nat) :
    __rb_erase_color (fuel + 1) (some a) p m = .ok (rb_set_black a m) := by
  have hx := heap_focus fs hs
  simp [__rb_erase_color, null_or_black, rb_is_black, rb_color, hx, erase_color_exit]

/-- The tail of `rb_erase` when the spliced-out node is red, or black with a red child. -/
theorem erase_tail_simple {m : Mem} (R : List Frame) {child : Tree} (hs : Shape m (plug R child))
    (fuel : Nat) (p : Option Nat) :
    erase_tail (fuel + 1) RB_RED child.ptr p m = .ok m ∧
    (child.color = RB_RED → ∃ m2, erase_tail (fuel + 1) RB_BLACK child.ptr p m = .ok m2 ∧
      Shape m2 (plug R child.blacken)) := by
  constructor
  · simp [erase_tail]
  · intro hc
    rcases child with _ | ⟨cl, ca, cc, cr⟩
    · simp at hc
    · simp only [color_node] at hc
      subst hc
      refine ⟨rb_set_black ca m, ?_, ?_⟩
      · simp [erase_tail, erase_color_on_red R hs]
      · simpa using set_black_shape R hs

/-- The cases in which `rb_erase` rebalances nothing: the tree afterwards is the old one
with the node spliced out (or exchanged for its successor) and at most the child of the
spliced-out node painted black. -/
theorem erase_no_rotation {m : Mem} (fs : List Frame) {l r : Tree} {x : Nat} {c : Color}
    (hs : Shape m (plug fs (.node l x c r))) (fuel : Nat)
    (hf : (plug fs (.node l x c r)).height < fuel) :
    (l = .nil →
      (c = RB_RED → ∃ m2, rb_erase fuel x m = .ok m2 ∧ Shape m2 (plug fs r)) ∧
      (c = RB_BLACK → r.color = RB_RED →
        ∃ m2, rb_erase fuel x m = .ok m2 ∧ Shape m2 (plug fs r.blacken))) ∧
    (r = .nil →
      (c = RB_RED → ∃ m2, rb_erase fuel x m = .ok m2 ∧ Shape m2 (plug fs l)) ∧
      (c = RB_BLACK → l.color = RB_RED →
        ∃ m2, rb_erase fuel x m = .ok m2 ∧ Shape m2 (plug fs l.blacken))) ∧
    (l ≠ .nil → r ≠ .nil →
      ∃ rs s sc sr, AllLeft rs ∧ r = plug rs (.node .nil s sc sr) ∧
        (sc = RB_RED →
          ∃ m2, rb_erase fuel x m = .ok m2 ∧ Shape m2 (plug fs (.node l s c (plug rs sr)))) ∧
        (sc = RB_BLACK → sr.color = RB_RED →
          ∃ m2, rb_erase fuel x m = .ok m2 ∧
            Shape m2 (plug fs (.node l s c (plug rs sr.blacken))))) := by
  have hx := heap_focus fs hs
  obtain ⟨k, rfl⟩ : ∃ k, fuel = k + 1 := ⟨fuel - 1, by omega⟩
  refine ⟨?_, ?_, ?_⟩
  · rintro rfl
    obtain ⟨m1, e1, s1⟩ := splice_right_shape fs hs
    obtain ⟨t1, t2⟩ := erase_tail_simple fs s1 k (ctxParent fs)
    constructor
    · rintro rfl
      exact ⟨m1, by simp [rb_erase, hx, e1, t1], s1⟩
    · rintro rfl hr
      obtain ⟨m2, e2, s2⟩ := t2 hr
      exact ⟨m2, by simp [rb_erase, hx, e1, e2], s2⟩
  · rintro rfl
    rcases l with _ | ⟨ll, la, lc, lr⟩
    · obtain ⟨m1, e1, s1⟩ := splice_right_shape fs hs
      obtain ⟨t1, t2⟩ := erase_tail_simple fs s1 k (ctxParent fs)
      simp only [ptr_nil] at e1 t1
      constructor
      · rintro rfl
        exact ⟨m1, by simp [rb_erase, hx, e1, t1], s1⟩
      · rintro rfl hr
        simp at hr
    · obtain ⟨m1, e1, s1⟩ := splice_left_shape fs hs
      obtain ⟨t1, t2⟩ := erase_tail_simple fs s1 k (ctxParent fs)
      simp only [ptr_node] at e1 t1 t2
      constructor
      · rintro rfl
        exact ⟨m1, by simp [rb_erase, hx, e1, t1], s1⟩
      · rintro rfl hr
        obtain ⟨m2, e2, s2⟩ := t2 hr
        exact ⟨m2, by simp [rb_erase, hx, e1, e2], s2⟩
  · intro hl hr
    rcases l with _ | ⟨ll, la, lc, lr⟩
    · exact absurd rfl hl
    rcases r with _ | ⟨rl, ra, rc, rr⟩
    · exact absurd rfl hr
    obtain ⟨rs, s, sc, sr, mB, a1, a2, sB, eB, -⟩ := erase_two_children fs hs (k + 1) hf
    have hT2 : ∀ u : Tree, plug (rs ++ .right (.node ll la lc lr) s c :: fs) u =
        plug fs (.node (.node ll la lc lr) s c (plug rs u)) := by
      intro u; simp [plug_append]
    rw [← hT2] at sB
    obtain ⟨t1, t2⟩ := erase_tail_simple _ sB k
      (ctxParent (rs ++ .right (.node ll la lc lr) s c :: fs))
    refine ⟨rs, s, sc, sr, a1, a2, ?_, ?_⟩
    · rintro rfl
      exact ⟨mB, by rw [eB, t1], by rw [← hT2]; exact sB⟩
    · rintro rfl hsr
      obtain ⟨m2, e2, s2⟩ := t2 hsr
      exact ⟨m2, by rw [eB, e2], by rw [← hT2]; exact s2⟩

/-! ## Absence of `NULL` dereferences -/

/-- Erasing the only node of a tree: the fix-up is entered with `node`, `parent` and the
root all `NULL` and returns at once. -/
theorem erase_single {m : Mem} {x : Nat} (hs : Shape m (.node .nil x RB_BLACK .nil))
    (fuel : Nat) :
    ∃ m1, m1.root = none ∧
      rb_erase (fuel + 1) x m = __rb_erase_color (fuel + 1) none none m1 ∧
      __rb_erase_color (fuel + 1) none none m1 = .ok m1 := by
  have hx := heap_focus [] hs
  obtain ⟨m1, e1, s1⟩ := splice_right_shape [] hs
  simp only [ptr_nil, ctxParent_nil, plug_nil] at e1 s1 hx
  have hr : m1.root = none := by simpa using s1.1
  refine ⟨m1, hr, ?_, ?_⟩
  · simp [rb_erase, hx, e1, erase_tail]
  · simp [__rb_erase_color, null_or_black, hr, erase_color_exit]

/-- Where the loop of `__rb_erase_color` runs, the parent and the sibling are there. -/
theorem erase_loop_parent {m : Mem} {fs : List Frame} {t : Tree} {n : Nat}
    (hs : Shape m (plug fs t)) (hctx : CtxInv fs (n + 1)) (hne : t.ptr ≠ m.root) :
    ∃ f rest, fs = f :: rest ∧ ctxParent fs = some f.addr ∧ f.sib ≠ .nil := by
  rcases fs with _ | ⟨f, rest⟩
  · exact absurd hs.1.symm hne
  · refine ⟨f, rest, rfl, rfl, ?_⟩
    intro h
    have := hctx.1
    rw [h] at this
    simp [Tree.bh] at this

/-- The record of the node of a frame. -/
theorem frame_focus {m : Mem} (f : Frame) (gs : List Frame) {t : Tree}
    (hs : Shape m (plug (f :: gs) t)) :
    rb_parent m f.addr = ctxParent gs ∧ rb_color m f.addr = f.color := by
  rcases f with ⟨a, c, r⟩ | ⟨l, a, c⟩
  · exact ⟨parent_focus gs hs, color_focus gs hs⟩
  · exact ⟨parent_focus gs hs, color_focus gs hs⟩

/-- Where the loop of `rb_insert_color` finds a red parent, the grandparent is there. -/
theorem grandparent_exists {m : Mem} {gs : List Frame} {l r : Tree} {y : Nat} {n : Nat}
    (hs : Shape m (plug gs (.node l y RB_RED r))) (hctx : CtxInv gs n) (p : Nat)
    (hp : rb_parent m y = some p) (hred : rb_is_red m p = true) :
    ∃ g, rb_parent m p = some g := by
  rw [parent_focus gs hs] at hp
  rcases gs with _ | ⟨f, gs2⟩
  · simp at hp
  · simp only [ctxParent_cons, Option.some.injEq] at hp
    subst hp
    obtain ⟨h1, h2⟩ := frame_focus f gs2 hs
    have hc : f.color = RB_RED := by
      simpa [rb_is_red, h2] using hred
    have hnb := (hctx.2.2.2.1 hc).2
    rcases gs2 with _ | ⟨g, gs3⟩
    · simp at hnb
    · exact ⟨g.addr, by rw [h1]; rfl⟩

/-- The fix-up after an insertion returns, with a root that is not `NULL`. -/
theorem insert_color_total (fuel : Nat) (fs : List Frame) (l r : Tree) (x : Nat) (m : Mem)
    (n : Nat) (hs : Shape m (plug fs (.node l x RB_RED r))) (hf : fs.length < fuel)
    (hctx : CtxInv fs n) (hl : l.bh = n) (hr : r.bh = n) (l3 : NoRedRed l) (r3 : NoRedRed r)
    (l4 : BlackUniform l) (r4 : BlackUniform r) (lc : l.color = RB_BLACK)
    (rc : r.color = RB_BLACK) :
    ∃ m2, rb_insert_color fuel x m = .ok m2 ∧ m2.root ≠ none := by
  obtain ⟨m2, t2, e, s2, hin, -⟩ :=
    insert_color_ok fuel fs l r x m n hs hf hctx hl hr l3 r3 l4 r4 lc rc
  refine ⟨m2, e, ?_⟩
  rw [s2.1]
  intro h
  rw [ptr_eq_none] at h
  rw [h, inorder_plug] at hin
  simp [Tree.inorder] at hin

theorem demo_inv_dup : RBInv dup_key demo_tree := by
  simp [RBInv, BST, NoRedRed, BlackUniform, demo_tree, Tree.inorder, Tree.bh, dup_key]

theorem asc_reachable : Reachable (rb_compare demo_key) demo_key asc_mem := by
  obtain ⟨m2, e, hr⟩ := reachable_insert_all (rb_compare_consistent demo_key) 8
    [1, 2, 3, 4, 5, 6, 7] demo_empty .nil (Reachable.empty demo_empty rfl) (shape_nil rfl)
    (rbinv_nil demo_key) (by simp [Tree.inorder]) (by decide) (by decide)
  have e2 : insert_all 8 (rb_compare demo_key) demo_key [1, 2, 3, 4, 5, 6, 7] demo_empty =
      .ok asc_mem := rfl
  rw [e2] at e
  simp only [Except.ok.injEq] at e
  rw [e]
  exact hr

theorem tpl_demo_shape : Shape tpl_demo.mem (.node .nil 1 RB_BLACK .nil) := by decide

theorem tpl_demo_inv : RBInv (tpl_key tpl_demo.id) (.node .nil 1 RB_BLACK .nil) := by
  simp [RBInv, BST, NoRedRed, BlackUniform, Tree.inorder, Tree.bh]

/-- C11: under a consistent comparator, every memory reached from an empty root by calls of
`rb_insert` and `rb_delete` holds a tree whose height `h` (the number of nodes on the longest
path from the root to a leaf position) and number of nodes `N` satisfy `2^h ≤ (N+1)^2`, that
is `h ≤ 2 * log2 (N+1)`. -/
theorem height_at_most_twice_log {K : Type} [LinearOrder K] (compare : Nat → K → Int)
    (keyOf : Nat → K) (hc : Consistent compare keyOf) (m : Mem)
    (hr : Reachable compare keyOf m) :
    ∃ t, Shape m t ∧ 2 ^ t.height ≤ (t.inorder.length + 1) ^ 2 ∧
      (t.height : ℝ) ≤ 2 * Real.logb 2 ((t.inorder.length : ℝ) + 1) := by
  obtain ⟨t, hs, -, h3, h4, h5⟩ := reachable_valid hc hr
  have hb := height_bound h3 h4 h5
  exact ⟨t, hs, hb, height_bound_log hb⟩

/-- Witness of C11: the memory after the insertion of the keys 1, ..., 7 in ascending
order. -/
theorem height_at_most_twice_log_witness :
    Consistent (rb_compare demo_key) demo_key ∧ Reachable (rb_compare demo_key) demo_key asc_mem ∧
      ∃ t, Shape asc_mem t ∧ 2 ^ t.height ≤ (t.inorder.length + 1) ^ 2 ∧
        (t.height : ℝ) ≤ 2 * Real.logb 2 ((t.inorder.length : ℝ) + 1) :=
  ⟨rb_compare_consistent demo_key, asc_reachable,
    height_at_most_twice_log (rb_compare demo_key) demo_key (rb_compare_consistent demo_key)
      asc_mem asc_reachable⟩

/-- C12: for every valid tree, every node `victim` linked in it and every node `new` that is
not in the tree and carries the same key: after `rb_replace_node` the memory holds the tree
with `new` at the place of `victim` (same path from the root, same colour, same subtrees), the
in-order sequence is the old one with `victim` exchanged for `new`, invariants (1)-(5) hold,
the record of `new` is the old record of `victim`, the children of `victim` have `new` as
parent, and every record other than `new`, the parent and the two children is unchanged. -/
theorem rb_replace_node_keeps_place {K : Type} [LinearOrder K] (keyOf : Nat → K) (m : Mem)
    (t : Tree) (hs : Shape m t) (hinv : RBInv keyOf t) (victim new : Nat)
    (hv : victim ∈ t.inorder) (hn : new ∉ t.inorder) (hk : keyOf new = keyOf victim) :
    ∃ fs l c r, t = plug fs (.node l victim c r) ∧
      Shape (rb_replace_node victim new m) (plug fs (.node l new c r)) ∧
      RBInv keyOf (plug fs (.node l new c r)) ∧
      (∃ pre suf, t.inorder = pre ++ victim :: suf ∧
        (plug fs (.node l new c r)).inorder = pre ++ new :: suf) ∧
      (rb_replace_node victim new m).heap new = m.heap victim ∧
      (∀ ch, l.ptr = some ch ∨ r.ptr = some ch →
        rb_parent (rb_replace_node victim new m) ch = some new) ∧
      (∀ z, z ≠ new → ctxParent fs ≠ some z → l.ptr ≠ some z → r.ptr ≠ some z →
        (rb_replace_node victim new m).heap z = m.heap z) := by
  obtain ⟨fs, l, c, r, e⟩ := exists_focus t victim hv
  subst e
  have s2 := replace_shape fs hs hn
  refine ⟨fs, l, c, r, rfl, s2, replace_inv fs hinv hk, ?_, ?_, ?_, ?_⟩
  · exact ⟨ctxBefore fs ++ l.inorder, r.inorder ++ ctxAfter fs,
      by simp [inorder_plug, Tree.inorder], by simp [inorder_plug, Tree.inorder]⟩
  · rw [heap_focus fs s2, heap_focus fs hs]
  · exact fun ch h => child_parent fs s2 ch h
  · exact fun z h1 h2 h3 h4 => replace_frame fs hs z h1 h2 h3 h4

/-- Witness of C12: in the demo tree, node 8 is replaced by node 18, which has the same key
under `dup_key`. -/
theorem rb_replace_node_keeps_place_witness :
    Shape demo_mem demo_tree ∧ RBInv dup_key demo_tree ∧ 8 ∈ demo_tree.inorder ∧
      18 ∉ demo_tree.inorder ∧ dup_key 18 = dup_key 8 ∧
      ∃ fs l c r, demo_tree = plug fs (.node l 8 c r) ∧
        Shape (rb_replace_node 8 18 demo_mem) (plug fs (.node l 18 c r)) ∧
        RBInv dup_key (plug fs (.node l 18 c r)) ∧
        (∃ pre suf, demo_tree.inorder = pre ++ 8 :: suf ∧
          (plug fs (.node l 18 c r)).inorder = pre ++ 18 :: suf) ∧
        (rb_replace_node 8 18 demo_mem).heap 18 = demo_mem.heap 8 ∧
        (∀ ch, l.ptr = some ch ∨ r.ptr = some ch →
          rb_parent (rb_replace_node 8 18 demo_mem) ch = some 18) ∧
        (∀ z, z ≠ 18 → ctxParent fs ≠ some z → l.ptr ≠ some z → r.ptr ≠ some z →
          (rb_replace_node 8 18 demo_mem).heap z = demo_mem.heap z) :=
  ⟨demo_shape, demo_inv_dup, by decide, by decide, by decide,
    rb_replace_node_keeps_place dup_key demo_mem demo_tree demo_shape demo_inv_dup 8 18
      (by decide) (by decide) (by decide)⟩

/-- C13: for every memory, node and fuel: when the parent reference of the node points to the
node itself, `rb_next` and `rb_prev` return `NULL`, whatever the other fields and records
hold; `rb_init_node` and `RB_CLEAR_NODE` leave the node in that state; and for a node linked
in a tree the parent reference is not the node itself, and `rb_next` and `rb_prev` return
its neighbours in the in-order sequence. -/
theorem unlinked_node_has_no_neighbour (m : Mem) (node fuel : Nat) :
    (rb_parent m node = some node →
      rb_next fuel m node = .ok none ∧ rb_prev fuel m node = .ok none) ∧
    rb_parent (rb_init_node node m) node = some node ∧
    rb_parent (rb_set_parent node (some node) m) node = some node ∧
    (∀ t pre suf, Shape m t → t.height < fuel → t.inorder = pre ++ node :: suf →
      rb_parent m node ≠ some node ∧ rb_next fuel m node = .ok suf.head? ∧
      rb_prev fuel m node = .ok pre.getLast?) := by
  refine ⟨?_, ?_, ?_, ?_⟩
  · intro h
    simp [rb_next, rb_prev, h]
  · simp [rb_init_node, rb_set_parent, rb_parent]
  · simp [rb_set_parent, rb_parent]
  · intro t pre suf hs hf e
    obtain ⟨fs, l, c, r, e2⟩ := exists_focus t node (by rw [e]; simp)
    subst e2
    exact ⟨parent_ne_self fs hs, next_of_split hs fuel hf e, prev_of_split hs fuel hf e⟩

/-- Witness of C13: node 20, initialised beside the demo tree, with no fuel at all. -/
theorem unlinked_node_has_no_neighbour_witness :
    rb_parent (rb_init_node 20 demo_mem) 20 = some 20 ∧
      rb_next 0 (rb_init_node 20 demo_mem) 20 = .ok none ∧
      rb_prev 0 (rb_init_node 20 demo_mem) 20 = .ok none :=
  ⟨(unlinked_node_has_no_neighbour demo_mem 20 0).2.1,
    (unlinked_node_has_no_neighbour (rb_init_node 20 demo_mem) 20 0).1
      (unlinked_node_has_no_neighbour demo_mem 20 0).2.1⟩

/-- Counterexample to C14: on a `NULL` root `rb_insert` returns -1, and on the demo tree it
returns -1 as well for node 15 offered under the key 5, which node 5 already has: the two
values do not differ. -/
theorem rb_insert_null_root_same_value_as_duplicate :
    Except.map Prod.fst (rb_insert 8 none (some 15) (5 : Int) (rb_compare dup_key)) = .ok (-1) ∧
    Except.map Prod.fst (rb_insert 8 (some demo_mem) (some 15) (5 : Int) (rb_compare dup_key)) =
      .ok (-1) ∧
    (∃ x ∈ demo_tree.inorder, dup_key x = 5) ∧
    ¬ (Except.map Prod.fst (rb_insert 8 none (some 15) (5 : Int) (rb_compare dup_key)) ≠
      Except.map Prod.fst
        (rb_insert 8 (some demo_mem) (some 15) (5 : Int) (rb_compare dup_key))) :=
  ⟨rfl, rfl, ⟨5, by decide, by decide⟩, fun h => h rfl⟩

/-- C14, amended: `rb_insert` returns -1 and no memory on a `NULL` root, and -1 and the same
memory on a `NULL` node, in both cases before any write; -1 differs from the success value 0,
which is what an absent key gives; and -1 is also the value returned for a key that is
already present. -/
theorem rb_insert_rejects_null {K : Type} [LinearOrder K] (compare : Nat → K → Int)
    (keyOf : Nat → K) (hc : Consistent compare keyOf) (m : Mem) (t : Tree) (hs : Shape m t)
    (hinv : RBInv keyOf t) (node : Nat) (hn : node ∉ t.inorder) (key : K) (fuel : Nat)
    (hf : t.height < fuel) :
    (∀ n : Option Nat, rb_insert fuel none n key compare = .ok (-1, none)) ∧
    rb_insert fuel (some m) none key compare = .ok (-1, some m) ∧
    (-1 : Int) ≠ 0 ∧
    ((∃ x ∈ t.inorder, keyOf x = key) →
      rb_insert fuel (some m) (some node) key compare = .ok (-1, some m)) ∧
    ((∀ x ∈ t.inorder, keyOf x ≠ key) →
      ∃ m2, rb_insert fuel (some m) (some node) key compare = .ok (0, some m2)) := by
  obtain ⟨hb, h3, h4, h5⟩ := hinv
  refine ⟨fun n => by simp [rb_insert], by simp [rb_insert], by decide, ?_, ?_⟩
  · intro hdup
    rcases rb_insert_spec hc hs hb h3 h4 h5 hn key fuel hf with ⟨-, e⟩ | ⟨hab, -⟩
    · exact e
    · obtain ⟨x, hx, hxk⟩ := hdup
      exact absurd hxk (hab x hx)
  · intro hab
    rcases rb_insert_spec hc hs hb h3 h4 h5 hn key fuel hf with ⟨⟨x, hx, hxk⟩, -⟩ | ⟨-, m2, t2, l1, l2, e, -⟩
    · exact absurd hxk (hab x hx)
    · exact ⟨m2, e⟩

/-- Witness of C14: node 15 and key 5 on the demo tree. -/
theorem rb_insert_rejects_null_witness :
    Consistent (rb_compare dup_key) dup_key ∧ Shape demo_mem demo_tree ∧
      RBInv dup_key demo_tree ∧ 15 ∉ demo_tree.inorder ∧ demo_tree.height < 8 ∧
      ((∀ n : Option Nat, rb_insert 8 none n (5 : Int) (rb_compare dup_key) = .ok (-1, none)) ∧
      rb_insert 8 (some demo_mem) none (5 : Int) (rb_compare dup_key) = .ok (-1, some demo_mem) ∧
      (-1 : Int) ≠ 0 ∧
      ((∃ x ∈ demo_tree.inorder, dup_key x = 5) →
        rb_insert 8 (some demo_mem) (some 15) (5 : Int) (rb_compare dup_key) =
          .ok (-1, some demo_mem)) ∧
      ((∀ x ∈ demo_tree.inorder, dup_key x ≠ 5) →
        ∃ m2, rb_insert 8 (some demo_mem) (some 15) (5 : Int) (rb_compare dup_key) =
          .ok (0, some m2))) :=
  ⟨rb_compare_consistent dup_key, demo_shape, demo_inv_dup, by decide, by decide,
    rb_insert_rejects_null (rb_compare dup_key) dup_key (rb_compare_consistent dup_key)
      demo_mem demo_tree demo_shape demo_inv_dup 15 (by decide) 5 8 (by decide)⟩

/-- C15: for every state of the managed-record layer that holds a red-black tree sorted by
descending id, and every id: if a record has the id, `rule_tpl_create` returns `NULL` and the
same state; if no record has it, the size asked for is at least `sizeof(struct rule_tpl)`
(the header of rbtree.h requires it) and the allocator returns a block that is not in the
tree, it returns that block, whose `id` is the given id and whose bytes behind
`struct rule_tpl` are zero, the new state holds a tree of the same kind (in particular with
the colour and black-height invariants) made of the old nodes and the new one,
`rule_tpl_search` for the id returns the new record, and the id of every old record is
unchanged and still found. -/
theorem rule_tpl_create_correct (s : TplMem) (t : Tree) (hs : Shape s.mem t)
    (hinv : RBInv (tpl_key s.id) t) (id size fuel : Nat) (hf : t.inorder.length + 1 < fuel) :
    ((∃ x ∈ t.inorder, s.id x = id) →
      ∀ alloc, rule_tpl_create fuel (some s) id size alloc = .ok (none, some s)) ∧
    ((∀ x ∈ t.inorder, s.id x ≠ id) → rule_tpl_size ≤ size → ∀ a, a ∉ t.inorder →
      ∃ s2 t2, rule_tpl_create fuel (some s) id size (some a) = .ok (some a, some s2) ∧
        s2.id a = id ∧ s2.payload a = List.replicate (size - rule_tpl_size) 0 ∧
        Shape s2.mem t2 ∧ NoRedRed t2 ∧ BlackUniform t2 ∧ t2.color = RB_BLACK ∧ TplValid s2 ∧
        (∀ z, z ∈ t2.inorder ↔ z = a ∨ z ∈ t.inorder) ∧
        rule_tpl_search fuel (some s2) id = .ok (some a) ∧
        ∀ x ∈ t.inorder, s2.id x = s.id x ∧
          rule_tpl_search fuel (some s2) (s.id x) = .ok (some x)) := by
  have hh : t.height < fuel := lt_of_le_of_lt (height_le_size t) (by omega)
  constructor
  · intro hdup alloc
    exact tpl_create_dup hs hinv hdup size alloc fuel hh
  · intro habs hsz a ha
    obtain ⟨m2, t2, l1, l2, e, s2, i2, j1, j2⟩ := tpl_create_ok hs hinv habs hsz ha fuel hh
    have hh2 : t2.height < fuel := by
      refine lt_of_le_of_lt (height_le_size t2) ?_
      rw [j1] at hf
      rw [j2]
      simp only [List.length_append, List.length_cons] at hf ⊢
      omega
    have hmem : ∀ z, z ∈ t2.inorder ↔ z = a ∨ z ∈ t.inorder := by
      intro z
      rw [j1, j2]
      simp only [List.mem_append, List.mem_cons]
      tauto
    refine ⟨_, t2, e, by simp, by simp, s2, i2.2.1, i2.2.2.1, i2.2.2.2, ⟨t2, s2, i2⟩, hmem,
      ?_, ?_⟩
    · have h := @tpl_search_found ⟨m2, Function.update s.id a id,
        Function.update s.payload a (List.replicate (size - rule_tpl_size) 0)⟩ t2 s2 i2.1 a
        ((hmem a).2 (Or.inl rfl)) fuel hh2
      simpa using h
    · intro x hx
      have hxa : x ≠ a := fun h => ha (h ▸ hx)
      have h := @tpl_search_found ⟨m2, Function.update s.id a id,
        Function.update s.payload a (List.replicate (size - rule_tpl_size) 0)⟩ t2 s2 i2.1 x
        ((hmem x).2 (Or.inr hx)) fuel hh2
      simp only [Function.update_noteq hxa] at h
      exact ⟨by simp [Function.update_noteq hxa], h⟩

/-- Witness of C15: id 7 is created with 40 bytes in the state that holds the record with
id 5. -/
theorem rule_tpl_create_correct_witness :
    Shape tpl_demo.mem (.node .nil 1 RB_BLACK .nil) ∧
      RBInv (tpl_key tpl_demo.id) (.node .nil 1 RB_BLACK .nil) ∧
      (Tree.node .nil 1 RB_BLACK .nil).inorder.length + 1 < 8 ∧ rule_tpl_size ≤ 40 ∧
      ∃ s2 t2, rule_tpl_create 8 (some tpl_demo) 7 40 (some 2) = .ok (some 2, some s2) ∧
        s2.id 2 = 7 ∧ s2.payload 2 = List.replicate (40 - rule_tpl_size) 0 ∧
        Shape s2.mem t2 ∧ NoRedRed t2 ∧ BlackUniform t2 ∧ t2.color = RB_BLACK ∧ TplValid s2 ∧
        (∀ z, z ∈ t2.inorder ↔ z = 2 ∨ z ∈ (Tree.node .nil 1 RB_BLACK .nil).inorder) ∧
        rule_tpl_search 8 (some s2) 7 = .ok (some 2) ∧
        ∀ x ∈ (Tree.node .nil 1 RB_BLACK .nil).inorder, s2.id x = tpl_demo.id x ∧
          rule_tpl_search 8 (some s2) (tpl_demo.id x) = .ok (some x) :=
  ⟨tpl_demo_shape, tpl_demo_inv, by decide, by decide,
    (rule_tpl_create_correct tpl_demo (.node .nil 1 RB_BLACK .nil) tpl_demo_shape tpl_demo_inv
      7 40 8 (by decide)).2 (by decide) (by decide) 2 (by decide)⟩

/-- Counterexample to C16: in the state that holds the record with id 5, `rule_tpl_create`
returns `NULL` for id 5 (already present, the allocator would return block 2) and `NULL` for
id 6 when the allocator fails: the two results do not differ. -/
theorem rule_tpl_create_failures_not_distinct :
    Except.map Prod.fst (rule_tpl_create 8 (some tpl_demo) 5 40 (some 2)) = .ok none ∧
    Except.map Prod.fst (rule_tpl_create 8 (some tpl_demo) 6 40 none) = .ok none ∧
    tpl_demo.id 1 = 5 ∧ tpl_demo.mem.root = some 1 ∧
    ¬ (Except.map Prod.fst (rule_tpl_create 8 (some tpl_demo) 6 40 none) ≠
      Except.map Prod.fst (rule_tpl_create 8 (some tpl_demo) 5 40 (some 2))) :=
  ⟨rfl, rfl, rfl, rfl, fun h => h rfl⟩

/-- C16, amended: for every state that holds a red-black tree sorted by descending id,
`rule_tpl_create` returns `NULL` and the unchanged state when the allocator fails, and it
returns the same, `NULL` and the unchanged state, when the id is already present; so no node
is linked in either case and the result does not tell the two failures apart. -/
theorem rule_tpl_create_failure_results (s : TplMem) (t : Tree) (hs : Shape s.mem t)
    (hinv : RBInv (tpl_key s.id) t) (size fuel : Nat) (hf : t.height < fuel) :
    (∀ id, rule_tpl_create fuel (some s) id size none = .ok (none, some s)) ∧
    (∀ id alloc, (∃ x ∈ t.inorder, s.id x = id) →
      rule_tpl_create fuel (some s) id size alloc = .ok (none, some s)) :=
  ⟨fun id => tpl_create_nomem hs hinv id size fuel hf,
    fun _ alloc hdup => tpl_create_dup hs hinv hdup size alloc fuel hf⟩

/-- Witness of C16: the state that holds the record with id 5. -/
theorem rule_tpl_create_failure_results_witness :
    Shape tpl_demo.mem (.node .nil 1 RB_BLACK .nil) ∧
      RBInv (tpl_key tpl_demo.id) (.node .nil 1 RB_BLACK .nil) ∧
      (Tree.node .nil 1 RB_BLACK .nil).height < 8 ∧
      ((∀ id, rule_tpl_create 8 (some tpl_demo) id 40 none = .ok (none, some tpl_demo)) ∧
      (∀ id alloc, (∃ x ∈ (Tree.node .nil 1 RB_BLACK .nil).inorder, tpl_demo.id x = id) →
        rule_tpl_create 8 (some tpl_demo) id 40 alloc = .ok (none, some tpl_demo))) :=
  ⟨tpl_demo_shape, tpl_demo_inv, by decide,
    rule_tpl_create_failure_results tpl_demo (.node .nil 1 RB_BLACK .nil) tpl_demo_shape
      tpl_demo_inv 40 8 (by decide)⟩

/-- C17: for every memory holding a tree and every node `x` with a right child `y`,
`__rb_rotate_left` at `x` returns; afterwards `y` stands in the slot that held `x` (the root
slot when `x` was the root), `x` is the left child of `y`, the former left subtree of `y` is
the right subtree of `x`, all parent references fit the new tree, the in-order sequence is
the same, no node has changed its colour, and `__rb_rotate_right` at `y` gives back the
original memory. The same holds with left and right exchanged. -/
theorem rotations_keep_order_and_colours (m : Mem) (fs : List Frame) (a b c : Tree) (x y : Nat)
    (cx cy : Color) :
    (Shape m (plug fs (.node a x cx (.node b y cy c))) →
      ∃ m2, __rb_rotate_left x m = .ok m2 ∧
        Shape m2 (plug fs (.node (.node a x cx b) y cy c)) ∧
        (plug fs (.node (.node a x cx b) y cy c)).inorder =
          (plug fs (.node a x cx (.node b y cy c))).inorder ∧
        (∀ z, rb_color m2 z = rb_color m z) ∧ __rb_rotate_right y m2 = .ok m) ∧
    (Shape m (plug fs (.node (.node a x cx b) y cy c)) →
      ∃ m2, __rb_rotate_right y m = .ok m2 ∧
        Shape m2 (plug fs (.node a x cx (.node b y cy c))) ∧
        (plug fs (.node a x cx (.node b y cy c))).inorder =
          (plug fs (.node (.node a x cx b) y cy c)).inorder ∧
        (∀ z, rb_color m2 z = rb_color m z) ∧ __rb_rotate_left x m2 = .ok m) := by
  constructor
  · intro hs
    obtain ⟨m2, e2, s2⟩ := rotate_left_shape fs hs
    obtain ⟨m3, e3, back⟩ := rotate_left_right fs hs
    rw [e2] at e3
    simp only [Except.ok.injEq] at e3
    subst e3
    exact ⟨m2, e2, s2, by simp [inorder_plug, Tree.inorder], fun z => rotate_left_color e2 z,
      back⟩
  · intro hs
    obtain ⟨m2, e2, s2⟩ := rotate_right_shape fs hs
    obtain ⟨m3, e3, back⟩ := rotate_right_left fs hs
    rw [e2] at e3
    simp only [Except.ok.injEq] at e3
    subst e3
    exact ⟨m2, e2, s2, by simp [inorder_plug, Tree.inorder], fun z => rotate_right_color e2 z,
      back⟩

/-- Witness of C17: a left rotation at the root 5 of the demo tree, whose right child
is 8. -/
theorem rotations_keep_order_and_colours_witness :
    ∃ m2, __rb_rotate_left 5 demo_mem = .ok m2 ∧
      Shape m2 (.node (.node (.node (.node .nil 1 RB_RED .nil) 3 RB_BLACK
        (.node .nil 4 RB_RED .nil)) 5 RB_BLACK (.node .nil 7 RB_RED .nil)) 8 RB_BLACK
        (.node .nil 9 RB_RED .nil)) ∧
      (∀ z, rb_color m2 z = rb_color demo_mem z) ∧ __rb_rotate_right 8 m2 = .ok demo_mem := by
  obtain ⟨m2, e, s, -, hc, back⟩ := (rotations_keep_order_and_colours demo_mem []
    (.node (.node .nil 1 RB_RED .nil) 3 RB_BLACK (.node .nil 4 RB_RED .nil))
    (.node .nil 7 RB_RED .nil) (.node .nil 9 RB_RED .nil) 5 8 RB_BLACK RB_BLACK).1 demo_shape
  exact ⟨m2, e, s, hc, back⟩

/-- C18: for every memory holding a tree and every node `x` of it, `rb_erase` run with fuel
above the height behaves as follows. If `x` has no left child (or no right child) and is
red, the result is the tree with `x` exchanged for its other subtree, nothing recoloured;
if `x` is black and that subtree has a red root, the result is the same with that root
painted black. If `x` has two children, let `s` be the leftmost node of its right subtree:
if `s` is red, the result is the tree with `s` at the place and with the colour of `x`, and
the right subtree of `s` at the former place of `s`, nothing recoloured; if `s` is black and
its right subtree has a red root, the result is the same with that root painted black. In
all these cases every other node keeps its place and colour: there is no rotation. -/
theorem rb_erase_simple_cases (m : Mem) (fs : List Frame) (l r : Tree) (x : Nat) (c : Color)
    (fuel : Nat) (hs : Shape m (plug fs (.node l x c r)))
    (hf : (plug fs (.node l x c r)).height < fuel) :
    (l = .nil →
      (c = RB_RED → ∃ m2, rb_erase fuel x m = .ok m2 ∧ Shape m2 (plug fs r)) ∧
      (c = RB_BLACK → r.color = RB_RED →
        ∃ m2, rb_erase fuel x m = .ok m2 ∧ Shape m2 (plug fs r.blacken))) ∧
    (r = .nil →
      (c = RB_RED → ∃ m2, rb_erase fuel x m = .ok m2 ∧ Shape m2 (plug fs l)) ∧
      (c = RB_BLACK → l.color = RB_RED →
        ∃ m2, rb_erase fuel x m = .ok m2 ∧ Shape m2 (plug fs l.blacken))) ∧
    (l ≠ .nil → r ≠ .nil →
      ∃ rs s sc sr, AllLeft rs ∧ r = plug rs (.node .nil s sc sr) ∧
        (sc = RB_RED →
          ∃ m2, rb_erase fuel x m = .ok m2 ∧ Shape m2 (plug fs (.node l s c (plug rs sr)))) ∧
        (sc = RB_BLACK → sr.color = RB_RED →
          ∃ m2, rb_erase fuel x m = .ok m2 ∧
            Shape m2 (plug fs (.node l s c (plug rs sr.blacken))))) :=
  erase_no_rotation fs hs fuel hf

/-- Witness of C18: the red leaf 1 of the demo tree is erased; the other six nodes keep
their places and colours. -/
theorem rb_erase_simple_cases_witness :
    ∃ m2, rb_erase 8 1 demo_mem = .ok m2 ∧
      Shape m2 (.node (.node .nil 3 RB_BLACK (.node .nil 4 RB_RED .nil)) 5 RB_BLACK
        (.node (.node .nil 7 RB_RED .nil) 8 RB_BLACK (.node .nil 9 RB_RED .nil))) :=
  ((rb_erase_simple_cases demo_mem
    [.left 3 RB_BLACK (.node .nil 4 RB_RED .nil),
      .left 5 RB_BLACK (.node (.node .nil 7 RB_RED .nil) 8 RB_BLACK (.node .nil 9 RB_RED .nil))]
    .nil .nil 1 RB_RED 8 demo_shape (by decide)).1 rfl).1 rfl

/-- C19: for every valid tree and every node linked in it, `rb_erase` run with fuel above
the height returns a memory: no `NULL` pointer is dereferenced, neither in `rb_erase` nor in
`__rb_erase_color`. When the node is the only one of the tree, the fix-up is entered with
`node`, `parent` and the root all `NULL` and returns without a turn of the loop. In every
state in which the fix-up can be entered (a subtree one black node short in a path that
satisfies the colour and black-height conditions), it returns a memory, and when its loop
test holds the parent and the sibling are not `NULL`. -/
theorem rb_erase_never_reads_null {K : Type} [LinearOrder K] (keyOf : Nat → K) (m : Mem)
    (t : Tree) (hs : Shape m t) (hinv : RBInv keyOf t) (node : Nat) (hn : node ∈ t.inorder)
    (fuel : Nat) (hf : t.height < fuel) :
    (∃ m2, rb_erase fuel node m = .ok m2) ∧
    rb_erase fuel node m ≠ .error .null_deref ∧
    (∀ c, t = .node .nil node c .nil →
      ∃ m1, m1.root = none ∧ rb_erase fuel node m = __rb_erase_color fuel none none m1 ∧
        __rb_erase_color fuel none none m1 = .ok m1) ∧
    (∀ (gs : List Frame) (sub : Tree) (m1 : Mem) (n : Nat), Shape m1 (plug gs sub) →
      gs.length < fuel → CtxInv gs (n + 1) → sub.bh = n → NoRedRed sub.blacken →
      BlackUniform sub →
      (∃ m2, __rb_erase_color fuel sub.ptr (ctxParent gs) m1 = .ok m2) ∧
      (sub.ptr ≠ m1.root →
        ∃ f rest, gs = f :: rest ∧ ctxParent gs = some f.addr ∧ f.sib ≠ .nil)) := by
  obtain ⟨m2, t2, l1, l2, e, -⟩ := rb_erase_full keyOf hs hinv hn fuel hf
  obtain ⟨k, rfl⟩ : ∃ k, fuel = k + 1 := ⟨fuel - 1, by omega⟩
  refine ⟨⟨m2, e⟩, by rw [e]; simp, ?_, ?_⟩
  · intro c ht
    subst ht
    have hc : c = RB_BLACK := hinv.2.2.2
    subst hc
    exact erase_single hs k
  · intro gs sub m1 n s1 hlen hctx hbh h3 h4
    obtain ⟨m3, t3, e3, -⟩ := erase_color_ok (k + 1) gs sub m1 n s1 hlen hctx hbh h3 h4
    exact ⟨⟨m3, e3⟩, fun hne => erase_loop_parent s1 hctx hne⟩

/-- Witness of C19: the black node 3 of the demo tree, which has two children, is
erased. -/
theorem rb_erase_never_reads_null_witness :
    Shape demo_mem demo_tree ∧ RBInv demo_key demo_tree ∧ 3 ∈ demo_tree.inorder ∧
      demo_tree.height < 8 ∧ (∃ m2, rb_erase 8 3 demo_mem = .ok m2) ∧
      rb_erase 8 3 demo_mem ≠ .error .null_deref :=
  ⟨demo_shape, demo_inv, by decide, by decide,
    (rb_erase_never_reads_null demo_key demo_mem demo_tree demo_shape demo_inv 3 (by decide) 8
      (by decide)).1,
    (rb_erase_never_reads_null demo_key demo_mem demo_tree demo_shape demo_inv 3 (by decide) 8
      (by decide)).2.1⟩

/-- C20: for every memory holding a tree with the colour and black-height invariants and a
black root, every leaf position of it and every node that is not in the tree:
`rb_insert_color`, run after `rb_link_node` has linked the node at that position and with
fuel above the depth of the position, returns a memory whose root is not `NULL`: no `NULL`
pointer is dereferenced. In every state the loop can meet (a red node with black-rooted
subtrees in a path that satisfies the colour and black-height conditions) it returns in the
same way, and whenever the parent of that node is red, the parent has a parent. -/
theorem rb_insert_color_never_reads_null (m : Mem) (fs : List Frame) (x fuel : Nat)
    (hs : Shape m (plug fs .nil)) (h3 : NoRedRed (plug fs .nil))
    (h4 : BlackUniform (plug fs .nil)) (h5 : (plug fs .nil).color = RB_BLACK)
    (hx : x ∉ (plug fs .nil).inorder) (hf : fs.length < fuel) :
    (∃ m2, rb_insert_color fuel x (rb_link_node x (ctxParent fs) (ctxSide fs) m) = .ok m2 ∧
      m2.root ≠ none) ∧
    (∀ (gs : List Frame) (l r : Tree) (y : Nat) (m1 : Mem) (n : Nat),
      Shape m1 (plug gs (.node l y RB_RED r)) → gs.length < fuel → CtxInv gs n →
      l.bh = n → r.bh = n → NoRedRed l → NoRedRed r → BlackUniform l → BlackUniform r →
      l.color = RB_BLACK → r.color = RB_BLACK →
      (∃ m2, rb_insert_color fuel y m1 = .ok m2 ∧ m2.root ≠ none) ∧
      (∀ p, rb_parent m1 y = some p → rb_is_red m1 p = true → ∃ g, rb_parent m1 p = some g)) := by
  constructor
  · have hsl := link_shape fs hs hx
    have hsplit := @ctx_split fs .nil h3 h4 h5
    exact insert_color_total fuel fs .nil .nil x _ 0 hsl hf hsplit.1 rfl rfl trivial trivial
      trivial trivial rfl rfl
  · intro gs l r y m1 n s1 hlen hctx hl hr l3 r3 l4 r4 lc rc
    exact ⟨insert_color_total fuel gs l r y m1 n s1 hlen hctx hl hr l3 r3 l4 r4 lc rc,
      fun p hp hred => grandparent_exists s1 hctx p hp hred⟩

/-- Witness of C20: node 6 is linked below the red node 7 of the demo tree. -/
theorem rb_insert_color_never_reads_null_witness :
    ∃ m2, rb_insert_color 8 6 (rb_link_node 6 (some 7) true demo_mem) = .ok m2 ∧
      m2.root ≠ none :=
  (rb_insert_color_never_reads_null demo_mem
    [.left 7 RB_RED .nil, .left 8 RB_BLACK (.node .nil 9 RB_RED .nil),
      .right (.node (.node .nil 1 RB_RED .nil) 3 RB_BLACK (.node .nil 4 RB_RED .nil)) 5 RB_BLACK]
    6 8 demo_shape demo_inv.2.1 demo_inv.2.2.1 demo_inv.2.2.2 (by decide) (by decide)).1

/-! ## Rotation counts -/

@[simp] theorem map_fst_ok {α β : Type} (a : α) (b : β) :
    Except.map Prod.fst (Except.ok (a, b) : Except Fault (α × β)) = .ok a := rfl

@[simp] theorem map_fst_error {α β : Type} (e : Fault) :
    Except.map Prod.fst (Except.error e : Except Fault (α × β)) = .error e := rfl

theorem map_fst_bind {α β γ : Type} (x : Except Fault γ) (f : γ → Except Fault (α × β)) :
    Except.map Prod.fst (x >>= f) = x >>= fun a => Except.map Prod.fst (f a) := by
  cases x <;> rfl

theorem insert_color_rot_mem : ∀ (fuel node : Nat) (m : Mem) (cnt : Nat),
    Except.map Prod.fst (rb_insert_color_rot fuel node m cnt) = rb_insert_color fuel node m := by
  intro fuel
  induction fuel with
  | zero => intro node m cnt; rfl
  | succ fuel ih =>
    intro node m cnt
    simp only [rb_insert_color_rot, rb_insert_color]
    cases hf : Option.filter (fun p => rb_is_red m p) (rb_parent m node) with
    | none => cases hr : deref m.root <;> simp [hr]
    | some parent =>
      cases hg : deref (rb_parent m parent) with
      | error e => simp [hg]
      | ok g =>
        simp only [hg, bind_ok]
        split_ifs
        · cases hu : Option.filter (fun u => rb_is_red m u) (m.heap g).rb_right <;>
            simp [hu, ih, map_fst_bind]
        · cases hu : Option.filter (fun u => rb_is_red m u) (m.heap g).rb_right <;>
            simp [hu, ih, map_fst_bind]
        · cases hu : Option.filter (fun u => rb_is_red m u) (m.heap g).rb_left <;>
            simp [hu, ih, map_fst_bind]
        · cases hu : Option.filter (fun u => rb_is_red m u) (m.heap g).rb_left <;>
            simp [hu, ih, map_fst_bind]
theorem ite_bind_ex {α β : Type} (c : Prop) [Decidable c] (a b : Except Fault α)
    (f : α → Except Fault β) : ((if c then a else b) >>= f) = if c then a >>= f else b >>= f := by
  split_ifs <;> rfl

theorem map_fst_ite {α β : Type} (c : Prop) [Decidable c] (a b : Except Fault (α × β)) :
    Except.map Prod.fst (if c then a else b) =
      if c then Except.map Prod.fst a else Except.map Prod.fst b := by
  split_ifs <;> rfl

theorem erase_color_rot_mem : ∀ (fuel : Nat) (node parent : Option Nat) (m : Mem) (cnt : Nat),
    Except.map Prod.fst (__rb_erase_color_rot fuel node parent m cnt) =
      __rb_erase_color fuel node parent m := by
  intro fuel
  induction fuel with
  | zero => intro node parent m cnt; rfl
  | succ fuel ih =>
    intro node parent m cnt
    simp only [__rb_erase_color_rot, __rb_erase_color]
    simp [map_fst_bind, map_fst_ite, ite_bind_ex, ih]

theorem insert_color_rot_ok (fuel : Nat) : ∀ (fs : List Frame) (l r : Tree) (x : Nat) (m : Mem) (n : Nat)
    (cnt : Nat),
    Shape m (plug fs (.node l x RB_RED r)) → fs.length < fuel → CtxInv fs n →
    l.bh = n → r.bh = n → NoRedRed l → NoRedRed r → BlackUniform l → BlackUniform r →
    l.color = RB_BLACK → r.color = RB_BLACK →
    ∃ m2 k, rb_insert_color_rot fuel x m cnt = .ok (m2, cnt + k) ∧ k ≤ 2 ∧
      ((∀ f ∈ fs.head?, f.color = RB_BLACK) → k = 0) := by
  induction fuel with
  | zero => intro fs l r x m n cnt _ hlen; simp at hlen
  | succ fuel ih =>
    intro fs l r x m n cnt hs hlen hctx hbl hbr h3l h3r h4l h4r hcl hcr
    have hx := heap_focus fs hs
    rcases fs with _ | ⟨f, fs1⟩
    · -- the node is the root
      have hroot := hs.1
      simp only [plug_nil, ptr_node, ctxParent_nil] at hroot hx
      refine ⟨rb_set_black x m, 0, ?_, by omega, fun _ => rfl⟩
      simp [rb_insert_color_rot, rb_parent, hx, hroot]
    · rcases color_cases f.color with hfc | hfc
      · -- the parent is red, so it has a black parent
        obtain ⟨s1, s2, s3, s4, s5⟩ := hctx
        obtain ⟨hsc, hnb⟩ := s4 hfc
        rcases fs1 with _ | ⟨g, fs2⟩
        · exact absurd trivial hnb
        · have hgc : g.color = RB_BLACK := by simpa using hnb
          rw [hfc] at s5
          obtain ⟨u1, u2, u3, -, u5⟩ := s5
          rw [hgc] at u5
          have hnd := hs.2.2
          simp only [List.length_cons] at hlen
          rcases f with ⟨p, pc, s⟩ | ⟨s, p, pc⟩ <;> rcases g with ⟨g, gc, u⟩ | ⟨u, g, gc⟩
          · simp only [fcolor_left, sib_left, addr_left, if_true, if_false, reduceCtorEq, add_zero] at *
            subst hfc hgc
            have hp := heap_focus (.left g RB_BLACK u :: fs2) hs
            have hg := heap_focus fs2 hs
            have hf := filter_red_focus (.right (.node (.node l x RB_RED r) p RB_RED s) g RB_BLACK :: fs2) hs
            simp only [ctxParent_cons, addr_left, fill_left, ptr_node] at hp hg
            have hpr : rb_is_red m p = true := by simp [rb_is_red, rb_color, hp]
            simp [inorder_plug, Tree.inorder, ctxBefore, ctxAfter, List.nodup_append, List.nodup_cons] at hnd
            rcases color_cases u.color with huc | huc
            · -- red uncle: recolour and continue from the grandparent
              rcases u with _ | ⟨ul, ua, uc, ur⟩
              · simp at huc
              · simp only [color_node] at huc
                subst huc
                have t1 := set_black_shape
                  (.right (.node (.node l x RB_RED r) p RB_RED s) g RB_BLACK :: fs2) hs
                have t2 := set_black_shape (.left g RB_BLACK (.node ul ua RB_BLACK ur) :: fs2) t1
                have t3 := set_red_shape fs2 t2
                simp only [Tree.bh, NoRedRed, BlackUniform, reduceCtorEq, if_false, add_zero,
                  color_node] at u1 u2 u3
                have hur : rb_is_red m ua = true := by
                  simp [rb_is_red, rb_color, heap_focus
                    (.right (.node (.node l x RB_RED r) p RB_RED s) g RB_BLACK :: fs2) hs]
                obtain ⟨m2, k, e, hk, -⟩ := ih fs2
                  (.node (.node l x RB_RED r) p RB_BLACK s) (.node ul ua RB_BLACK ur) g _ (n + 1) cnt t3
                  (by omega) u5
                  (by simp [Tree.bh, hbl]) (by simp [Tree.bh, u1])
                  (by simp [NoRedRed, *]) (by simp [NoRedRed, *])
                  (by simp [BlackUniform, Tree.bh, *]) (by simp [BlackUniform, Tree.bh, *]) rfl rfl
                refine ⟨m2, k, ?_, hk, ?_⟩
                · simpa [rb_insert_color_rot, rb_parent, hx, hp, hg, hur, hpr] using e
                · intro h; simp at h
            · -- black uncle, outer grandchild: rotate at the grandparent
              have t1 := set_black_shape (.left g RB_BLACK u :: fs2) hs
              have t2 := set_red_shape fs2 t1
              obtain ⟨m3, e3, t3⟩ := rotate_right_shape fs2 t2
              obtain ⟨m2, k, e, -, hk0⟩ := ih
                (.left p RB_BLACK (.node s g RB_RED u) :: fs2) l r x m3 n (cnt + 1) t3
                (by simp; omega)
                (by simp [CtxInv, Tree.bh, NoRedRed, BlackUniform, *])
                hbl hbr h3l h3r h4l h4r hcl hcr
              have hk := hk0 (by simp)
              subst hk
              refine ⟨m2, 1, ?_, by omega, ?_⟩
              · simp [rb_insert_color_rot, rb_parent, hx, hp, hg, hf, hpr, huc, hnd, ptr_ne, Nat.add_assoc, e3, e]
              · intro h; simp at h
          · simp only [fcolor_left, fcolor_right, sib_left, sib_right, addr_left, addr_right, if_true, if_false,
              reduceCtorEq, add_zero] at *
            subst hfc hgc
            have hp := heap_focus (.right u g RB_BLACK :: fs2) hs
            have hg := heap_focus fs2 hs
            have hf := filter_red_focus (.left g RB_BLACK (.node (.node l x RB_RED r) p RB_RED s) :: fs2) hs
            simp only [ctxParent_cons, addr_left, addr_right, fill_left, fill_right, ptr_node] at hp hg hx
            have hpr : rb_is_red m p = true := by simp [rb_is_red, rb_color, hp]
            simp [inorder_plug, Tree.inorder, ctxBefore, ctxAfter, List.nodup_append, List.nodup_cons] at hnd
            rcases color_cases u.color with huc | huc
            · rcases u with _ | ⟨ul, ua, uc, ur⟩
              · simp at huc
              · simp only [color_node] at huc
                subst huc
                have t1 := set_black_shape
                  (.left g RB_BLACK (.node (.node l x RB_RED r) p RB_RED s) :: fs2) hs
                have t2 := set_black_shape (.right (.node ul ua RB_BLACK ur) g RB_BLACK :: fs2) t1
                have t3 := set_red_shape fs2 t2
                simp only [Tree.bh, NoRedRed, BlackUniform, reduceCtorEq, if_false, add_zero,
                  color_node] at u1 u2 u3
                have hur : rb_is_red m ua = true := by
                  simp [rb_is_red, rb_color, heap_focus
                    (.left g RB_BLACK (.node (.node l x RB_RED r) p RB_RED s) :: fs2) hs]
                obtain ⟨m2, k, e, hk, -⟩ := ih fs2
                  (.node ul ua RB_BLACK ur) (.node (.node l x RB_RED r) p RB_BLACK s) g _ (n + 1) cnt t3
                  (by omega) u5
                  (by simp [Tree.bh, u1]) (by simp [Tree.bh, hbl])
                  (by simp [NoRedRed, *]) (by simp [NoRedRed, *])
                  (by simp [BlackUniform, Tree.bh, *]) (by simp [BlackUniform, Tree.bh, *]) rfl rfl
                refine ⟨m2, k, ?_, hk, ?_⟩
                · simp [Tree.inorder] at hnd
                  simpa [rb_insert_color_rot, rb_parent, hx, hp, hg, hur, hpr, hnd] using e
                · intro h; simp at h
            · obtain ⟨m1, e1, t1⟩ := rotate_right_shape (.right u g RB_BLACK :: fs2) hs
              have t2 := set_black_shape (.right u g RB_BLACK :: fs2) t1
              have t3 := set_red_shape fs2 t2
              obtain ⟨m4, e4, t4⟩ := rotate_left_shape fs2 t3
              obtain ⟨m2, k, e, -, hk0⟩ := ih
                (.right (.node u g RB_RED l) x RB_BLACK :: fs2) r s p m4 n (cnt + 1 + 1) t4
                (by simp; omega)
                (by simp [CtxInv, Tree.bh, NoRedRed, BlackUniform, *])
                hbr s1 h3r s2 h4r s3 hcr hsc
              have hk := hk0 (by simp)
              subst hk
              refine ⟨m2, 2, ?_, by omega, ?_⟩
              · simp [rb_insert_color_rot, rb_parent, hx, hp, hg, hf, hpr, huc, hnd, ptr_ne, Nat.add_assoc, ptr_ne2, e1, e4, e]
              · intro h; simp at h
          · simp only [fcolor_left, fcolor_right, sib_left, sib_right, addr_left, addr_right, if_true, if_false,
              reduceCtorEq, add_zero] at *
            subst hfc hgc
            have hp := heap_focus (.left g RB_BLACK u :: fs2) hs
            have hg := heap_focus fs2 hs
            have hf := filter_red_focus (.right (.node s p RB_RED (.node l x RB_RED r)) g RB_BLACK :: fs2) hs
            simp only [ctxParent_cons, addr_left, addr_right, fill_left, fill_right, ptr_node] at hp hg hx
            have hpr : rb_is_red m p = true := by simp [rb_is_red, rb_color, hp]
            simp [inorder_plug, Tree.inorder, ctxBefore, ctxAfter, List.nodup_append, List.nodup_cons] at hnd
            rcases color_cases u.color with huc | huc
            · rcases u with _ | ⟨ul, ua, uc, ur⟩
              · simp at huc
              · simp only [color_node] at huc
                subst huc
                have t1 := set_black_shape
                  (.right (.node s p RB_RED (.node l x RB_RED r)) g RB_BLACK :: fs2) hs
                have t2 := set_black_shape (.left g RB_BLACK (.node ul ua RB_BLACK ur) :: fs2) t1
                have t3 := set_red_shape fs2 t2
                simp only [Tree.bh, NoRedRed, BlackUniform, reduceCtorEq, if_false, add_zero,
                  color_node] at u1 u2 u3
                have hur : rb_is_red m ua = true := by
                  simp [rb_is_red, rb_color, heap_focus
                    (.right (.node s p RB_RED (.node l x RB_RED r)) g RB_BLACK :: fs2) hs]
                obtain ⟨m2, k, e, hk, -⟩ := ih fs2
                  (.node s p RB_BLACK (.node l x RB_RED r)) (.node ul ua RB_BLACK ur) g _ (n + 1) cnt t3
                  (by omega) u5
                  (by simp [Tree.bh, s1]) (by simp [Tree.bh, u1])
                  (by simp [NoRedRed, *]) (by simp [NoRedRed, *])
                  (by simp [BlackUniform, Tree.bh, *]) (by simp [BlackUniform, Tree.bh, *]) rfl rfl
                refine ⟨m2, k, ?_, hk, ?_⟩
                · simpa [rb_insert_color_rot, rb_parent, hx, hp, hg, hur, hpr] using e
                · intro h; simp at h
            · obtain ⟨m1, e1, t1⟩ := rotate_left_shape (.left g RB_BLACK u :: fs2) hs
              have t2 := set_black_shape (.left g RB_BLACK u :: fs2) t1
              have t3 := set_red_shape fs2 t2
              obtain ⟨m4, e4, t4⟩ := rotate_right_shape fs2 t3
              obtain ⟨m2, k, e, -, hk0⟩ := ih
                (.left x RB_BLACK (.node r g RB_RED u) :: fs2) s l p m4 n (cnt + 1 + 1) t4
                (by simp; omega)
                (by simp [CtxInv, Tree.bh, NoRedRed, BlackUniform, *])
                s1 hbl s2 h3l s3 h4l hsc hcl
              have hk := hk0 (by simp)
              subst hk
              refine ⟨m2, 2, ?_, by omega, ?_⟩
              · simp [rb_insert_color_rot, rb_parent, hx, hp, hg, hf, hpr, huc, hnd, ptr_ne, Nat.add_assoc, e1, e4, e]
              · intro h; simp at h
          · simp only [fcolor_left, fcolor_right, sib_left, sib_right, addr_left, addr_right, if_true, if_false,
              reduceCtorEq, add_zero] at *
            subst hfc hgc
            have hp := heap_focus (.right u g RB_BLACK :: fs2) hs
            have hg := heap_focus fs2 hs
            have hf := filter_red_focus (.left g RB_BLACK (.node s p RB_RED (.node l x RB_RED r)) :: fs2) hs
            simp only [ctxParent_cons, addr_left, addr_right, fill_left, fill_right, ptr_node] at hp hg hx
            have hpr : rb_is_red m p = true := by simp [rb_is_red, rb_color, hp]
            simp [inorder_plug, Tree.inorder, ctxBefore, ctxAfter, List.nodup_append, List.nodup_cons] at hnd
            rcases color_cases u.color with huc | huc
            · rcases u with _ | ⟨ul, ua, uc, ur⟩
              · simp at huc
              · simp only [color_node] at huc
                subst huc
                have t1 := set_black_shape
                  (.left g RB_BLACK (.node s p RB_RED (.node l x RB_RED r)) :: fs2) hs
                have t2 := set_black_shape (.right (.node ul ua RB_BLACK ur) g RB_BLACK :: fs2) t1
                have t3 := set_red_shape fs2 t2
                simp only [Tree.bh, NoRedRed, BlackUniform, reduceCtorEq, if_false, add_zero,
                  color_node] at u1 u2 u3
                have hur : rb_is_red m ua = true := by
                  simp [rb_is_red, rb_color, heap_focus
                    (.left g RB_BLACK (.node s p RB_RED (.node l x RB_RED r)) :: fs2) hs]
                obtain ⟨m2, k, e, hk, -⟩ := ih fs2
                  (.node ul ua RB_BLACK ur) (.node s p RB_BLACK (.node l x RB_RED r)) g _ (n + 1) cnt t3
                  (by omega) u5
                  (by simp [Tree.bh, u1]) (by simp [Tree.bh, s1])
                  (by simp [NoRedRed, *]) (by simp [NoRedRed, *])
                  (by simp [BlackUniform, Tree.bh, *]) (by simp [BlackUniform, Tree.bh, *]) rfl rfl
                refine ⟨m2, k, ?_, hk, ?_⟩
                · simp [Tree.inorder] at hnd
                  simpa [rb_insert_color_rot, rb_parent, hx, hp, hg, hur, hpr, hnd] using e
                · intro h; simp at h
            · have t1 := set_black_shape (.right u g RB_BLACK :: fs2) hs
              have t2 := set_red_shape fs2 t1
              obtain ⟨m3, e3, t3⟩ := rotate_left_shape fs2 t2
              obtain ⟨m2, k, e, -, hk0⟩ := ih
                (.right (.node u g RB_RED s) p RB_BLACK :: fs2) l r x m3 n (cnt + 1) t3
                (by simp; omega)
                (by simp [CtxInv, Tree.bh, NoRedRed, BlackUniform, *])
                hbl hbr h3l h3r h4l h4r hcl hcr
              have hk := hk0 (by simp)
              subst hk
              refine ⟨m2, 1, ?_, by omega, ?_⟩
              · simp [rb_insert_color_rot, rb_parent, hx, hp, hg, hf, hpr, huc, hnd, ptr_ne, Nat.add_assoc, ptr_ne2, e3, e]
              · intro h; simp at h
      · -- the parent is black
        obtain ⟨L, a, c, R, hT⟩ := plug_cons_node f fs1 (.node l x RB_RED r)
        have hfill := ctx_fill (t := .node l x RB_RED r) hctx (by simp [Tree.bh, hbl])
          (by simp [NoRedRed, *]) (by simp [BlackUniform, *]) (by simp [hfc])
        have hroot := hs.1
        have hp : (m.heap f.addr).rb_color = RB_BLACK := by
          rcases f with ⟨p, pc, s⟩ | ⟨s, p, pc⟩
          · simp [heap_focus fs1 hs] at hfc ⊢; exact hfc
          · simp [heap_focus fs1 hs] at hfc ⊢; exact hfc
        rw [hT] at hroot hfill hs
        simp only [ptr_node, ctxParent_cons] at hroot hx
        refine ⟨rb_set_black a m, 0, ?_, by omega, fun _ => rfl⟩
        simp [rb_insert_color_rot, rb_parent, rb_is_red, rb_color, hx, hp, hroot]

/-- On a red node the counted fix-up paints the node black and rotates nothing. -/
theorem erase_color_on_red_rot {m : Mem} (fs : List Frame) (l r : Tree) (a : Nat)
    (hs : Shape m (plug fs (.node l a RB_RED r))) (fuel : Nat) (hpos : 0 < fuel)
    (p : Option Nat) (cnt : Nat) :
    __rb_erase_color_rot fuel (some a) p m cnt = .ok (rb_set_black a m, cnt) := by
  obtain ⟨k, rfl⟩ : ∃ k, fuel = k + 1 := ⟨fuel - 1, by omega⟩
  have hx := heap_focus fs hs
  simp [__rb_erase_color_rot, null_or_black, rb_is_black, rb_color, hx, erase_color_exit]

/-- One turn of the erase loop with the deficiency on the left and a black sibling. -/
theorem erase_black_left_rot (fuel : Nat)
    (ih : ∀ (fs : List Frame) (t : Tree) (m : Mem) (n cnt : Nat),
      Shape m (plug fs t) → fs.length < fuel → CtxInv fs (n + 1) → t.bh = n →
      NoRedRed t.blacken → BlackUniform t →
      ∃ m2 k, __rb_erase_color_rot fuel t.ptr (ctxParent fs) m cnt = .ok (m2, cnt + k) ∧ k ≤ 3)
    (G : List Frame) (t sl sr : Tree) (p sa : Nat) (pc : Color) (m : Mem) (n cnt : Nat)
    (hs : Shape m (plug (.left p pc (.node sl sa RB_BLACK sr) :: G) t))
    (hpos : 0 < fuel) (hfuel : pc = RB_BLACK → G.length < fuel)
    (hctx : CtxInv (.left p pc (.node sl sa RB_BLACK sr) :: G) (n + 1))
    (hbh : t.bh = n) (htc : t.color = RB_BLACK) (h3 : NoRedRed t) (h4 : BlackUniform t) :
    ∃ m2 k, __rb_erase_color_rot (fuel + 1) t.ptr (some p) m cnt = .ok (m2, cnt + k) ∧ k ≤ 3 ∧
      (pc = RB_RED → k ≤ 2) := by
  have hnob := nob_focus _ hs
  have hroot := root_ne_hole _ G hs
  obtain ⟨s1, ⟨-, c2, c3⟩, ⟨d1, d2, d3⟩, s4, s5⟩ := hctx
  simp only [fcolor_left, sib_left, Tree.bh, if_true, add_left_inj] at s1 s4 s5 d1
  have s1r : sr.bh = n := by omega
  have hnd := hs.2.2
  have hp := heap_focus G hs
  simp only [fill_left, ptr_node] at hp
  simp [inorder_plug, Tree.inorder, ctxBefore, ctxAfter, List.nodup_append, List.nodup_cons] at hnd
  have hsr := is_red_focus (.right t p pc :: G) hs
  have hsa := heap_focus (.right t p pc :: G) hs
  have hpc := color_focus G hs
  have hnbk : needsBlack G → pc = RB_BLACK := by
    intro hnb
    rcases color_cases pc with h | h
    · exact absurd hnb (s4 h).2
    · exact h
  rcases color_cases sr.color with hcr | hcr
  · -- far nephew red: one rotation at the parent
    rcases sr with _ | ⟨a, q, qc, b⟩
    · simp at hcr
    simp only [color_node] at hcr
    subst hcr
    have nl := nob_focus (.left sa RB_BLACK (.node a q RB_RED b) :: .right t p pc :: G) hs
    have nr := nob_focus (.right sl sa RB_BLACK :: .right t p pc :: G) hs
    simp at nr
    obtain ⟨e1, e2, e3⟩ := c3
    obtain ⟨f1, f2, f3⟩ := d3
    simp only [Tree.bh, reduceCtorEq, if_false, add_zero] at s1r
    have v1 := set_color_shape (.right t p pc :: G) pc hs
    have v2 := set_black_shape G v1
    have hfar := right_focus (.right t p RB_BLACK :: G) v2
    have v3 := set_black_shape (.right sl sa pc :: .right t p RB_BLACK :: G) v2
    obtain ⟨m3, e3, v4⟩ := rotate_left_shape G v3
    have hfill := @ctx_fill G
      (.node (.node t p RB_BLACK sl) sa pc (.node a q RB_BLACK b)) _ s5
      (by simp [Tree.bh, hbh]) (by simp [NoRedRed, *])
      (by simp [BlackUniform, Tree.bh, *]; omega) (by simpa using hnbk)
    refine ⟨erase_color_exit m3.root m3, 1, ?_, by omega, fun _ => by omega⟩
    simp [__rb_erase_color_rot, Nat.add_assoc, hnob, htc, hroot, hp, hsr, hsa, nl, nr, hpc, hfar, e3]
  · have nr := nob_focus (.right sl sa RB_BLACK :: .right t p pc :: G) hs
    rcases color_cases sl.color with hcl | hcl
    · -- near nephew red, far nephew black: rotate at the sibling, then at the parent
      rcases sl with _ | ⟨a, q, qc, b⟩
      · simp at hcl
      simp only [color_node] at hcl
      subst hcl
      have nl := nob_focus (.left sa RB_BLACK sr :: .right t p pc :: G) hs
      simp at nl
      obtain ⟨e1, e2, e3⟩ := c2
      obtain ⟨f1, f2, f3⟩ := d2
      simp only [Tree.bh, reduceCtorEq, if_false, add_zero] at s1 d1
      have w1 := set_black_shape (.left sa RB_BLACK sr :: .right t p pc :: G) hs
      have w2 := set_red_shape (.right t p pc :: G) w1
      obtain ⟨m1, x1, w3⟩ := rotate_right_shape (.right t p pc :: G) w2
      have hoth := right_focus G w3
      have hpc1 := color_focus G w3
      simp only [fill_right, ptr_node] at hoth
      have v1 := set_color_shape (.right t p pc :: G) pc w3
      have v2 := set_black_shape G v1
      have hfar := right_focus (.right t p RB_BLACK :: G) v2
      have v3 := set_black_shape (.right a q pc :: .right t p RB_BLACK :: G) v2
      obtain ⟨m3, x3, v4⟩ := rotate_left_shape G v3
      have hfill := @ctx_fill G
        (.node (.node t p RB_BLACK a) q pc (.node b sa RB_BLACK sr)) _ s5
        (by simp [Tree.bh, hbh]) (by simp [NoRedRed, *])
        (by simp [BlackUniform, Tree.bh, *]; omega) (by simpa using hnbk)
      refine ⟨erase_color_exit m3.root m3, 2, ?_, by omega, fun _ => by omega⟩
      simp [__rb_erase_color_rot, Nat.add_assoc, hnob, htc, hroot, hp, hsr, hsa, nl, nr, hcr, hpc1, hoth, hfar, x1, x3]
    · -- both nephews black: recolour the sibling and move up
      have nl := nob_focus (.left sa RB_BLACK sr :: .right t p pc :: G) hs
      have u1 := set_red_shape (.right t p pc :: G) hs
      have hpp := parent_focus G u1
      rcases color_cases pc with hpr | hpb
      · subst hpr
        have e := erase_color_on_red_rot G t (.node sl sa RB_RED sr) p u1 fuel hpos (ctxParent G) cnt
        refine ⟨rb_set_black p (rb_set_red sa m), 0, ?_, by omega, fun _ => by omega⟩
        simp [__rb_erase_color_rot, hnob, htc, hroot, hp, hsr, hsa, nl, nr, hcl, hcr, hpp, e]
      · subst hpb
        obtain ⟨m2, k, e, hk⟩ := ih G
          (.node t p RB_BLACK (.node sl sa RB_RED sr)) _ (n + 1) cnt u1 (hfuel rfl)
          (by simpa using s5) (by simp [Tree.bh, hbh])
          (by simp [NoRedRed, *]) (by simp [BlackUniform, Tree.bh, *])
        simp only [ptr_node] at e
        refine ⟨m2, k, ?_, hk, fun h => absurd h (by simp)⟩
        simp [__rb_erase_color_rot, hnob, htc, hroot, hp, hsr, hsa, nl, nr, hcl, hcr, hpp, e]

/-- One turn of the erase loop with the deficiency on the right and a black sibling. -/
theorem erase_black_right_rot (fuel : Nat)
    (ih : ∀ (fs : List Frame) (t : Tree) (m : Mem) (n cnt : Nat),
      Shape m (plug fs t) → fs.length < fuel → CtxInv fs (n + 1) → t.bh = n →
      NoRedRed t.blacken → BlackUniform t →
      ∃ m2 k, __rb_erase_color_rot fuel t.ptr (ctxParent fs) m cnt = .ok (m2, cnt + k) ∧ k ≤ 3)
    (G : List Frame) (t sl sr : Tree) (p sa : Nat) (pc : Color) (m : Mem) (n cnt : Nat)
    (hs : Shape m (plug (.right (.node sl sa RB_BLACK sr) p pc :: G) t))
    (hpos : 0 < fuel) (hfuel : pc = RB_BLACK → G.length < fuel)
    (hctx : CtxInv (.right (.node sl sa RB_BLACK sr) p pc :: G) (n + 1))
    (hbh : t.bh = n) (htc : t.color = RB_BLACK) (h3 : NoRedRed t) (h4 : BlackUniform t) :
    ∃ m2 k, __rb_erase_color_rot (fuel + 1) t.ptr (some p) m cnt = .ok (m2, cnt + k) ∧ k ≤ 3 ∧
      (pc = RB_RED → k ≤ 2) := by
  have hnob := nob_focus _ hs
  have hroot := root_ne_hole _ G hs
  obtain ⟨s1, ⟨-, c2, c3⟩, ⟨d1, d2, d3⟩, s4, s5⟩ := hctx
  simp only [fcolor_right, sib_right, Tree.bh, if_true, add_left_inj] at s1 s4 s5 d1
  have s1r : sr.bh = n := by omega
  have hnd := hs.2.2
  have hp := heap_focus G hs
  simp only [fill_right, ptr_node] at hp
  simp [inorder_plug, Tree.inorder, ctxBefore, ctxAfter, List.nodup_append, List.nodup_cons] at hnd
  have hne : ¬ some sa = t.ptr := ptr_ne2 (by simp [hnd])
  have hsr := is_red_focus (.left p pc t :: G) hs
  have hsa := heap_focus (.left p pc t :: G) hs
  have hpc := color_focus G hs
  have hnbk : needsBlack G → pc = RB_BLACK := by
    intro hnb
    rcases color_cases pc with h | h
    · exact absurd hnb (s4 h).2
    · exact h
  rcases color_cases sl.color with hcl | hcl
  · -- far nephew red: one rotation at the parent
    rcases sl with _ | ⟨a, q, qc, b⟩
    · simp at hcl
    simp only [color_node] at hcl
    subst hcl
    have nl := nob_focus (.left sa RB_BLACK sr :: .left p pc t :: G) hs
    have nr := nob_focus (.right (.node a q RB_RED b) sa RB_BLACK :: .left p pc t :: G) hs
    simp at nl
    obtain ⟨e1, e2, e3⟩ := c2
    obtain ⟨f1, f2, f3⟩ := d2
    simp only [Tree.bh, reduceCtorEq, if_false, add_zero] at s1 d1
    have v1 := set_color_shape (.left p pc t :: G) pc hs
    have v2 := set_black_shape G v1
    have hfar := left_focus (.left p RB_BLACK t :: G) v2
    have v3 := set_black_shape (.left sa pc sr :: .left p RB_BLACK t :: G) v2
    obtain ⟨m3, x3, v4⟩ := rotate_right_shape G v3
    have hfill := @ctx_fill G
      (.node (.node a q RB_BLACK b) sa pc (.node sr p RB_BLACK t)) _ s5
      (by simp [Tree.bh, s1]) (by simp [NoRedRed, *])
      (by simp [BlackUniform, Tree.bh, *]; omega) (by simpa using hnbk)
    refine ⟨erase_color_exit m3.root m3, 1, ?_, by omega, fun _ => by omega⟩
    simp [__rb_erase_color_rot, Nat.add_assoc, hnob, htc, hroot, hp, hne, hsr, hsa, nl, nr, hpc, hfar, x3]
  · have nl := nob_focus (.left sa RB_BLACK sr :: .left p pc t :: G) hs
    rcases color_cases sr.color with hcr | hcr
    · -- near nephew red, far nephew black: rotate at the sibling, then at the parent
      rcases sr with _ | ⟨a, q, qc, b⟩
      · simp at hcr
      simp only [color_node] at hcr
      subst hcr
      have nr := nob_focus (.right sl sa RB_BLACK :: .left p pc t :: G) hs
      simp at nr
      obtain ⟨e1, e2, e3⟩ := c3
      obtain ⟨f1, f2, f3⟩ := d3
      simp only [Tree.bh, reduceCtorEq, if_false, add_zero] at s1r d1
      have w1 := set_black_shape (.right sl sa RB_BLACK :: .left p pc t :: G) hs
      have w2 := set_red_shape (.left p pc t :: G) w1
      obtain ⟨m1, x1, w3⟩ := rotate_left_shape (.left p pc t :: G) w2
      have hoth := left_focus G w3
      have hpc1 := color_focus G w3
      simp only [fill_left, ptr_node] at hoth
      have v1 := set_color_shape (.left p pc t :: G) pc w3
      have v2 := set_black_shape G v1
      have hfar := left_focus (.left p RB_BLACK t :: G) v2
      have v3 := set_black_shape (.left q pc b :: .left p RB_BLACK t :: G) v2
      obtain ⟨m3, x3, v4⟩ := rotate_right_shape G v3
      have hfill := @ctx_fill G
        (.node (.node sl sa RB_BLACK a) q pc (.node b p RB_BLACK t)) _ s5
        (by simp [Tree.bh, s1]) (by simp [NoRedRed, *])
        (by simp [BlackUniform, Tree.bh, *]; omega) (by simpa using hnbk)
      refine ⟨erase_color_exit m3.root m3, 2, ?_, by omega, fun _ => by omega⟩
      simp [__rb_erase_color_rot, Nat.add_assoc, hnob, htc, hroot, hp, hne, hsr, hsa, nl, nr, hcl,
        hpc1, hoth, hfar, x1, x3]
    · -- both nephews black: recolour the sibling and move up
      have nr := nob_focus (.right sl sa RB_BLACK :: .left p pc t :: G) hs
      have u1 := set_red_shape (.left p pc t :: G) hs
      have hpp := parent_focus G u1
      rcases color_cases pc with hpr | hpb
      · subst hpr
        have e := erase_color_on_red_rot G (.node sl sa RB_RED sr) t p u1 fuel hpos (ctxParent G) cnt
        refine ⟨rb_set_black p (rb_set_red sa m), 0, ?_, by omega, fun _ => by omega⟩
        simp [__rb_erase_color_rot, hnob, htc, hroot, hp, hne, hsr, hsa, nl, nr, hcl, hcr, hpp, e]
      · subst hpb
        obtain ⟨m2, k, e, hk⟩ := ih G
          (.node (.node sl sa RB_RED sr) p RB_BLACK t) _ (n + 1) cnt u1 (hfuel rfl)
          (by simpa using s5) (by simp [Tree.bh, s1])
          (by simp [NoRedRed, *]) (by simp [BlackUniform, Tree.bh, *])
        simp only [ptr_node] at e
        refine ⟨m2, k, ?_, hk, fun h => absurd h (by simp)⟩
        simp [__rb_erase_color_rot, hnob, htc, hroot, hp, hne, hsr, hsa, nl, nr, hcl, hcr, hpp, e]

/-- The loop of `__rb_erase_color` restores the red-black invariants when the subtree
in the hole is one black node short. -/
theorem erase_color_rot_ok (fuel : Nat) : ∀ (fs : List Frame) (t : Tree) (m : Mem) (n cnt : Nat),
    Shape m (plug fs t) → fs.length < fuel → CtxInv fs (n + 1) → t.bh = n →
    NoRedRed t.blacken → BlackUniform t →
    ∃ m2 k, __rb_erase_color_rot fuel t.ptr (ctxParent fs) m cnt = .ok (m2, cnt + k) ∧ k ≤ 3 := by
  induction fuel with
  | zero => intro fs t m n cnt _ hlen; simp at hlen
  | succ fuel ih =>
    intro fs t m n cnt hs hlen hctx hbh h3 h4
    rcases color_cases t.color with htc | htc
    · rcases t with _ | ⟨l, a, c, r⟩
      · simp at htc
      · simp only [color_node] at htc
        subst htc
        simp only [Tree.bh, reduceCtorEq, if_false, add_zero, blacken_node] at hbh h3
        have e := erase_color_on_red_rot fs l r a hs (fuel + 1) (by omega) (ctxParent fs) cnt
        exact ⟨_, 0, by simpa using e, by omega⟩
    · rw [blacken_of_black htc] at h3
      rcases fs with _ | ⟨f, fs1⟩
      · -- the node is the root
        refine ⟨erase_color_exit t.ptr m, 0, ?_, by omega⟩
        have hroot := hs.1
        simp only [plug_nil] at hroot
        simp [__rb_erase_color_rot, hroot]
      · simp only [List.length_cons] at hlen
        have hpos : 0 < fuel := by omega
        rcases f with ⟨p, pc, s⟩ | ⟨s, p, pc⟩
        · rcases s with _ | ⟨sl, sa, sc, sr⟩
          · simp [CtxInv, Tree.bh] at hctx
          rcases color_cases sc with hsc | hsc
          · -- red sibling: rotate at the parent, the new sibling is black
            subst hsc
            obtain ⟨s1, ⟨c1, c2, c3⟩, ⟨d1, d2, d3⟩, s4, s5⟩ := hctx
            simp only [fcolor_left, sib_left, Tree.bh, reduceCtorEq, if_false, add_zero,
              color_node] at s1 s4 s5 d1 c1
            have hpc : pc = RB_BLACK := by
              rcases color_cases pc with h | h
              · exact absurd (s4 h).1 (by simp)
              · exact h
            subst hpc
            obtain ⟨hcl, hcr⟩ := c1 trivial
            rcases sl with _ | ⟨sll, sla, slc, slr⟩
            · simp [Tree.bh] at s1
            simp only [color_node] at hcl
            subst hcl
            have hnob := nob_focus _ hs
            have hroot := root_ne_hole _ fs1 hs
            have hp := heap_focus fs1 hs
            have hsr := is_red_focus (.right t p RB_BLACK :: fs1) hs
            simp only [fill_left, ptr_node] at hp
            have u1 := set_black_shape (.right t p RB_BLACK :: fs1) hs
            have u2 := set_red_shape fs1 u1
            obtain ⟨m1, e1, u3⟩ := rotate_left_shape fs1 u2
            have hnob1 := nob_focus (.left p RB_RED (.node sll sla RB_BLACK slr) ::
              .left sa RB_BLACK sr :: fs1) u3
            have hroot1 := root_ne_hole (.left p RB_RED (.node sll sla RB_BLACK slr))
              (.left sa RB_BLACK sr :: fs1) u3
            have hp1 := heap_focus (.left sa RB_BLACK sr :: fs1) u3
            have hsr1 := is_red_focus (.right t p RB_RED :: .left sa RB_BLACK sr :: fs1) u3
            simp only [fill_left, ptr_node, ctxParent_cons, addr_left] at hp1
            have hci : CtxInv (.left p RB_RED (.node sll sla RB_BLACK slr) ::
                .left sa RB_BLACK sr :: fs1) (n + 1) := by
              simp only [Tree.bh, NoRedRed, BlackUniform, if_true, add_left_inj, reduceCtorEq,
                if_false, add_zero] at s1 d1 c2 d2
              have b3 : sr.bh = n + 1 := by omega
              have b2 : slr.bh = n := by omega
              simp at s5
              simp [CtxInv, Tree.bh, NoRedRed, BlackUniform, b2, b3, s1, c2, c3, d2, d3, s5]
            obtain ⟨m2, k, e, -, hk2⟩ := erase_black_left_rot fuel ih
              (.left sa RB_BLACK sr :: fs1) t sll slr p sla RB_RED m1 n (cnt + 1) u3 hpos
              (fun h => absurd h (by simp)) hci hbh htc h3 h4
            have hk := hk2 rfl
            refine ⟨m2, 1 + k, ?_, by omega⟩
            rw [show cnt + (1 + k) = cnt + 1 + k by omega, ← e]
            simp [__rb_erase_color_rot, hnob, htc, hroot, hp, hsr, e1, hnob1, hroot1, hp1, hsr1]
          · subst hsc
            obtain ⟨m2, k, e, hk, -⟩ := erase_black_left_rot fuel ih fs1 t sl sr p sa pc m n cnt hs hpos
              (fun _ => by omega) hctx hbh htc h3 h4
            exact ⟨m2, k, e, hk⟩
        · rcases s with _ | ⟨sl, sa, sc, sr⟩
          · simp [CtxInv, Tree.bh] at hctx
          rcases color_cases sc with hsc | hsc
          · -- red sibling: rotate at the parent, the new sibling is black
            subst hsc
            obtain ⟨s1, ⟨c1, c2, c3⟩, ⟨d1, d2, d3⟩, s4, s5⟩ := hctx
            simp only [fcolor_right, sib_right, Tree.bh, reduceCtorEq, if_false, add_zero,
              color_node] at s1 s4 s5 d1 c1
            have hpc : pc = RB_BLACK := by
              rcases color_cases pc with h | h
              · exact absurd (s4 h).1 (by simp)
              · exact h
            subst hpc
            obtain ⟨hcl, hcr⟩ := c1 trivial
            rcases sr with _ | ⟨srl, sra, src, srr⟩
            · simp [Tree.bh] at d1; omega
            simp only [color_node] at hcr
            subst hcr
            have hnd := hs.2.2
            simp [inorder_plug, Tree.inorder, ctxBefore, ctxAfter, List.nodup_append,
              List.nodup_cons] at hnd
            have hne : ¬ some sa = t.ptr := ptr_ne2 (by simp [hnd])
            have hne1 : ¬ some sra = t.ptr := ptr_ne2 (by simp [hnd])
            have hnob := nob_focus _ hs
            have hroot := root_ne_hole _ fs1 hs
            have hp := heap_focus fs1 hs
            have hsr := is_red_focus (.left p RB_BLACK t :: fs1) hs
            simp only [fill_right, ptr_node] at hp
            have u1 := set_black_shape (.left p RB_BLACK t :: fs1) hs
            have u2 := set_red_shape fs1 u1
            obtain ⟨m1, e1, u3⟩ := rotate_right_shape fs1 u2
            have hnob1 := nob_focus (.right (.node srl sra RB_BLACK srr) p RB_RED ::
              .right sl sa RB_BLACK :: fs1) u3
            have hroot1 := root_ne_hole (.right (.node srl sra RB_BLACK srr) p RB_RED)
              (.right sl sa RB_BLACK :: fs1) u3
            have hp1 := heap_focus (.right sl sa RB_BLACK :: fs1) u3
            have hsr1 := is_red_focus (.left p RB_RED t :: .right sl sa RB_BLACK :: fs1) u3
            simp only [fill_right, ptr_node, ctxParent_cons, addr_right] at hp1
            have hci : CtxInv (.right (.node srl sra RB_BLACK srr) p RB_RED ::
                .right sl sa RB_BLACK :: fs1) (n + 1) := by
              simp only [Tree.bh, NoRedRed, BlackUniform, if_true, add_left_inj, reduceCtorEq,
                if_false, add_zero] at s1 d1 c3 d3
              have b3 : srl.bh = n := by omega
              have b2 : srr.bh = n := by omega
              simp at s5
              simp [CtxInv, Tree.bh, NoRedRed, BlackUniform, b2, b3, s1, c2, c3, d2, d3, s5]
            obtain ⟨m2, k, e, -, hk2⟩ := erase_black_right_rot fuel ih
              (.right sl sa RB_BLACK :: fs1) t srl srr p sra RB_RED m1 n (cnt + 1) u3 hpos
              (fun h => absurd h (by simp)) hci hbh htc h3 h4
            have hk := hk2 rfl
            refine ⟨m2, 1 + k, ?_, by omega⟩
            rw [show cnt + (1 + k) = cnt + 1 + k by omega, ← e]
            simp [__rb_erase_color_rot, hnob, htc, hroot, hp, hsr, e1, hnob1, hroot1, hp1, hsr1,
                hne, hne1]
          · subst hsc
            obtain ⟨m2, k, e, hk, -⟩ := erase_black_right_rot fuel ih fs1 t sl sr p sa pc m n cnt hs hpos
              (fun _ => by omega) hctx hbh htc h3 h4
            exact ⟨m2, k, e, hk⟩

theorem erase_tail_right_rot (fuel : Nat) (R : List Frame) (a : Nat) (sc : Color) (child : Tree)
    (m : Mem) (hs : Shape m (plug R child)) (hlen : R.length < fuel)
    (h3 : NoRedRed (plug R (.node .nil a sc child)))
    (h4 : BlackUniform (plug R (.node .nil a sc child)))
    (h5 : (plug R (.node .nil a sc child)).color = RB_BLACK) :
    ∃ m2 k, erase_tail_rot fuel sc child.ptr (ctxParent R) m = .ok (m2, k) ∧ k ≤ 3 := by
  obtain ⟨i1, ⟨j1, -, j3⟩, ⟨k1, -, k3⟩, i4⟩ := ctx_split h3 h4 h5
  simp only [Tree.bh, zero_add, color_node] at i1 k1 i4 j1
  rcases color_cases sc with hc | hc
  · subst hc
    exact ⟨m, 0, by simp [erase_tail_rot], by omega⟩
  · subst hc
    simpa [erase_tail_rot] using erase_color_rot_ok fuel R child m 0 0 hs hlen (by simpa using i1)
      k1.symm (noRedRed_blacken j3) k3

theorem erase_tail_left_rot (fuel : Nat) (R : List Frame) (a : Nat) (sc : Color) (child : Tree)
    (m : Mem) (hs : Shape m (plug R child)) (hlen : R.length < fuel)
    (h3 : NoRedRed (plug R (.node child a sc .nil)))
    (h4 : BlackUniform (plug R (.node child a sc .nil)))
    (h5 : (plug R (.node child a sc .nil)).color = RB_BLACK) :
    ∃ m2 k, erase_tail_rot fuel sc child.ptr (ctxParent R) m = .ok (m2, k) ∧ k ≤ 3 := by
  obtain ⟨i1, ⟨j1, j3, -⟩, ⟨k1, k3, -⟩, i4⟩ := ctx_split h3 h4 h5
  simp only [Tree.bh, color_node] at i1 k1 i4 j1
  rcases color_cases sc with hc | hc
  · subst hc
    exact ⟨m, 0, by simp [erase_tail_rot], by omega⟩
  · subst hc
    simpa [erase_tail_rot] using erase_color_rot_ok fuel R child m 0 0 hs hlen
      (by simpa [k1] using i1) k1 (noRedRed_blacken j3) k3

/-- Splicing out a node without left child (rbtree.c 252-265). -/
theorem splice_right_rot {m : Mem} (fs : List Frame) {r : Tree} {x : Nat} {c : Color}
    (hs : Shape m (plug fs (.node .nil x c r))) :
    ∃ m2, (∀ fuel, erase_splice_rot fuel x r.ptr m = erase_tail_rot fuel c r.ptr (ctxParent fs) m2) ∧
      Shape m2 (plug fs r) := by
  obtain ⟨hroot, hrep, hnd⟩ := hs
  obtain ⟨hctx, hx, -, hr⟩ := (rep_plug _ _ _ _).1 ⟨hroot, hrep⟩
  have hnd2 : (plug fs r).inorder.Nodup := by
    simp only [inorder_plug, Tree.inorder, List.nil_append] at hnd ⊢
    rw [List.append_assoc] at hnd ⊢
    exact (List.nodup_append.1 hnd).1.append
      (List.nodup_append.1 (List.nodup_cons.1 (List.nodup_append.1 hnd).2.1).2 |>.1 |>.append
        (List.nodup_append.1 (List.nodup_cons.1 (List.nodup_append.1 hnd).2.1).2).2.1
        (List.nodup_append.1 (List.nodup_cons.1 (List.nodup_append.1 hnd).2.1).2).2.2)
      (fun z hz1 hz2 => (List.nodup_append.1 hnd).2.2 hz1 (List.mem_cons_of_mem _ hz2))
  simp only [Shape, and_comm (b := List.Nodup _)]
  simp only [hnd2, true_and, rep_plug]
  clear hnd2 hroot hrep
  rcases r with _ | ⟨rl, ra, rc, rr⟩ <;> rcases fs with _ | ⟨⟨p, pc, pr⟩ | ⟨pl, p, pc⟩, fs⟩
  all_goals
    simp [inorder_plug, Tree.inorder, ctxBefore, ctxAfter, List.nodup_append, List.nodup_cons] at hnd
    simp only [RepCtx, Rep, ptr_node, ptr_nil, ctxParent_nil, ctxParent_cons, addr_left, addr_right] at hctx hx hr ⊢
    refine ⟨_, fun fuel => by
      simp (disch := omega) only [erase_splice_rot, rb_parent, rb_color, hx, rb_set_parent, set_left,
        set_right, heap_write_ne, hctx, if_true, if_false, hnd, ptr_ne, ptr_ne2, Option.some.injEq,
        reduceCtorEq, not_false_eq_true]
      rfl, ?_⟩
  all_goals
    simp (disch := omega) [hx, hr, hctx, set_right, set_left, rb_set_parent, rb_parent, heap_write_ne]
    try simp [hnd, hctx, hr, rep_write, repctx_write, ptr_ne, ptr_ne2]
    try simp (disch := omega) [hx, hr, hctx, heap_write_ne]

/-- Splicing out a node without right child (rbtree.c 252-265). -/
theorem splice_left_rot {m : Mem} (fs : List Frame) {l : Tree} {x : Nat} {c : Color}
    (hs : Shape m (plug fs (.node l x c .nil))) :
    ∃ m2, (∀ fuel, erase_splice_rot fuel x l.ptr m = erase_tail_rot fuel c l.ptr (ctxParent fs) m2) ∧
      Shape m2 (plug fs l) := by
  obtain ⟨hroot, hrep, hnd⟩ := hs
  obtain ⟨hctx, hx, hr, -⟩ := (rep_plug _ _ _ _).1 ⟨hroot, hrep⟩
  have hnd2 : (plug fs l).inorder.Nodup := by
    simp only [inorder_plug, Tree.inorder, List.append_nil] at hnd ⊢
    have h1 := List.nodup_append.1 hnd
    have h2 := List.nodup_append.1 h1.1
    have h3 := List.nodup_append.1 h2.2.1
    refine List.nodup_append.2 ⟨List.nodup_append.2 ⟨h2.1, h3.1, ?_⟩, h1.2.1, ?_⟩
    · exact fun z hz1 hz2 => h2.2.2 hz1 (List.mem_append_left _ hz2)
    · intro z hz1 hz2
      rcases List.mem_append.1 hz1 with hz | hz
      · exact h1.2.2 (List.mem_append_left _ hz) hz2
      · exact h1.2.2 (List.mem_append_right _ (List.mem_append_left _ hz)) hz2
  simp only [Shape, and_comm (b := List.Nodup _)]
  simp only [hnd2, true_and, rep_plug]
  clear hnd2 hroot hrep
  rcases l with _ | ⟨rl, ra, rc, rr⟩ <;> rcases fs with _ | ⟨⟨p, pc, pr⟩ | ⟨pl, p, pc⟩, fs⟩
  all_goals
    simp [inorder_plug, Tree.inorder, ctxBefore, ctxAfter, List.nodup_append, List.nodup_cons] at hnd
    simp only [RepCtx, Rep, ptr_node, ptr_nil, ctxParent_nil, ctxParent_cons, addr_left, addr_right] at hctx hx hr ⊢
    refine ⟨_, fun fuel => by
      simp (disch := omega) only [erase_splice_rot, rb_parent, rb_color, hx, rb_set_parent, set_left,
        set_right, heap_write_ne, hctx, if_true, if_false, hnd, ptr_ne, ptr_ne2, Option.some.injEq,
        reduceCtorEq, not_false_eq_true]
      rfl, ?_⟩
  all_goals
    simp (disch := omega) [hx, hr, hctx, set_right, set_left, rb_set_parent, rb_parent, heap_write_ne]
    try simp [hnd, hctx, hr, rep_write, repctx_write, ptr_ne, ptr_ne2]
    try simp (disch := omega) [hx, hr, hctx, heap_write_ne]

/-- The two-children case of `rb_erase_rot` up to the label `color:` (rbtree.c 214-250): the
in-order successor `s` is taken out of the right subtree and put at the place of the
erased node, with the parent, the left subtree and the colour of the erased node. -/
theorem erase_two_children_rot {m : Mem} (fs : List Frame) {ll lr rl rr : Tree} {la ra x : Nat}
    {lc rc c : Color}
    (hs : Shape m (plug fs (.node (.node ll la lc lr) x c (.node rl ra rc rr))))
    (fuel : Nat) (hf : (plug fs (.node (.node ll la lc lr) x c (.node rl ra rc rr))).height < fuel) :
    ∃ rs s sc sr mB, AllLeft rs ∧ Tree.node rl ra rc rr = plug rs (.node .nil s sc sr) ∧
      Shape mB (plug fs (.node (.node ll la lc lr) s c (plug rs sr))) ∧
      rb_erase_rot fuel x m = erase_tail_rot fuel sc sr.ptr
        (ctxParent (rs ++ .right (.node ll la lc lr) s c :: fs)) mB ∧
      (rs ++ .right (.node ll la lc lr) s c :: fs).length < fuel := by
  have hx := heap_focus fs hs
  have hrh : (Tree.node rl ra rc rr).height ≤ fuel := by
    have := plug_height (.right (.node ll la lc lr) x c :: fs) (.node rl ra rc rr)
    simp only [plug_cons, fill_right] at this
    omega
  obtain ⟨rs, s, sc, sr, a1, a2, a3, a4⟩ := leftmost_spine (.node rl ra rc rr) fuel
    (.right (.node ll la lc lr) x c :: fs) m ra rfl hs hrh
  have hR : (rs ++ .right (.node ll la lc lr) s c :: fs).length < fuel := by
    have := plug_height (rs ++ .right (.node ll la lc lr) x c :: fs) (.node .nil s sc sr)
    simp only [plug_append, plug_cons, fill_right, ← a2, Tree.height] at this
    simp only [List.length_append, List.length_cons] at this ⊢
    omega
  suffices h : ∃ mB, Shape mB (plug fs (.node (.node ll la lc lr) s c (plug rs sr))) ∧
      rb_erase_rot fuel x m = erase_tail_rot fuel sc sr.ptr
        (ctxParent (rs ++ .right (.node ll la lc lr) s c :: fs)) mB by
    obtain ⟨mB, h1, h2⟩ := h
    exact ⟨rs, s, sc, sr, mB, a1, a2, h1, h2, hR⟩
  simp only [ptr_node] at hx
  rcases rs with _ | ⟨f1, rs1⟩
  · -- the successor is the right child
    simp only [plug_nil, Tree.node.injEq] at a2
    obtain ⟨rfl, rfl, rfl, rfl⟩ := a2
    have hnd := hs.2.2
    obtain ⟨m1, e1, s1⟩ := adopt_near_shape fs hs
    have hss := heap_focus (.right (.node ll la lc lr) x c :: fs) hs
    simp [inorder_plug, Tree.inorder, ctxBefore, ctxAfter, List.nodup_append,
      List.nodup_cons] at hnd
    have hne : ¬ rb_parent m x = some ra := by
      simp only [rb_parent, hx]
      rcases fs with _ | ⟨⟨p, pc, pr⟩ | ⟨pl, p, pc⟩, fs⟩ <;>
        simp [ctxBefore, ctxAfter] at hnd ⊢ <;> omega
    have hs1 := relink_heap (s := ra) hne
    refine ⟨m1, s1, ?_⟩
    simp only [ptr_node, ctxParent_cons, addr_right, ptr_nil] at hx hss
    simp [rb_erase_rot, hx, a3, rb_parent, rb_color, hs1, hss, e1]
  · -- the successor lies deeper in the right subtree
    rcases f1 with ⟨sp, spc, spr⟩ | ⟨spl, sp, spc⟩
    swap
    · exact absurd a1 (by simp [AllLeft])
    have hT : plug (.left sp spc spr :: (rs1 ++ .right (.node ll la lc lr) x c :: fs))
        (.node .nil s sc sr) =
        plug fs (.node (.node ll la lc lr) x c (.node rl ra rc rr)) := by
      simp [plug_append, a2]
    have hs2 := hs
    rw [← hT] at hs2
    obtain ⟨mA, eA, sA⟩ := unlink_shape _ hs2
    obtain ⟨rl2, ra2, rc2, rr2, hr2⟩ := plug_node_ex rs1 sr sp spc spr
    have hT2 : plug (.left sp spc spr :: (rs1 ++ .right (.node ll la lc lr) x c :: fs)) sr =
        plug fs (.node (.node ll la lc lr) x c (.node rl2 ra2 rc2 rr2)) := by
      simp [plug_append, hr2]
    rw [hT2] at sA
    have hnd := hs2.2.2
    have hb := allLeft_before a1
    simp only [AllLeft] at hb
    simp [inorder_plug, Tree.inorder, ctxBefore, ctxAfter, ctxBefore_append, ctxAfter_append, hb,
      List.nodup_append, List.nodup_cons] at hnd
    have hns : s ∉ (plug fs (.node (.node ll la lc lr) x c (.node rl2 ra2 rc2 rr2))).inorder := by
      rw [← hT2]
      simp [inorder_plug, Tree.inorder, ctxBefore, ctxAfter, ctxBefore_append, ctxAfter_append,
        hb, hnd]
      omega
    obtain ⟨mB, eB, sB⟩ := adopt_far_shape fs sA hns
    obtain ⟨m3, eB1, eB2⟩ := bind_ok_split eB
    have hss := heap_focus _ hs2
    have hne : ¬ rb_parent m x = some s := by
      simp only [rb_parent, hx]
      rcases fs with _ | ⟨⟨p, pc, pr⟩ | ⟨pl, p, pc⟩, fs⟩ <;>
        simp [ctxBefore, ctxAfter] at hnd ⊢ <;> omega
    have hs1 := relink_heap (s := s) hne
    have hcomm := unlink_relink_comm m x s sp sr.ptr
      (by omega) (fun c0 hc0 => by
        have := ptr_mem hc0
        intro e; subst e
        simp [hnd] at this)
      (fun op hop => by
        simp only [rb_parent, hx] at hop
        rcases fs with _ | ⟨⟨p, pc, pr⟩ | ⟨pl, p, pc⟩, fs⟩
        · simp at hop
        · simp only [ctxParent_cons, addr_left, Option.some.injEq] at hop
          subst hop
          simp [ctxBefore, ctxAfter] at hnd
          refine ⟨by omega, fun c0 hc0 => ?_⟩
          have := ptr_mem hc0
          intro e; subst e
          simp [hnd] at this
        · simp only [ctxParent_cons, addr_right, Option.some.injEq] at hop
          subst hop
          simp [ctxBefore, ctxAfter] at hnd
          refine ⟨by omega, fun c0 hc0 => ?_⟩
          have := ptr_mem hc0
          intro e; subst e
          simp [hnd] at this)
    refine ⟨mB, by simpa [hr2] using sB, ?_⟩
    simp only [ptr_node, ctxParent_cons, addr_left, ptr_nil, List.cons_append] at hx hss ⊢
    have hspx : ¬ sp = x := by omega
    simp [rb_erase_rot, hx, a3, rb_parent, rb_color, hs1, hss, hspx, hcomm, eA, eB1, eB2]

/-- The counted `rb_erase` returns, after at most three rotations. -/
theorem rb_erase_rot_spec {m : Mem} (fs : List Frame) {l r : Tree} {x : Nat} {c : Color}
    (hs : Shape m (plug fs (.node l x c r)))
    (h3 : NoRedRed (plug fs (.node l x c r))) (h4 : BlackUniform (plug fs (.node l x c r)))
    (h5 : (plug fs (.node l x c r)).color = RB_BLACK)
    (fuel : Nat) (hf : (plug fs (.node l x c r)).height < fuel) :
    ∃ m2 k, rb_erase_rot fuel x m = .ok (m2, k) ∧ k ≤ 3 := by
  have hx := heap_focus fs hs
  have hlen : fs.length < fuel := by
    have := plug_height fs (.node l x c r)
    simp only [Tree.height] at this
    omega
  rcases l with _ | ⟨ll, la, lc, lr⟩
  · -- no left child
    obtain ⟨m1, e1, s1⟩ := splice_right_rot fs hs
    obtain ⟨m2, k, e2, hk⟩ := erase_tail_right_rot fuel fs x c r m1 s1 hlen h3 h4 h5
    exact ⟨m2, k, by simp [rb_erase_rot, hx, e1, e2], hk⟩
  · rcases r with _ | ⟨rl, ra, rc, rr⟩
    · -- no right child
      obtain ⟨m1, e1, s1⟩ := splice_left_rot fs hs
      obtain ⟨m2, k, e2, hk⟩ := erase_tail_left_rot fuel fs x c _ m1 s1 hlen h3 h4 h5
      refine ⟨m2, k, ?_, hk⟩
      simp only [ptr_node] at e1 e2
      simp [rb_erase_rot, hx, e1, e2]
    · -- two children: the successor takes the place of the node
      obtain ⟨rs, s, sc, sr, mB, a1, a2, sB, eB, hR⟩ := erase_two_children_rot fs hs fuel hf
      obtain ⟨v3, v4, v5⟩ := valid_readdr fs s h3 h4 h5
      have hT : plug (rs ++ .right (.node ll la lc lr) s c :: fs) (.node .nil s sc sr) =
          plug fs (.node (.node ll la lc lr) s c (.node rl ra rc rr)) := by
        simp [plug_append, a2]
      have hT2 : plug (rs ++ .right (.node ll la lc lr) s c :: fs) sr =
          plug fs (.node (.node ll la lc lr) s c (plug rs sr)) := by
        simp [plug_append]
      rw [← hT] at v3 v4 v5
      rw [← hT2] at sB
      obtain ⟨m2, k, e2, hk⟩ := erase_tail_right_rot fuel _ s sc sr mB sB hR v3 v4 v5
      exact ⟨m2, k, by rw [eB, e2], hk⟩

/-- The counted `rb_erase` computes the memory that `rb_erase` computes. -/
theorem rb_erase_rot_mem (fuel node : Nat) (m : Mem) :
    Except.map Prod.fst (rb_erase_rot fuel node m) = rb_erase fuel node m := by
  have ht : ∀ c ch p m1, Except.map Prod.fst (erase_tail_rot fuel c ch p m1) =
      erase_tail fuel c ch p m1 := by
    intro c ch p m1
    simp only [erase_tail_rot, erase_tail]
    split_ifs
    · exact erase_color_rot_mem _ _ _ _ _
    · rfl
  have hsp : ∀ ch, Except.map Prod.fst (erase_splice_rot fuel node ch m) =
      erase_splice fuel node ch m := by
    intro ch
    exact ht _ _ _ _
  simp only [rb_erase_rot, rb_erase]
  cases h1 : (m.heap node).rb_left with
  | none => simp only [hsp]
  | some l =>
    cases h2 : (m.heap node).rb_right with
    | none => simp only [hsp]
    | some r => simp [map_fst_bind, map_fst_ite, ite_bind_ex, ht]

/-- The counted `rb_insert` computes what `rb_insert` computes. -/
theorem rb_insert_rot_mem {K : Type} (fuel : Nat) (m : Option Mem) (node : Option Nat) (key : K)
    (compare : Nat → K → Int) :
    Except.map (fun r => (r.1, r.2.1)) (rb_insert_rot fuel m node key compare) =
      rb_insert fuel m node key compare := by
  rcases m with _ | m
  · rfl
  rcases node with _ | node
  · rfl
  simp only [rb_insert_rot, rb_insert]
  rcases hd : insert_descend compare key fuel m none true m.root with er | (_ | ⟨p, l⟩)
  · rfl
  · rfl
  · simp only [bind_ok]
    have h := insert_color_rot_mem fuel node (rb_link_node node p l m) 0
    rcases hr : rb_insert_color_rot fuel node (rb_link_node node p l m) 0 with er | ⟨m2, k⟩
    · rw [hr] at h
      simp only [map_fst_error] at h
      rw [← h]
      rfl
    · rw [hr] at h
      simp only [map_fst_ok] at h
      rw [← h]
      rfl

/-- The counted `rb_insert` returns, after at most two rotations. -/
theorem rb_insert_rot_spec {K : Type} [LinearOrder K] {cmp : Nat → K → Int} {keyOf : Nat → K}
    (hc : Consistent cmp keyOf) {m : Mem} {t : Tree} (hs : Shape m t) (hbst : BST keyOf t)
    (h3 : NoRedRed t) (h4 : BlackUniform t) (h5 : t.color = RB_BLACK)
    {node : Nat} (hn : node ∉ t.inorder) (key : K) (fuel : Nat) (hf : t.height < fuel) :
    ∃ r m2 k, rb_insert_rot fuel (some m) (some node) key cmp = .ok (r, m2, k) ∧ k ≤ 2 := by
  rcases insert_descend_ok hc key fuel [] t m hs hf hbst (by simp [ctxBefore]) (by simp [ctxAfter])
    with ⟨-, e⟩ | ⟨fs2, e, e2, -, -, e5⟩
  · simp only [ctxParent_nil, ctxSide_nil] at e
    exact ⟨-1, some m, 0, by simp [rb_insert_rot, hs.1, e], by omega⟩
  · simp only [ctxParent_nil, ctxSide_nil, plug_nil, List.length_nil, zero_add] at e e2 e5
    have hs0 : Shape m (plug fs2 .nil) := by rw [e2]; exact hs
    have hsl := link_shape fs2 hs0 (by rw [e2]; exact hn)
    have hsplit := @ctx_split fs2 .nil (by rw [e2]; exact h3) (by rw [e2]; exact h4)
      (by rw [e2]; exact h5)
    have hlen : fs2.length < fuel := by
      have := plug_height fs2 .nil
      rw [e2] at this
      simp only [Tree.height] at this
      omega
    obtain ⟨m2, k, ec, hk, -⟩ := insert_color_rot_ok fuel fs2 .nil .nil node _ 0 0 hsl
      hlen hsplit.1 rfl rfl trivial trivial trivial trivial rfl rfl
    exact ⟨0, some m2, k, by simp [rb_insert_rot, hs.1, e, ec], hk⟩

/-! ## Parent links -/

/-- A tree held by the memory has consistent parent links. -/
theorem shape_parent_links {m : Mem} {t : Tree} (hs : Shape m t) : ParentLinks m t.inorder := by
  constructor
  · intro r hr
    rcases t with _ | ⟨l, a, c, rt⟩
    · rw [hs.1] at hr; simp at hr
    · rw [hs.1] at hr
      simp only [ptr_node, Option.some.injEq] at hr
      subst hr
      exact parent_focus [] hs
  · intro a ha c hc
    obtain ⟨fs, l, col, r, e⟩ := exists_focus t a ha
    subst e
    have hx := heap_focus fs hs
    rw [hx] at hc
    exact child_parent fs hs c (by simpa [or_comm] using hc)

theorem rep_down {h : Nat → rb_node} : ∀ (t : Tree) (p : Option Nat), Rep h t p → Down h t
  | .nil, _, _ => trivial
  | .node l a c r, p, hr => by
    obtain ⟨e, hl, hrr⟩ := hr
    exact ⟨by rw [e], by rw [e], by rw [e], rep_down l _ hl, rep_down r _ hrr⟩

/-- Child pointers that spell a tree, together with consistent parent links, make the
tree with all its parent references. -/
theorem down_rep {h : Nat → rb_node} : ∀ (t : Tree) (p : Option Nat), Down h t →
    (∀ x, t.ptr = some x → (h x).rb_parent = p) →
    (∀ a ∈ t.inorder, ∀ c, (h a).rb_left = some c ∨ (h a).rb_right = some c →
      (h c).rb_parent = some a) →
    Rep h t p
  | .nil, _, _, _, _ => trivial
  | .node l a c r, p, hd, hp, hl => by
    obtain ⟨d1, d2, d3, d4, d5⟩ := hd
    refine ⟨?_, ?_, ?_⟩
    · have hpa := hp a rfl
      rcases hh : h a with ⟨pp, cc, rr, ll⟩
      rw [hh] at d1 d2 d3 hpa
      simp only at d1 d2 d3 hpa
      rw [d1, d2, d3, hpa]
    · refine down_rep l (some a) d4 ?_ ?_
      · intro x hx
        exact hl a (by simp [Tree.inorder]) x (Or.inl (by rw [d2, hx]))
      · intro b hb
        exact hl b (by simp [Tree.inorder, hb])
    · refine down_rep r (some a) d5 ?_ ?_
      · intro x hx
        exact hl a (by simp [Tree.inorder]) x (Or.inr (by rw [d3, hx]))
      · intro b hb
        exact hl b (by simp [Tree.inorder, hb])

/-- A memory holds a tree exactly when its child pointers spell the tree and its parent
links are consistent. -/
theorem shape_iff_links (m : Mem) (t : Tree) :
    Shape m t ↔ (m.root = t.ptr ∧ Down m.heap t ∧ t.inorder.Nodup ∧ ParentLinks m t.inorder) := by
  constructor
  · intro hs
    exact ⟨hs.1, rep_down t none hs.2.1, hs.2.2, shape_parent_links hs⟩
  · rintro ⟨hr, hd, hn, hp1, hp2⟩
    refine ⟨hr, down_rep t none hd ?_ hp2, hn⟩
    intro x hx
    exact hp1 x (by rw [hr, hx])

/-! ## Managed records: order and clearing -/

theorem tpl_built_valid {s : TplMem} (h : TplBuilt s) : TplValid s := by
  induction h with
  | empty s h0 => exact ⟨.nil, shape_nil h0, rbinv_nil _⟩
  | create s s2 t fuel id size alloc r _ hs hf ha e ih =>
    obtain ⟨t0, s0, i0⟩ := ih
    have ht := shape_unique s0 hs
    subst ht
    by_cases hdup : ∃ x ∈ t0.inorder, s.id x = id
    · rw [tpl_create_dup hs i0 hdup size alloc fuel hf] at e
      simp only [Except.ok.injEq, Prod.mk.injEq, Option.some.injEq] at e
      rw [← e.2]
      exact ⟨t0, hs, i0⟩
    · have habs : ∀ x ∈ t0.inorder, s.id x ≠ id := fun x hx h => hdup ⟨x, hx, h⟩
      rcases alloc with _ | a
      · rw [tpl_create_nomem hs i0 id size fuel hf] at e
        simp only [Except.ok.injEq, Prod.mk.injEq, Option.some.injEq] at e
        rw [← e.2]
        exact ⟨t0, hs, i0⟩
      · by_cases hsz : size < rule_tpl_size
        · rw [tpl_create_short hs i0 habs hsz a fuel hf] at e
          exact absurd e (by simp)
        obtain ⟨m2, t2, l1, l2, e2, s2', i2, -, -⟩ :=
          tpl_create_ok hs i0 habs (not_lt.1 hsz) (ha a rfl) fuel hf
        rw [e2] at e
        simp only [Except.ok.injEq, Prod.mk.injEq, Option.some.injEq] at e
        rw [← e.2]
        exact ⟨t2, s2', i2⟩

/-- In a tree sorted by `tpl_key` the ids fall along the in-order sequence. -/
theorem tpl_sorted_desc {idOf : Nat → Nat} {l : List Nat} (h : KeySorted (tpl_key idOf) l) :
    (l.map idOf).Pairwise (fun a b => a > b) := by
  rw [List.pairwise_map]
  exact h

/-- In a tree sorted by `tpl_key` the left subtree of a node holds the larger ids and the
right subtree the smaller ones. -/
theorem tpl_subtree_order {idOf : Nat → Nat} (fs : List Frame) {l r : Tree} {a : Nat}
    {c : Color} (h : BST (tpl_key idOf) (plug fs (.node l a c r))) :
    (∀ x ∈ l.inorder, idOf a < idOf x) ∧ (∀ x ∈ r.inorder, idOf x < idOf a) := by
  rw [bst_iff_sorted, inorder_plug] at h
  have h1 := (List.pairwise_append.1 (List.pairwise_append.1 h).1).2.1
  simp only [Tree.inorder] at h1
  obtain ⟨-, h2, h3⟩ := List.pairwise_append.1 h1
  exact ⟨fun x hx => h3 x hx a (by simp), fun x hx => (List.pairwise_cons.1 h2).1 x hx⟩

theorem clear_events_append (f : Bool) (a b : List Nat) :
    clear_events f (a ++ b) = clear_events f a ++ clear_events f b := by
  induction a with
  | nil => rfl
  | cons n ns ih => simp [clear_events, ih]

theorem destroyed_clear (ns : List Nat) : destroyed (clear_events true ns) = ns := by
  induction ns with
  | nil => rfl
  | cons n ns ih => simp [clear_events, destroyed, ih]

theorem destroyed_clear_none (ns : List Nat) : destroyed (clear_events false ns) = [] := by
  induction ns with
  | nil => rfl
  | cons n ns ih => simp [clear_events, destroyed, ih]

theorem postorder_perm : ∀ t : Tree, t.postorder.Perm t.inorder
  | .nil => List.Perm.refl _
  | .node l a c r => by
    simp only [Tree.postorder, Tree.inorder]
    have hl := postorder_perm l
    have hr := postorder_perm r
    have h1 : (l.postorder ++ r.postorder ++ [a]).Perm (l.postorder ++ (a :: r.postorder)) := by
      rw [List.append_assoc]
      exact List.Perm.append_left _ (List.perm_append_singleton a r.postorder)
    exact h1.trans ((List.Perm.append_right _ hl).trans
      (List.Perm.append_left _ (List.Perm.cons a hr)))

/-- The recursive clear of a subtree makes its calls in post-order. -/
theorem node_clear_ok {m : Mem} (f : Bool) : ∀ (t : Tree) (p : Option Nat) (fuel : Nat),
    Rep m.heap t p → t.height < fuel →
    rule_tpl_node_clear fuel m t.ptr f = .ok (clear_events f t.postorder)
  | .nil, _, fuel, _, hf => by
    obtain ⟨k, rfl⟩ : ∃ k, fuel = k + 1 := ⟨fuel - 1, by simp [Tree.height] at hf; omega⟩
    simp [rule_tpl_node_clear, Tree.postorder, clear_events]
  | .node l a c r, p, fuel, hr, hf => by
    obtain ⟨k, rfl⟩ : ∃ k, fuel = k + 1 := ⟨fuel - 1, by omega⟩
    obtain ⟨e, hl, hrr⟩ := hr
    simp only [Tree.height] at hf
    have il := node_clear_ok f l (some a) k hl (by omega)
    have ir := node_clear_ok f r (some a) k hrr (by omega)
    simp [rule_tpl_node_clear, e, il, ir, Tree.postorder, clear_events_append, clear_events]

theorem tpl_demo2_shape : Shape tpl_demo2.mem (.node .nil 1 RB_BLACK (.node .nil 2 RB_RED .nil)) := by
  decide

theorem tpl_demo3_shape : Shape tpl_demo3.mem
    (.node (.node .nil 3 RB_RED .nil) 1 RB_BLACK (.node .nil 2 RB_RED .nil)) := by
  decide

theorem tpl_demo3_built : TplBuilt tpl_demo3 := by
  have b1 : TplBuilt tpl_demo :=
    TplBuilt.create tpl_empty tpl_demo .nil 8 5 40 (some 1) (some 1) (TplBuilt.empty tpl_empty rfl)
      (shape_nil rfl) (by decide) (by simp [Tree.inorder]) rfl
  have b2 : TplBuilt tpl_demo2 :=
    TplBuilt.create tpl_demo tpl_demo2 _ 8 3 40 (some 2) (some 2) b1 tpl_demo_shape (by decide)
      (by intro a h; cases h; decide) rfl
  exact TplBuilt.create tpl_demo2 tpl_demo3 _ 8 8 40 (some 3) (some 3) b2 tpl_demo2_shape
    (by decide) (by intro a h; cases h; decide) rfl

/-- C21: for every memory whose child pointers spell a tree satisfying invariants (1)-(5) and
whose parent links are consistent (the parent reference of the root is `NULL`, every child
has the node that holds it as parent): after `rb_insert` of a node that is not in the tree,
after `rb_erase` of any node of the tree (with no, one or two children, the successor being
the right child or not) and after `rb_replace_node` of a node of the tree by one that is not
in it, the child pointers again spell a tree, made of the nodes expected, and the parent
links over its nodes are consistent. -/
theorem parent_links_are_preserved {K : Type} [LinearOrder K] (compare : Nat → K → Int)
    (keyOf : Nat → K) (hc : Consistent compare keyOf) (m : Mem) (t : Tree)
    (hroot : m.root = t.ptr) (hd : Down m.heap t) (hnd : t.inorder.Nodup)
    (hp : ParentLinks m t.inorder) (hinv : RBInv keyOf t) (fuel : Nat) (hf : t.height < fuel) :
    (∀ node key, node ∉ t.inorder →
      ∃ r m2 t2, rb_insert fuel (some m) (some node) key compare = .ok (r, some m2) ∧
        m2.root = t2.ptr ∧ Down m2.heap t2 ∧ ParentLinks m2 t2.inorder ∧
        (∀ z, z ∈ t2.inorder ↔ (r = 0 ∧ z = node) ∨ z ∈ t.inorder)) ∧
    (∀ node ∈ t.inorder,
      ∃ m2 t2, rb_erase fuel node m = .ok m2 ∧ m2.root = t2.ptr ∧ Down m2.heap t2 ∧
        ParentLinks m2 t2.inorder ∧ (∀ z, z ∈ t2.inorder ↔ z ∈ t.inorder ∧ z ≠ node)) ∧
    (∀ victim ∈ t.inorder, ∀ new, new ∉ t.inorder →
      ∃ t2, (rb_replace_node victim new m).root = t2.ptr ∧
        Down (rb_replace_node victim new m).heap t2 ∧
        ParentLinks (rb_replace_node victim new m) t2.inorder ∧
        (∀ z, z ∈ t2.inorder ↔ z = new ∨ (z ∈ t.inorder ∧ z ≠ victim))) := by
  have hs : Shape m t := (shape_iff_links m t).2 ⟨hroot, hd, hnd, hp⟩
  obtain ⟨hb, h3, h4, h5⟩ := hinv
  refine ⟨?_, ?_, ?_⟩
  · intro node key hn
    rcases rb_insert_spec hc hs hb h3 h4 h5 hn key fuel hf with
      ⟨-, e⟩ | ⟨-, m2, t2, l1, l2, e, s2, i1, i2, -⟩
    · obtain ⟨a1, a2, -, a4⟩ := (shape_iff_links m t).1 hs
      exact ⟨-1, m, t, e, a1, a2, a4, fun z => by simp⟩
    · obtain ⟨a1, a2, -, a4⟩ := (shape_iff_links m2 t2).1 s2
      refine ⟨0, m2, t2, e, a1, a2, a4, ?_⟩
      intro z
      rw [i1, i2]
      simp only [List.mem_append, List.mem_cons, true_and]
      tauto
  · intro node hn
    obtain ⟨m2, t2, l1, l2, e, s2, -, i1, i2⟩ := rb_erase_full keyOf hs ⟨hb, h3, h4, h5⟩ hn fuel hf
    obtain ⟨a1, a2, -, a4⟩ := (shape_iff_links m2 t2).1 s2
    refine ⟨m2, t2, e, a1, a2, a4, ?_⟩
    intro z
    rw [i1] at hnd
    rw [i1, i2]
    simp only [List.nodup_append, List.nodup_cons, List.mem_append, List.mem_cons,
      List.disjoint_cons_right] at hnd ⊢
    constructor
    · rintro (h | h)
      · exact ⟨Or.inl h, fun hz => hnd.2.2.1 (hz ▸ h)⟩
      · exact ⟨Or.inr (Or.inr h), fun hz => hnd.2.1.1 (hz ▸ h)⟩
    · rintro ⟨h | h | h, hz⟩
      · exact Or.inl h
      · exact absurd h hz
      · exact Or.inr h
  · intro victim hv new hn
    obtain ⟨fs, l, c, r, e⟩ := exists_focus t victim hv
    subst e
    have s2 := replace_shape fs hs hn
    obtain ⟨a1, a2, -, a4⟩ := (shape_iff_links _ _).1 s2
    refine ⟨_, a1, a2, a4, ?_⟩
    intro z
    simp only [inorder_plug, Tree.inorder, List.nodup_append, List.nodup_cons, List.mem_append,
      List.mem_cons, List.disjoint_cons_right, List.disjoint_cons_left,
      List.disjoint_append_left, List.disjoint_append_right] at hnd hn ⊢
    constructor
    · rintro ((h | h | h | h) | h)
      · exact Or.inr ⟨by tauto, fun hz => by subst hz; tauto⟩
      · exact Or.inr ⟨by tauto, fun hz => by subst hz; tauto⟩
      · exact Or.inl h
      · exact Or.inr ⟨by tauto, fun hz => by subst hz; tauto⟩
      · exact Or.inr ⟨by tauto, fun hz => by subst hz; tauto⟩
    · rintro (h | ⟨h, hz⟩)
      · subst h; tauto
      · tauto

/-- Witness of C21: the demo tree. -/
theorem parent_links_are_preserved_witness :
    Consistent (rb_compare demo_key) demo_key ∧ demo_mem.root = demo_tree.ptr ∧
      Down demo_mem.heap demo_tree ∧ demo_tree.inorder.Nodup ∧
      ParentLinks demo_mem demo_tree.inorder ∧ RBInv demo_key demo_tree ∧ demo_tree.height < 8 ∧
      (∃ m2 t2, rb_erase 8 5 demo_mem = .ok m2 ∧ m2.root = t2.ptr ∧ Down m2.heap t2 ∧
        ParentLinks m2 t2.inorder ∧ (∀ z, z ∈ t2.inorder ↔ z ∈ demo_tree.inorder ∧ z ≠ 5)) :=
  ⟨rb_compare_consistent demo_key, demo_shape.1, rep_down _ _ demo_shape.2.1, demo_shape.2.2,
    shape_parent_links demo_shape, demo_inv, by decide,
    (parent_links_are_preserved (rb_compare demo_key) demo_key (rb_compare_consistent demo_key)
      demo_mem demo_tree demo_shape.1 (rep_down _ _ demo_shape.2.1) demo_shape.2.2
      (shape_parent_links demo_shape) demo_inv 8 (by decide)).2.1 5 (by decide)⟩

/-- C22: the functions `rb_insert_rot` and `rb_erase_rot` are `rb_insert` and `rb_erase`
with a counter of the calls of `__rb_rotate_left` and `__rb_rotate_right`, and compute the
same results; for every valid tree, `rb_insert` of a node that is not in the tree returns
after at most 2 rotations and `rb_erase` of a node of the tree returns after at most 3
rotations, whatever the size of the tree. -/
theorem rebalancing_rotates_boundedly {K : Type} [LinearOrder K] (compare : Nat → K → Int)
    (keyOf : Nat → K) (hc : Consistent compare keyOf) (m : Mem) (t : Tree) (hs : Shape m t)
    (hinv : RBInv keyOf t) (fuel : Nat) (hf : t.height < fuel) :
    (∀ node key, node ∉ t.inorder →
      ∃ r m2 k, rb_insert_rot fuel (some m) (some node) key compare = .ok (r, m2, k) ∧
        rb_insert fuel (some m) (some node) key compare = .ok (r, m2) ∧ k ≤ 2) ∧
    (∀ node ∈ t.inorder,
      ∃ m2 k, rb_erase_rot fuel node m = .ok (m2, k) ∧ rb_erase fuel node m = .ok m2 ∧ k ≤ 3) ∧
    (∀ (g : Nat) (m1 : Option Mem) (node : Option Nat) (key : K),
      Except.map (fun r => (r.1, r.2.1)) (rb_insert_rot g m1 node key compare) =
        rb_insert g m1 node key compare) ∧
    (∀ (g node : Nat) (m1 : Mem),
      Except.map Prod.fst (rb_erase_rot g node m1) = rb_erase g node m1) := by
  obtain ⟨hb, h3, h4, h5⟩ := hinv
  refine ⟨?_, ?_, fun g m1 node key => rb_insert_rot_mem g m1 node key compare,
    fun g node m1 => rb_erase_rot_mem g node m1⟩
  · intro node key hn
    obtain ⟨r, m2, k, e, hk⟩ := rb_insert_rot_spec hc hs hb h3 h4 h5 hn key fuel hf
    refine ⟨r, m2, k, e, ?_, hk⟩
    have h := rb_insert_rot_mem fuel (some m) (some node) key compare
    rw [e] at h
    exact h.symm
  · intro node hn
    obtain ⟨fs, l, c, r, e⟩ := exists_focus t node hn
    subst e
    obtain ⟨m2, k, e, hk⟩ := rb_erase_rot_spec fs hs h3 h4 h5 fuel hf
    refine ⟨m2, k, e, ?_, hk⟩
    have h := rb_erase_rot_mem fuel node m
    rw [e] at h
    exact h.symm

/-- Witness of C22: node 6 is inserted into the demo tree, and node 3 is erased from it. -/
theorem rebalancing_rotates_boundedly_witness :
    Consistent (rb_compare demo_key) demo_key ∧ Shape demo_mem demo_tree ∧
      RBInv demo_key demo_tree ∧ demo_tree.height < 8 ∧
      (∃ r m2 k, rb_insert_rot 8 (some demo_mem) (some 6) (6 : Int) (rb_compare demo_key) =
          .ok (r, m2, k) ∧
        rb_insert 8 (some demo_mem) (some 6) (6 : Int) (rb_compare demo_key) = .ok (r, m2) ∧
        k ≤ 2) ∧
      (∃ m2 k, rb_erase_rot 8 3 demo_mem = .ok (m2, k) ∧ rb_erase 8 3 demo_mem = .ok m2 ∧
        k ≤ 3) :=
  ⟨rb_compare_consistent demo_key, demo_shape, demo_inv, by decide,
    (rebalancing_rotates_boundedly (rb_compare demo_key) demo_key
      (rb_compare_consistent demo_key) demo_mem demo_tree demo_shape demo_inv 8 (by decide)).1
      6 6 (by decide),
    (rebalancing_rotates_boundedly (rb_compare demo_key) demo_key
      (rb_compare_consistent demo_key) demo_mem demo_tree demo_shape demo_inv 8 (by decide)).2.1
      3 (by decide)⟩

/-- C23: when the stored id is smaller than the requested id, the descent of
`rule_tpl_create` and the descent of `rule_tpl_search`, which is also the one of
`rule_tpl_delete`, go on in `rb_left`, whereas the descents of `rb_insert` and `rb_search`
under the comparator `rb_compare` go on in `rb_right` when the stored key is smaller than
the requested key; so in every tree built by `rule_tpl_create` the left subtree of a node
holds larger ids and the right subtree smaller ids, and the traversal by `rb_first` and
`rb_next` returns the nodes with their ids in strictly descending order. -/
theorem managed_records_sorted_descending :
    (∀ (s : TplMem) (id fuel c : Nat) (p : Option Nat) (l : Bool), s.id c < id →
      tpl_insert_descend id (fuel + 1) s p l (some c) =
        tpl_insert_descend id fuel s (some c) true (s.mem.heap c).rb_left ∧
      tpl_search_descend id (fuel + 1) s (some c) =
        tpl_search_descend id fuel s (s.mem.heap c).rb_left) ∧
    (∀ (s : TplMem) (id fuel : Nat) (f : Bool),
      (rule_tpl_search fuel (some s) id = .ok none →
        rule_tpl_delete fuel (some s) id f = .ok (-1, some s, [])) ∧
      (∀ n m2, rule_tpl_search fuel (some s) id = .ok (some n) →
        rb_erase fuel n s.mem = .ok m2 →
        rule_tpl_delete fuel (some s) id f = .ok (0, some { s with mem := m2 },
          (if f then [TplEvent.destroy n] else []) ++ [TplEvent.free n]))) ∧
    (∀ (keyOf : Nat → Int) (m : Mem) (key : Int) (fuel c : Nat) (p : Option Nat) (l : Bool),
      keyOf c < key →
      insert_descend (rb_compare keyOf) key (fuel + 1) m p l (some c) =
        insert_descend (rb_compare keyOf) key fuel m (some c) false (m.heap c).rb_right ∧
      search_descend (rb_compare keyOf) key (fuel + 1) m (some c) =
        search_descend (rb_compare keyOf) key fuel m (m.heap c).rb_right) ∧
    (∀ s, TplBuilt s → ∃ t, Shape s.mem t ∧
      (∀ fs l a c r, t = plug fs (.node l a c r) →
        (∀ x ∈ l.inorder, s.id a < s.id x) ∧ (∀ x ∈ r.inorder, s.id x < s.id a)) ∧
      ∀ fuel, t.inorder.length < fuel →
        traverse fuel s.mem = .ok t.inorder ∧
        (t.inorder.map s.id).Pairwise (fun a b => a > b)) := by
  refine ⟨?_, ?_, ?_, ?_⟩
  · intro s id fuel c p l h
    simp [tpl_insert_descend, tpl_search_descend, h]
  · intro s id fuel f
    refine ⟨?_, ?_⟩
    · intro h
      simp only [rule_tpl_search] at h
      simp [rule_tpl_delete, h]
    · intro n m2 h e
      simp only [rule_tpl_search] at h
      simp [rule_tpl_delete, h, e]
  · intro keyOf m key fuel c p l h
    have h1 : ¬ key < keyOf c := not_lt.2 (le_of_lt h)
    simp [insert_descend, search_descend, rb_compare, h, h1]
  · intro s hb
    obtain ⟨t, hs, hbst, -⟩ := tpl_built_valid hb
    refine ⟨t, hs, ?_, ?_⟩
    · intro fs l a c r e
      subst e
      exact tpl_subtree_order fs hbst
    · intro fuel hf
      exact ⟨traverse_ok hs fuel hf, tpl_sorted_desc ((bst_iff_sorted _ _).1 hbst)⟩

/-- Witness of C23: the ids 5, 3 and 8 are created in the blocks 1, 2 and 3; the traversal
returns the blocks 3, 1, 2, that is the ids 8, 5, 3. -/
theorem managed_records_sorted_descending_witness :
    TplBuilt tpl_demo3 ∧
      (∃ t, Shape tpl_demo3.mem t ∧
        (∀ fs l a c r, t = plug fs (.node l a c r) →
          (∀ x ∈ l.inorder, tpl_demo3.id a < tpl_demo3.id x) ∧
          (∀ x ∈ r.inorder, tpl_demo3.id x < tpl_demo3.id a)) ∧
        ∀ fuel, t.inorder.length < fuel →
          traverse fuel tpl_demo3.mem = .ok t.inorder ∧
          (t.inorder.map tpl_demo3.id).Pairwise (fun a b => a > b)) ∧
      traverse 8 tpl_demo3.mem = .ok [3, 1, 2] ∧ [3, 1, 2].map tpl_demo3.id = [8, 5, 3] :=
  ⟨tpl_demo3_built, managed_records_sorted_descending.2.2.2 tpl_demo3 tpl_demo3_built, rfl, rfl⟩

/-- C24: `rule_tpl_tree_clear` returns -1 for a `NULL` root; for a root whose pointers
spell a tree it returns 0 and leaves the state as it was, so `root->rb_node` is the
reference it was before the call and is not `NULL` when the tree was not empty; the calls
it makes are those of `rule_tpl_node_clear` on `root->rb_node`, and `rule_tpl_node_clear`
on a subtree handles the nodes in post-order (left subtree, right subtree, node), with the
destructor, when one is given, called on each node of the subtree exactly once, before
the node is freed. -/
theorem rule_tpl_tree_clear_keeps_root (fuel : Nat) (f : Bool) :
    rule_tpl_tree_clear fuel none f = .ok (-1, none, []) ∧
    (∀ (s : TplMem) (t : Tree), Shape s.mem t → t.height < fuel →
      rule_tpl_tree_clear fuel (some s) f = .ok (0, some s, clear_events f t.postorder) ∧
      (t ≠ .nil → s.mem.root ≠ none)) ∧
    (∀ (m : Mem) (t : Tree) (p : Option Nat), Rep m.heap t p → t.height < fuel →
      rule_tpl_node_clear fuel m t.ptr f = .ok (clear_events f t.postorder) ∧
      destroyed (clear_events f t.postorder) = (if f then t.postorder else []) ∧
      t.postorder.Perm t.inorder) := by
  refine ⟨rfl, ?_, ?_⟩
  · intro s t hs hf
    have h := node_clear_ok f t none fuel hs.2.1 hf
    rw [← hs.1] at h
    refine ⟨by simp [rule_tpl_tree_clear, h], ?_⟩
    intro hne hr
    rw [hs.1] at hr
    exact hne (ptr_eq_none.1 hr)
  · intro m t p hr hf
    refine ⟨node_clear_ok f t p fuel hr hf, ?_, postorder_perm t⟩
    cases f
    · simpa using destroyed_clear_none t.postorder
    · simpa using destroyed_clear t.postorder

/-- Witness of C24: the tree of the ids 5, 3 and 8 in the blocks 1, 2 and 3 is cleared with
a destructor. -/
theorem rule_tpl_tree_clear_keeps_root_witness :
    Shape tpl_demo3.mem (.node (.node .nil 3 RB_RED .nil) 1 RB_BLACK (.node .nil 2 RB_RED .nil)) ∧
      rule_tpl_tree_clear 8 (some tpl_demo3) true = .ok (0, some tpl_demo3,
        [.destroy 3, .free 3, .destroy 2, .free 2, .destroy 1, .free 1]) ∧
      tpl_demo3.mem.root = some 1 :=
  ⟨tpl_demo3_shape,
    ((rule_tpl_tree_clear_keeps_root 8 true).2.1 tpl_demo3 _ tpl_demo3_shape (by decide)).1,
    rfl⟩

theorem demo_other_shape : Shape demo_other_key demo_other_tree := by
  decide

/-- Counterexample to C1: node 6, whose key is 6, is not linked in the demo tree of the keys
1, 3, 4, 5, 7, 8, 9 and is offered to `rb_insert` under the key 0; `rb_insert` returns 0 and
links it as the first node, before the node of key 1, so the memory afterwards holds no tree
satisfying invariant (1). -/
theorem rb_insert_other_key_breaks_order :
    Consistent (rb_compare demo_key) demo_key ∧ Shape demo_mem demo_tree ∧
      RBInv demo_key demo_tree ∧ 6 ∉ demo_tree.inorder ∧
      rb_insert 8 (some demo_mem) (some 6) (0 : Int) (rb_compare demo_key) =
        .ok (0, some demo_other_key) ∧
      demo_other_tree.inorder = [6, 1, 3, 4, 5, 7, 8, 9] ∧
      ¬ Valid demo_key demo_other_key ∧
      ¬ ∃ r m2, rb_insert 8 (some demo_mem) (some 6) (0 : Int) (rb_compare demo_key) =
        .ok (r, some m2) ∧ Valid demo_key m2 := by
  have e : rb_insert 8 (some demo_mem) (some 6) (0 : Int) (rb_compare demo_key) =
      .ok (0, some demo_other_key) := rfl
  have hv : ¬ Valid demo_key demo_other_key := by
    rintro ⟨t, hs, hb, -⟩
    have ht := shape_unique hs demo_other_shape
    subst ht
    rw [bst_iff_sorted] at hb
    revert hb
    simp [KeySorted, demo_other_tree, Tree.inorder, demo_key]
  refine ⟨rb_compare_consistent demo_key, demo_shape, demo_inv, by decide, e, rfl, hv, ?_⟩
  rintro ⟨r, m2, e2, h2⟩
  rw [e] at e2
  simp only [Except.ok.injEq, Prod.mk.injEq, Option.some.injEq] at e2
  rw [← e2.2] at h2
  exact hv h2

/-- C1, amended: for every memory holding a tree that satisfies invariants (1)-(5), every
node that is not linked in it, every key and a comparator consistent with the order of the
keys, `rb_insert` returns once the fuel exceeds the height of the tree, and the memory
afterwards holds a tree that satisfies the colour and black-height invariants (2)-(5) and is
ordered by the keys of the old nodes and the key passed for the new node; when the key passed
is the key that the comparator reads in the node, this is invariant (1), and the memory
again holds a tree satisfying invariants (1)-(5). -/
theorem rb_insert_keeps_invariants {K : Type} [LinearOrder K] (compare : Nat → K → Int)
    (keyOf : Nat → K) (hc : Consistent compare keyOf) (m : Mem) (t : Tree) (hs : Shape m t)
    (hinv : RBInv keyOf t) (node : Nat) (hn : node ∉ t.inorder) (key : K) (fuel : Nat)
    (hf : t.height < fuel) :
    ∃ r m2 t2, rb_insert fuel (some m) (some node) key compare = .ok (r, some m2) ∧
      Shape m2 t2 ∧ NoRedRed t2 ∧ BlackUniform t2 ∧ t2.color = RB_BLACK ∧
      BST (Function.update keyOf node key) t2 ∧
      (key = keyOf node → Valid keyOf m2) := by
  obtain ⟨hb, h3, h4, h5⟩ := hinv
  have hkey : ∀ x ∈ t.inorder, Function.update keyOf node key x = keyOf x := by
    intro x hx
    have hne : x ≠ node := fun h => hn (h ▸ hx)
    exact Function.update_noteq hne _ _
  have hself : key = keyOf node → Function.update keyOf node key = keyOf := by
    intro hk
    rw [hk]
    exact Function.update_eq_self _ _
  rcases rb_insert_spec hc hs hb h3 h4 h5 hn key fuel hf with
    ⟨-, e⟩ | ⟨-, m2, t2, l1, l2, e, s2, i1, i2, k1, k2, r1, r2, r3⟩
  · refine ⟨-1, m, t, e, hs, h3, h4, h5, ?_, fun _ => ⟨t, hs, hb, h3, h4, h5⟩⟩
    rw [bst_iff_sorted] at hb ⊢
    exact keySorted_congr hkey hb
  · have hb2 : BST (Function.update keyOf node key) t2 := by
      rw [bst_iff_sorted] at hb ⊢
      rw [i2]
      rw [i1] at hb hkey
      refine sorted_insert_mid (keySorted_congr hkey hb) ?_ ?_
      · intro y hy
        rw [hkey y (List.mem_append_left _ hy), Function.update_same]
        exact k1 y hy
      · intro y hy
        rw [hkey y (List.mem_append_right _ hy), Function.update_same]
        exact k2 y hy
    refine ⟨0, m2, t2, e, s2, r1, r2, r3, hb2, ?_⟩
    intro hk
    rw [hself hk] at hb2
    exact ⟨t2, s2, hb2, r1, r2, r3⟩

/-- Witness of C1: the node with key 6 is inserted under its key into the demo tree of seven
nodes. -/
theorem rb_insert_keeps_invariants_witness :
    Consistent (rb_compare demo_key) demo_key ∧ Shape demo_mem demo_tree ∧
      RBInv demo_key demo_tree ∧ 6 ∉ demo_tree.inorder ∧ demo_tree.height < 8 ∧
      ∃ r m2 t2, rb_insert 8 (some demo_mem) (some 6) (6 : Int) (rb_compare demo_key) =
          .ok (r, some m2) ∧
        Shape m2 t2 ∧ NoRedRed t2 ∧ BlackUniform t2 ∧ t2.color = RB_BLACK ∧
        BST (Function.update demo_key 6 (6 : Int)) t2 ∧
        ((6 : Int) = demo_key 6 → Valid demo_key m2) :=
  ⟨rb_compare_consistent demo_key, demo_shape, demo_inv, by decide, by decide,
    rb_insert_keeps_invariants (rb_compare demo_key) demo_key (rb_compare_consistent demo_key)
      demo_mem demo_tree demo_shape demo_inv 6 (by decide) 6 8 (by decide)⟩

end Rbtree
